import Mathlib

/-! # Matching engine (`matchengine/`): shallow embedding and verified properties

The development embeds the balance ledger (`me_balance.c`), the order book and
matching routines (`me_market.c`), the idempotent balance update
(`me_update.c`) and the command handlers of `me_server.c` as pure Lean
functions over explicit state.

Modelling conventions.

* A decimal (`mpd_t`) is an exact rational number; `mpd_add`, `mpd_sub`,
  `mpd_mul`, `mpd_div` and `mpd_cmp` are the field operations and the order of
  `ℚ` (the working precision of the decimal context is assumed not to be
  exceeded).
* A dictionary (`dict_t`) is a total lookup function into `Option`.
* A skiplist is the list of its values in iteration order.
* An order object lives in the book (`asks` / `bids`) that owns it; the
  `orders` dictionary and the per-user lists hold pointers, modelled by the
  order id.
* `create_time`, `update_time`, `market` and `source` of an order are not
  modelled: no branch of the code reads them.
* Allocation failures (`malloc`, `mpd_new`, `strdup` returning `NULL`) are not
  modelled.
-/

namespace ME

/-! ## Decimals -/

/-- Modelled from the spec: `mpd_rescale(r, x, -prec, &mpd_ctx)` under the
decimal context of `utils/ut_decimal.c` (not part of the sources at hand).
The spec calls the operation `floor_to_stock_prec`: digits beyond `prec`
fractional places are dropped (rounding toward zero). -/
def mpd_rescale (x : ℚ) (prec : ℕ) : ℚ :=
  if 0 ≤ x then (⌊x * 10 ^ prec⌋ : ℚ) / 10 ^ prec
  else -((⌊(-x) * 10 ^ prec⌋ : ℚ) / 10 ^ prec)

/-- Modelled from the spec: `decimal(str, prec)` of `utils/ut_decimal.c`
parses a decimal string and rescales it to `prec` fractional digits; `none`
stands for a string that does not parse (`NULL`). The argument is the exact
value of the string, if it has one. -/
def decimal (str : Option ℚ) (prec : ℕ) : Option ℚ :=
  str.map (fun x => mpd_rescale x prec)

/-- A decimal has at most `prec` fractional digits: rescaling leaves it
unchanged. -/
def on_grid (x : ℚ) (prec : ℕ) : Prop := mpd_rescale x prec = x

instance (x : ℚ) (prec : ℕ) : Decidable (on_grid x prec) := by
  unfold on_grid; infer_instance

/-! ## Balance ledger (`me_balance.c`) -/

/-- Value of `BALANCE_TYPE_AVAILABLE` (`me_balance.h`). -/
def BALANCE_TYPE_AVAILABLE : ℕ := 1

/-- Value of `BALANCE_TYPE_FREEZE` (`me_balance.h`). -/
def BALANCE_TYPE_FREEZE : ℕ := 2

/-- The `struct asset_type` of `me_balance.c`. -/
structure asset_type where
  prec_save : ℕ
  prec_show : ℕ
deriving DecidableEq

/-- The `struct balance_key` of `me_balance.h`. -/
structure balance_key where
  user_id : ℕ
  type : ℕ
  asset : String
deriving DecidableEq

/-- The asset dictionary `dict_asset`. -/
abbrev dict_asset_t := String → Option asset_type

/-- The balance dictionary `dict_balance`. -/
abbrev dict_balance_t := balance_key → Option ℚ

/-- The function `asset_exist`. -/
def asset_exist (A : dict_asset_t) (asset : String) : Bool :=
  (A asset).isSome

/-- The function `asset_prec`: `prec_save`, or `-1` for an unknown asset. -/
def asset_prec (A : dict_asset_t) (asset : String) : ℤ :=
  match A asset with
  | some a => (a.prec_save : ℤ)
  | none => -1

/-- The function `asset_prec_show`: `prec_show`, or `-1` for an unknown asset. -/
def asset_prec_show (A : dict_asset_t) (asset : String) : ℤ :=
  match A asset with
  | some a => (a.prec_show : ℤ)
  | none => -1

/-- The function `balance_get`. -/
def balance_get (d : dict_balance_t) (user_id type : ℕ) (asset : String) : Option ℚ :=
  d ⟨user_id, type, asset⟩

/-- The function `balance_del`. -/
def balance_del (d : dict_balance_t) (user_id type : ℕ) (asset : String) : dict_balance_t :=
  Function.update d ⟨user_id, type, asset⟩ none

/-- The function `balance_set`. `none` is the `NULL` result (ledger unchanged);
otherwise the returned decimal and the new ledger. -/
def balance_set (A : dict_asset_t) (d : dict_balance_t) (user_id type : ℕ) (asset : String)
    (amount : ℚ) : Option (ℚ × dict_balance_t) :=
  match A asset with
  | none => none
  | some a =>
    if amount < 0 then none
    else if amount = 0 then some (0, balance_del d user_id type asset)
    else
      let result := mpd_rescale amount a.prec_save
      some (result, Function.update d ⟨user_id, type, asset⟩ (some result))

/-- The function `balance_add`. -/
def balance_add (A : dict_asset_t) (d : dict_balance_t) (user_id type : ℕ) (asset : String)
    (amount : ℚ) : Option (ℚ × dict_balance_t) :=
  match A asset with
  | none => none
  | some a =>
    if amount < 0 then none
    else
      match d ⟨user_id, type, asset⟩ with
      | some result =>
        let result := mpd_rescale (result + amount) a.prec_save
        some (result, Function.update d ⟨user_id, type, asset⟩ (some result))
      | none => balance_set A d user_id type asset amount

/-- The function `balance_sub`. -/
def balance_sub (A : dict_asset_t) (d : dict_balance_t) (user_id type : ℕ) (asset : String)
    (amount : ℚ) : Option (ℚ × dict_balance_t) :=
  match A asset with
  | none => none
  | some a =>
    if amount < 0 then none
    else
      match balance_get d user_id type asset with
      | none => none
      | some result =>
        if result < amount then none
        else
          let result := result - amount
          if result = 0 then some (0, balance_del d user_id type asset)
          else
            let result := mpd_rescale result a.prec_save
            some (result, Function.update d ⟨user_id, type, asset⟩ (some result))

/-- The function `balance_freeze`. -/
def balance_freeze (A : dict_asset_t) (d : dict_balance_t) (user_id : ℕ) (asset : String)
    (amount : ℚ) : Option (ℚ × dict_balance_t) :=
  match A asset with
  | none => none
  | some a =>
    if amount < 0 then none
    else
      match balance_get d user_id BALANCE_TYPE_AVAILABLE asset with
      | none => none
      | some available =>
        if available < amount then none
        else
          match balance_add A d user_id BALANCE_TYPE_FREEZE asset amount with
          | none => none
          | some (_, d1) =>
            let available := available - amount
            if available = 0 then some (0, balance_del d1 user_id BALANCE_TYPE_AVAILABLE asset)
            else
              let available := mpd_rescale available a.prec_save
              some (available,
                Function.update d1 ⟨user_id, BALANCE_TYPE_AVAILABLE, asset⟩ (some available))

/-- The function `balance_unfreeze`. -/
def balance_unfreeze (A : dict_asset_t) (d : dict_balance_t) (user_id : ℕ) (asset : String)
    (amount : ℚ) : Option (ℚ × dict_balance_t) :=
  match A asset with
  | none => none
  | some a =>
    if amount < 0 then none
    else
      match balance_get d user_id BALANCE_TYPE_FREEZE asset with
      | none => none
      | some freeze =>
        if freeze < amount then none
        else
          match balance_add A d user_id BALANCE_TYPE_AVAILABLE asset amount with
          | none => none
          | some (_, d1) =>
            let freeze := freeze - amount
            if freeze = 0 then some (0, balance_del d1 user_id BALANCE_TYPE_FREEZE asset)
            else
              let freeze := mpd_rescale freeze a.prec_save
              some (freeze,
                Function.update d1 ⟨user_id, BALANCE_TYPE_FREEZE, asset⟩ (some freeze))

/-- The function `balance_total`: available plus frozen, a missing entry
counting as zero. -/
def balance_total (d : dict_balance_t) (user_id : ℕ) (asset : String) : ℚ :=
  let balance : ℚ := 0
  let balance :=
    match balance_get d user_id BALANCE_TYPE_AVAILABLE asset with
    | some available => balance + available
    | none => balance
  match balance_get d user_id BALANCE_TYPE_FREEZE asset with
  | some freeze => balance + freeze
  | none => balance

/-! ## Orders, markets and global state (`me_market.h`, `me_market.c`) -/

/-- Value of `MARKET_ORDER_TYPE_LIMIT` (`me_market.h`). -/
def MARKET_ORDER_TYPE_LIMIT : ℕ := 1

/-- Value of `MARKET_ORDER_TYPE_MARKET` (`me_market.h`). -/
def MARKET_ORDER_TYPE_MARKET : ℕ := 2

/-- Value of `MARKET_ORDER_SIDE_ASK` (`me_market.h`). -/
def MARKET_ORDER_SIDE_ASK : ℕ := 1

/-- Value of `MARKET_ORDER_SIDE_BID` (`me_market.h`). -/
def MARKET_ORDER_SIDE_BID : ℕ := 2

/-- Value of `MARKET_ROLE_MAKER` (`me_market.h`). -/
def MARKET_ROLE_MAKER : ℕ := 1

/-- Value of `MARKET_ROLE_TAKER` (`me_market.h`). -/
def MARKET_ROLE_TAKER : ℕ := 2

/-- Value of `ORDER_EVENT_PUT` (`me_message.h`). -/
def ORDER_EVENT_PUT : ℕ := 1

/-- Value of `ORDER_EVENT_UPDATE` (`me_message.h`). -/
def ORDER_EVENT_UPDATE : ℕ := 2

/-- Value of `ORDER_EVENT_FINISH` (`me_message.h`). -/
def ORDER_EVENT_FINISH : ℕ := 3

/-- The `order_t` of `me_market.h`, without its time stamps and strings. -/
structure order_t where
  id : ℕ
  type : ℕ
  side : ℕ
  user_id : ℕ
  price : ℚ
  amount : ℚ
  taker_fee : ℚ
  maker_fee : ℚ
  left : ℚ
  freeze : ℚ
  deal_stock : ℚ
  deal_money : ℚ
  deal_fee : ℚ
deriving DecidableEq

/-- One call into the history writer (`me_history.c`), the bus emitter
(`me_message.c`) or the operation log (`me_operlog.c`), with the arguments
the caller passes. -/
inductive event where
  | order_deal_history (deal_id : ℕ) (ask : order_t) (ask_role : ℕ) (bid : order_t)
      (bid_role : ℕ) (price amount deal ask_fee bid_fee : ℚ)
  | deal_message (market : String) (ask bid : order_t) (price amount ask_fee bid_fee : ℚ)
      (side : ℕ) (id : ℕ) (stock money : String)
  | user_balance_history (user_id : ℕ) (asset business : String) (change : ℚ)
  | order_message (ev : ℕ) (order : order_t) (market : String)
  | order_history (order : order_t)
  | balance_message (user_id : ℕ) (asset business : String) (change : ℚ)
  | operlog (method : String)
deriving DecidableEq

/-- The constants `ASSET_NAME_MAX_LEN` and `BUSINESS_NAME_MAX_LEN` of `me_config.h`, a
header that is not among the sources at hand: the definitions that read them take them as
a parameter. -/
class name_limits where
  ASSET_NAME_MAX_LEN : ℕ
  BUSINESS_NAME_MAX_LEN : ℕ

/-- The bytes of a C string: the UTF-8 bytes of the text up to the first zero byte. -/
def c_str (s : String) : List ℕ :=
  (s.toUTF8.data.toList.map (fun b => b.toNat)).takeWhile (fun b => b ≠ 0)

/-- The function `strncpy` of the C library: the `n` bytes it leaves in the destination,
which are the first `n` bytes of the source, followed by zero bytes when the source is
shorter. -/
def strncpy (src : List ℕ) (n : ℕ) : List ℕ :=
  (src ++ List.replicate n 0).take n

/-- The `struct update_key` of `me_update.c`: `asset` and `business` are the contents of the
arrays `char asset[ASSET_NAME_MAX_LEN + 1]` and `char business[BUSINESS_NAME_MAX_LEN + 1]`.
Two keys are the same key of `dict_update` when their fields hold the same bytes
(`memcmp` over the struct); padding bytes between the fields, where the layout has any, are
left out. -/
structure update_key where
  user_id : ℕ
  asset : List ℕ
  business : List ℕ
  business_id : ℕ
deriving DecidableEq

/-- The global variables of the matching engine: the asset and balance
dictionaries, the two id counters, the idempotency cache `dict_update`
(key to `create_time`) and the sequence of emitted events. -/
structure globals where
  dict_asset : dict_asset_t
  dict_balance : dict_balance_t
  order_id_start : ℕ
  deals_id_start : ℕ
  dict_update : update_key → Option ℚ
  log : List event

/-- The `market_t` of `me_market.h`. `orders` is the key set of the order
dictionary, `users` the dictionary from user id to the list of that user's
order ids. -/
structure market_t where
  name : String
  stock : String
  money : String
  stock_prec : ℕ
  money_prec : ℕ
  fee_prec : ℕ
  min_amount : ℚ
  orders : ℕ → Bool
  users : ℕ → Option (List ℕ)
  asks : List order_t
  bids : List order_t

/-- One executed deal: the values of the loop locals of a matching routine at
`++deals_id_start`, with the two orders as they stand before the deal. -/
structure deal_t where
  deal_id : ℕ
  taker : order_t
  maker : order_t
  price : ℚ
  amount : ℚ
  deal : ℚ
  ask_fee : ℚ
  bid_fee : ℚ
deriving DecidableEq

/-- Modelled from the spec: `skiplist_insert` of `utils/ut_skiplist.c` (not
part of the sources at hand) keeps the list ordered by its comparator; the
new value goes before the first element that does not compare below it. -/
def skiplist_insert {α : Type} (compare : α → α → ℤ) (value : α) : List α → List α
  | [] => [value]
  | x :: xs =>
    if compare x value < 0 then x :: skiplist_insert compare value xs
    else value :: x :: xs

/-- Modelled from the spec: `skiplist_find` followed by `skiplist_delete` of
`utils/ut_skiplist.c` removes the element that compares equal to `value`, if
there is one. -/
def skiplist_delete {α : Type} (compare : α → α → ℤ) (value : α) (list : List α) : List α :=
  list.eraseP (fun x => compare x value == 0)

/-- The function `order_match_compare`. -/
def order_match_compare (order1 order2 : order_t) : ℤ :=
  if order1.id = order2.id then 0
  else if order1.type ≠ order2.type then 1
  else
    let cmp : ℤ :=
      if order1.side = MARKET_ORDER_SIDE_ASK then
        (if order1.price < order2.price then -1 else if order1.price = order2.price then 0 else 1)
      else
        (if order2.price < order1.price then -1 else if order2.price = order1.price then 0 else 1)
    if cmp ≠ 0 then cmp
    else if order1.id > order2.id then 1 else -1

/-- The function `order_id_compare`, on the ids of the two orders. -/
def order_id_compare (order1 order2 : ℕ) : ℤ :=
  if order1 = order2 then 0
  else if order1 > order2 then -1 else 1

/-- Append events to the log when `real` is set. -/
def emit (real : Bool) (evs : List event) (g : globals) : globals :=
  if real then { g with log := g.log ++ evs } else g

/-- The ledger after a call of `balance_add` whose result is not inspected. -/
def ledger_add (A : dict_asset_t) (d : dict_balance_t) (user_id type : ℕ) (asset : String)
    (amount : ℚ) : dict_balance_t :=
  match balance_add A d user_id type asset amount with
  | some r => r.2
  | none => d

/-- The ledger after a call of `balance_sub` whose result is not inspected. -/
def ledger_sub (A : dict_asset_t) (d : dict_balance_t) (user_id type : ℕ) (asset : String)
    (amount : ℚ) : dict_balance_t :=
  match balance_sub A d user_id type asset amount with
  | some r => r.2
  | none => d

/-- A call of `balance_add` whose result is not inspected. -/
def do_balance_add (g : globals) (user_id type : ℕ) (asset : String) (amount : ℚ) : globals :=
  { g with dict_balance := ledger_add g.dict_asset g.dict_balance user_id type asset amount }

/-- A call of `balance_sub` whose result is not inspected. -/
def do_balance_sub (g : globals) (user_id type : ℕ) (asset : String) (amount : ℚ) : globals :=
  { g with dict_balance := ledger_sub g.dict_asset g.dict_balance user_id type asset amount }

/-- The function `order_put`: the return code (0, or the negative line
number of the failing step), the state reached and the order as written.
`dict_add` of `utils/ut_dict.c` (not part of the sources at hand) is taken to
refuse a key that is already present; the properties below are proved for
states in which the id of the new order is not in use, where this step does
not fail. -/
def order_put (g : globals) (m : market_t) (order : order_t) :
    ℤ × globals × market_t × order_t :=
  if order.type ≠ MARKET_ORDER_TYPE_LIMIT then (-247, g, m, order)
  else if m.orders order.id then (-251, g, m, order)
  else
    let m := { m with orders := Function.update m.orders order.id true }
    let m :=
      match m.users order.user_id with
      | some order_list =>
        { m with users := (Function.update m.users order.user_id
            (some (skiplist_insert order_id_compare order.id order_list))) }
      | none =>
        { m with users := (Function.update m.users order.user_id
            (some (skiplist_insert order_id_compare order.id []))) }
    if order.side = MARKET_ORDER_SIDE_ASK then
      let order := { order with freeze := order.left }
      let m := { m with asks := skiplist_insert order_match_compare order m.asks }
      match balance_freeze g.dict_asset g.dict_balance order.user_id m.stock order.left with
      | none => (-277, g, m, order)
      | some r => (0, { g with dict_balance := r.2 }, m, order)
    else
      let result := order.price * order.left
      let order := { order with freeze := result }
      let m := { m with bids := skiplist_insert order_match_compare order m.bids }
      match balance_freeze g.dict_asset g.dict_balance order.user_id m.money result with
      | none => (-286, g, m, order)
      | some r => (0, { g with dict_balance := r.2 }, m, order)

/-- The tail of `order_finish` after the book and the frozen balance have
been dealt with: drop the order from the `orders` dictionary and from its
owner's list, and append the order history row. -/
def order_finish_tail (real : Bool) (g : globals) (m : market_t) (order : order_t) :
    ℤ × globals × market_t :=
  let m := { m with orders := Function.update m.orders order.id false }
  let m :=
    match m.users order.user_id with
    | some order_list =>
      { m with users := (Function.update m.users order.user_id
          (some (skiplist_delete order_id_compare order.id order_list))) }
    | none => m
  let g := if order.deal_stock > 0 then emit real [event.order_history order] g else g
  (0, g, m)

/-- The function `order_finish`: the return code and the state reached. -/
def order_finish (real : Bool) (g : globals) (m : market_t) (order : order_t) :
    ℤ × globals × market_t :=
  if order.side = MARKET_ORDER_SIDE_ASK then
    let m := { m with asks := skiplist_delete order_match_compare order m.asks }
    if order.freeze > 0 then
      match balance_unfreeze g.dict_asset g.dict_balance order.user_id m.stock order.freeze with
      | none => (-326, g, m)
      | some r => order_finish_tail real { g with dict_balance := r.2 } m order
    else order_finish_tail real g m order
  else
    let m := { m with bids := skiplist_delete order_match_compare order m.bids }
    if order.freeze > 0 then
      match balance_unfreeze g.dict_asset g.dict_balance order.user_id m.money order.freeze with
      | none => (-336, g, m)
      | some r => order_finish_tail real { g with dict_balance := r.2 } m order
    else order_finish_tail real g m order

/-- A write through a maker pointer: the order object with the id of `order`
now holds the fields of `order`. -/
def book_update (book : List order_t) (order : order_t) : List order_t :=
  book.map (fun o => if o.id = order.id then order else o)

/-- The end of one iteration of a matching loop: a maker with nothing left
is finished, any other maker is announced as updated. -/
def maker_done (real : Bool) (g : globals) (m : market_t) (maker : order_t) :
    globals × market_t :=
  if maker.left = 0 then
    let g := emit real [event.order_message ORDER_EVENT_FINISH maker m.name] g
    let r := order_finish real g m maker
    (r.2.1, r.2.2)
  else
    (emit real [event.order_message ORDER_EVENT_UPDATE maker m.name] g, m)

/-- The fee step of a deal: `balance_sub` on the available balance and the
balance history row, only when the fee is greater than zero. -/
def charge_fee (real : Bool) (g : globals) (user_id : ℕ) (asset : String) (fee : ℚ) : globals :=
  if fee > 0 then
    emit real [event.user_balance_history user_id asset "trade" (-fee)]
      (do_balance_sub g user_id BALANCE_TYPE_AVAILABLE asset fee)
  else g

/-- The balance calls of one deal, in the order of the four matching
routines. The taker pays `give_amount` of `give` out of its available
balance, receives `take_amount` of `take` and is charged `taker_charge` in
`take`; the maker pays `take_amount` of `take` out of its frozen balance,
receives `give_amount` of `give` and is charged `maker_charge` in `give`. -/
def settle (real : Bool) (g : globals) (taker_id maker_id : ℕ) (give : String)
    (give_amount : ℚ) (take : String) (take_amount : ℚ) (taker_charge maker_charge : ℚ) :
    globals :=
  let g := do_balance_sub g taker_id BALANCE_TYPE_AVAILABLE give give_amount
  let g := emit real [event.user_balance_history taker_id give "trade" (-give_amount)] g
  let g := do_balance_add g taker_id BALANCE_TYPE_AVAILABLE take take_amount
  let g := emit real [event.user_balance_history taker_id take "trade" take_amount] g
  let g := charge_fee real g taker_id take taker_charge
  let g := do_balance_sub g maker_id BALANCE_TYPE_FREEZE take take_amount
  let g := emit real [event.user_balance_history maker_id take "trade" (-take_amount)] g
  let g := do_balance_add g maker_id BALANCE_TYPE_AVAILABLE give give_amount
  let g := emit real [event.user_balance_history maker_id give "trade" give_amount] g
  charge_fee real g maker_id give maker_charge

/-- The writes of a deal to the taker: `left` goes down by `left_dec`, the
three totals go up. -/
def fill_taker (taker : order_t) (left_dec amount deal fee : ℚ) : order_t :=
  { taker with
    left := taker.left - left_dec
    deal_stock := taker.deal_stock + amount
    deal_money := taker.deal_money + deal
    deal_fee := taker.deal_fee + fee }

/-- The writes of a deal to the maker: `left` goes down by `amount`, `freeze`
by `freeze_dec`, the three totals go up. -/
def fill_maker (maker : order_t) (freeze_dec amount deal fee : ℚ) : order_t :=
  { maker with
    left := maker.left - amount
    freeze := maker.freeze - freeze_dec
    deal_stock := maker.deal_stock + amount
    deal_money := maker.deal_money + deal
    deal_fee := maker.deal_fee + fee }

/-- The body of the `while` loop of `execute_limit_ask_order` from the
computation of `deal` to the end of the iteration; the same text is the body
of `execute_market_ask_order`. The taker sells `amount` to the resting bid
`maker` at the maker's price: the ask side (taker) is charged `ask_fee` in
money, the bid side (maker) `bid_fee` in stock, and the maker's `freeze`,
which counts money, goes down by `deal`. -/
def ask_taker_deal (real : Bool) (g : globals) (m : market_t) (taker maker : order_t)
    (amount : ℚ) : globals × market_t × order_t × deal_t :=
  let price := maker.price
  let deal := price * amount
  let ask_fee := deal * taker.taker_fee
  let bid_fee := amount * maker.maker_fee
  let deal_id := (g.deals_id_start + 1) % 2 ^ 64
  let g := { g with deals_id_start := deal_id }
  let g := emit real
    [event.order_deal_history deal_id taker MARKET_ROLE_TAKER maker MARKET_ROLE_MAKER
        price amount deal ask_fee bid_fee,
      event.deal_message m.name taker maker price amount ask_fee bid_fee
        MARKET_ORDER_SIDE_ASK deal_id m.stock m.money] g
  let taker1 := fill_taker taker amount amount deal ask_fee
  let maker1 := fill_maker maker deal amount deal bid_fee
  let m := { m with bids := book_update m.bids maker1 }
  let g := settle real g taker.user_id maker.user_id m.stock amount m.money deal ask_fee bid_fee
  let r := maker_done real g m maker1
  (r.1, r.2, taker1, ⟨deal_id, taker, maker, price, amount, deal, ask_fee, bid_fee⟩)

/-- The body of the `while` loop of `execute_limit_bid_order` from the
computation of `deal` to the end of the iteration; the body of
`execute_market_bid_order` is the same text except that `taker->left`, which
counts money there, is reduced by `deal` instead of `amount`: `by_deal` is
set for the market routine. The taker buys `amount` from the resting ask
`maker` at the maker's price: the bid side (taker) is charged `bid_fee` in
stock, the ask side (maker) `ask_fee` in money, and the maker's `freeze`,
which counts stock, goes down by `amount`. -/
def bid_taker_deal (real : Bool) (by_deal : Bool) (g : globals) (m : market_t)
    (taker maker : order_t) (amount : ℚ) : globals × market_t × order_t × deal_t :=
  let price := maker.price
  let deal := price * amount
  let ask_fee := deal * maker.maker_fee
  let bid_fee := amount * taker.taker_fee
  let deal_id := (g.deals_id_start + 1) % 2 ^ 64
  let g := { g with deals_id_start := deal_id }
  let g := emit real
    [event.order_deal_history deal_id maker MARKET_ROLE_MAKER taker MARKET_ROLE_TAKER
        price amount deal ask_fee bid_fee,
      event.deal_message m.name maker taker price amount ask_fee bid_fee
        MARKET_ORDER_SIDE_BID deal_id m.stock m.money] g
  let taker1 := fill_taker taker (if by_deal then deal else amount) amount deal bid_fee
  let maker1 := fill_maker maker amount amount deal ask_fee
  let m := { m with asks := book_update m.asks maker1 }
  let g := settle real g taker.user_id maker.user_id m.money deal m.stock amount bid_fee ask_fee
  let r := maker_done real g m maker1
  (r.1, r.2, taker1, ⟨deal_id, taker, maker, price, amount, deal, ask_fee, bid_fee⟩)

/-- The `while` loop of `execute_limit_ask_order` over the nodes of
`m->bids` still to be visited. The result carries the executed deals. -/
def execute_limit_ask_order_loop (real : Bool) :
    List order_t → globals → market_t → order_t → globals × market_t × order_t × List deal_t
  | [], g, m, taker => (g, m, taker, [])
  | maker :: nodes, g, m, taker =>
    if taker.left = 0 then (g, m, taker, [])
    else if taker.price > maker.price then (g, m, taker, [])
    else
      let amount := if taker.left < maker.left then taker.left else maker.left
      let r := ask_taker_deal real g m taker maker amount
      let rest := execute_limit_ask_order_loop real nodes r.1 r.2.1 r.2.2.1
      (rest.1, rest.2.1, rest.2.2.1, r.2.2.2 :: rest.2.2.2)

/-- The function `execute_limit_ask_order`. -/
def execute_limit_ask_order (real : Bool) (g : globals) (m : market_t) (taker : order_t) :
    globals × market_t × order_t × List deal_t :=
  execute_limit_ask_order_loop real m.bids g m taker

/-- The `while` loop of `execute_limit_bid_order` over the nodes of
`m->asks` still to be visited. -/
def execute_limit_bid_order_loop (real : Bool) :
    List order_t → globals → market_t → order_t → globals × market_t × order_t × List deal_t
  | [], g, m, taker => (g, m, taker, [])
  | maker :: nodes, g, m, taker =>
    if taker.left = 0 then (g, m, taker, [])
    else if taker.price < maker.price then (g, m, taker, [])
    else
      let amount := if taker.left < maker.left then taker.left else maker.left
      let r := bid_taker_deal real false g m taker maker amount
      let rest := execute_limit_bid_order_loop real nodes r.1 r.2.1 r.2.2.1
      (rest.1, rest.2.1, rest.2.2.1, r.2.2.2 :: rest.2.2.2)

/-- The function `execute_limit_bid_order`. -/
def execute_limit_bid_order (real : Bool) (g : globals) (m : market_t) (taker : order_t) :
    globals × market_t × order_t × List deal_t :=
  execute_limit_bid_order_loop real m.asks g m taker

/-- The test `!balance || mpd_cmp(balance, require, &mpd_ctx) < 0` of the
order placement functions. -/
def balance_short (balance : Option ℚ) (require : ℚ) : Bool :=
  match balance with
  | none => true
  | some b => decide (b < require)

/-- The balance test at the head of `market_put_limit_order`: an ask needs
`amount` of stock available, a bid `amount * price` of money. -/
def put_limit_short (g : globals) (m : market_t) (user_id side : ℕ) (amount price : ℚ) : Bool :=
  if side = MARKET_ORDER_SIDE_ASK then
    balance_short (balance_get g.dict_balance user_id BALANCE_TYPE_AVAILABLE m.stock) amount
  else
    let require := amount * price
    balance_short (balance_get g.dict_balance user_id BALANCE_TYPE_AVAILABLE m.money) require

/-- The order object `market_put_limit_order` allocates and fills in. -/
def new_limit_order (id user_id side : ℕ) (amount price taker_fee maker_fee : ℚ) : order_t :=
  { id := id, type := MARKET_ORDER_TYPE_LIMIT, side := side, user_id := user_id,
    price := price, amount := amount, taker_fee := taker_fee, maker_fee := maker_fee,
    left := amount, freeze := 0, deal_stock := 0, deal_money := 0, deal_fee := 0 }

/-- The matching step of `market_put_limit_order`: the order counter is
advanced, the order object is filled in and handed to the matching routine
of its side. The result is the state, the order and the deals as the routine
leaves them, before the order is rested or dropped. -/
def put_limit_match (real : Bool) (g : globals) (m : market_t) (user_id side : ℕ)
    (amount price taker_fee maker_fee : ℚ) : globals × market_t × order_t × List deal_t :=
  let id := (g.order_id_start + 1) % 2 ^ 64
  let g := { g with order_id_start := id }
  let order := new_limit_order id user_id side amount price taker_fee maker_fee
  if side = MARKET_ORDER_SIDE_ASK then execute_limit_ask_order real g m order
  else execute_limit_bid_order real g m order

/-- The end of `market_put_limit_order`, after matching: an order with nothing
left is reported as finished and dropped, any other order is announced and
handed to `order_put`, whose return code is only logged. -/
def put_limit_close (real : Bool) (g : globals) (m : market_t) (order : order_t) :
    globals × market_t × order_t :=
  if order.left = 0 then
    (emit real [event.order_history order, event.order_message ORDER_EVENT_FINISH order m.name] g,
      m, order)
  else
    let g := emit real [event.order_message ORDER_EVENT_PUT order m.name] g
    let p := order_put g m order
    (p.2.1, p.2.2.1, p.2.2.2)

/-- The function `market_put_limit_order`: the return code, the state
reached, the order as the function leaves it (none when the request is
rejected) and the executed deals. -/
def market_put_limit_order (real : Bool) (g : globals) (m : market_t) (user_id side : ℕ)
    (amount price taker_fee maker_fee : ℚ) :
    ℤ × globals × market_t × Option order_t × List deal_t :=
  if put_limit_short g m user_id side amount price then (-1, g, m, none, [])
  else if amount < m.min_amount then (-2, g, m, none, [])
  else
    let r := put_limit_match real g m user_id side amount price taker_fee maker_fee
    let c := put_limit_close real r.1 r.2.1 r.2.2.1
    (0, c.1, c.2.1, some c.2.2, r.2.2.2)

/-- The `while` loop of `execute_market_ask_order` over the nodes of
`m->bids` still to be visited. -/
def execute_market_ask_order_loop (real : Bool) :
    List order_t → globals → market_t → order_t → globals × market_t × order_t × List deal_t
  | [], g, m, taker => (g, m, taker, [])
  | maker :: nodes, g, m, taker =>
    if taker.left = 0 then (g, m, taker, [])
    else
      let amount := if taker.left < maker.left then taker.left else maker.left
      let r := ask_taker_deal real g m taker maker amount
      let rest := execute_market_ask_order_loop real nodes r.1 r.2.1 r.2.2.1
      (rest.1, rest.2.1, rest.2.2.1, r.2.2.2 :: rest.2.2.2)

/-- The function `execute_market_ask_order`. -/
def execute_market_ask_order (real : Bool) (g : globals) (m : market_t) (taker : order_t) :
    globals × market_t × order_t × List deal_t :=
  execute_market_ask_order_loop real m.bids g m taker

/-- The inner `while (true)` loop of `execute_market_bid_order`: `amount` is
lowered by one unit of `stock_prec` as long as `amount * price` exceeds
`left`. The first argument bounds the number of iterations; `none` stands
for a loop that has not ended within the bound. -/
def market_bid_adjust (price left : ℚ) (stock_prec : ℕ) : ℕ → ℚ → Option ℚ
  | 0, _ => none
  | fuel + 1, amount =>
    if amount * price > left then
      market_bid_adjust price left stock_prec fuel (amount - 1 / 10 ^ stock_prec)
    else some amount

/-- A number of iterations that the inner loop of `execute_market_bid_order`
cannot exceed when it ends at all: each round lowers `amount * price` by
`price / 10 ^ stock_prec`. -/
def market_bid_fuel (price left : ℚ) (stock_prec : ℕ) (amount : ℚ) : ℕ :=
  ⌈(amount * price - left) / (price / 10 ^ stock_prec)⌉₊ + 1

/-- The `while` loop of `execute_market_bid_order` over the nodes of
`m->asks` still to be visited; `none` when the inner loop does not end. -/
def execute_market_bid_order_loop (real : Bool) :
    List order_t → globals → market_t → order_t →
      Option (globals × market_t × order_t × List deal_t)
  | [], g, m, taker => some (g, m, taker, [])
  | maker :: nodes, g, m, taker =>
    if taker.left = 0 then some (g, m, taker, [])
    else
      let price := maker.price
      let amount := mpd_rescale (taker.left / price) m.stock_prec
      match market_bid_adjust price taker.left m.stock_prec
          (market_bid_fuel price taker.left m.stock_prec amount) amount with
      | none => none
      | some amount =>
        let amount := if amount > maker.left then maker.left else amount
        if amount = 0 then some (g, m, taker, [])
        else
          let r := bid_taker_deal real true g m taker maker amount
          match execute_market_bid_order_loop real nodes r.1 r.2.1 r.2.2.1 with
          | none => none
          | some rest => some (rest.1, rest.2.1, rest.2.2.1, r.2.2.2 :: rest.2.2.2)

/-- The function `execute_market_bid_order`. -/
def execute_market_bid_order (real : Bool) (g : globals) (m : market_t) (taker : order_t) :
    Option (globals × market_t × order_t × List deal_t) :=
  execute_market_bid_order_loop real m.asks g m taker

/-- The checks at the head of `market_put_market_order`: `-1` for a short
balance, `-3` for an empty opposite book, `-2` for an amount below the
minimum (for a bid: below the best ask price times `min_amount`), `0` when
the request passes. -/
def put_market_check (g : globals) (m : market_t) (user_id side : ℕ) (amount : ℚ) : ℤ :=
  if side = MARKET_ORDER_SIDE_ASK then
    if balance_short (balance_get g.dict_balance user_id BALANCE_TYPE_AVAILABLE m.stock) amount
    then -1
    else
      match m.bids with
      | [] => -3
      | _ :: _ => if amount < m.min_amount then -2 else 0
  else
    if balance_short (balance_get g.dict_balance user_id BALANCE_TYPE_AVAILABLE m.money) amount
    then -1
    else
      match m.asks with
      | [] => -3
      | order :: _ =>
        let require := order.price * m.min_amount
        if amount < require then -2 else 0

/-- The order object `market_put_market_order` allocates and fills in. -/
def new_market_order (id user_id side : ℕ) (amount taker_fee : ℚ) : order_t :=
  { id := id, type := MARKET_ORDER_TYPE_MARKET, side := side, user_id := user_id,
    price := 0, amount := amount, taker_fee := taker_fee, maker_fee := 0,
    left := amount, freeze := 0, deal_stock := 0, deal_money := 0, deal_fee := 0 }

/-- The function `market_put_market_order`: `none` when the call does not
return; otherwise the return code, the state reached, the order as the
function leaves it (none when the request is rejected) and the executed
deals. -/
def market_put_market_order (real : Bool) (g : globals) (m : market_t) (user_id side : ℕ)
    (amount taker_fee : ℚ) :
    Option (ℤ × globals × market_t × Option order_t × List deal_t) :=
  if put_market_check g m user_id side amount ≠ 0 then
    some (put_market_check g m user_id side amount, g, m, none, [])
  else
    let id := (g.order_id_start + 1) % 2 ^ 64
    let g := { g with order_id_start := id }
    let order := new_market_order id user_id side amount taker_fee
    let r :=
      if side = MARKET_ORDER_SIDE_ASK then some (execute_market_ask_order real g m order)
      else execute_market_bid_order real g m order
    match r with
    | none => none
    | some r =>
      let order := r.2.2.1
      let g := emit real
        [event.order_history order, event.order_message ORDER_EVENT_FINISH order r.2.1.name] r.1
      some (0, g, r.2.1, some order, r.2.2.2)

/-- The function `market_cancel_order`. -/
def market_cancel_order (real : Bool) (g : globals) (m : market_t) (order : order_t) :
    ℤ × globals × market_t :=
  let g := emit real [event.order_message ORDER_EVENT_FINISH order m.name] g
  let r := order_finish real g m order
  (0, r.2.1, r.2.2)

/-- The function `market_get_order`: the order object the `orders` dictionary
points to for `order_id`. -/
def market_get_order (m : market_t) (order_id : ℕ) : Option order_t :=
  if m.orders order_id then (m.asks ++ m.bids).find? (fun o => o.id == order_id)
  else none

/-- The function `market_get_order_list`. -/
def market_get_order_list (m : market_t) (user_id : ℕ) : Option (List ℕ) :=
  m.users user_id

/-- The `struct market` of the configuration (`me_config.h`). -/
structure market_conf where
  name : String
  stock : String
  money : String
  stock_prec : ℕ
  money_prec : ℕ
  fee_prec : ℕ
  min_amount : ℚ

/-- The function `market_create`. -/
def market_create (A : dict_asset_t) (conf : market_conf) : Option market_t :=
  if !asset_exist A conf.stock || !asset_exist A conf.money then none
  else if (conf.stock_prec : ℤ) + conf.money_prec > asset_prec A conf.money then none
  else if (conf.stock_prec : ℤ) + conf.fee_prec > asset_prec A conf.stock then none
  else if (conf.money_prec : ℤ) + conf.fee_prec > asset_prec A conf.money then none
  else
    some
      { name := conf.name, stock := conf.stock, money := conf.money,
        stock_prec := conf.stock_prec, money_prec := conf.money_prec,
        fee_prec := conf.fee_prec, min_amount := conf.min_amount,
        orders := fun _ => false, users := fun _ => none, asks := [], bids := [] }

/-! ## Idempotent balance update (`me_update.c`) -/

/-- The `struct update_key` that `update_user_balance` fills in: `strncpy` copies `asset`
and `business` into the two arrays, `sizeof` bytes each, so a longer name is cut. -/
def update_key_of [L : name_limits] (user_id : ℕ) (asset business : String)
    (business_id : ℕ) : update_key :=
  { user_id := user_id
    asset := strncpy (c_str asset) (L.ASSET_NAME_MAX_LEN + 1)
    business := strncpy (c_str business) (L.BUSINESS_NAME_MAX_LEN + 1)
    business_id := business_id }

/-- The function `update_user_balance`; `now` is the reading of
`current_timestamp()` stored with the key. -/
def update_user_balance [L : name_limits] (real : Bool) (now : ℚ) (g : globals) (user_id : ℕ)
    (asset business : String) (business_id : ℕ) (change : ℚ) : ℤ × globals :=
  let key : update_key := update_key_of user_id asset business business_id
  match g.dict_update key with
  | some _ => (-1, g)
  | none =>
    let abs_change := |change|
    let result :=
      if change ≥ 0 then
        balance_add g.dict_asset g.dict_balance user_id BALANCE_TYPE_AVAILABLE asset abs_change
      else
        balance_sub g.dict_asset g.dict_balance user_id BALANCE_TYPE_AVAILABLE asset abs_change
    match result with
    | none => (-2, g)
    | some r =>
      let g := { g with
        dict_balance := r.2
        dict_update := Function.update g.dict_update key (some now) }
      let g := emit real
        [event.user_balance_history user_id asset business change,
          event.balance_message user_id asset business change] g
      (0, g)

/-- The purge of `on_timer` in `me_update.c`: keys older than 24 hours are
dropped from `dict_update`. -/
def update_on_timer (now : ℚ) (g : globals) : globals :=
  { g with dict_update := fun key =>
      match g.dict_update key with
      | some create_time => if create_time < now - 86400 then none else some create_time
      | none => none }

/-! ## Markets of the engine (`me_trade.c`) and command handlers (`me_server.c`) -/

/-- The whole engine: the global variables and the markets of `dict_market`
in the order of the configuration. -/
structure engine where
  g : globals
  dict_market : List market_t

/-- The function `get_market`: the first market created under `name`. -/
def get_market (e : engine) (name : String) : Option market_t :=
  e.dict_market.find? (fun m => m.name == name)

/-- The writes a command makes through the pointer returned by `get_market`:
the first market with the name of `m` now holds the fields of `m`. -/
def set_market : List market_t → market_t → List market_t
  | [], _ => []
  | x :: xs, m => if x.name = m.name then m :: xs else x :: set_market xs m

/-- The function `init_balance`: the asset dictionary of the configured
assets; `none` when a `dict_add` fails on a repeated name. -/
def init_balance : List (String × asset_type) → Option dict_asset_t
  | [] => some (fun _ => none)
  | a :: rest =>
    match init_balance rest with
    | none => none
    | some A => if (A a.1).isSome then none else some (Function.update A a.1 (some a.2))

/-- The function `init_trade`: one market per configured market; `none` when a
`market_create` fails. -/
def init_trade (A : dict_asset_t) : List market_conf → Option (List market_t)
  | [] => some []
  | conf :: rest =>
    match market_create A conf with
    | none => none
    | some m =>
      match init_trade A rest with
      | none => none
      | some ms => some (m :: ms)

/-- The engine after `init_balance`, `init_update` and `init_trade`, with no
snapshot to load: empty ledger, empty books, counters at zero. -/
def init_engine (assets : List (String × asset_type)) (markets : List market_conf) :
    Option engine :=
  match init_balance assets with
  | none => none
  | some A =>
    match init_trade A markets with
    | none => none
    | some ms =>
      some
        { g :=
            { dict_asset := A, dict_balance := fun _ => none, order_id_start := 0,
              deals_id_start := 0, dict_update := fun _ => none, log := [] }
          dict_market := ms }

/-- The function `on_cmd_balance_update`: the reply code and the engine
state. The JSON shape checks are taken as passed; `change` is the exact value
of the submitted decimal string, if it has one. -/
def on_cmd_balance_update [L : name_limits] (now : ℚ) (e : engine) (user_id : ℕ)
    (asset business : String)
    (business_id : ℕ) (change : Option ℚ) : ℕ × engine :=
  let user_id := user_id % 2 ^ 32
  let prec := asset_prec_show e.g.dict_asset asset
  if prec < 0 then (1, e)
  else
    match decimal change prec.toNat with
    | none => (1, e)
    | some change =>
      let r := update_user_balance true now e.g user_id asset business
        (business_id % 2 ^ 64) change
      if r.1 = -1 then (10, { e with g := r.2 })
      else if r.1 = -2 then (11, { e with g := r.2 })
      else if r.1 < 0 then (2, { e with g := r.2 })
      else (0, { e with g := emit true [event.operlog "update_balance"] r.2 })

/-- The function `on_cmd_order_put_limit`. -/
def on_cmd_order_put_limit (e : engine) (user_id : ℕ) (market_name : String) (side : ℕ)
    (amount price taker_fee maker_fee : Option ℚ) : ℕ × engine :=
  let user_id := user_id % 2 ^ 32
  match get_market e market_name with
  | none => (1, e)
  | some market =>
    let side := side % 2 ^ 32
    if side ≠ MARKET_ORDER_SIDE_ASK ∧ side ≠ MARKET_ORDER_SIDE_BID then (1, e)
    else
      match decimal amount market.stock_prec with
      | none => (1, e)
      | some amount =>
        if amount ≤ 0 then (1, e)
        else
          match decimal price market.money_prec with
          | none => (1, e)
          | some price =>
            if price ≤ 0 then (1, e)
            else
              match decimal taker_fee market.fee_prec with
              | none => (1, e)
              | some taker_fee =>
                if taker_fee < 0 ∨ taker_fee ≥ 1 then (1, e)
                else
                  match decimal maker_fee market.fee_prec with
                  | none => (1, e)
                  | some maker_fee =>
                    if maker_fee < 0 ∨ maker_fee ≥ 1 then (1, e)
                    else
                      let r := market_put_limit_order true e.g market user_id side amount
                        price taker_fee maker_fee
                      let e1 : engine :=
                        { g := r.2.1, dict_market := set_market e.dict_market r.2.2.1 }
                      if r.1 = -1 then (10, e1)
                      else if r.1 = -2 then (11, e1)
                      else if r.1 < 0 then (2, e1)
                      else (0, { e1 with g := emit true [event.operlog "limit_order"] e1.g })

/-- The function `on_cmd_order_put_market`; `none` when the call does not
return. -/
def on_cmd_order_put_market (e : engine) (user_id : ℕ) (market_name : String) (side : ℕ)
    (amount taker_fee : Option ℚ) : Option (ℕ × engine) :=
  let user_id := user_id % 2 ^ 32
  match get_market e market_name with
  | none => some (1, e)
  | some market =>
    let side := side % 2 ^ 32
    if side ≠ MARKET_ORDER_SIDE_ASK ∧ side ≠ MARKET_ORDER_SIDE_BID then some (1, e)
    else
      match decimal amount market.stock_prec with
      | none => some (1, e)
      | some amount =>
        if amount ≤ 0 then some (1, e)
        else
          match decimal taker_fee market.fee_prec with
          | none => some (1, e)
          | some taker_fee =>
            if taker_fee < 0 ∨ taker_fee ≥ 1 then some (1, e)
            else
              match market_put_market_order true e.g market user_id side amount taker_fee with
              | none => none
              | some r =>
                let e1 : engine :=
                  { g := r.2.1, dict_market := set_market e.dict_market r.2.2.1 }
                if r.1 = -1 then some (10, e1)
                else if r.1 = -2 then some (11, e1)
                else if r.1 = -3 then some (12, e1)
                else if r.1 < 0 then some (2, e1)
                else some (0, { e1 with g := emit true [event.operlog "market_order"] e1.g })

/-- The function `on_cmd_order_cancel`. -/
def on_cmd_order_cancel (e : engine) (user_id : ℕ) (market_name : String) (order_id : ℕ) :
    ℕ × engine :=
  let user_id := user_id % 2 ^ 32
  match get_market e market_name with
  | none => (1, e)
  | some market =>
    match market_get_order market (order_id % 2 ^ 64) with
    | none => (10, e)
    | some order =>
      if order.user_id ≠ user_id then (11, e)
      else
        let r := market_cancel_order true e.g market order
        let e1 : engine := { g := r.2.1, dict_market := set_market e.dict_market r.2.2 }
        if r.1 < 0 then (2, e1)
        else (0, { e1 with g := emit true [event.operlog "cancel_order"] e1.g })

/-- A state-changing request as the dispatcher receives it, after the JSON
shape checks: decimal arguments are the exact values of the submitted
strings (`none` for a string that is not a decimal). `balance_update` also
carries the clock reading taken while it is served. -/
inductive command where
  | balance_update (now : ℚ) (user_id : ℕ) (asset business : String) (business_id : ℕ)
      (change : Option ℚ)
  | order_put_limit (user_id : ℕ) (market : String) (side : ℕ)
      (amount price taker_fee maker_fee : Option ℚ)
  | order_put_market (user_id : ℕ) (market : String) (side : ℕ)
      (amount taker_fee : Option ℚ)
  | order_cancel (user_id : ℕ) (market : String) (order_id : ℕ)

/-- Serve one request: the reply code and the engine state, `none` when the
handler does not return. -/
def on_cmd [L : name_limits] (e : engine) : command → Option (ℕ × engine)
  | .balance_update now user_id asset business business_id change =>
    some (on_cmd_balance_update now e user_id asset business business_id change)
  | .order_put_limit user_id market side amount price taker_fee maker_fee =>
    some (on_cmd_order_put_limit e user_id market side amount price taker_fee maker_fee)
  | .order_put_market user_id market side amount taker_fee =>
    on_cmd_order_put_market e user_id market side amount taker_fee
  | .order_cancel user_id market order_id =>
    some (on_cmd_order_cancel e user_id market order_id)

/-- Serve a sequence of requests in arrival order; `none` when one of the
handlers does not return. -/
def run [L : name_limits] (e : engine) : List command → Option engine
  | [] => some e
  | c :: cs =>
    match on_cmd e c with
    | none => none
    | some r => run r.2 cs

/-- The engine state reached from the empty state of a configuration (no
snapshot, nothing to replay) by a sequence of requests; `none` when the
configuration is refused or a handler does not return. -/
def engine_run [L : name_limits] (assets : List (String × asset_type))
    (markets : List market_conf)
    (cmds : List command) : Option engine :=
  match init_engine assets markets with
  | none => none
  | some e => run e cmds

/-! ## Well-formedness of the engine state -/

/-- The balance of a user in an asset, a missing entry counting as zero. -/
def bal (d : dict_balance_t) (user_id type : ℕ) (asset : String) : ℚ :=
  (d ⟨user_id, type, asset⟩).getD 0

/-- Every entry of the ledger belongs to a configured asset, is not negative
and has no more fractional digits than the asset stores. -/
def LedgerOK (A : dict_asset_t) (d : dict_balance_t) : Prop :=
  ∀ k v, d k = some v → 0 ≤ v ∧ ∃ a, A k.asset = some a ∧ on_grid v a.prec_save

/-- The ledger after a credit of `amount` to an available balance followed by
the fee step on the same balance. -/
def ledger_receive (A : dict_asset_t) (d : dict_balance_t) (user_id : ℕ) (asset : String)
    (amount fee : ℚ) : dict_balance_t :=
  if fee > 0 then
    ledger_sub A (ledger_add A d user_id BALANCE_TYPE_AVAILABLE asset amount) user_id
      BALANCE_TYPE_AVAILABLE asset fee
  else ledger_add A d user_id BALANCE_TYPE_AVAILABLE asset amount

/-- The ledger after the balance calls of one deal (see `settle`). -/
def settle_ledger (A : dict_asset_t) (d : dict_balance_t) (taker_id maker_id : ℕ) (give : String)
    (give_amount : ℚ) (take : String) (take_amount : ℚ) (taker_charge maker_charge : ℚ) :
    dict_balance_t :=
  ledger_receive A
    (ledger_sub A
      (ledger_receive A (ledger_sub A d taker_id BALANCE_TYPE_AVAILABLE give give_amount)
        taker_id take take_amount taker_charge)
      maker_id BALANCE_TYPE_FREEZE take take_amount)
    maker_id give give_amount maker_charge

/-- The sum of `freeze` over the orders of user `u` in a book. -/
def book_frozen (book : List order_t) (u : ℕ) : ℚ :=
  (book.map (fun o => if o.user_id = u then o.freeze else 0)).sum

/-- The sum of `freeze` over the resting orders of user `u` in market `m`
whose frozen resource is asset `a`: the asks when `a` is the stock of the
market, the bids when `a` is its money. -/
def market_frozen (m : market_t) (u : ℕ) (a : String) : ℚ :=
  (if m.stock = a then book_frozen m.asks u else 0) +
    (if m.money = a then book_frozen m.bids u else 0)

/-- The sum over all markets of `market_frozen`. -/
def frozen_total (ms : List market_t) (u : ℕ) (a : String) : ℚ :=
  (ms.map (fun m => market_frozen m u a)).sum

/-- The predicate of a resting order: a limit order of the side of its book,
with a positive price, `0 < left ≤ amount`, `deal_stock + left = amount`,
`freeze` equal to `left` (ask) or `price * left` (bid), price and `left` at
the precisions of the market, and a maker fee rate in `[0, 1)`. -/
structure OrderOK (stock_prec money_prec : ℕ) (side : ℕ) (o : order_t) : Prop where
  type_eq : o.type = MARKET_ORDER_TYPE_LIMIT
  side_eq : o.side = side
  price_pos : 0 < o.price
  price_grid : on_grid o.price money_prec
  left_pos : 0 < o.left
  left_grid : on_grid o.left stock_prec
  left_le : o.left ≤ o.amount
  deal_left : o.deal_stock + o.left = o.amount
  freeze_eq : o.freeze = if side = MARKET_ORDER_SIDE_ASK then o.left else o.price * o.left
  maker_fee_nonneg : 0 ≤ o.maker_fee
  maker_fee_lt : o.maker_fee < 1

/-- Well-formedness of a market: the precision checks of `market_create`
hold, every resting order satisfies `OrderOK`, order ids are pairwise
distinct and at most `n`, and the `orders` dictionary and the per-user lists
index exactly the resting orders. -/
structure MarketOK (A : dict_asset_t) (n : ℕ) (m : market_t) : Prop where
  stock_ok : ∃ a, A m.stock = some a ∧ m.stock_prec + m.fee_prec ≤ a.prec_save
  money_ok : ∃ a, A m.money = some a ∧ m.stock_prec + m.money_prec ≤ a.prec_save ∧
    m.money_prec + m.fee_prec ≤ a.prec_save
  asks_ok : ∀ o ∈ m.asks, OrderOK m.stock_prec m.money_prec MARKET_ORDER_SIDE_ASK o
  bids_ok : ∀ o ∈ m.bids, OrderOK m.stock_prec m.money_prec MARKET_ORDER_SIDE_BID o
  ids_nodup : ((m.asks ++ m.bids).map (fun o => o.id)).Nodup
  ids_le : ∀ o ∈ m.asks ++ m.bids, o.id ≤ n
  orders_iff : ∀ id, m.orders id = true ↔ ∃ o ∈ m.asks ++ m.bids, o.id = id
  users_iff : ∀ u id, id ∈ (m.users u).getD [] ↔
    ∃ o ∈ m.asks ++ m.bids, o.id = id ∧ o.user_id = u
  users_nodup : ∀ u, ((m.users u).getD []).Nodup

/-- The invariant of a matching loop on market `m`: the ledger and the
market are well formed, and every frozen balance is the frozen sum of `m`
plus a fixed, non-negative remainder `c` (what the other markets hold). -/
structure MatchInv (A : dict_asset_t) (n : ℕ) (c : ℕ → String → ℚ) (g : globals)
    (m : market_t) : Prop where
  asset_eq : g.dict_asset = A
  ledger_ok : LedgerOK A g.dict_balance
  market_ok : MarketOK A n m
  frozen_eq : ∀ u a, bal g.dict_balance u BALANCE_TYPE_FREEZE a = market_frozen m u a + c u a
  rest_nonneg : ∀ u a, 0 ≤ c u a

/-- The configuration fields of a market, which no command writes. -/
def market_static (m : market_t) : String × String × String × ℕ × ℕ × ℕ × ℚ :=
  (m.name, m.stock, m.money, m.stock_prec, m.money_prec, m.fee_prec, m.min_amount)

/-- The fields of an order that matching never writes agree on `o` and `o'`. -/
def same_order_head (o o' : order_t) : Prop :=
  o'.id = o.id ∧ o'.type = o.type ∧ o'.side = o.side ∧ o'.user_id = o.user_id ∧
    o'.price = o.price ∧ o'.amount = o.amount ∧ o'.taker_fee = o.taker_fee ∧
    o'.maker_fee = o.maker_fee ∧ o'.freeze = o.freeze

/-- Well-formedness of the whole engine: the ledger is well formed, every
market is well formed with all order ids at most the counter
`order_id_start`, and every frozen balance is the sum over all markets of
the `freeze` of the owner's resting orders that lock that asset. -/
structure EngineOK (e : engine) : Prop where
  ledger_ok : LedgerOK e.g.dict_asset e.g.dict_balance
  markets_ok : ∀ m ∈ e.dict_market, MarketOK e.g.dict_asset e.g.order_id_start m
  frozen_eq : ∀ u a,
    bal e.g.dict_balance u BALANCE_TYPE_FREEZE a = frozen_total e.dict_market u a

/-! ## The admission gate of the dispatcher (`me_server.c`) -/

/-- What the three admission predicates look at: `job->request_count` of the
operlog job (`me_operlog.c`) and of the history job (`me_history.c`), and the
lengths of the three message lists of `me_message.c`. -/
structure pending where
  operlog_request_count : ℕ
  history_request_count : ℕ
  list_deals_len : ℕ
  list_orders_len : ℕ
  list_balances_len : ℕ
deriving DecidableEq

/-- The limits `MAX_PENDING_OPERLOG`, `MAX_PENDING_HISTORY` and
`MAX_PENDING_MESSAGE`, constants of a header that is not part of the sources
at hand: they are parameters of the model. -/
structure pending_limits where
  MAX_PENDING_OPERLOG : ℕ
  MAX_PENDING_HISTORY : ℕ
  MAX_PENDING_MESSAGE : ℕ
deriving DecidableEq

/-- The function `is_operlog_block` of `me_operlog.c`. -/
def is_operlog_block (c : pending_limits) (p : pending) : Bool :=
  if p.operlog_request_count ≥ c.MAX_PENDING_OPERLOG then true else false

/-- The function `is_history_block` of `me_history.c`. -/
def is_history_block (c : pending_limits) (p : pending) : Bool :=
  if p.history_request_count ≥ c.MAX_PENDING_HISTORY then true else false

/-- The function `is_message_block` of `me_message.c`. -/
def is_message_block (c : pending_limits) (p : pending) : Bool :=
  if p.list_deals_len ≥ c.MAX_PENDING_MESSAGE then true
  else if p.list_orders_len ≥ c.MAX_PENDING_MESSAGE then true
  else if p.list_balances_len ≥ c.MAX_PENDING_MESSAGE then true
  else false

/-- The function `svr_on_recv_pkg` of `me_server.c` on the four commands that
change the state: each case first tests the three admission predicates and
replies with `reply_error_service_unavailable` (code 3) without calling the
handler when one of them holds. The reply code and the engine state; `none`
when the handler does not return. -/
def svr_on_recv_pkg [L : name_limits] (c : pending_limits) (p : pending) (e : engine) :
    command → Option (ℕ × engine)
  | .balance_update now user_id asset business business_id change =>
    if is_operlog_block c p || is_history_block c p || is_message_block c p then some (3, e)
    else some (on_cmd_balance_update now e user_id asset business business_id change)
  | .order_put_limit user_id market side amount price taker_fee maker_fee =>
    if is_operlog_block c p || is_history_block c p || is_message_block c p then some (3, e)
    else some (on_cmd_order_put_limit e user_id market side amount price taker_fee maker_fee)
  | .order_put_market user_id market side amount taker_fee =>
    if is_operlog_block c p || is_history_block c p || is_message_block c p then some (3, e)
    else on_cmd_order_put_market e user_id market side amount taker_fee
  | .order_cancel user_id market order_id =>
    if is_operlog_block c p || is_history_block c p || is_message_block c p then some (3, e)
    else some (on_cmd_order_cancel e user_id market order_id)

/-! ## Merged depth (`get_depth_merge` of `me_server.c`) -/

/-- The function `mpd_divmod` of libmpdec: the quotient of `a` by `b` cut to an integer
(toward zero) and the remainder `a - q * b`, which has the sign of `a`. -/
def mpd_divmod (a b : ℚ) : ℚ × ℚ :=
  let q : ℚ := if 0 ≤ a / b then (⌊a / b⌋ : ℚ) else (⌈a / b⌉ : ℚ)
  (q, a - q * b)

/-- The price of an ask level in `get_depth_merge`: `q * interval`, raised by `interval`
when the remainder is not zero. -/
def depth_ask_price (interval price : ℚ) : ℚ :=
  let d := mpd_divmod price interval
  let p := d.1 * interval
  if d.2 ≠ 0 then p + interval else p

/-- The price of a bid level in `get_depth_merge`: `q * interval`. -/
def depth_bid_price (interval price : ℚ) : ℚ :=
  let d := mpd_divmod price interval
  d.1 * interval

/-- The inner `while` loop of the ask side of `get_depth_merge`: orders are added to the
level as long as `price >= order->price`; the result is the amount of the level and the
nodes from the one the iterator stopped at. -/
def depth_asks_inner (price : ℚ) : List order_t → ℚ → ℚ × List order_t
  | [], amount => (amount, [])
  | order :: nodes, amount =>
    if price ≥ order.price then depth_asks_inner price nodes (amount + order.left)
    else (amount, order :: nodes)

/-- The inner `while` loop of the bid side of `get_depth_merge`: orders are added to the
level as long as `price <= order->price`. -/
def depth_bids_inner (price : ℚ) : List order_t → ℚ → ℚ × List order_t
  | [], amount => (amount, [])
  | order :: nodes, amount =>
    if price ≤ order.price then depth_bids_inner price nodes (amount + order.left)
    else (amount, order :: nodes)

/-- The outer loop `while (node && index < limit)` of the ask side of `get_depth_merge`;
the first argument is `limit - index`. Each round appends one pair `[price, amount]`. -/
def depth_asks_loop (interval : ℚ) : ℕ → List order_t → List (ℚ × ℚ)
  | 0, _ => []
  | _ + 1, [] => []
  | n + 1, order :: nodes =>
    let price := depth_ask_price interval order.price
    let r := depth_asks_inner price nodes order.left
    (price, r.1) :: depth_asks_loop interval n r.2

/-- The outer loop of the bid side of `get_depth_merge`. -/
def depth_bids_loop (interval : ℚ) : ℕ → List order_t → List (ℚ × ℚ)
  | 0, _ => []
  | _ + 1, [] => []
  | n + 1, order :: nodes =>
    let price := depth_bid_price interval order.price
    let r := depth_bids_inner price nodes order.left
    (price, r.1) :: depth_bids_loop interval n r.2

/-- The function `get_depth_merge`: the arrays `asks` and `bids` of the result, each a list
of pairs `[price, amount]`. -/
def get_depth_merge (market : market_t) (limit : ℕ) (interval : ℚ) :
    List (ℚ × ℚ) × List (ℚ × ℚ) :=
  (depth_asks_loop interval limit market.asks, depth_bids_loop interval limit market.bids)

/-- The number `x` is the smallest multiple of `interval` that is at least `p`. -/
def smallest_multiple_ge (interval p x : ℚ) : Prop :=
  (∃ k : ℤ, x = k * interval) ∧ p ≤ x ∧ ∀ j : ℤ, p ≤ j * interval → x ≤ j * interval

/-- The number `x` is the largest multiple of `interval` that is at most `p`. -/
def largest_multiple_le (interval p x : ℚ) : Prop :=
  (∃ k : ℤ, x = k * interval) ∧ x ≤ p ∧ ∀ j : ℤ, (j : ℚ) * interval ≤ p → (j : ℚ) * interval ≤ x

/-- The orders of a list of levels, each given by its first order and the orders merged
into it, in the order of the book. -/
def depth_members (groups : List (order_t × List order_t)) : List order_t :=
  groups.flatMap (fun grp => grp.1 :: grp.2)

/-- The amount a level shows for its orders: the sum of their `left`. -/
def depth_amount (grp : order_t × List order_t) : ℚ :=
  ((grp.1 :: grp.2).map (fun o => o.left)).sum

/-! ## The message buffers (`me_message.c`) -/

/-- The three topics `rkt_balances`, `rkt_orders` and `rkt_deals`. -/
inductive topic_t where
  | balances
  | orders
  | deals
deriving DecidableEq

/-- What a call of `rd_kafka_produce` (librdkafka) can answer: the message is taken, or
the call returns -1 with the last error `RD_KAFKA_RESP_ERR__QUEUE_FULL`, or it returns -1
with another last error. -/
inductive produce_result where
  | taken
  | queue_full
  | failed
deriving DecidableEq

/-- The producer `rk` as the engine sees it: the number of calls of `rd_kafka_produce` made
so far, the messages the producer has taken, and the messages released (`free`, `list_del`)
after a call that failed with an error other than queue-full. -/
structure kafka_t where
  calls : ℕ
  produced : List (topic_t × String)
  dropped : List (topic_t × String)
deriving DecidableEq

/-- The function `push_message`: the return code, the list of the topic and the producer
afterwards. The first argument gives the answer of the k-th call of `rd_kafka_produce`. -/
def push_message (produce : ℕ → produce_result) (message : String) (topic : topic_t)
    (list : List String) (rk : kafka_t) : ℤ × List String × kafka_t :=
  if list.length ≠ 0 then (0, list ++ [message], rk)
  else
    match produce rk.calls with
    | .taken =>
      (0, list, { rk with calls := rk.calls + 1, produced := rk.produced ++ [(topic, message)] })
    | .queue_full => (0, list ++ [message], { rk with calls := rk.calls + 1 })
    | .failed =>
      (-352, list, { rk with calls := rk.calls + 1, dropped := rk.dropped ++ [(topic, message)] })

/-- The function `produce_list` over the nodes from the head of the list: the nodes that
stay in the list and the producer afterwards. A node is deleted after its call unless the
call answered queue-full, which ends the loop. -/
def produce_list (produce : ℕ → produce_result) (topic : topic_t) :
    List String → kafka_t → List String × kafka_t
  | [], rk => ([], rk)
  | node :: rest, rk =>
    match produce rk.calls with
    | .taken =>
      produce_list produce topic rest
        { rk with calls := rk.calls + 1, produced := rk.produced ++ [(topic, node)] }
    | .queue_full => (node :: rest, { rk with calls := rk.calls + 1 })
    | .failed =>
      produce_list produce topic rest
        { rk with calls := rk.calls + 1, dropped := rk.dropped ++ [(topic, node)] }

/-- The static variables of `me_message.c`: the three lists and the producer. -/
structure message_state where
  list_deals : List String
  list_orders : List String
  list_balances : List String
  rk : kafka_t
deriving DecidableEq

/-- The timer callback `on_timer`: each list that is not empty is handed to `produce_list`,
balances first, then orders, then deals. -/
def on_timer (produce : ℕ → produce_result) (s : message_state) : message_state :=
  let s :=
    if s.list_balances.length ≠ 0 then
      let r := produce_list produce .balances s.list_balances s.rk
      { s with list_balances := r.1, rk := r.2 }
    else s
  let s :=
    if s.list_orders.length ≠ 0 then
      let r := produce_list produce .orders s.list_orders s.rk
      { s with list_orders := r.1, rk := r.2 }
    else s
  if s.list_deals.length ≠ 0 then
    let r := produce_list produce .deals s.list_deals s.rk
    { s with list_deals := r.1, rk := r.2 }
  else s

/-- The call of `push_message` in `push_balance_message`, `push_order_message` and
`push_deal_message`: the message goes to the list of its topic, the return code is
dropped. -/
def push_topic_message (produce : ℕ → produce_result) (topic : topic_t) (message : String)
    (s : message_state) : message_state :=
  match topic with
  | .balances =>
    let r := push_message produce message .balances s.list_balances s.rk
    { s with list_balances := r.2.1, rk := r.2.2 }
  | .orders =>
    let r := push_message produce message .orders s.list_orders s.rk
    { s with list_orders := r.2.1, rk := r.2.2 }
  | .deals =>
    let r := push_message produce message .deals s.list_deals s.rk
    { s with list_deals := r.2.1, rk := r.2.2 }

/-- What happens to the message buffers: a message is pushed to a topic, or the timer
fires. -/
inductive message_op where
  | push (topic : topic_t) (message : String)
  | timer
deriving DecidableEq

/-- The message state after a sequence of pushes and timer runs. -/
def message_run (produce : ℕ → produce_result) : message_state → List message_op → message_state
  | s, [] => s
  | s, .push topic message :: ops =>
    message_run produce (push_topic_message produce topic message s) ops
  | s, .timer :: ops => message_run produce (on_timer produce s) ops

/-- The messages pushed by a sequence of operations, with their topics, in order. -/
def pushed_messages : List message_op → List (topic_t × String)
  | [] => []
  | .push topic message :: ops => (topic, message) :: pushed_messages ops
  | .timer :: ops => pushed_messages ops

/-- The messages held in the three lists, with their topics. -/
def buffered_messages (s : message_state) : List (topic_t × String) :=
  s.list_balances.map (fun x => (topic_t.balances, x)) ++
    s.list_orders.map (fun x => (topic_t.orders, x)) ++
    s.list_deals.map (fun x => (topic_t.deals, x))

/-- The state of `me_message.c` after `init_message`: empty lists, nothing produced. -/
def message_init : message_state :=
  { list_deals := [], list_orders := [], list_balances := [], rk := ⟨0, [], []⟩ }

/-! ## The order of the books -/

/-- The fields of an order that `order_match_compare` reads. -/
def order_key (o : order_t) : ℕ × ℕ × ℕ × ℚ := (o.id, o.type, o.side, o.price)

/-- An order with the given key and nothing else filled in. -/
def order_of_key (k : ℕ × ℕ × ℕ × ℚ) : order_t :=
  { new_limit_order k.1 0 k.2.2.1 0 k.2.2.2 0 0 with type := k.2.1 }

/-- Both books hold limit orders of their side. -/
def book_sides (m : market_t) : Prop :=
  (∀ o ∈ m.asks, o.type = MARKET_ORDER_TYPE_LIMIT ∧ o.side = MARKET_ORDER_SIDE_ASK) ∧
    (∀ o ∈ m.bids, o.type = MARKET_ORDER_TYPE_LIMIT ∧ o.side = MARKET_ORDER_SIDE_BID)

instance (m : market_t) : Decidable (book_sides m) := by
  unfold book_sides; infer_instance

/-- Both books are sorted by `order_match_compare` and, when neither is empty, the price of
the best bid is strictly lower than the price of the best ask. -/
def books_sorted_uncrossed (m : market_t) : Prop :=
  m.asks.Pairwise (fun a b => order_match_compare a b < 0) ∧
    m.bids.Pairwise (fun a b => order_match_compare a b < 0) ∧
    ∀ a ∈ m.asks.head?, ∀ b ∈ m.bids.head?, b.price < a.price

instance (m : market_t) : Decidable (books_sorted_uncrossed m) := by
  unfold books_sorted_uncrossed; infer_instance

/-- No bid reaches the price of an ask. -/
def books_apart (m : market_t) : Prop :=
  ∀ a ∈ m.asks, ∀ b ∈ m.bids, b.price < a.price

/-! ## The end-to-end scenarios of the specification -/

/-- The assets of the scenarios: `STK` and `MNY`, both of precision 8. -/
def scenario_assets : List (String × asset_type) := [("STK", ⟨8, 8⟩), ("MNY", ⟨8, 8⟩)]

/-- The market of scenarios 1 and 2: `STKMNY` with `stock_prec`, `money_prec`
and `fee_prec` all 4 and `min_amount` 0.0001. -/
def scenario_markets : List market_conf := [⟨"STKMNY", "STK", "MNY", 4, 4, 4, 1 / 10000⟩]

/-- The name limits of the scenarios: asset names of up to 15 bytes, business names of up
to 31 bytes. -/
def scenario_limits : name_limits := ⟨15, 31⟩

/-- The engine state reached from the initial state of the scenario
configuration by a sequence of requests. -/
def scenario_run (cmds : List command) : Option engine :=
  engine_run (L := scenario_limits) scenario_assets scenario_markets cmds

/-- The credits every scenario starts with: user 1 holds 10 `STK`, user 2
holds 1000 `MNY`. -/
def scenario_credit : List command :=
  [ .balance_update 0 1 "STK" "deposit" 1 (some 10),
    .balance_update 0 2 "MNY" "deposit" 2 (some 1000) ]

/-- Scenario 1: user 1 asks 1 @ 100, user 2 bids 1 @ 100, all fee rates 0. -/
def scenario1 : List command :=
  scenario_credit ++
  [ .order_put_limit 1 "STKMNY" MARKET_ORDER_SIDE_ASK (some 1) (some 100) (some 0) (some 0),
    .order_put_limit 2 "STKMNY" MARKET_ORDER_SIDE_BID (some 1) (some 100) (some 0) (some 0) ]

/-- Scenario 2: user 1 asks 5 @ 10 with maker fee 0.001, user 2 bids 3 @ 10
with taker fee 0.002. -/
def scenario2 : List command :=
  scenario_credit ++
  [ .order_put_limit 1 "STKMNY" MARKET_ORDER_SIDE_ASK (some 5) (some 10) (some 0)
      (some (1 / 1000)),
    .order_put_limit 2 "STKMNY" MARKET_ORDER_SIDE_BID (some 3) (some 10) (some (2 / 1000))
      (some 0) ]

/-- The content of one `order_deal_history` row: the deal id, the users of
the ask and of the bid order, price, amount, deal money, `ask_fee` (money)
and `bid_fee` (stock). -/
structure deal_row where
  deal_id : ℕ
  ask_user : ℕ
  bid_user : ℕ
  price : ℚ
  amount : ℚ
  deal : ℚ
  ask_fee : ℚ
  bid_fee : ℚ
deriving DecidableEq

/-- The deals recorded in an event log, oldest first. -/
def log_deals : List event → List deal_row
  | [] => []
  | .order_deal_history deal_id ask _ bid _ price amount deal ask_fee bid_fee :: rest =>
    ⟨deal_id, ask.user_id, bid.user_id, price, amount, deal, ask_fee, bid_fee⟩ :: log_deals rest
  | _ :: rest => log_deals rest

/-- What scenario 2 is about: the deals on record, the five balances the
scenario names (user 1 `STK` frozen, `STK` available, `MNY` available; user 2
`STK` available, `MNY` available) and owner, `left` and `freeze` of the
resting asks of every market. -/
structure scenario2_view_t where
  deals : List deal_row
  balances : List (Option ℚ)
  asks : List (List (ℕ × ℚ × ℚ))
deriving DecidableEq

/-- The view of scenario 2 on an engine state. -/
def scenario2_view (e : engine) : scenario2_view_t :=
  { deals := log_deals e.g.log
    balances :=
      [ balance_get e.g.dict_balance 1 BALANCE_TYPE_FREEZE "STK",
        balance_get e.g.dict_balance 1 BALANCE_TYPE_AVAILABLE "STK",
        balance_get e.g.dict_balance 1 BALANCE_TYPE_AVAILABLE "MNY",
        balance_get e.g.dict_balance 2 BALANCE_TYPE_AVAILABLE "STK",
        balance_get e.g.dict_balance 2 BALANCE_TYPE_AVAILABLE "MNY" ]
    asks := e.dict_market.map (fun m => m.asks.map (fun o => (o.user_id, o.left, o.freeze))) }

/-- The asset dictionary of the scenarios as a lookup function. -/
def scenario_dict_asset : dict_asset_t :=
  fun asset => if asset = "STK" ∨ asset = "MNY" then some ⟨8, 8⟩ else none

/-- Global variables over the scenario assets with the balance entries
listed, counters at the given values, nothing cached and nothing logged. -/
def scenario_globals (balances : List (balance_key × ℚ)) (order_id_start deals_id_start : ℕ) :
    globals :=
  { dict_asset := scenario_dict_asset
    dict_balance := fun key => (balances.find? (fun p => p.1 = key)).map (fun p => p.2)
    order_id_start := order_id_start
    deals_id_start := deals_id_start
    dict_update := fun _ => none
    log := [] }

/-- The market `STKMNY` of the scenarios (precisions 4, 4, 4) with the
given `min_amount` and books; the indices list the orders of the books. -/
def scenario_market (min_amount : ℚ) (asks bids : List order_t) : market_t :=
  { name := "STKMNY", stock := "STK", money := "MNY", stock_prec := 4, money_prec := 4,
    fee_prec := 4, min_amount := min_amount
    orders := fun id => (asks ++ bids).any (fun o => o.id = id)
    users := fun u =>
      if (asks ++ bids).any (fun o => o.user_id = u) then
        some (((asks ++ bids).filter (fun o => o.user_id = u)).map (fun o => o.id))
      else none
    asks := asks, bids := bids }

/-- The engine state the scenario configuration reaches by a sequence of
requests (the empty engine over the scenario assets when it reaches none). -/
def scenario_state (cmds : List command) : engine :=
  match scenario_run cmds with
  | some e => e
  | none => { g := scenario_globals [] 0 0, dict_market := [] }

/-- The market `STKMNY` of an engine state (the empty scenario market when
the state has none). -/
def scenario_stkmny (e : engine) : market_t :=
  match get_market e "STKMNY" with
  | some m => m
  | none => scenario_market (1 / 10000) [] []

/-- The requests before the deal of `scenario_fee_digits`: the two credits,
then user 2 bids 1 @ 1.0001 at fee rates 0. -/
def scenario_fee_digits_before : List command :=
  scenario_credit ++
  [ .order_put_limit 2 "STKMNY" MARKET_ORDER_SIDE_BID (some 1) (some (10001 / 10000)) (some 0)
      (some 0) ]

/-- A deal whose money fee has more digits than the ledger stores: after
`scenario_fee_digits_before`, user 1 asks 0.0001 @ 1.0001 at taker fee rate
0.0001. The precisions of the scenario market pass `market_create`
(4 + 4 ≤ 8 three times), yet `ask_fee` has 4 + 4 + 4 = 12 fractional digits. -/
def scenario_fee_digits : List command :=
  scenario_fee_digits_before ++
  [ .order_put_limit 1 "STKMNY" MARKET_ORDER_SIDE_ASK (some (1 / 10000)) (some (10001 / 10000))
      (some (1 / 10000)) (some 0) ]

/-- The sum over the listed users of the available and the frozen balance in
an asset. -/
def asset_total (d : dict_balance_t) (users : List ℕ) (asset : String) : ℚ :=
  (users.map (fun u =>
    bal d u BALANCE_TYPE_AVAILABLE asset + bal d u BALANCE_TYPE_FREEZE asset)).sum

/-- A deal whose fee leaves less than one unit of the asset: after the two
credits, user 2 bids 0.0001 @ 0.0001 at fee rates 0 and user 1 asks
0.0001 @ 0.0001 at taker fee rate 0.9. The deal is worth 0.00000001 `MNY`
and `ask_fee` is 0.000000009 `MNY`. -/
def scenario_zero_entry : List command :=
  scenario_credit ++
  [ .order_put_limit 2 "STKMNY" MARKET_ORDER_SIDE_BID (some (1 / 10000)) (some (1 / 10000))
      (some 0) (some 0),
    .order_put_limit 1 "STKMNY" MARKET_ORDER_SIDE_ASK (some (1 / 10000)) (some (1 / 10000))
      (some (9 / 10)) (some 0) ]

/-- The market of scenario 3: `STKMNY` with `stock_prec` 4, `money_prec` 2,
`fee_prec` 4 and `min_amount` 0.0001. -/
def scenario3_markets : List market_conf := [⟨"STKMNY", "STK", "MNY", 4, 2, 4, 1 / 10000⟩]

/-- Scenario 3 before the market order: after the credits, user 1 asks
1 @ 7.03 and 2 @ 7.05 at fee rates 0. -/
def scenario3_before : List command :=
  scenario_credit ++
  [ .order_put_limit 1 "STKMNY" MARKET_ORDER_SIDE_ASK (some 1) (some (703 / 100)) (some 0)
      (some 0),
    .order_put_limit 1 "STKMNY" MARKET_ORDER_SIDE_ASK (some 2) (some (705 / 100)) (some 0)
      (some 0) ]

/-- Scenario 3: user 2 then puts a market bid of 10 `MNY` at taker fee
rate 0. -/
def scenario3 : List command :=
  scenario3_before ++ [ .order_put_market 2 "STKMNY" MARKET_ORDER_SIDE_BID (some 10) (some 0) ]

/-- Scenario 4 before the cancel: after the credits, user 2 bids 2 @ 50 at
fee rates 0. -/
def scenario4_before : List command :=
  scenario_credit ++
  [ .order_put_limit 2 "STKMNY" MARKET_ORDER_SIDE_BID (some 2) (some 50) (some 0) (some 0) ]

/-- Scenario 4: user 2 then cancels the order, which has id 1. -/
def scenario4 : List command :=
  scenario4_before ++ [ .order_cancel 2 "STKMNY" 1 ]

/-- The orders written to `order_history` in an event log, oldest first. -/
def log_orders : List event → List order_t
  | [] => []
  | .order_history order :: rest => order :: log_orders rest
  | _ :: rest => log_orders rest

/-- What an `order_history` row says about the execution of an order: type,
owner, and the totals `deal_stock`, `deal_money` and `left`. -/
structure order_row where
  type : ℕ
  user_id : ℕ
  deal_stock : ℚ
  deal_money : ℚ
  left : ℚ
deriving DecidableEq

/-- The rows of `order_history` in an event log, oldest first. -/
def log_order_rows (log : List event) : List order_row :=
  (log_orders log).map (fun o => ⟨o.type, o.user_id, o.deal_stock, o.deal_money, o.left⟩)

/-- The global variables with the event log replaced by `log`. -/
def with_log (g : globals) (log : List event) : globals :=
  { g with log := log }

/-- The event log `l2` is `l1` with events appended, none when `real` is
not set. -/
def log_grows (real : Bool) (l1 l2 : List event) : Prop :=
  l1 <+: l2 ∧ (real = false → l2 = l1)

/-- Two values of the global variables agree on everything but the event
log: asset dictionary, ledger, both counters and the cache of applied
updates. -/
def same_but_log (g1 g2 : globals) : Prop :=
  g1.dict_asset = g2.dict_asset ∧ g1.dict_balance = g2.dict_balance ∧
    g1.order_id_start = g2.order_id_start ∧ g1.deals_id_start = g2.deals_id_start ∧
    g1.dict_update = g2.dict_update

/-- A book for the depth queries: asks at 100.1 (left 1), 100.3 (left 2) and 101.2
(left 3), bids at 99.9 (left 4), 99.6 (left 5) and 99.2 (left 6). -/
def scenario_depth_market : market_t :=
  scenario_market (1 / 10000)
    [ new_limit_order 1 1 MARKET_ORDER_SIDE_ASK 1 (1001 / 10) 0 0,
      new_limit_order 2 1 MARKET_ORDER_SIDE_ASK 2 (1003 / 10) 0 0,
      new_limit_order 3 1 MARKET_ORDER_SIDE_ASK 3 (1012 / 10) 0 0 ]
    [ new_limit_order 4 2 MARKET_ORDER_SIDE_BID 4 (999 / 10) 0 0,
      new_limit_order 5 2 MARKET_ORDER_SIDE_BID 5 (996 / 10) 0 0,
      new_limit_order 6 2 MARKET_ORDER_SIDE_BID 6 (992 / 10) 0 0 ]

/-- The resting ask of scenario 2 at the time of the deal: 5 @ 10 by user 1 with maker fee
0.001, its 5 `STK` frozen. -/
def scenario_resting_ask : order_t :=
  { new_limit_order 1 1 MARKET_ORDER_SIDE_ASK 5 10 0 (1 / 1000) with freeze := 5 }

/-- The incoming bid of scenario 2: 3 @ 10 by user 2 with taker fee 0.002. -/
def scenario_incoming_bid : order_t :=
  new_limit_order 2 2 MARKET_ORDER_SIDE_BID 3 10 (2 / 1000) 0

/-- The global variables of scenario 2 at the time of the deal. -/
def scenario_deal_globals : globals :=
  scenario_globals [(⟨1, BALANCE_TYPE_AVAILABLE, "STK"⟩, 5),
    (⟨1, BALANCE_TYPE_FREEZE, "STK"⟩, 5), (⟨2, BALANCE_TYPE_AVAILABLE, "MNY"⟩, 1000)] 1 0

/-- The market of scenario 2 at the time of the deal. -/
def scenario_deal_market : market_t :=
  scenario_market (1 / 10000) [scenario_resting_ask] []

/-! # Verified properties -/

/-! ## Decimals on a grid -/

theorem pow10_pos (p : ℕ) : (0 : ℚ) < 10 ^ p := by positivity

theorem on_grid_of_int (n : ℤ) (p : ℕ) : on_grid ((n : ℚ) / 10 ^ p) p := by
  have h10 := pow10_pos p
  unfold on_grid mpd_rescale
  split_ifs with h
  · rw [div_mul_cancel₀ _ h10.ne', Int.floor_intCast]
  · have e : -((n : ℚ) / 10 ^ p) * 10 ^ p = ((-n : ℤ) : ℚ) := by
      rw [Int.cast_neg]; field_simp
    rw [e, Int.floor_intCast, Int.cast_neg, neg_div, neg_neg]

theorem mpd_rescale_on_grid (x : ℚ) (p : ℕ) : on_grid (mpd_rescale x p) p := by
  unfold mpd_rescale
  split_ifs with h
  · exact on_grid_of_int _ _
  · rw [← neg_div, ← Int.cast_neg]
    exact on_grid_of_int _ _

theorem on_grid_iff (x : ℚ) (p : ℕ) : on_grid x p ↔ ∃ n : ℤ, x = (n : ℚ) / 10 ^ p := by
  constructor
  · intro h
    unfold on_grid mpd_rescale at h
    split_ifs at h with h0
    · exact ⟨_, h.symm⟩
    · refine ⟨-⌊-x * 10 ^ p⌋, ?_⟩
      rw [Int.cast_neg, neg_div]
      exact h.symm
  · rintro ⟨n, rfl⟩
    exact on_grid_of_int n p

theorem on_grid_zero (p : ℕ) : on_grid 0 p := by
  rw [on_grid_iff]; exact ⟨0, by simp⟩

theorem on_grid_add {x y : ℚ} {p : ℕ} (hx : on_grid x p) (hy : on_grid y p) :
    on_grid (x + y) p := by
  rw [on_grid_iff] at *
  obtain ⟨a, rfl⟩ := hx
  obtain ⟨b, rfl⟩ := hy
  exact ⟨a + b, by push_cast; ring⟩

theorem on_grid_sub {x y : ℚ} {p : ℕ} (hx : on_grid x p) (hy : on_grid y p) :
    on_grid (x - y) p := by
  rw [on_grid_iff] at *
  obtain ⟨a, rfl⟩ := hx
  obtain ⟨b, rfl⟩ := hy
  exact ⟨a - b, by push_cast; ring⟩

theorem on_grid_mul {x y : ℚ} {p q : ℕ} (hx : on_grid x p) (hy : on_grid y q) :
    on_grid (x * y) (p + q) := by
  rw [on_grid_iff] at *
  obtain ⟨a, rfl⟩ := hx
  obtain ⟨b, rfl⟩ := hy
  exact ⟨a * b, by push_cast; rw [pow_add]; field_simp⟩

theorem on_grid_mono {x : ℚ} {p q : ℕ} (hx : on_grid x p) (hpq : p ≤ q) : on_grid x q := by
  rw [on_grid_iff] at *
  obtain ⟨a, rfl⟩ := hx
  obtain ⟨k, rfl⟩ := Nat.exists_eq_add_of_le hpq
  refine ⟨a * 10 ^ k, ?_⟩
  push_cast
  rw [pow_add]
  field_simp
  ring

theorem mpd_rescale_nonneg {x : ℚ} (p : ℕ) (hx : 0 ≤ x) : 0 ≤ mpd_rescale x p := by
  unfold mpd_rescale
  rw [if_pos hx]
  have h10 := pow10_pos p
  apply div_nonneg _ h10.le
  exact_mod_cast Int.floor_nonneg.mpr (mul_nonneg hx h10.le)

theorem mpd_rescale_le {x : ℚ} (p : ℕ) (hx : 0 ≤ x) : mpd_rescale x p ≤ x := by
  unfold mpd_rescale
  rw [if_pos hx]
  have h10 := pow10_pos p
  rw [div_le_iff₀ h10]
  exact Int.floor_le _

theorem le_mpd_rescale {x y : ℚ} {p : ℕ} (hy : on_grid y p) (hyx : y ≤ x) (hx : 0 ≤ x) :
    y ≤ mpd_rescale x p := by
  have h10 := pow10_pos p
  rw [on_grid_iff] at hy
  obtain ⟨n, rfl⟩ := hy
  unfold mpd_rescale
  rw [if_pos hx]
  apply div_le_div_of_nonneg_right _ h10.le
  have : (n : ℚ) ≤ x * 10 ^ p := by rwa [div_le_iff₀ h10] at hyx
  exact_mod_cast Int.le_floor.mpr this

theorem mpd_rescale_eq_self {x : ℚ} {p : ℕ} (hx : on_grid x p) : mpd_rescale x p = x := hx

/-! ## Rejection of limit orders (C6, C7) -/

theorem put_limit_of_short (real : Bool) (g : globals) (m : market_t) (user_id side : ℕ)
    (amount price taker_fee maker_fee : ℚ)
    (h : put_limit_short g m user_id side amount price = true) :
    market_put_limit_order real g m user_id side amount price taker_fee maker_fee =
      (-1, g, m, none, []) := by
  unfold market_put_limit_order
  simp only [h, if_true]

theorem put_limit_of_small (real : Bool) (g : globals) (m : market_t) (user_id side : ℕ)
    (amount price taker_fee maker_fee : ℚ)
    (h : put_limit_short g m user_id side amount price = false) (h2 : amount < m.min_amount) :
    market_put_limit_order real g m user_id side amount price taker_fee maker_fee =
      (-2, g, m, none, []) := by
  unfold market_put_limit_order
  simp only [h, h2, if_true, Bool.false_eq_true, if_false]

theorem put_limit_of_pass (real : Bool) (g : globals) (m : market_t) (user_id side : ℕ)
    (amount price taker_fee maker_fee : ℚ)
    (h : put_limit_short g m user_id side amount price = false) (h2 : ¬ amount < m.min_amount) :
    (market_put_limit_order real g m user_id side amount price taker_fee maker_fee).1 = 0 := by
  unfold market_put_limit_order
  simp only [h, h2, Bool.false_eq_true, if_false]

theorem balance_short_iff (balance : Option ℚ) (require : ℚ) :
    balance_short balance require = true ↔
      (balance = none ∨ ∃ b, balance = some b ∧ b < require) := by
  cases balance with
  | none => simp [balance_short]
  | some b => simp [balance_short]

/-- C6: for a limit request with `amount ≥ min_amount` on side ask or bid,
`market_put_limit_order` returns -1 (insufficient balance) exactly when the
available stock (ask) is absent or below `amount`, or the available money
(bid) is absent or below `price * amount`; and whenever it returns -1 or -2
the global variables (ledger, counters) and the market (books, indices) are
unchanged. -/
theorem c6_put_limit_insufficient_balance (real : Bool) (g : globals) (m : market_t)
    (user_id side : ℕ) (amount price taker_fee maker_fee : ℚ)
    (hside : side = MARKET_ORDER_SIDE_ASK ∨ side = MARKET_ORDER_SIDE_BID) :
    (m.min_amount ≤ amount →
      ((market_put_limit_order real g m user_id side amount price taker_fee maker_fee).1 = -1 ↔
        ((side = MARKET_ORDER_SIDE_ASK ∧
            (balance_get g.dict_balance user_id BALANCE_TYPE_AVAILABLE m.stock = none ∨
              ∃ b, balance_get g.dict_balance user_id BALANCE_TYPE_AVAILABLE m.stock = some b ∧
                b < amount)) ∨
          (side = MARKET_ORDER_SIDE_BID ∧
            (balance_get g.dict_balance user_id BALANCE_TYPE_AVAILABLE m.money = none ∨
              ∃ b, balance_get g.dict_balance user_id BALANCE_TYPE_AVAILABLE m.money = some b ∧
                b < price * amount))))) ∧
    (((market_put_limit_order real g m user_id side amount price taker_fee maker_fee).1 = -1 ∨
        (market_put_limit_order real g m user_id side amount price taker_fee maker_fee).1 = -2) →
      (market_put_limit_order real g m user_id side amount price taker_fee maker_fee).2.1 = g ∧
      (market_put_limit_order real g m user_id side amount price taker_fee maker_fee).2.2.1 = m) := by
  have hne : MARKET_ORDER_SIDE_BID ≠ MARKET_ORDER_SIDE_ASK := by decide
  have hshort : put_limit_short g m user_id side amount price = true ↔
      ((side = MARKET_ORDER_SIDE_ASK ∧
            (balance_get g.dict_balance user_id BALANCE_TYPE_AVAILABLE m.stock = none ∨
              ∃ b, balance_get g.dict_balance user_id BALANCE_TYPE_AVAILABLE m.stock = some b ∧
                b < amount)) ∨
          (side = MARKET_ORDER_SIDE_BID ∧
            (balance_get g.dict_balance user_id BALANCE_TYPE_AVAILABLE m.money = none ∨
              ∃ b, balance_get g.dict_balance user_id BALANCE_TYPE_AVAILABLE m.money = some b ∧
                b < price * amount))) := by
    unfold put_limit_short
    rcases hside with h | h
    · subst h
      simp only [if_true, balance_short_iff, true_and, hne.symm, false_and, or_false]
    · subst h
      simp only [hne, if_false, balance_short_iff, false_and, true_and, false_or, mul_comm]
  cases hs : put_limit_short g m user_id side amount price with
  | true =>
    rw [put_limit_of_short real g m user_id side amount price taker_fee maker_fee hs]
    exact ⟨fun _ => ⟨fun _ => hshort.mp hs, fun _ => rfl⟩, fun _ => ⟨rfl, rfl⟩⟩
  | false =>
    have hns : ¬ put_limit_short g m user_id side amount price = true := by simp [hs]
    by_cases h2 : amount < m.min_amount
    · rw [put_limit_of_small real g m user_id side amount price taker_fee maker_fee hs h2]
      refine ⟨fun hmin => absurd h2 (not_lt.mpr hmin), fun _ => ⟨rfl, rfl⟩⟩
    · have h0 := put_limit_of_pass real g m user_id side amount price taker_fee maker_fee hs h2
      refine ⟨fun _ => ⟨fun h => ?_, fun h => absurd (hshort.mpr h) hns⟩, fun h => ?_⟩
      · rw [h0] at h; exact absurd h (by decide)
      · rw [h0] at h; rcases h with h | h <;> exact absurd h (by decide)

/-- Witness for C6: user 1 holds 10 STK and asks 20 @ 10 in the scenario
market. -/
theorem c6_put_limit_insufficient_balance_witness :
    (market_put_limit_order true
        (scenario_globals [(⟨1, BALANCE_TYPE_AVAILABLE, "STK"⟩, 10)] 0 0)
        (scenario_market (1 / 10000) [] []) 1 MARKET_ORDER_SIDE_ASK 20 10 0 0).1 = -1 :=
  ((c6_put_limit_insufficient_balance true
      (scenario_globals [(⟨1, BALANCE_TYPE_AVAILABLE, "STK"⟩, 10)] 0 0)
      (scenario_market (1 / 10000) [] []) 1 MARKET_ORDER_SIDE_ASK 20 10 0 0 (Or.inl rfl)).1
    (by decide!)).mpr (Or.inl ⟨rfl, Or.inr ⟨10, by decide!, by decide!⟩⟩)

/-- C7, as stated, fails on the code: with `min_amount` 1, an ask of 0.5 by a
user without any balance is below the minimum, yet the call returns -1
(insufficient balance), not -2. -/
theorem c7_counterexample :
    (1 / 2 : ℚ) < (scenario_market 1 [] []).min_amount ∧
    (market_put_limit_order true (scenario_globals [] 0 0) (scenario_market 1 [] [])
        1 MARKET_ORDER_SIDE_ASK (1 / 2) 10 0 0).1 ≠ -2 := by
  decide!

/-- C7 amended: `market_put_limit_order` returns -2 (amount too small)
exactly when the balance test passes and `amount < min_amount`; the balance
test comes first, so a request that fails both returns -1; and -2 is never
returned when `amount ≥ min_amount`. -/
theorem c7_put_limit_amount_too_small (real : Bool) (g : globals) (m : market_t)
    (user_id side : ℕ) (amount price taker_fee maker_fee : ℚ) :
    ((market_put_limit_order real g m user_id side amount price taker_fee maker_fee).1 = -2 ↔
      (put_limit_short g m user_id side amount price = false ∧ amount < m.min_amount)) ∧
    (put_limit_short g m user_id side amount price = true →
      (market_put_limit_order real g m user_id side amount price taker_fee maker_fee).1 = -1) ∧
    (m.min_amount ≤ amount →
      (market_put_limit_order real g m user_id side amount price taker_fee maker_fee).1 ≠ -2) := by
  cases hs : put_limit_short g m user_id side amount price with
  | true =>
    rw [put_limit_of_short real g m user_id side amount price taker_fee maker_fee hs]
    refine ⟨⟨fun h => absurd h (by simp), fun h => absurd h.1 (by simp)⟩, fun _ => rfl,
      fun _ => by simp⟩
  | false =>
    by_cases h2 : amount < m.min_amount
    · rw [put_limit_of_small real g m user_id side amount price taker_fee maker_fee hs h2]
      exact ⟨⟨fun _ => ⟨rfl, h2⟩, fun _ => rfl⟩, fun h => absurd h (by simp),
        fun hmin => absurd h2 (not_lt.mpr hmin)⟩
    · have h0 := put_limit_of_pass real g m user_id side amount price taker_fee maker_fee hs h2
      rw [h0]
      exact ⟨⟨fun h => absurd h (by decide), fun h => absurd h.2 h2⟩, fun h => absurd h (by simp),
        fun _ => by decide⟩

/-! ## Scenario 2 (C2) -/

/-- C2, as stated, fails on the code: after scenario 2 the five balances are
not the ones the scenario expects (frozen STK 2, available STK 5, available
MNY 30 for user 1; available STK 2.997 and available MNY 969.94 for user 2). -/
theorem c2_counterexample :
    ¬ ((scenario_run scenario2).map (fun e => (scenario2_view e).balances) =
        some [some 2, some 5, some 30, some (2997 / 1000), some (96994 / 100)]) := by
  decide!

/-- C2 amended: scenario 2 executes one deal of 3 @ 10 (deal money 30) between
the ask of user 1 and the bid of user 2, with `ask_fee` 0.03 (money, charged
to user 1) and `bid_fee` 0.006 (stock, charged to user 2); afterwards user 1
has STK frozen 2, STK available 5, MNY available 29.97, user 2 has STK
available 2.994 and MNY available 970, and the ask of user 1 rests with
left 2 and freeze 2. -/
theorem c2_scenario2 :
    (scenario_run scenario2).map scenario2_view =
      some
        { deals := [⟨1, 1, 2, 10, 3, 30, 3 / 100, 6 / 1000⟩]
          balances := [some 2, some 5, some (2997 / 100), some (2994 / 1000), some 970]
          asks := [[(1, 2, 2)]] } := by
  decide!

/-! ## The ledger operations -/

theorem bal_nonneg {A : dict_asset_t} {d : dict_balance_t} (h : LedgerOK A d) (u t : ℕ)
    (a : String) : 0 ≤ bal d u t a := by
  unfold bal
  cases hk : d ⟨u, t, a⟩ with
  | none => simp
  | some v => simpa using (h _ _ hk).1

theorem bal_on_grid {A : dict_asset_t} {d : dict_balance_t} (h : LedgerOK A d) (u t : ℕ)
    {a : String} {as : asset_type} (ha : A a = some as) : on_grid (bal d u t a) as.prec_save := by
  unfold bal
  cases hk : d ⟨u, t, a⟩ with
  | none => simpa using on_grid_zero _
  | some v =>
    obtain ⟨_, a', ha', hg⟩ := h _ _ hk
    simp only at ha'
    rw [ha] at ha'
    cases ha'
    simpa using hg

theorem mpd_rescale_zero (p : ℕ) : mpd_rescale 0 p = 0 := on_grid_zero p

theorem LedgerOK_update {A : dict_asset_t} {d : dict_balance_t} (h : LedgerOK A d)
    (k : balance_key) {v : ℚ} {as : asset_type} (ha : A k.asset = some as) (hv : 0 ≤ v)
    (hg : on_grid v as.prec_save) : LedgerOK A (Function.update d k (some v)) := by
  intro k' v' hk'
  by_cases e : k' = k
  · subst e
    rw [Function.update_same] at hk'
    cases hk'
    exact ⟨hv, as, ha, hg⟩
  · rw [Function.update_noteq e] at hk'
    exact h _ _ hk'

theorem LedgerOK_delete {A : dict_asset_t} {d : dict_balance_t} (h : LedgerOK A d)
    (k : balance_key) : LedgerOK A (Function.update d k none) := by
  intro k' v' hk'
  by_cases e : k' = k
  · subst e
    rw [Function.update_same] at hk'
    cases hk'
  · rw [Function.update_noteq e] at hk'
    exact h _ _ hk'

/-- what `ledger_sub` does to the ledger, for a configured asset -/
theorem ledger_sub_eq {A : dict_asset_t} (d : dict_balance_t) (u t : ℕ) {a : String}
    {as : asset_type} (ha : A a = some as) (v : ℚ) :
    ledger_sub A d u t a v =
      if 0 ≤ v ∧ (∃ b, d ⟨u, t, a⟩ = some b ∧ v ≤ b) then
        (if bal d u t a - v = 0 then Function.update d ⟨u, t, a⟩ none
         else Function.update d ⟨u, t, a⟩ (some (mpd_rescale (bal d u t a - v) as.prec_save)))
      else d := by
  unfold ledger_sub balance_sub balance_get balance_del bal
  simp only [ha]
  by_cases hv : v < 0
  · simp [hv, not_le.mpr hv]
  · simp only [hv, if_false, not_lt.mp hv, true_and]
    cases hk : d ⟨u, t, a⟩ with
    | none => simp
    | some b =>
      by_cases hb : b < v
      · simp [hb, not_le.mpr hb]
      · simp only [hb, if_false, Option.getD_some, Option.some.injEq, exists_eq_left', not_lt.mp hb,
          if_true]
        split_ifs <;> rfl

theorem ledger_add_eq {A : dict_asset_t} (d : dict_balance_t) (u t : ℕ) {a : String}
    {as : asset_type} (ha : A a = some as) (v : ℚ) :
    ledger_add A d u t a v =
      if 0 ≤ v then
        (if d ⟨u, t, a⟩ = none ∧ v = 0 then Function.update d ⟨u, t, a⟩ none
         else Function.update d ⟨u, t, a⟩ (some (mpd_rescale (bal d u t a + v) as.prec_save)))
      else d := by
  unfold ledger_add balance_add balance_set balance_del bal
  simp only [ha]
  by_cases hv : v < 0
  · simp [hv, not_le.mpr hv]
  · simp only [hv, if_false, not_lt.mp hv, if_true]
    cases hk : d ⟨u, t, a⟩ with
    | none =>
      by_cases h0 : v = 0
      · simp [h0]
      · simp [h0]
    | some b => simp

theorem ledger_sub_unknown {A : dict_asset_t} (d : dict_balance_t) (u t : ℕ) {a : String}
    (ha : A a = none) (v : ℚ) : ledger_sub A d u t a v = d := by
  unfold ledger_sub balance_sub
  simp only [ha]

theorem ledger_add_unknown {A : dict_asset_t} (d : dict_balance_t) (u t : ℕ) {a : String}
    (ha : A a = none) (v : ℚ) : ledger_add A d u t a v = d := by
  unfold ledger_add balance_add
  simp only [ha]

theorem bal_update_some (d : dict_balance_t) (k : balance_key) (x : ℚ) (u t : ℕ) (a : String) :
    bal (Function.update d k (some x)) u t a = if (⟨u, t, a⟩ : balance_key) = k then x else bal d u t a := by
  unfold bal
  by_cases e : (⟨u, t, a⟩ : balance_key) = k
  · rw [e, Function.update_same, if_pos rfl]; rfl
  · rw [Function.update_noteq e, if_neg e]

theorem bal_update_none (d : dict_balance_t) (k : balance_key) (u t : ℕ) (a : String) :
    bal (Function.update d k none) u t a = if (⟨u, t, a⟩ : balance_key) = k then 0 else bal d u t a := by
  unfold bal
  by_cases e : (⟨u, t, a⟩ : balance_key) = k
  · rw [e, Function.update_same, if_pos rfl]; rfl
  · rw [Function.update_noteq e, if_neg e]

theorem ledger_sub_ok {A : dict_asset_t} {d : dict_balance_t} (h : LedgerOK A d) (u t : ℕ)
    (a : String) (v : ℚ) : LedgerOK A (ledger_sub A d u t a v) := by
  cases ha : A a with
  | none => rw [ledger_sub_unknown d u t ha]; exact h
  | some as =>
    rw [ledger_sub_eq d u t ha]
    split_ifs with h1 h2
    · exact LedgerOK_delete h _
    · obtain ⟨hv, b, hb, hvb⟩ := h1
      have hbal : bal d u t a = b := by unfold bal; rw [hb]; rfl
      apply LedgerOK_update h _ ha
      · exact mpd_rescale_nonneg _ (by rw [hbal]; linarith)
      · exact mpd_rescale_on_grid _ _
    · exact h

theorem ledger_add_ok {A : dict_asset_t} {d : dict_balance_t} (h : LedgerOK A d) (u t : ℕ)
    (a : String) (v : ℚ) : LedgerOK A (ledger_add A d u t a v) := by
  cases ha : A a with
  | none => rw [ledger_add_unknown d u t ha]; exact h
  | some as =>
    rw [ledger_add_eq d u t ha]
    split_ifs with h1 h2
    · exact LedgerOK_delete h _
    · apply LedgerOK_update h _ ha
      · exact mpd_rescale_nonneg _ (add_nonneg (bal_nonneg h u t a) h1)
      · exact mpd_rescale_on_grid _ _
    · exact h

theorem ledger_sub_bal {A : dict_asset_t} {d : dict_balance_t} (u t : ℕ)
    {a : String} {as : asset_type} (ha : A a = some as) (v : ℚ) (u' t' : ℕ) (a' : String) :
    bal (ledger_sub A d u t a v) u' t' a' =
      if (u' = u ∧ t' = t ∧ a' = a) ∧ 0 ≤ v ∧ v ≤ bal d u t a then
        mpd_rescale (bal d u t a - v) as.prec_save
      else bal d u' t' a' := by
  rw [ledger_sub_eq d u t ha]
  have hkey : ((⟨u', t', a'⟩ : balance_key) = ⟨u, t, a⟩) ↔ (u' = u ∧ t' = t ∧ a' = a) := by
    simp
  by_cases hv : 0 ≤ v
  · cases hk : d ⟨u, t, a⟩ with
    | none =>
      have hb : bal d u t a = 0 := by unfold bal; rw [hk]; rfl
      simp only [hv, true_and, reduceCtorEq, false_and, exists_false, if_false, hb, zero_sub]
      split_ifs with h1
      · obtain ⟨⟨rfl, rfl, rfl⟩, hv0⟩ := h1
        have : v = 0 := le_antisymm hv0 hv
        subst this
        rw [neg_zero, mpd_rescale_zero, hb]
      · rfl
    | some b =>
      have hb : bal d u t a = b := by unfold bal; rw [hk]; rfl
      simp only [hv, true_and, Option.some.injEq, exists_eq_left', hb]
      by_cases hvb : v ≤ b
      · simp only [hvb, if_true, and_true]
        split_ifs with h0 h1 h1
        · rw [bal_update_none, if_pos (hkey.mpr h1), h0, mpd_rescale_zero]
        · rw [bal_update_none, if_neg (fun e => h1 (hkey.mp e))]
        · rw [bal_update_some, if_pos (hkey.mpr h1)]
        · rw [bal_update_some, if_neg (fun e => h1 (hkey.mp e))]
      · simp only [hvb, if_false, and_false]
  · simp only [hv, false_and, if_false, and_false]

theorem ledger_add_bal {A : dict_asset_t} {d : dict_balance_t} (u t : ℕ)
    {a : String} {as : asset_type} (ha : A a = some as) (v : ℚ) (u' t' : ℕ) (a' : String) :
    bal (ledger_add A d u t a v) u' t' a' =
      if (u' = u ∧ t' = t ∧ a' = a) ∧ 0 ≤ v then
        mpd_rescale (bal d u t a + v) as.prec_save
      else bal d u' t' a' := by
  rw [ledger_add_eq d u t ha]
  have hkey : ((⟨u', t', a'⟩ : balance_key) = ⟨u, t, a⟩) ↔ (u' = u ∧ t' = t ∧ a' = a) := by
    simp
  by_cases hv : 0 ≤ v
  · simp only [hv, if_true, and_true]
    split_ifs with h0 h1 h1
    · obtain ⟨hk, rfl⟩ := h0
      have hb : bal d u t a = 0 := by unfold bal; rw [hk]; rfl
      rw [bal_update_none, if_pos (hkey.mpr h1), hb, add_zero, mpd_rescale_zero]
    · rw [bal_update_none, if_neg (fun e => h1 (hkey.mp e))]
    · rw [bal_update_some, if_pos (hkey.mpr h1)]
    · rw [bal_update_some, if_neg (fun e => h1 (hkey.mp e))]
  · simp only [hv, if_false, and_false]

theorem type_available_ne_freeze : BALANCE_TYPE_AVAILABLE ≠ BALANCE_TYPE_FREEZE := by decide

theorem pay_available {A : dict_asset_t} {d : dict_balance_t} (h : LedgerOK A d) (u : ℕ)
    {a : String} {as : asset_type} (ha : A a = some as) {v : ℚ} (hv : 0 ≤ v)
    (hg : on_grid v as.prec_save) :
    (∀ u' a', bal (ledger_sub A d u BALANCE_TYPE_AVAILABLE a v) u' BALANCE_TYPE_FREEZE a' =
        bal d u' BALANCE_TYPE_FREEZE a') ∧
    (∀ u' a', bal d u' BALANCE_TYPE_AVAILABLE a' - (if u' = u ∧ a' = a then v else 0) ≤
        bal (ledger_sub A d u BALANCE_TYPE_AVAILABLE a v) u' BALANCE_TYPE_AVAILABLE a') := by
  constructor
  · intro u' a'
    rw [ledger_sub_bal u _ ha, if_neg]
    rintro ⟨⟨_, ht, _⟩, _⟩
    exact type_available_ne_freeze ht.symm
  · intro u' a'
    rw [ledger_sub_bal u _ ha]
    by_cases hk : u' = u ∧ a' = a
    · obtain ⟨rfl, rfl⟩ := hk
      simp only [and_self, true_and, if_true, hv]
      split_ifs with h1
      · have := on_grid_sub (bal_on_grid h u' BALANCE_TYPE_AVAILABLE ha) hg
        rw [mpd_rescale_eq_self this]
      · linarith
    · rw [if_neg hk, if_neg (fun e => hk ⟨e.1.1, e.1.2.2⟩), sub_zero]

theorem pay_frozen {A : dict_asset_t} {d : dict_balance_t} (h : LedgerOK A d) (u : ℕ)
    {a : String} {as : asset_type} (ha : A a = some as) {v : ℚ} (hv : 0 ≤ v)
    (hg : on_grid v as.prec_save) (hle : v ≤ bal d u BALANCE_TYPE_FREEZE a) :
    (∀ u' a', bal (ledger_sub A d u BALANCE_TYPE_FREEZE a v) u' BALANCE_TYPE_FREEZE a' =
        bal d u' BALANCE_TYPE_FREEZE a' - (if u' = u ∧ a' = a then v else 0)) ∧
    (∀ u' a', bal (ledger_sub A d u BALANCE_TYPE_FREEZE a v) u' BALANCE_TYPE_AVAILABLE a' =
        bal d u' BALANCE_TYPE_AVAILABLE a') := by
  constructor
  · intro u' a'
    rw [ledger_sub_bal u _ ha]
    by_cases hk : u' = u ∧ a' = a
    · obtain ⟨rfl, rfl⟩ := hk
      simp only [and_self, true_and, if_true, hv, hle]
      exact mpd_rescale_eq_self (on_grid_sub (bal_on_grid h u' BALANCE_TYPE_FREEZE ha) hg)
    · rw [if_neg hk, if_neg (fun e => hk ⟨e.1.1, e.1.2.2⟩), sub_zero]
  · intro u' a'
    rw [ledger_sub_bal u _ ha, if_neg]
    rintro ⟨⟨_, ht, _⟩, _⟩
    exact type_available_ne_freeze ht

theorem receive_available {A : dict_asset_t} {d : dict_balance_t} (h : LedgerOK A d) (u : ℕ)
    {a : String} {as : asset_type} (ha : A a = some as) {v c : ℚ} (hv : 0 ≤ v)
    (hg : on_grid v as.prec_save) (hc : c ≤ v) :
    (∀ u' a',
      bal (if c > 0 then
            ledger_sub A (ledger_add A d u BALANCE_TYPE_AVAILABLE a v) u BALANCE_TYPE_AVAILABLE a c
          else ledger_add A d u BALANCE_TYPE_AVAILABLE a v) u' BALANCE_TYPE_FREEZE a' =
        bal d u' BALANCE_TYPE_FREEZE a') ∧
    (∀ u' a', bal d u' BALANCE_TYPE_AVAILABLE a' ≤
      bal (if c > 0 then
            ledger_sub A (ledger_add A d u BALANCE_TYPE_AVAILABLE a v) u BALANCE_TYPE_AVAILABLE a c
          else ledger_add A d u BALANCE_TYPE_AVAILABLE a v) u' BALANCE_TYPE_AVAILABLE a') := by
  have hb := bal_on_grid h u BALANCE_TYPE_AVAILABLE ha
  have hb0 := bal_nonneg h u BALANCE_TYPE_AVAILABLE a
  have hadd : bal (ledger_add A d u BALANCE_TYPE_AVAILABLE a v) u BALANCE_TYPE_AVAILABLE a =
      bal d u BALANCE_TYPE_AVAILABLE a + v := by
    rw [ledger_add_bal u _ ha]
    simp only [and_self, true_and, hv, if_true]
    exact mpd_rescale_eq_self (on_grid_add hb hg)
  constructor
  · intro u' a'
    have hne : ¬ ((u' = u ∧ BALANCE_TYPE_FREEZE = BALANCE_TYPE_AVAILABLE ∧ a' = a)) :=
      fun e => type_available_ne_freeze e.2.1.symm
    split_ifs
    · rw [ledger_sub_bal u _ ha, if_neg (fun e => hne e.1), ledger_add_bal u _ ha,
        if_neg (fun e => hne e.1)]
    · rw [ledger_add_bal u _ ha, if_neg (fun e => hne e.1)]
  · intro u' a'
    by_cases hk : u' = u ∧ a' = a
    · obtain ⟨rfl, rfl⟩ := hk
      split_ifs with hc0
      · rw [ledger_sub_bal u' _ ha, hadd]
        simp only [and_self, true_and, hc0.le]
        split_ifs
        · exact le_mpd_rescale hb (by linarith) (by linarith)
        · linarith
      · rw [hadd]; linarith
    · have hne : ¬ ((u' = u ∧ BALANCE_TYPE_AVAILABLE = BALANCE_TYPE_AVAILABLE ∧ a' = a)) :=
        fun e => hk ⟨e.1, e.2.2⟩
      split_ifs
      · rw [ledger_sub_bal u _ ha, if_neg (fun e => hne e.1), ledger_add_bal u _ ha,
          if_neg (fun e => hne e.1)]
      · rw [ledger_add_bal u _ ha, if_neg (fun e => hne e.1)]

theorem receive_available_ok {A : dict_asset_t} {d : dict_balance_t} (h : LedgerOK A d) (u : ℕ)
    (a : String) (v c : ℚ) :
    LedgerOK A (if c > 0 then
            ledger_sub A (ledger_add A d u BALANCE_TYPE_AVAILABLE a v) u BALANCE_TYPE_AVAILABLE a c
          else ledger_add A d u BALANCE_TYPE_AVAILABLE a v) := by
  split_ifs
  · exact ledger_sub_ok (ledger_add_ok h _ _ _ _) _ _ _ _
  · exact ledger_add_ok h _ _ _ _

@[simp] theorem emit_dict_balance (real : Bool) (evs : List event) (g : globals) :
    (emit real evs g).dict_balance = g.dict_balance := by
  unfold emit; split <;> rfl

@[simp] theorem emit_dict_asset (real : Bool) (evs : List event) (g : globals) :
    (emit real evs g).dict_asset = g.dict_asset := by
  unfold emit; split <;> rfl

@[simp] theorem emit_order_id_start (real : Bool) (evs : List event) (g : globals) :
    (emit real evs g).order_id_start = g.order_id_start := by
  unfold emit; split <;> rfl

@[simp] theorem emit_deals_id_start (real : Bool) (evs : List event) (g : globals) :
    (emit real evs g).deals_id_start = g.deals_id_start := by
  unfold emit; split <;> rfl

@[simp] theorem emit_dict_update (real : Bool) (evs : List event) (g : globals) :
    (emit real evs g).dict_update = g.dict_update := by
  unfold emit; split <;> rfl

theorem charge_fee_dict_balance (real : Bool) (g : globals) (u : ℕ) (a : String) (fee : ℚ) :
    (charge_fee real g u a fee).dict_balance =
      if fee > 0 then ledger_sub g.dict_asset g.dict_balance u BALANCE_TYPE_AVAILABLE a fee
      else g.dict_balance := by
  unfold charge_fee
  split_ifs
  · simp [do_balance_sub]
  · rfl

@[simp] theorem charge_fee_dict_asset (real : Bool) (g : globals) (u : ℕ) (a : String) (fee : ℚ) :
    (charge_fee real g u a fee).dict_asset = g.dict_asset := by
  unfold charge_fee
  split_ifs
  · simp [do_balance_sub]
  · rfl

theorem settle_dict_balance (real : Bool) (g : globals) (tu mu : ℕ) (give : String) (gv : ℚ)
    (take : String) (tv tc mc : ℚ) :
    (settle real g tu mu give gv take tv tc mc).dict_balance =
      settle_ledger g.dict_asset g.dict_balance tu mu give gv take tv tc mc := by
  unfold settle settle_ledger ledger_receive
  simp only [charge_fee_dict_balance, charge_fee_dict_asset, emit_dict_balance, emit_dict_asset,
    do_balance_sub, do_balance_add]

theorem settle_frame (real : Bool) (g : globals) (tu mu : ℕ) (give : String) (gv : ℚ)
    (take : String) (tv tc mc : ℚ) :
    (settle real g tu mu give gv take tv tc mc).dict_asset = g.dict_asset ∧
    (settle real g tu mu give gv take tv tc mc).order_id_start = g.order_id_start ∧
    (settle real g tu mu give gv take tv tc mc).deals_id_start = g.deals_id_start ∧
    (settle real g tu mu give gv take tv tc mc).dict_update = g.dict_update := by
  unfold settle charge_fee
  refine ⟨?_, ?_, ?_, ?_⟩ <;> split_ifs <;> simp [do_balance_sub, do_balance_add]

theorem ledger_receive_ok {A : dict_asset_t} {d : dict_balance_t} (h : LedgerOK A d) (u : ℕ)
    (a : String) (v c : ℚ) : LedgerOK A (ledger_receive A d u a v c) :=
  receive_available_ok h u a v c

theorem settle_ledger_spec {A : dict_asset_t} {d : dict_balance_t} (h : LedgerOK A d)
    (tu mu : ℕ) {give take : String} {ag at_ : asset_type} (hag : A give = some ag)
    (hat : A take = some at_) {gv tv tc mc : ℚ} (hgv : 0 ≤ gv) (hgg : on_grid gv ag.prec_save)
    (htv : 0 ≤ tv) (htg : on_grid tv at_.prec_save) (htc : tc ≤ tv) (hmc : mc ≤ gv)
    (hfr : tv ≤ bal d mu BALANCE_TYPE_FREEZE take) :
    LedgerOK A (settle_ledger A d tu mu give gv take tv tc mc) ∧
    (∀ u a, bal (settle_ledger A d tu mu give gv take tv tc mc) u BALANCE_TYPE_FREEZE a =
      bal d u BALANCE_TYPE_FREEZE a - (if u = mu ∧ a = take then tv else 0)) ∧
    (∀ u a, bal d u BALANCE_TYPE_AVAILABLE a - (if u = tu ∧ a = give then gv else 0) ≤
      bal (settle_ledger A d tu mu give gv take tv tc mc) u BALANCE_TYPE_AVAILABLE a) := by
  unfold settle_ledger
  have h1 := ledger_sub_ok h tu BALANCE_TYPE_AVAILABLE give gv
  obtain ⟨f1, a1⟩ := pay_available h tu hag hgv hgg
  have h2 := ledger_receive_ok h1 tu take tv tc
  obtain ⟨f2, a2⟩ := receive_available h1 tu hat htv htg htc
  have hfr3 : tv ≤ bal (ledger_receive A (ledger_sub A d tu BALANCE_TYPE_AVAILABLE give gv)
      tu take tv tc) mu BALANCE_TYPE_FREEZE take := by
    unfold ledger_receive
    rw [f2, f1]; exact hfr
  have h3 := ledger_sub_ok h2 mu BALANCE_TYPE_FREEZE take tv
  obtain ⟨f3, a3⟩ := pay_frozen h2 mu hat htv htg hfr3
  have h4 := ledger_receive_ok h3 mu give gv mc
  obtain ⟨f4, a4⟩ := receive_available h3 mu hag hgv hgg hmc
  refine ⟨h4, ?_, ?_⟩
  · intro u a
    unfold ledger_receive at *
    rw [f4, f3, f2, f1]
  · intro u a
    unfold ledger_receive at *
    calc bal d u BALANCE_TYPE_AVAILABLE a - (if u = tu ∧ a = give then gv else 0)
        ≤ bal (ledger_sub A d tu BALANCE_TYPE_AVAILABLE give gv) u BALANCE_TYPE_AVAILABLE a :=
          a1 u a
      _ ≤ _ := a2 u a
      _ = _ := (a3 u a).symm
      _ ≤ _ := a4 u a

/-! ## Books and invariants of the market -/

theorem book_update_head {x y : order_t} {rest : List order_t} (hy : y.id = x.id)
    (hrest : ∀ o ∈ rest, o.id ≠ x.id) : book_update (x :: rest) y = y :: rest := by
  unfold book_update
  rw [List.map_cons, if_pos hy.symm]
  congr 1
  conv_rhs => rw [← List.map_id rest]
  apply List.map_congr_left
  intro o ho
  rw [if_neg (by rw [hy]; exact hrest o ho)]
  rfl

theorem order_match_compare_self (x : order_t) : order_match_compare x x = 0 := by
  unfold order_match_compare
  rw [if_pos rfl]

theorem order_match_compare_eq_zero {x y : order_t} :
    order_match_compare x y = 0 ↔ x.id = y.id := by
  unfold order_match_compare
  constructor
  · intro h
    by_contra hne
    rw [if_neg hne] at h
    split_ifs at h <;> simp_all
  · intro h
    rw [if_pos h]

theorem skiplist_delete_head (x : order_t) (rest : List order_t) :
    skiplist_delete order_match_compare x (x :: rest) = rest := by
  unfold skiplist_delete
  rw [List.eraseP_cons_of_pos]
  simp [order_match_compare_self]

@[simp] theorem book_frozen_nil (u : ℕ) : book_frozen [] u = 0 := rfl

@[simp] theorem book_frozen_cons (x : order_t) (rest : List order_t) (u : ℕ) :
    book_frozen (x :: rest) u = (if x.user_id = u then x.freeze else 0) + book_frozen rest u := by
  unfold book_frozen
  rw [List.map_cons, List.sum_cons]

theorem book_frozen_nonneg {book : List order_t} (h : ∀ o ∈ book, 0 ≤ o.freeze) (u : ℕ) :
    0 ≤ book_frozen book u := by
  unfold book_frozen
  apply List.sum_nonneg
  intro x hx
  rw [List.mem_map] at hx
  obtain ⟨o, ho, rfl⟩ := hx
  split_ifs
  · exact h o ho
  · exact le_rfl

theorem OrderOK.freeze_nonneg {sp mp side : ℕ} {o : order_t} (h : OrderOK sp mp side o) :
    0 ≤ o.freeze := by
  rw [h.freeze_eq]
  split_ifs
  · exact h.left_pos.le
  · exact (mul_pos h.price_pos h.left_pos).le

theorem market_frozen_nonneg {A : dict_asset_t} {n : ℕ} {m : market_t} (h : MarketOK A n m)
    (u : ℕ) (a : String) : 0 ≤ market_frozen m u a := by
  unfold market_frozen
  have h1 := book_frozen_nonneg (fun o ho => (h.asks_ok o ho).freeze_nonneg) u
  have h2 := book_frozen_nonneg (fun o ho => (h.bids_ok o ho).freeze_nonneg) u
  split_ifs <;> linarith

theorem side_bid_ne_ask : MARKET_ORDER_SIDE_BID ≠ MARKET_ORDER_SIDE_ASK := by decide

/-- `order_finish` of an order with no frozen amount left, bid side -/
theorem order_finish_bid_unfrozen (real : Bool) (g : globals) (m : market_t) (order : order_t)
    (hside : order.side ≠ MARKET_ORDER_SIDE_ASK) (hfr : ¬ order.freeze > 0) :
    order_finish real g m order =
      order_finish_tail real g
        { m with bids := skiplist_delete order_match_compare order m.bids } order := by
  unfold order_finish
  simp only [hside, if_false, hfr]

theorem order_finish_ask_unfrozen (real : Bool) (g : globals) (m : market_t) (order : order_t)
    (hside : order.side = MARKET_ORDER_SIDE_ASK) (hfr : ¬ order.freeze > 0) :
    order_finish real g m order =
      order_finish_tail real g
        { m with asks := skiplist_delete order_match_compare order m.asks } order := by
  unfold order_finish
  simp only [hside, if_true, hfr, if_false]

theorem order_finish_tail_globals (real : Bool) (g : globals) (m : market_t) (order : order_t) :
    (order_finish_tail real g m order).2.1.dict_balance = g.dict_balance ∧
    (order_finish_tail real g m order).2.1.dict_asset = g.dict_asset ∧
    (order_finish_tail real g m order).2.1.order_id_start = g.order_id_start ∧
    (order_finish_tail real g m order).2.1.deals_id_start = g.deals_id_start ∧
    (order_finish_tail real g m order).2.1.dict_update = g.dict_update := by
  unfold order_finish_tail
  simp only
  split_ifs <;> simp

/-- the market after `order_finish_tail` -/
theorem order_finish_tail_market (real : Bool) (g : globals) (m : market_t) (order : order_t) :
    (order_finish_tail real g m order).2.2 =
      { m with
        orders := Function.update m.orders order.id false
        users := match m.users order.user_id with
          | some order_list => Function.update m.users order.user_id
              (some (skiplist_delete order_id_compare order.id order_list))
          | none => m.users } := by
  unfold order_finish_tail
  simp only
  cases m.users order.user_id <;> rfl

theorem skiplist_insert_perm {α : Type} (compare : α → α → ℤ) (value : α) (list : List α) :
    (skiplist_insert compare value list).Perm (value :: list) := by
  induction list with
  | nil => exact List.Perm.refl _
  | cons x xs ih =>
    unfold skiplist_insert
    split_ifs
    · exact (List.Perm.cons x ih).trans (List.Perm.swap value x xs)
    · exact List.Perm.refl _

theorem order_id_compare_eq_zero {x y : ℕ} : order_id_compare x y = 0 ↔ x = y := by
  unfold order_id_compare
  constructor
  · intro h
    by_contra hne
    rw [if_neg hne] at h
    split_ifs at h
    simp at h
  · intro h
    rw [if_pos h]

theorem skiplist_delete_id (id : ℕ) (l : List ℕ) :
    skiplist_delete order_id_compare id l = l.erase id := by
  unfold skiplist_delete
  induction l with
  | nil => rfl
  | cons x xs ih =>
    by_cases h : x = id
    · subst h
      rw [List.eraseP_cons_of_pos (by simp [order_id_compare_eq_zero]), List.erase_cons_head]
    · rw [List.eraseP_cons_of_neg (by simp [order_id_compare_eq_zero, h]),
        List.erase_cons_tail (by simpa using h), ih]

theorem skiplist_delete_order {x : order_t} {l : List order_t}
    (hn : (l.map (fun o => o.id)).Nodup) (hx : x ∈ l) :
    l.Perm (x :: skiplist_delete order_match_compare x l) := by
  unfold skiplist_delete
  induction l with
  | nil => cases hx
  | cons y ys ih =>
    by_cases h : y.id = x.id
    · rw [List.eraseP_cons_of_pos (by simp [order_match_compare_eq_zero, h])]
      have : y = x := by
        rcases List.mem_cons.mp hx with e | e
        · exact e.symm
        · rw [List.map_cons, List.nodup_cons] at hn
          exact absurd (List.mem_map.mpr ⟨x, e, h.symm⟩) hn.1
      rw [this]
    · rw [List.eraseP_cons_of_neg (by simp [order_match_compare_eq_zero, h])]
      have hx' : x ∈ ys := by
        rcases List.mem_cons.mp hx with e | e
        · exact absurd (by rw [e]) h
        · exact e
      rw [List.map_cons, List.nodup_cons] at hn
      exact (List.Perm.cons y (ih hn.2 hx')).trans (List.Perm.swap x y _)

theorem skiplist_delete_absent {x : order_t} {l : List order_t}
    (hx : ∀ o ∈ l, o.id ≠ x.id) : skiplist_delete order_match_compare x l = l := by
  unfold skiplist_delete
  apply List.eraseP_of_forall_not
  intro o ho
  simp [order_match_compare_eq_zero, hx o ho]

theorem book_frozen_perm {l l' : List order_t} (h : l.Perm l') (u : ℕ) :
    book_frozen l u = book_frozen l' u := by
  unfold book_frozen
  exact (h.map _).sum_eq

theorem perm_exists_iff {l l' : List order_t} (h : l.Perm l') (P : order_t → Prop) :
    (∃ o ∈ l, P o) ↔ ∃ o ∈ l', P o :=
  ⟨fun ⟨o, ho, hp⟩ => ⟨o, h.mem_iff.mp ho, hp⟩, fun ⟨o, ho, hp⟩ => ⟨o, h.mem_iff.mpr ho, hp⟩⟩

/-- removing one resting order from the books and from both indices -/
theorem MarketOK.remove {A : dict_asset_t} {n : ℕ} {m : market_t} (h : MarketOK A n m)
    {x : order_t} {asks' bids' : List order_t}
    (hp : (m.asks ++ m.bids).Perm (x :: (asks' ++ bids')))
    (ha : ∀ o ∈ asks', o ∈ m.asks) (hb : ∀ o ∈ bids', o ∈ m.bids) :
    MarketOK A n
      { m with
        asks := asks'
        bids := bids'
        orders := Function.update m.orders x.id false
        users := match m.users x.user_id with
          | some order_list => Function.update m.users x.user_id
              (some (skiplist_delete order_id_compare x.id order_list))
          | none => m.users } := by
  have hnd : ((x :: (asks' ++ bids')).map (fun o => o.id)).Nodup :=
    (hp.map _).nodup_iff.mp h.ids_nodup
  rw [List.map_cons, List.nodup_cons] at hnd
  have hfresh : ∀ o ∈ asks' ++ bids', o.id ≠ x.id := fun o ho e =>
    hnd.1 (List.mem_map.mpr ⟨o, ho, e⟩)
  have hsub : ∀ o ∈ asks' ++ bids', o ∈ m.asks ++ m.bids := fun o ho =>
    hp.mem_iff.mpr (List.mem_cons_of_mem _ ho)
  refine ⟨h.stock_ok, h.money_ok, fun o ho => h.asks_ok o (ha o ho),
    fun o ho => h.bids_ok o (hb o ho), hnd.2, fun o ho => h.ids_le o (hsub o ho), ?_, ?_, ?_⟩
  · intro id
    show Function.update m.orders x.id false id = true ↔ _
    by_cases e : id = x.id
    · subst e
      rw [Function.update_same]
      constructor
      · intro hf; cases hf
      · rintro ⟨o, ho, ho2⟩
        exact absurd ho2 (hfresh o ho)
    · rw [Function.update_noteq e, h.orders_iff id, perm_exists_iff hp]
      constructor
      · rintro ⟨o, ho, ho2⟩
        rcases List.mem_cons.mp ho with e1 | e1
        · subst e1; exact absurd ho2.symm e
        · exact ⟨o, e1, ho2⟩
      · rintro ⟨o, ho, ho2⟩
        exact ⟨o, List.mem_cons_of_mem _ ho, ho2⟩
  · intro u id
    have hx := (h.users_iff x.user_id x.id).mpr
      ⟨x, hp.mem_iff.mpr (List.mem_cons_self _ _), rfl, rfl⟩
    cases hu : m.users x.user_id with
    | none => rw [hu] at hx; simp at hx
    | some l =>
      show id ∈ ((Function.update m.users x.user_id
        (some (skiplist_delete order_id_compare x.id l))) u).getD [] ↔ _
      have hnl : l.Nodup := by simpa [hu] using h.users_nodup x.user_id
      by_cases e : u = x.user_id
      · subst e
        rw [Function.update_same, Option.getD_some, skiplist_delete_id, hnl.mem_erase_iff]
        have := h.users_iff x.user_id id
        rw [hu, Option.getD_some] at this
        rw [this, perm_exists_iff hp]
        constructor
        · rintro ⟨hne, o, ho, ho2, ho3⟩
          rcases List.mem_cons.mp ho with e1 | e1
          · subst e1; exact absurd ho2.symm hne
          · exact ⟨o, e1, ho2, ho3⟩
        · rintro ⟨o, ho, ho2, ho3⟩
          exact ⟨fun e => hfresh o ho (ho2.trans e), o, List.mem_cons_of_mem _ ho, ho2, ho3⟩
      · rw [Function.update_noteq e, h.users_iff u id, perm_exists_iff hp]
        constructor
        · rintro ⟨o, ho, ho2, ho3⟩
          rcases List.mem_cons.mp ho with e1 | e1
          · subst e1; exact absurd ho3.symm e
          · exact ⟨o, e1, ho2, ho3⟩
        · rintro ⟨o, ho, ho2, ho3⟩
          exact ⟨o, List.mem_cons_of_mem _ ho, ho2, ho3⟩
  · intro u
    cases hu : m.users x.user_id with
    | none => exact h.users_nodup u
    | some l =>
      show (((Function.update m.users x.user_id
        (some (skiplist_delete order_id_compare x.id l))) u).getD []).Nodup
      by_cases e : u = x.user_id
      · subst e
        rw [Function.update_same, Option.getD_some, skiplist_delete_id]
        have hnl : l.Nodup := by simpa [hu] using h.users_nodup x.user_id
        exact hnl.erase _
      · rw [Function.update_noteq e]
        exact h.users_nodup u

/-- rewriting the fields of one resting order in place -/
theorem MarketOK.replace {A : dict_asset_t} {n : ℕ} {m : market_t} (h : MarketOK A n m)
    {x y : order_t} {others asks' bids' : List order_t}
    (hp : (m.asks ++ m.bids).Perm (x :: others))
    (hp' : (asks' ++ bids').Perm (y :: others))
    (hid : y.id = x.id) (huser : y.user_id = x.user_id)
    (ha : ∀ o ∈ asks', OrderOK m.stock_prec m.money_prec MARKET_ORDER_SIDE_ASK o)
    (hb : ∀ o ∈ bids', OrderOK m.stock_prec m.money_prec MARKET_ORDER_SIDE_BID o) :
    MarketOK A n { m with asks := asks', bids := bids' } := by
  have hids : ((asks' ++ bids').map (fun o => o.id)).Perm
      ((m.asks ++ m.bids).map (fun o => o.id)) := by
    refine (hp'.map _).trans (List.Perm.trans ?_ (hp.map _).symm)
    rw [List.map_cons, List.map_cons, hid]
  have hex : ∀ P : ℕ → ℕ → Prop, (∃ o ∈ asks' ++ bids', P o.id o.user_id) ↔
      ∃ o ∈ m.asks ++ m.bids, P o.id o.user_id := by
    intro P
    rw [perm_exists_iff hp' (fun o => P o.id o.user_id),
      perm_exists_iff hp (fun o => P o.id o.user_id)]
    constructor
    · rintro ⟨o, ho, hP⟩
      rcases List.mem_cons.mp ho with e | e
      · subst e; exact ⟨x, List.mem_cons_self _ _, by rw [← hid, ← huser]; exact hP⟩
      · exact ⟨o, List.mem_cons_of_mem _ e, hP⟩
    · rintro ⟨o, ho, hP⟩
      rcases List.mem_cons.mp ho with e | e
      · subst e; exact ⟨y, List.mem_cons_self _ _, by rw [hid, huser]; exact hP⟩
      · exact ⟨o, List.mem_cons_of_mem _ e, hP⟩
  refine ⟨h.stock_ok, h.money_ok, ha, hb, hids.nodup_iff.mpr h.ids_nodup, ?_, ?_, ?_,
    h.users_nodup⟩
  · intro o ho
    have : o.id ∈ (m.asks ++ m.bids).map (fun o => o.id) :=
      hids.mem_iff.mp (List.mem_map.mpr ⟨o, ho, rfl⟩)
    obtain ⟨o', ho', e⟩ := List.mem_map.mp this
    rw [← e]
    exact h.ids_le o' ho'
  · intro id
    show m.orders id = true ↔ ∃ o ∈ asks' ++ bids', o.id = id
    rw [h.orders_iff id]
    exact (hex (fun i _ => i = id)).symm
  · intro u id
    show id ∈ (m.users u).getD [] ↔ ∃ o ∈ asks' ++ bids', o.id = id ∧ o.user_id = u
    rw [h.users_iff u id]
    exact (hex (fun i v => i = id ∧ v = u)).symm

theorem maker_done_globals (real : Bool) (g : globals) (m : market_t) (maker : order_t)
    (hfr : maker.left = 0 → ¬ maker.freeze > 0) :
    (maker_done real g m maker).1.dict_balance = g.dict_balance ∧
    (maker_done real g m maker).1.dict_asset = g.dict_asset ∧
    (maker_done real g m maker).1.order_id_start = g.order_id_start ∧
    (maker_done real g m maker).1.deals_id_start = g.deals_id_start ∧
    (maker_done real g m maker).1.dict_update = g.dict_update := by
  unfold maker_done
  split_ifs with h0
  · have hf := hfr h0
    dsimp only
    by_cases hs : maker.side = MARKET_ORDER_SIDE_ASK
    · rw [order_finish_ask_unfrozen _ _ _ _ hs hf]
      have := order_finish_tail_globals real
        (emit real [event.order_message ORDER_EVENT_FINISH maker m.name] g)
        { m with asks := skiplist_delete order_match_compare maker m.asks } maker
      simpa using this
    · rw [order_finish_bid_unfrozen _ _ _ _ hs hf]
      have := order_finish_tail_globals real
        (emit real [event.order_message ORDER_EVENT_FINISH maker m.name] g)
        { m with bids := skiplist_delete order_match_compare maker m.bids } maker
      simpa using this
  · simp

theorem maker_done_kept (real : Bool) (g : globals) (m : market_t) (maker : order_t)
    (h : maker.left ≠ 0) : (maker_done real g m maker).2 = m := by
  unfold maker_done
  rw [if_neg h]

theorem maker_done_bid_removed (real : Bool) (g : globals) (m : market_t) (maker : order_t)
    (h : maker.left = 0) (hf : ¬ maker.freeze > 0) (hs : maker.side ≠ MARKET_ORDER_SIDE_ASK) :
    (maker_done real g m maker).2 =
      { m with
        bids := skiplist_delete order_match_compare maker m.bids
        orders := Function.update m.orders maker.id false
        users := match m.users maker.user_id with
          | some order_list => Function.update m.users maker.user_id
              (some (skiplist_delete order_id_compare maker.id order_list))
          | none => m.users } := by
  unfold maker_done
  rw [if_pos h]
  simp only
  rw [order_finish_bid_unfrozen _ _ _ _ hs hf, order_finish_tail_market]

theorem maker_done_ask_removed (real : Bool) (g : globals) (m : market_t) (maker : order_t)
    (h : maker.left = 0) (hf : ¬ maker.freeze > 0) (hs : maker.side = MARKET_ORDER_SIDE_ASK) :
    (maker_done real g m maker).2 =
      { m with
        asks := skiplist_delete order_match_compare maker m.asks
        orders := Function.update m.orders maker.id false
        users := match m.users maker.user_id with
          | some order_list => Function.update m.users maker.user_id
              (some (skiplist_delete order_id_compare maker.id order_list))
          | none => m.users } := by
  unfold maker_done
  rw [if_pos h]
  simp only
  rw [order_finish_ask_unfrozen _ _ _ _ hs hf, order_finish_tail_market]

theorem book_update_mid {x y : order_t} {pre rest : List order_t} (hy : y.id = x.id)
    (hrest : ∀ o ∈ pre ++ rest, o.id ≠ x.id) :
    book_update (pre ++ x :: rest) y = pre ++ y :: rest := by
  have hfix : ∀ l : List order_t, (∀ o ∈ l, o.id ≠ x.id) →
      l.map (fun o => if o.id = y.id then y else o) = l := by
    intro l hl
    conv_rhs => rw [← List.map_id l]
    apply List.map_congr_left
    intro o ho
    rw [if_neg (by rw [hy]; exact hl o ho)]
    rfl
  unfold book_update
  rw [List.map_append, List.map_cons, if_pos hy.symm,
    hfix pre (fun o ho => hrest o (List.mem_append_left _ ho)),
    hfix rest (fun o ho => hrest o (List.mem_append_right _ ho))]

theorem skiplist_delete_mid {x : order_t} {pre rest : List order_t}
    (hpre : ∀ o ∈ pre, o.id ≠ x.id) :
    skiplist_delete order_match_compare x (pre ++ x :: rest) = pre ++ rest := by
  unfold skiplist_delete
  rw [List.eraseP_append_right _ (by
    intro o ho
    simp [order_match_compare_eq_zero, hpre o ho])]
  rw [List.eraseP_cons_of_pos (by simp [order_match_compare_self])]

@[simp] theorem book_frozen_append (l l' : List order_t) (u : ℕ) :
    book_frozen (l ++ l') u = book_frozen l u + book_frozen l' u := by
  unfold book_frozen
  rw [List.map_append, List.sum_append]

theorem book_frozen_mem_le {book : List order_t} (h : ∀ o ∈ book, 0 ≤ o.freeze) {x : order_t}
    (hx : x ∈ book) : x.freeze ≤ book_frozen book x.user_id := by
  obtain ⟨l, l', rfl⟩ := List.append_of_mem hx
  rw [book_frozen_append, book_frozen_cons, if_pos rfl]
  have h1 := book_frozen_nonneg (fun o ho => h o (List.mem_append_left _ ho)) x.user_id
  have h2 := book_frozen_nonneg
    (fun o ho => h o (List.mem_append_right _ (List.mem_cons_of_mem _ ho))) x.user_id
  linarith

theorem ask_taker_deal_spec {A : dict_asset_t} {n : ℕ} {c : ℕ → String → ℚ} {g : globals}
    {m : market_t} (real : Bool) (taker : order_t) {maker : order_t} {pre rest : List order_t}
    {amount : ℚ} (hI : MatchInv A n c g m) (hb : m.bids = pre ++ maker :: rest) (hpos : 0 < amount)
    (hle : amount ≤ maker.left) (hgrid : on_grid amount m.stock_prec)
    (hfee : taker.taker_fee ≤ 1) :
    MatchInv A n c (ask_taker_deal real g m taker maker amount).1
      (ask_taker_deal real g m taker maker amount).2.1 ∧
    (ask_taker_deal real g m taker maker amount).2.1.asks = m.asks ∧
    (ask_taker_deal real g m taker maker amount).2.1.bids =
      pre ++ (if maker.left - amount = 0 then rest
       else fill_maker maker (maker.price * amount) amount (maker.price * amount)
        (amount * maker.maker_fee) :: rest) ∧
    market_static (ask_taker_deal real g m taker maker amount).2.1 = market_static m ∧
    (ask_taker_deal real g m taker maker amount).1.order_id_start = g.order_id_start ∧
    (ask_taker_deal real g m taker maker amount).1.dict_update = g.dict_update ∧
    (∀ u a, bal g.dict_balance u BALANCE_TYPE_AVAILABLE a -
        (if u = taker.user_id ∧ a = m.stock then amount else 0) ≤
      bal (ask_taker_deal real g m taker maker amount).1.dict_balance u
        BALANCE_TYPE_AVAILABLE a) := by
  have hM := hI.market_ok
  have hmk : maker ∈ m.bids := by
    rw [hb]; exact List.mem_append_right _ (List.mem_cons_self _ _)
  have hm := hM.bids_ok maker hmk
  obtain ⟨as, has, hsp⟩ := hM.stock_ok
  obtain ⟨am, ham, hmp, _⟩ := hM.money_ok
  -- the quantities of the deal
  have hdeal0 : 0 ≤ maker.price * amount := (mul_pos hm.price_pos hpos).le
  have hdealg : on_grid (maker.price * amount) am.prec_save :=
    on_grid_mono (on_grid_mul hm.price_grid hgrid) (by omega)
  have hamountg : on_grid amount as.prec_save := on_grid_mono hgrid (by omega)
  have htc : maker.price * amount * taker.taker_fee ≤ maker.price * amount := by
    nlinarith
  have hmc : amount * maker.maker_fee ≤ amount := by
    have := hm.maker_fee_lt
    nlinarith
  have hfreeze : maker.freeze = maker.price * maker.left := by
    rw [hm.freeze_eq, if_neg side_bid_ne_ask]
  have hfr : maker.price * amount ≤ bal g.dict_balance maker.user_id BALANCE_TYPE_FREEZE m.money := by
    rw [hI.frozen_eq]
    have h1 : maker.freeze ≤ book_frozen m.bids maker.user_id := by
      exact book_frozen_mem_le (fun o ho => (hM.bids_ok o ho).freeze_nonneg) hmk
    have h2 : book_frozen m.bids maker.user_id ≤ market_frozen m maker.user_id m.money := by
      unfold market_frozen
      rw [if_pos rfl]
      have := book_frozen_nonneg (fun o ho => (hM.asks_ok o ho).freeze_nonneg) maker.user_id
      split_ifs <;> linarith
    have h3 := hI.rest_nonneg maker.user_id m.money
    have h4 : maker.price * amount ≤ maker.price * maker.left :=
      mul_le_mul_of_nonneg_left hle hm.price_pos.le
    linarith
  have hL := hI.ledger_ok
  obtain ⟨hL', hF', hA'⟩ := settle_ledger_spec hL taker.user_id maker.user_id has ham hpos.le
    hamountg hdeal0 hdealg htc hmc hfr
  -- the state before the maker is dealt with
  have hperm : (m.asks ++ m.bids).Perm (maker :: (m.asks ++ (pre ++ rest))) := by
    rw [hb, ← List.append_assoc, ← List.append_assoc]; exact List.perm_middle
  have hrest : ∀ o ∈ pre ++ rest, o.id ≠ maker.id := by
    have hnd := (hperm.map (fun o => o.id)).nodup_iff.mp hM.ids_nodup
    rw [List.map_cons, List.nodup_cons] at hnd
    intro o ho e
    apply hnd.1
    rw [← e]
    exact List.mem_map.mpr ⟨o, List.mem_append_right _ ho, rfl⟩
  have hm1 : book_update m.bids
      (fill_maker maker (maker.price * amount) amount (maker.price * amount)
        (amount * maker.maker_fee)) =
      pre ++ fill_maker maker (maker.price * amount) amount (maker.price * amount)
        (amount * maker.maker_fee) :: rest := by
    rw [hb]; exact book_update_mid rfl hrest
  obtain ⟨maker1, hmaker1⟩ : ∃ x, x = fill_maker maker (maker.price * amount) amount
      (maker.price * amount) (amount * maker.maker_fee) := ⟨_, rfl⟩
  rw [← hmaker1] at hm1 ⊢
  have hid1 : maker1.id = maker.id := by rw [hmaker1]; rfl
  have huser1 : maker1.user_id = maker.user_id := by rw [hmaker1]; rfl
  have hside1 : maker1.side ≠ MARKET_ORDER_SIDE_ASK := by
    rw [hmaker1]; show maker.side ≠ _; rw [hm.side_eq]; exact side_bid_ne_ask
  have hleft1 : maker1.left = maker.left - amount := by rw [hmaker1]; rfl
  have hfreeze1 : maker1.freeze = maker.price * maker1.left := by
    rw [hleft1, hmaker1]; show maker.freeze - maker.price * amount = _; rw [hfreeze]; ring
  obtain ⟨g2, hg2⟩ : ∃ x, x = settle real
      (emit real
        [event.order_deal_history ((g.deals_id_start + 1) % 2 ^ 64) taker MARKET_ROLE_TAKER maker
            MARKET_ROLE_MAKER maker.price amount (maker.price * amount)
            (maker.price * amount * taker.taker_fee) (amount * maker.maker_fee),
          event.deal_message m.name taker maker maker.price amount
            (maker.price * amount * taker.taker_fee) (amount * maker.maker_fee)
            MARKET_ORDER_SIDE_ASK ((g.deals_id_start + 1) % 2 ^ 64) m.stock m.money]
        { g with deals_id_start := (g.deals_id_start + 1) % 2 ^ 64 })
      taker.user_id maker.user_id m.stock amount m.money (maker.price * amount)
      (maker.price * amount * taker.taker_fee) (amount * maker.maker_fee) := ⟨_, rfl⟩
  have hg2b : g2.dict_balance = settle_ledger A g.dict_balance taker.user_id maker.user_id
      m.stock amount m.money (maker.price * amount) (maker.price * amount * taker.taker_fee)
      (amount * maker.maker_fee) := by
    rw [hg2, settle_dict_balance]
    simp only [emit_dict_asset, emit_dict_balance, hI.asset_eq]
  have hg2f := settle_frame real
      (emit real
        [event.order_deal_history ((g.deals_id_start + 1) % 2 ^ 64) taker MARKET_ROLE_TAKER maker
            MARKET_ROLE_MAKER maker.price amount (maker.price * amount)
            (maker.price * amount * taker.taker_fee) (amount * maker.maker_fee),
          event.deal_message m.name taker maker maker.price amount
            (maker.price * amount * taker.taker_fee) (amount * maker.maker_fee)
            MARKET_ORDER_SIDE_ASK ((g.deals_id_start + 1) % 2 ^ 64) m.stock m.money]
        { g with deals_id_start := (g.deals_id_start + 1) % 2 ^ 64 })
      taker.user_id maker.user_id m.stock amount m.money (maker.price * amount)
      (maker.price * amount * taker.taker_fee) (amount * maker.maker_fee)
  rw [← hg2] at hg2f
  simp only [emit_dict_asset, emit_order_id_start, emit_dict_update] at hg2f
  obtain ⟨hg2a, hg2o, _, hg2u⟩ := hg2f
  have hr1 : (ask_taker_deal real g m taker maker amount).1 =
      (maker_done real g2 { m with bids := pre ++ maker1 :: rest } maker1).1 := by
    rw [hg2, ← hm1, hmaker1]; rfl
  have hr2 : (ask_taker_deal real g m taker maker amount).2.1 =
      (maker_done real g2 { m with bids := pre ++ maker1 :: rest } maker1).2 := by
    rw [hg2, ← hm1, hmaker1]; rfl
  have hfrz : maker1.left = 0 → ¬ maker1.freeze > 0 := by
    intro h0; rw [hfreeze1, h0, mul_zero]; exact lt_irrefl 0
  obtain ⟨hd1, hd2, hd3, _, hd5⟩ :=
    maker_done_globals real g2 { m with bids := pre ++ maker1 :: rest } maker1 hfrz
  rw [hr1, hr2, hd1, hd3, hd5, hg2b, hg2o, hg2u]
  by_cases h0 : maker.left - amount = 0
  · -- the maker is filled and leaves the book
    have h0' : maker1.left = 0 := by rw [hleft1]; exact h0
    have hmarket : (maker_done real g2 { m with bids := pre ++ maker1 :: rest } maker1).2 =
        { m with
          asks := m.asks
          bids := pre ++ rest
          orders := Function.update m.orders maker.id false
          users := match m.users maker.user_id with
            | some order_list => Function.update m.users maker.user_id
                (some (skiplist_delete order_id_compare maker.id order_list))
            | none => m.users } := by
      rw [maker_done_bid_removed real g2 _ maker1 h0' (hfrz h0') hside1]
      rw [skiplist_delete_mid (fun o ho => by
        rw [hid1]; exact hrest o (List.mem_append_left _ ho))]
      simp only [hid1, huser1]

    rw [hmarket, if_pos h0]
    have hMk := hM.remove hperm (fun o ho => ho)
      (fun o ho => by
        rw [hb]
        rcases List.mem_append.mp ho with e | e
        · exact List.mem_append_left _ e
        · exact List.mem_append_right _ (List.mem_cons_of_mem _ e))
    refine ⟨⟨by rw [hd2, hg2a]; exact hI.asset_eq, by rw [hd1, hg2b]; exact hL', hMk, ?_,
      hI.rest_nonneg⟩, rfl, rfl, rfl, rfl, rfl, hA'⟩
    intro u a
    rw [hd1, hg2b, hF', hI.frozen_eq]
    unfold market_frozen
    simp only [hb, book_frozen_append, book_frozen_cons]
    have hfz : maker.freeze = maker.price * amount := by
      rw [hfreeze]; congr 1; linarith
    by_cases hu : maker.user_id = u
    · by_cases ha : m.money = a
      · simp only [hu, ha, and_self, if_true, hfz]; ring
      · have ha' : ¬ a = m.money := fun e => ha e.symm
        simp only [hu, ha, ha', and_false, if_false, true_and]; ring
    · have hu' : ¬ u = maker.user_id := fun e => hu e.symm
      simp only [hu, hu', false_and, if_false, zero_add, sub_zero]
  · -- the maker stays with what is left
    have h0' : maker1.left ≠ 0 := by rw [hleft1]; exact h0
    rw [maker_done_kept real g2 _ maker1 h0', if_neg h0]
    have hOK1 : OrderOK m.stock_prec m.money_prec MARKET_ORDER_SIDE_BID maker1 := by
      have hl : 0 < maker1.left := by
        rw [hleft1]
        exact lt_of_le_of_ne (by linarith) (Ne.symm h0)
      refine ⟨by rw [hmaker1]; exact hm.type_eq, by rw [hmaker1]; exact hm.side_eq,
        by rw [hmaker1]; exact hm.price_pos, by rw [hmaker1]; exact hm.price_grid, hl,
        by rw [hleft1]; exact on_grid_sub hm.left_grid hgrid, ?_, ?_, ?_,
        by rw [hmaker1]; exact hm.maker_fee_nonneg, by rw [hmaker1]; exact hm.maker_fee_lt⟩
      · have hamt1 : maker1.amount = maker.amount := by rw [hmaker1]; rfl
        rw [hleft1, hamt1]; have := hm.left_le; linarith
      · rw [hleft1, hmaker1]; show maker.deal_stock + amount + (maker.left - amount) = maker.amount
        have := hm.deal_left; linarith
      · rw [if_neg side_bid_ne_ask, hfreeze1, hmaker1]; rfl
    have hMk : MarketOK A n { m with bids := pre ++ maker1 :: rest } := by
      apply hM.replace hperm
        (by rw [← List.append_assoc, ← List.append_assoc]; exact List.perm_middle) hid1 huser1
      · exact hM.asks_ok
      · intro o ho
        rcases List.mem_append.mp ho with e | e
        · exact hM.bids_ok o (by rw [hb]; exact List.mem_append_left _ e)
        · rcases List.mem_cons.mp e with e | e
          · rw [e]; exact hOK1
          · exact hM.bids_ok o (by
              rw [hb]; exact List.mem_append_right _ (List.mem_cons_of_mem _ e))
    refine ⟨⟨by rw [hd2, hg2a]; exact hI.asset_eq, by rw [hd1, hg2b]; exact hL', hMk, ?_,
      hI.rest_nonneg⟩, rfl, rfl, rfl, rfl, rfl, hA'⟩
    intro u a
    rw [hd1, hg2b, hF', hI.frozen_eq]
    unfold market_frozen
    simp only [hb, book_frozen_append, book_frozen_cons, huser1]
    have hfz : maker1.freeze = maker.freeze - maker.price * amount := by
      rw [hmaker1]; rfl
    by_cases hu : maker.user_id = u
    · by_cases ha : m.money = a
      · simp only [hu, ha, and_self, if_true, hfz]; ring
      · have ha' : ¬ a = m.money := fun e => ha e.symm
        simp only [hu, ha, ha', and_false, if_false, true_and]; ring
    · have hu' : ¬ u = maker.user_id := fun e => hu e.symm
      simp only [hu, hu', false_and, if_false]; ring

theorem bid_taker_deal_spec {A : dict_asset_t} {n : ℕ} {c : ℕ → String → ℚ} {g : globals}
    {m : market_t} (real by_deal : Bool) (taker : order_t) {maker : order_t}
    {pre rest : List order_t} {amount : ℚ} (hI : MatchInv A n c g m)
    (hb : m.asks = pre ++ maker :: rest)
    (hpos : 0 < amount) (hle : amount ≤ maker.left) (hgrid : on_grid amount m.stock_prec)
    (hfee : taker.taker_fee ≤ 1) :
    MatchInv A n c (bid_taker_deal real by_deal g m taker maker amount).1
      (bid_taker_deal real by_deal g m taker maker amount).2.1 ∧
    (bid_taker_deal real by_deal g m taker maker amount).2.1.bids = m.bids ∧
    (bid_taker_deal real by_deal g m taker maker amount).2.1.asks =
      pre ++ (if maker.left - amount = 0 then rest
       else fill_maker maker amount amount (maker.price * amount)
        (maker.price * amount * maker.maker_fee) :: rest) ∧
    market_static (bid_taker_deal real by_deal g m taker maker amount).2.1 = market_static m ∧
    (bid_taker_deal real by_deal g m taker maker amount).1.order_id_start = g.order_id_start ∧
    (bid_taker_deal real by_deal g m taker maker amount).1.dict_update = g.dict_update ∧
    (∀ u a, bal g.dict_balance u BALANCE_TYPE_AVAILABLE a -
        (if u = taker.user_id ∧ a = m.money then maker.price * amount else 0) ≤
      bal (bid_taker_deal real by_deal g m taker maker amount).1.dict_balance u
        BALANCE_TYPE_AVAILABLE a) := by
  have hM := hI.market_ok
  have hmk : maker ∈ m.asks := by
    rw [hb]; exact List.mem_append_right _ (List.mem_cons_self _ _)
  have hm := hM.asks_ok maker hmk
  obtain ⟨as, has, hsp⟩ := hM.stock_ok
  obtain ⟨am, ham, hmp, _⟩ := hM.money_ok
  -- the quantities of the deal
  have hdeal0 : 0 ≤ maker.price * amount := (mul_pos hm.price_pos hpos).le
  have hdealg : on_grid (maker.price * amount) am.prec_save :=
    on_grid_mono (on_grid_mul hm.price_grid hgrid) (by omega)
  have hamountg : on_grid amount as.prec_save := on_grid_mono hgrid (by omega)
  have htc : amount * taker.taker_fee ≤ amount := by
    nlinarith
  have hmc : maker.price * amount * maker.maker_fee ≤ maker.price * amount := by
    have := hm.maker_fee_lt
    nlinarith
  have hfreeze : maker.freeze = maker.left := by
    rw [hm.freeze_eq, if_pos rfl]
  have hfr : amount ≤ bal g.dict_balance maker.user_id BALANCE_TYPE_FREEZE m.stock := by
    rw [hI.frozen_eq]
    have h1 : maker.freeze ≤ book_frozen m.asks maker.user_id := by
      exact book_frozen_mem_le (fun o ho => (hM.asks_ok o ho).freeze_nonneg) hmk
    have h2 : book_frozen m.asks maker.user_id ≤ market_frozen m maker.user_id m.stock := by
      unfold market_frozen
      rw [if_pos rfl]
      have := book_frozen_nonneg (fun o ho => (hM.bids_ok o ho).freeze_nonneg) maker.user_id
      split_ifs <;> linarith
    have h3 := hI.rest_nonneg maker.user_id m.stock
    linarith
  have hL := hI.ledger_ok
  obtain ⟨hL', hF', hA'⟩ := settle_ledger_spec hL taker.user_id maker.user_id ham has hdeal0
    hdealg hpos.le hamountg htc hmc hfr
  -- the state before the maker is dealt with
  have hperm : (m.asks ++ m.bids).Perm (maker :: ((pre ++ rest) ++ m.bids)) := by
    rw [hb]; exact List.Perm.append_right _ List.perm_middle
  have hrest : ∀ o ∈ pre ++ rest, o.id ≠ maker.id := by
    have hnd := (hperm.map (fun o => o.id)).nodup_iff.mp hM.ids_nodup
    rw [List.map_cons, List.nodup_cons] at hnd
    intro o ho e
    apply hnd.1
    rw [← e]
    exact List.mem_map.mpr ⟨o, List.mem_append_left _ ho, rfl⟩
  have hm1 : book_update m.asks
      (fill_maker maker amount amount (maker.price * amount)
        (maker.price * amount * maker.maker_fee)) =
      pre ++ fill_maker maker amount amount (maker.price * amount)
        (maker.price * amount * maker.maker_fee) :: rest := by
    rw [hb]; exact book_update_mid rfl hrest
  obtain ⟨maker1, hmaker1⟩ : ∃ x, x = fill_maker maker amount amount
      (maker.price * amount) (maker.price * amount * maker.maker_fee) := ⟨_, rfl⟩
  rw [← hmaker1] at hm1 ⊢
  have hid1 : maker1.id = maker.id := by rw [hmaker1]; rfl
  have huser1 : maker1.user_id = maker.user_id := by rw [hmaker1]; rfl
  have hside1 : maker1.side = MARKET_ORDER_SIDE_ASK := by
    rw [hmaker1]; show maker.side = _; rw [hm.side_eq]
  have hleft1 : maker1.left = maker.left - amount := by rw [hmaker1]; rfl
  have hfreeze1 : maker1.freeze = maker1.left := by
    rw [hleft1, hmaker1]; show maker.freeze - amount = _; rw [hfreeze]
  obtain ⟨g2, hg2⟩ : ∃ x, x = settle real
      (emit real
        [event.order_deal_history ((g.deals_id_start + 1) % 2 ^ 64) maker MARKET_ROLE_MAKER taker
            MARKET_ROLE_TAKER maker.price amount (maker.price * amount)
            (maker.price * amount * maker.maker_fee) (amount * taker.taker_fee),
          event.deal_message m.name maker taker maker.price amount
            (maker.price * amount * maker.maker_fee) (amount * taker.taker_fee)
            MARKET_ORDER_SIDE_BID ((g.deals_id_start + 1) % 2 ^ 64) m.stock m.money]
        { g with deals_id_start := (g.deals_id_start + 1) % 2 ^ 64 })
      taker.user_id maker.user_id m.money (maker.price * amount) m.stock amount
      (amount * taker.taker_fee) (maker.price * amount * maker.maker_fee) := ⟨_, rfl⟩
  have hg2b : g2.dict_balance = settle_ledger A g.dict_balance taker.user_id maker.user_id
      m.money (maker.price * amount) m.stock amount (amount * taker.taker_fee)
      (maker.price * amount * maker.maker_fee) := by
    rw [hg2, settle_dict_balance]
    simp only [emit_dict_asset, emit_dict_balance, hI.asset_eq]
  have hg2f := settle_frame real
      (emit real
        [event.order_deal_history ((g.deals_id_start + 1) % 2 ^ 64) maker MARKET_ROLE_MAKER taker
            MARKET_ROLE_TAKER maker.price amount (maker.price * amount)
            (maker.price * amount * maker.maker_fee) (amount * taker.taker_fee),
          event.deal_message m.name maker taker maker.price amount
            (maker.price * amount * maker.maker_fee) (amount * taker.taker_fee)
            MARKET_ORDER_SIDE_BID ((g.deals_id_start + 1) % 2 ^ 64) m.stock m.money]
        { g with deals_id_start := (g.deals_id_start + 1) % 2 ^ 64 })
      taker.user_id maker.user_id m.money (maker.price * amount) m.stock amount
      (amount * taker.taker_fee) (maker.price * amount * maker.maker_fee)
  rw [← hg2] at hg2f
  simp only [emit_dict_asset, emit_order_id_start, emit_dict_update] at hg2f
  obtain ⟨hg2a, hg2o, _, hg2u⟩ := hg2f
  have hr1 : (bid_taker_deal real by_deal g m taker maker amount).1 =
      (maker_done real g2 { m with asks := pre ++ maker1 :: rest } maker1).1 := by
    rw [hg2, ← hm1, hmaker1]; rfl
  have hr2 : (bid_taker_deal real by_deal g m taker maker amount).2.1 =
      (maker_done real g2 { m with asks := pre ++ maker1 :: rest } maker1).2 := by
    rw [hg2, ← hm1, hmaker1]; rfl
  have hfrz : maker1.left = 0 → ¬ maker1.freeze > 0 := by
    intro h0; rw [hfreeze1, h0]; exact lt_irrefl 0
  obtain ⟨hd1, hd2, hd3, _, hd5⟩ :=
    maker_done_globals real g2 { m with asks := pre ++ maker1 :: rest } maker1 hfrz
  rw [hr1, hr2, hd1, hd3, hd5, hg2b, hg2o, hg2u]
  by_cases h0 : maker.left - amount = 0
  · -- the maker is filled and leaves the book
    have h0' : maker1.left = 0 := by rw [hleft1]; exact h0
    have hmarket : (maker_done real g2 { m with asks := pre ++ maker1 :: rest } maker1).2 =
        { m with
          asks := pre ++ rest
          bids := m.bids
          orders := Function.update m.orders maker.id false
          users := match m.users maker.user_id with
            | some order_list => Function.update m.users maker.user_id
                (some (skiplist_delete order_id_compare maker.id order_list))
            | none => m.users } := by
      rw [maker_done_ask_removed real g2 _ maker1 h0' (hfrz h0') hside1]
      rw [skiplist_delete_mid (fun o ho => by
        rw [hid1]; exact hrest o (List.mem_append_left _ ho))]
      simp only [hid1, huser1]

    rw [hmarket, if_pos h0]
    have hMk := hM.remove hperm
      (fun o ho => by
        rw [hb]
        rcases List.mem_append.mp ho with e | e
        · exact List.mem_append_left _ e
        · exact List.mem_append_right _ (List.mem_cons_of_mem _ e)) (fun o ho => ho)
    refine ⟨⟨by rw [hd2, hg2a]; exact hI.asset_eq, by rw [hd1, hg2b]; exact hL', hMk, ?_,
      hI.rest_nonneg⟩, rfl, rfl, rfl, rfl, rfl, hA'⟩
    intro u a
    rw [hd1, hg2b, hF', hI.frozen_eq]
    unfold market_frozen
    simp only [hb, book_frozen_append, book_frozen_cons]
    have hfz : maker.freeze = amount := by
      rw [hfreeze]; linarith
    by_cases hu : maker.user_id = u
    · by_cases ha : m.stock = a
      · simp only [hu, ha, and_self, if_true, hfz]; ring
      · have ha' : ¬ a = m.stock := fun e => ha e.symm
        simp only [hu, ha, ha', and_false, if_false, true_and]; ring
    · have hu' : ¬ u = maker.user_id := fun e => hu e.symm
      simp only [hu, hu', false_and, if_false, zero_add, sub_zero]
  · -- the maker stays with what is left
    have h0' : maker1.left ≠ 0 := by rw [hleft1]; exact h0
    rw [maker_done_kept real g2 _ maker1 h0', if_neg h0]
    have hOK1 : OrderOK m.stock_prec m.money_prec MARKET_ORDER_SIDE_ASK maker1 := by
      have hl : 0 < maker1.left := by
        rw [hleft1]
        exact lt_of_le_of_ne (by linarith) (Ne.symm h0)
      refine ⟨by rw [hmaker1]; exact hm.type_eq, by rw [hmaker1]; exact hm.side_eq,
        by rw [hmaker1]; exact hm.price_pos, by rw [hmaker1]; exact hm.price_grid, hl,
        by rw [hleft1]; exact on_grid_sub hm.left_grid hgrid, ?_, ?_, ?_,
        by rw [hmaker1]; exact hm.maker_fee_nonneg, by rw [hmaker1]; exact hm.maker_fee_lt⟩
      · have hamt1 : maker1.amount = maker.amount := by rw [hmaker1]; rfl
        rw [hleft1, hamt1]; have := hm.left_le; linarith
      · rw [hleft1, hmaker1]; show maker.deal_stock + amount + (maker.left - amount) = maker.amount
        have := hm.deal_left; linarith
      · rw [if_pos rfl, hfreeze1]
    have hMk : MarketOK A n { m with asks := pre ++ maker1 :: rest } := by
      apply hM.replace hperm (List.Perm.append_right _ List.perm_middle) hid1 huser1
      · intro o ho
        rcases List.mem_append.mp ho with e | e
        · exact hM.asks_ok o (by rw [hb]; exact List.mem_append_left _ e)
        · rcases List.mem_cons.mp e with e | e
          · rw [e]; exact hOK1
          · exact hM.asks_ok o (by
              rw [hb]; exact List.mem_append_right _ (List.mem_cons_of_mem _ e))
      · exact hM.bids_ok
    refine ⟨⟨by rw [hd2, hg2a]; exact hI.asset_eq, by rw [hd1, hg2b]; exact hL', hMk, ?_,
      hI.rest_nonneg⟩, rfl, rfl, rfl, rfl, rfl, hA'⟩
    intro u a
    rw [hd1, hg2b, hF', hI.frozen_eq]
    unfold market_frozen
    simp only [hb, book_frozen_append, book_frozen_cons, huser1]
    have hfz : maker1.freeze = maker.freeze - amount := by
      rw [hmaker1]; rfl
    by_cases hu : maker.user_id = u
    · by_cases ha : m.stock = a
      · simp only [hu, ha, and_self, if_true, hfz]; ring
      · have ha' : ¬ a = m.stock := fun e => ha e.symm
        simp only [hu, ha, ha', and_false, if_false, true_and]; ring
    · have hu' : ¬ u = maker.user_id := fun e => hu e.symm
      simp only [hu, hu', false_and, if_false]; ring

theorem same_order_head_refl (o : order_t) : same_order_head o o :=
  ⟨rfl, rfl, rfl, rfl, rfl, rfl, rfl, rfl, rfl⟩

theorem same_order_head_fill_taker {o o' : order_t} (h : same_order_head o o')
    (ld a d f : ℚ) : same_order_head o (fill_taker o' ld a d f) := h

theorem execute_limit_ask_order_loop_done (real : Bool) (nodes : List order_t) (g : globals)
    (m : market_t) (taker : order_t) (h : taker.left = 0) :
    execute_limit_ask_order_loop real nodes g m taker = (g, m, taker, []) := by
  cases nodes with
  | nil => rfl
  | cons maker rest => rw [execute_limit_ask_order_loop, if_pos h]

theorem execute_limit_ask_order_loop_spec {A : dict_asset_t} {n : ℕ} {c : ℕ → String → ℚ}
    (real : Bool) : ∀ (nodes : List order_t) (g : globals) (m : market_t) (taker : order_t),
    MatchInv A n c g m → m.bids = nodes → taker.taker_fee ≤ 1 → 0 ≤ taker.left →
    on_grid taker.left m.stock_prec →
    taker.left ≤ bal g.dict_balance taker.user_id BALANCE_TYPE_AVAILABLE m.stock →
    MatchInv A n c (execute_limit_ask_order_loop real nodes g m taker).1
      (execute_limit_ask_order_loop real nodes g m taker).2.1 ∧
    market_static (execute_limit_ask_order_loop real nodes g m taker).2.1 = market_static m ∧
    (execute_limit_ask_order_loop real nodes g m taker).1.order_id_start = g.order_id_start ∧
    (execute_limit_ask_order_loop real nodes g m taker).1.dict_update = g.dict_update ∧
    same_order_head taker (execute_limit_ask_order_loop real nodes g m taker).2.2.1 ∧
    (execute_limit_ask_order_loop real nodes g m taker).2.2.1.deal_stock +
        (execute_limit_ask_order_loop real nodes g m taker).2.2.1.left =
      taker.deal_stock + taker.left ∧
    0 ≤ (execute_limit_ask_order_loop real nodes g m taker).2.2.1.left ∧
    (execute_limit_ask_order_loop real nodes g m taker).2.2.1.left ≤ taker.left ∧
    on_grid (execute_limit_ask_order_loop real nodes g m taker).2.2.1.left m.stock_prec ∧
    (execute_limit_ask_order_loop real nodes g m taker).2.2.1.left ≤
      bal (execute_limit_ask_order_loop real nodes g m taker).1.dict_balance taker.user_id
        BALANCE_TYPE_AVAILABLE m.stock := by
  intro nodes
  induction nodes with
  | nil =>
    intro g m taker hI _ _ h0 hg ha
    exact ⟨hI, rfl, rfl, rfl, same_order_head_refl _, rfl, h0, le_rfl, hg, ha⟩
  | cons maker rest ih =>
    intro g m taker hI hb hfee h0 hg ha
    rw [execute_limit_ask_order_loop]
    by_cases hz : taker.left = 0
    · rw [if_pos hz]
      exact ⟨hI, rfl, rfl, rfl, same_order_head_refl _, rfl, h0, le_rfl, hg, ha⟩
    rw [if_neg hz]
    by_cases hp : taker.price > maker.price
    · rw [if_pos hp]
      exact ⟨hI, rfl, rfl, rfl, same_order_head_refl _, rfl, h0, le_rfl, hg, ha⟩
    rw [if_neg hp]
    have hm := hI.market_ok.bids_ok maker (by rw [hb]; exact List.mem_cons_self _ _)
    have hpos : 0 < taker.left := lt_of_le_of_ne h0 (Ne.symm hz)
    obtain ⟨amount, hamount⟩ : ∃ x, x = if taker.left < maker.left then taker.left
      else maker.left := ⟨_, rfl⟩
    have hapos : 0 < amount := by rw [hamount]; split_ifs; exacts [hpos, hm.left_pos]
    have hale : amount ≤ maker.left := by rw [hamount]; split_ifs with h; exacts [h.le, le_rfl]
    have halt : amount ≤ taker.left := by
      rw [hamount]; split_ifs with h; exacts [le_rfl, not_lt.mp h]
    have hag : on_grid amount m.stock_prec := by
      rw [hamount]; split_ifs; exacts [hg, hm.left_grid]
    obtain ⟨hI1, _, hbids1, hst1, hoid1, hup1, hav1⟩ :=
      ask_taker_deal_spec real taker hI (show m.bids = [] ++ maker :: rest from hb) hapos hale hag
        hfee
    rw [List.nil_append] at hbids1
    simp only
    rw [← hamount]
    have hst1' := hst1
    unfold market_static at hst1'
    simp only [Prod.mk.injEq] at hst1'
    obtain ⟨_, hstock1, _, hsp1, _⟩ := hst1'
    -- what the deal leaves of the taker
    have ht1 : (ask_taker_deal real g m taker maker amount).2.2.1 =
        fill_taker taker amount amount (maker.price * amount)
          (maker.price * amount * taker.taker_fee) := rfl
    have hl1 : (ask_taker_deal real g m taker maker amount).2.2.1.left = taker.left - amount := by
      rw [ht1]; rfl
    have hu1 : (ask_taker_deal real g m taker maker amount).2.2.1.user_id = taker.user_id := by
      rw [ht1]; rfl
    have hav1' := hav1 taker.user_id m.stock
    rw [if_pos ⟨rfl, rfl⟩] at hav1'
    by_cases hlt : taker.left < maker.left
    · -- the taker is used up
      have hae : amount = taker.left := by rw [hamount, if_pos hlt]
      have hz1 : (ask_taker_deal real g m taker maker amount).2.2.1.left = 0 := by
        rw [hl1, hae, sub_self]
      rw [execute_limit_ask_order_loop_done real rest _ _ _ hz1]
      refine ⟨hI1, hst1, hoid1, hup1, same_order_head_refl _, ?_, by rw [hz1], by rw [hz1]; exact h0,
        by rw [hz1]; exact on_grid_zero _, ?_⟩
      · rw [ht1]; show taker.deal_stock + amount + (taker.left - amount) = _; ring
      · rw [hz1]; exact bal_nonneg hI1.ledger_ok _ _ _
    · -- the maker is used up
      have hae : amount = maker.left := by rw [hamount, if_neg hlt]
      have hb1 : (ask_taker_deal real g m taker maker amount).2.1.bids = rest := by
        rw [hbids1, if_pos (by rw [hae, sub_self])]
      have := ih _ _ (ask_taker_deal real g m taker maker amount).2.2.1 hI1 hb1
        (by rw [ht1]; exact hfee) (by rw [hl1]; linarith)
        (by rw [hl1, hsp1]; exact on_grid_sub hg hag)
        (by rw [hl1, hu1, hstock1]; linarith)
      obtain ⟨hI2, hst2, hoid2, hup2, hsame2, hds2, hl0, hle2, hg2, hav2⟩ := this
      refine ⟨hI2, hst2.trans hst1, hoid2.trans hoid1, hup2.trans hup1, hsame2, ?_, hl0, ?_, ?_,
        ?_⟩
      · rw [hds2, ht1]; show taker.deal_stock + amount + (taker.left - amount) = _; ring
      · rw [hl1] at hle2; linarith
      · rw [hsp1] at hg2; exact hg2
      · rw [hu1, hstock1] at hav2; exact hav2

theorem execute_limit_bid_order_loop_done (real : Bool) (nodes : List order_t) (g : globals)
    (m : market_t) (taker : order_t) (h : taker.left = 0) :
    execute_limit_bid_order_loop real nodes g m taker = (g, m, taker, []) := by
  cases nodes with
  | nil => rfl
  | cons maker rest => rw [execute_limit_bid_order_loop, if_pos h]

theorem execute_limit_bid_order_loop_spec {A : dict_asset_t} {n : ℕ} {c : ℕ → String → ℚ}
    (real : Bool) : ∀ (nodes : List order_t) (g : globals) (m : market_t) (taker : order_t),
    MatchInv A n c g m → m.asks = nodes → taker.taker_fee ≤ 1 → 0 ≤ taker.left →
    on_grid taker.left m.stock_prec →
    taker.price * taker.left ≤ bal g.dict_balance taker.user_id BALANCE_TYPE_AVAILABLE m.money →
    MatchInv A n c (execute_limit_bid_order_loop real nodes g m taker).1
      (execute_limit_bid_order_loop real nodes g m taker).2.1 ∧
    market_static (execute_limit_bid_order_loop real nodes g m taker).2.1 = market_static m ∧
    (execute_limit_bid_order_loop real nodes g m taker).1.order_id_start = g.order_id_start ∧
    (execute_limit_bid_order_loop real nodes g m taker).1.dict_update = g.dict_update ∧
    same_order_head taker (execute_limit_bid_order_loop real nodes g m taker).2.2.1 ∧
    (execute_limit_bid_order_loop real nodes g m taker).2.2.1.deal_stock +
        (execute_limit_bid_order_loop real nodes g m taker).2.2.1.left =
      taker.deal_stock + taker.left ∧
    0 ≤ (execute_limit_bid_order_loop real nodes g m taker).2.2.1.left ∧
    (execute_limit_bid_order_loop real nodes g m taker).2.2.1.left ≤ taker.left ∧
    on_grid (execute_limit_bid_order_loop real nodes g m taker).2.2.1.left m.stock_prec ∧
    taker.price * (execute_limit_bid_order_loop real nodes g m taker).2.2.1.left ≤
      bal (execute_limit_bid_order_loop real nodes g m taker).1.dict_balance taker.user_id
        BALANCE_TYPE_AVAILABLE m.money := by
  intro nodes
  induction nodes with
  | nil =>
    intro g m taker hI _ _ h0 hg ha
    exact ⟨hI, rfl, rfl, rfl, same_order_head_refl _, rfl, h0, le_rfl, hg, ha⟩
  | cons maker rest ih =>
    intro g m taker hI hb hfee h0 hg ha
    rw [execute_limit_bid_order_loop]
    by_cases hz : taker.left = 0
    · rw [if_pos hz]
      exact ⟨hI, rfl, rfl, rfl, same_order_head_refl _, rfl, h0, le_rfl, hg, ha⟩
    rw [if_neg hz]
    by_cases hp : taker.price < maker.price
    · rw [if_pos hp]
      exact ⟨hI, rfl, rfl, rfl, same_order_head_refl _, rfl, h0, le_rfl, hg, ha⟩
    rw [if_neg hp]
    have hple : maker.price ≤ taker.price := not_lt.mp hp
    have hm := hI.market_ok.asks_ok maker (by rw [hb]; exact List.mem_cons_self _ _)
    have hpos : 0 < taker.left := lt_of_le_of_ne h0 (Ne.symm hz)
    obtain ⟨amount, hamount⟩ : ∃ x, x = if taker.left < maker.left then taker.left
      else maker.left := ⟨_, rfl⟩
    have hapos : 0 < amount := by rw [hamount]; split_ifs; exacts [hpos, hm.left_pos]
    have hale : amount ≤ maker.left := by rw [hamount]; split_ifs with h; exacts [h.le, le_rfl]
    have halt : amount ≤ taker.left := by
      rw [hamount]; split_ifs with h; exacts [le_rfl, not_lt.mp h]
    have hag : on_grid amount m.stock_prec := by
      rw [hamount]; split_ifs; exacts [hg, hm.left_grid]
    obtain ⟨hI1, _, hasks1, hst1, hoid1, hup1, hav1⟩ :=
      bid_taker_deal_spec real false taker hI (show m.asks = [] ++ maker :: rest from hb) hapos
        hale hag hfee
    rw [List.nil_append] at hasks1
    simp only
    rw [← hamount]
    have hst1' := hst1
    unfold market_static at hst1'
    simp only [Prod.mk.injEq] at hst1'
    obtain ⟨_, _, hmoney1, hsp1, _⟩ := hst1'
    -- what the deal leaves of the taker
    have ht1 : (bid_taker_deal real false g m taker maker amount).2.2.1 =
        fill_taker taker amount amount (maker.price * amount)
          (amount * taker.taker_fee) := rfl
    have hl1 : (bid_taker_deal real false g m taker maker amount).2.2.1.left =
        taker.left - amount := by
      rw [ht1]; rfl
    have hu1 : (bid_taker_deal real false g m taker maker amount).2.2.1.user_id =
        taker.user_id := by
      rw [ht1]; rfl
    have hp1 : (bid_taker_deal real false g m taker maker amount).2.2.1.price =
        taker.price := by
      rw [ht1]; rfl
    have hav1' := hav1 taker.user_id m.money
    rw [if_pos ⟨rfl, rfl⟩] at hav1'
    have hdeal : maker.price * amount ≤ taker.price * amount :=
      mul_le_mul_of_nonneg_right hple hapos.le
    by_cases hlt : taker.left < maker.left
    · -- the taker is used up
      have hae : amount = taker.left := by rw [hamount, if_pos hlt]
      have hz1 : (bid_taker_deal real false g m taker maker amount).2.2.1.left = 0 := by
        rw [hl1, hae, sub_self]
      rw [execute_limit_bid_order_loop_done real rest _ _ _ hz1]
      refine ⟨hI1, hst1, hoid1, hup1, same_order_head_refl _, ?_, by rw [hz1], by rw [hz1]; exact h0,
        by rw [hz1]; exact on_grid_zero _, ?_⟩
      · rw [ht1]; show taker.deal_stock + amount + (taker.left - amount) = _; ring
      · rw [hz1, mul_zero]; exact bal_nonneg hI1.ledger_ok _ _ _
    · -- the maker is used up
      have hae : amount = maker.left := by rw [hamount, if_neg hlt]
      have hb1 : (bid_taker_deal real false g m taker maker amount).2.1.asks = rest := by
        rw [hasks1, if_pos (by rw [hae, sub_self])]
      have := ih _ _ (bid_taker_deal real false g m taker maker amount).2.2.1 hI1 hb1
        (by rw [ht1]; exact hfee) (by rw [hl1]; linarith)
        (by rw [hl1, hsp1]; exact on_grid_sub hg hag)
        (by rw [hl1, hu1, hp1, hmoney1, mul_sub]; linarith)
      obtain ⟨hI2, hst2, hoid2, hup2, hsame2, hds2, hl0, hle2, hg2, hav2⟩ := this
      refine ⟨hI2, hst2.trans hst1, hoid2.trans hoid1, hup2.trans hup1, hsame2, ?_, hl0, ?_, ?_,
        ?_⟩
      · rw [hds2, ht1]; show taker.deal_stock + amount + (taker.left - amount) = _; ring
      · rw [hl1] at hle2; linarith
      · rw [hsp1] at hg2; exact hg2
      · rw [hu1, hp1, hmoney1] at hav2; exact hav2

theorem execute_market_ask_order_loop_done (real : Bool) (nodes : List order_t) (g : globals)
    (m : market_t) (taker : order_t) (h : taker.left = 0) :
    execute_market_ask_order_loop real nodes g m taker = (g, m, taker, []) := by
  cases nodes with
  | nil => rfl
  | cons maker rest => rw [execute_market_ask_order_loop, if_pos h]

theorem execute_market_ask_order_loop_spec {A : dict_asset_t} {n : ℕ} {c : ℕ → String → ℚ}
    (real : Bool) : ∀ (nodes : List order_t) (g : globals) (m : market_t) (taker : order_t),
    MatchInv A n c g m → m.bids = nodes → taker.taker_fee ≤ 1 → 0 ≤ taker.left →
    on_grid taker.left m.stock_prec →
    MatchInv A n c (execute_market_ask_order_loop real nodes g m taker).1
      (execute_market_ask_order_loop real nodes g m taker).2.1 ∧
    market_static (execute_market_ask_order_loop real nodes g m taker).2.1 = market_static m ∧
    (execute_market_ask_order_loop real nodes g m taker).1.order_id_start = g.order_id_start ∧
    (execute_market_ask_order_loop real nodes g m taker).1.dict_update = g.dict_update ∧
    same_order_head taker (execute_market_ask_order_loop real nodes g m taker).2.2.1 ∧
    0 ≤ (execute_market_ask_order_loop real nodes g m taker).2.2.1.left ∧
    (execute_market_ask_order_loop real nodes g m taker).2.2.1.left ≤ taker.left := by
  intro nodes
  induction nodes with
  | nil =>
    intro g m taker hI _ _ h0 hg
    exact ⟨hI, rfl, rfl, rfl, same_order_head_refl _, h0, le_rfl⟩
  | cons maker rest ih =>
    intro g m taker hI hb hfee h0 hg
    rw [execute_market_ask_order_loop]
    by_cases hz : taker.left = 0
    · rw [if_pos hz]
      exact ⟨hI, rfl, rfl, rfl, same_order_head_refl _, h0, le_rfl⟩
    rw [if_neg hz]
    have hm := hI.market_ok.bids_ok maker (by rw [hb]; exact List.mem_cons_self _ _)
    have hpos : 0 < taker.left := lt_of_le_of_ne h0 (Ne.symm hz)
    obtain ⟨amount, hamount⟩ : ∃ x, x = if taker.left < maker.left then taker.left
      else maker.left := ⟨_, rfl⟩
    have hapos : 0 < amount := by rw [hamount]; split_ifs; exacts [hpos, hm.left_pos]
    have hale : amount ≤ maker.left := by rw [hamount]; split_ifs with h; exacts [h.le, le_rfl]
    have halt : amount ≤ taker.left := by
      rw [hamount]; split_ifs with h; exacts [le_rfl, not_lt.mp h]
    have hag : on_grid amount m.stock_prec := by
      rw [hamount]; split_ifs; exacts [hg, hm.left_grid]
    obtain ⟨hI1, _, hbids1, hst1, hoid1, hup1, _⟩ :=
      ask_taker_deal_spec real taker hI (show m.bids = [] ++ maker :: rest from hb) hapos hale hag
        hfee
    rw [List.nil_append] at hbids1
    simp only
    rw [← hamount]
    have hst1' := hst1
    unfold market_static at hst1'
    simp only [Prod.mk.injEq] at hst1'
    obtain ⟨_, _, _, hsp1, _⟩ := hst1'
    have ht1 : (ask_taker_deal real g m taker maker amount).2.2.1 =
        fill_taker taker amount amount (maker.price * amount)
          (maker.price * amount * taker.taker_fee) := rfl
    have hl1 : (ask_taker_deal real g m taker maker amount).2.2.1.left = taker.left - amount := by
      rw [ht1]; rfl
    by_cases hlt : taker.left < maker.left
    · have hae : amount = taker.left := by rw [hamount, if_pos hlt]
      have hz1 : (ask_taker_deal real g m taker maker amount).2.2.1.left = 0 := by
        rw [hl1, hae, sub_self]
      rw [execute_market_ask_order_loop_done real rest _ _ _ hz1]
      exact ⟨hI1, hst1, hoid1, hup1, same_order_head_refl _, by rw [hz1], by rw [hz1]; exact h0⟩
    · have hae : amount = maker.left := by rw [hamount, if_neg hlt]
      have hb1 : (ask_taker_deal real g m taker maker amount).2.1.bids = rest := by
        rw [hbids1, if_pos (by rw [hae, sub_self])]
      have := ih _ _ (ask_taker_deal real g m taker maker amount).2.2.1 hI1 hb1
        (by rw [ht1]; exact hfee) (by rw [hl1]; linarith)
        (by rw [hl1, hsp1]; exact on_grid_sub hg hag)
      obtain ⟨hI2, hst2, hoid2, hup2, hsame2, hl0, hle2⟩ := this
      refine ⟨hI2, hst2.trans hst1, hoid2.trans hoid1, hup2.trans hup1, hsame2, hl0, ?_⟩
      rw [hl1] at hle2; linarith

theorem market_bid_adjust_fits (price left : ℚ) (stock_prec fuel : ℕ) (amount : ℚ)
    (h : ¬ amount * price > left) :
    market_bid_adjust price left stock_prec (fuel + 1) amount = some amount := by
  rw [market_bid_adjust, if_neg h]

theorem mpd_rescale_div_mul_le {left price : ℚ} (stock_prec : ℕ) (hl : 0 ≤ left)
    (hp : 0 < price) : mpd_rescale (left / price) stock_prec * price ≤ left := by
  have h := mpd_rescale_le stock_prec (div_nonneg hl hp.le)
  calc mpd_rescale (left / price) stock_prec * price ≤ left / price * price :=
        mul_le_mul_of_nonneg_right h hp.le
    _ = left := div_mul_cancel₀ _ hp.ne'

theorem execute_market_bid_order_loop_spec {A : dict_asset_t} {n : ℕ} {c : ℕ → String → ℚ}
    (real : Bool) : ∀ (nodes pre : List order_t) (g : globals) (m : market_t) (taker : order_t),
    MatchInv A n c g m → m.asks = pre ++ nodes → taker.taker_fee ≤ 1 → 0 ≤ taker.left →
    ∃ r, execute_market_bid_order_loop real nodes g m taker = some r ∧
      MatchInv A n c r.1 r.2.1 ∧ market_static r.2.1 = market_static m ∧
      r.1.order_id_start = g.order_id_start ∧ r.1.dict_update = g.dict_update ∧
      same_order_head taker r.2.2.1 ∧ 0 ≤ r.2.2.1.left ∧ r.2.2.1.left ≤ taker.left := by
  intro nodes
  induction nodes with
  | nil =>
    intro pre g m taker hI _ _ h0
    exact ⟨_, rfl, hI, rfl, rfl, rfl, same_order_head_refl _, h0, le_rfl⟩
  | cons maker rest ih =>
    intro pre g m taker hI hb hfee h0
    rw [execute_market_bid_order_loop]
    by_cases hz : taker.left = 0
    · rw [if_pos hz]
      exact ⟨_, rfl, hI, rfl, rfl, rfl, same_order_head_refl _, h0, le_rfl⟩
    rw [if_neg hz]
    have hm := hI.market_ok.asks_ok maker (by
      rw [hb]; exact List.mem_append_right _ (List.mem_cons_self _ _))
    have hfit := mpd_rescale_div_mul_le m.stock_prec h0 hm.price_pos
    simp only
    rw [market_bid_fuel, market_bid_adjust_fits _ _ _ _ _ (not_lt.mpr hfit)]
    simp only
    obtain ⟨amount, hamount⟩ : ∃ x, x =
        if mpd_rescale (taker.left / maker.price) m.stock_prec > maker.left then maker.left
        else mpd_rescale (taker.left / maker.price) m.stock_prec := ⟨_, rfl⟩
    rw [← hamount]
    by_cases ha0 : amount = 0
    · rw [if_pos ha0]
      exact ⟨_, rfl, hI, rfl, rfl, rfl, same_order_head_refl _, h0, le_rfl⟩
    rw [if_neg ha0]
    have hr0 : 0 ≤ mpd_rescale (taker.left / maker.price) m.stock_prec :=
      mpd_rescale_nonneg _ (div_nonneg h0 hm.price_pos.le)
    have hapos : 0 < amount := by
      apply lt_of_le_of_ne _ (Ne.symm ha0)
      rw [hamount]; split_ifs; exacts [hm.left_pos.le, hr0]
    have hale : amount ≤ maker.left := by
      rw [hamount]; split_ifs with h; exacts [le_rfl, not_lt.mp h]
    have hale0 : amount ≤ mpd_rescale (taker.left / maker.price) m.stock_prec := by
      rw [hamount]; split_ifs with h; exacts [h.le, le_rfl]
    have hag : on_grid amount m.stock_prec := by
      rw [hamount]; split_ifs; exacts [hm.left_grid, mpd_rescale_on_grid _ _]
    have hdeal : maker.price * amount ≤ taker.left := by
      calc maker.price * amount
          ≤ maker.price * mpd_rescale (taker.left / maker.price) m.stock_prec :=
            mul_le_mul_of_nonneg_left hale0 hm.price_pos.le
        _ = mpd_rescale (taker.left / maker.price) m.stock_prec * maker.price := mul_comm _ _
        _ ≤ taker.left := hfit
    obtain ⟨hI1, _, hasks1, hst1, hoid1, hup1, _⟩ :=
      bid_taker_deal_spec real true taker hI hb hapos hale hag hfee
    have ht1 : (bid_taker_deal real true g m taker maker amount).2.2.1 =
        fill_taker taker (maker.price * amount) amount (maker.price * amount)
          (amount * taker.taker_fee) := rfl
    have hl1 : (bid_taker_deal real true g m taker maker amount).2.2.1.left =
        taker.left - maker.price * amount := by
      rw [ht1]; rfl
    have hasks2 : ∃ pre', (bid_taker_deal real true g m taker maker amount).2.1.asks =
        pre' ++ rest := by
      rw [hasks1]
      split_ifs
      · exact ⟨pre, rfl⟩
      · exact ⟨pre ++ [_], by rw [List.append_assoc]; rfl⟩
    obtain ⟨pre', hpre'⟩ := hasks2
    obtain ⟨r, hr, hI2, hst2, hoid2, hup2, hsame2, hl0, hle2⟩ :=
      ih pre' _ _ (bid_taker_deal real true g m taker maker amount).2.2.1 hI1 hpre'
        (by rw [ht1]; exact hfee) (by rw [hl1]; linarith)
    rw [hr]
    refine ⟨_, rfl, hI2, hst2.trans hst1, hoid2.trans hoid1, hup2.trans hup1, hsame2, hl0, ?_⟩
    rw [hl1] at hle2
    have := mul_pos hm.price_pos hapos
    linarith

/-! ## Freezing and unfreezing -/

theorem balance_add_some {A : dict_asset_t} (d : dict_balance_t) (u t : ℕ) {a : String}
    {as : asset_type} (ha : A a = some as) {v : ℚ} (hv : 0 ≤ v) :
    ∃ x, balance_add A d u t a v = some (x, ledger_add A d u t a v) := by
  unfold ledger_add
  unfold balance_add balance_set
  simp only [ha, not_lt.mpr hv, if_false]
  cases d ⟨u, t, a⟩ with
  | none => by_cases h0 : v = 0 <;> simp [h0]
  | some b => simp

theorem ledger_add_frame (A : dict_asset_t) (d : dict_balance_t) (u t : ℕ) (a : String) (v : ℚ)
    {k : balance_key} (hk : k ≠ ⟨u, t, a⟩) : ledger_add A d u t a v k = d k := by
  cases ha : A a with
  | none => rw [ledger_add_unknown d u t ha]
  | some as =>
    rw [ledger_add_eq d u t ha]
    split_ifs <;> first | rfl | exact Function.update_noteq hk _ _

theorem ledger_sub_frame (A : dict_asset_t) (d : dict_balance_t) (u t : ℕ) (a : String) (v : ℚ)
    {k : balance_key} (hk : k ≠ ⟨u, t, a⟩) : ledger_sub A d u t a v k = d k := by
  cases ha : A a with
  | none => rw [ledger_sub_unknown d u t ha]
  | some as =>
    rw [ledger_sub_eq d u t ha]
    split_ifs <;> first | rfl | exact Function.update_noteq hk _ _

/-- a successful `balance_freeze` is `balance_add` on the frozen balance followed by
`balance_sub` on the available balance -/
theorem balance_freeze_some {A : dict_asset_t} (d : dict_balance_t) (u : ℕ) {a : String}
    {as : asset_type} (ha : A a = some as) {v b : ℚ} (hv : 0 ≤ v)
    (hb : d ⟨u, BALANCE_TYPE_AVAILABLE, a⟩ = some b) (hle : v ≤ b) :
    ∃ x, balance_freeze A d u a v =
      some (x, ledger_sub A (ledger_add A d u BALANCE_TYPE_FREEZE a v) u
        BALANCE_TYPE_AVAILABLE a v) := by
  obtain ⟨x, hx⟩ := balance_add_some d u BALANCE_TYPE_FREEZE ha hv
  have hkey : (⟨u, BALANCE_TYPE_AVAILABLE, a⟩ : balance_key) ≠ ⟨u, BALANCE_TYPE_FREEZE, a⟩ := by
    simp [BALANCE_TYPE_AVAILABLE, BALANCE_TYPE_FREEZE]
  have hb1 : ledger_add A d u BALANCE_TYPE_FREEZE a v ⟨u, BALANCE_TYPE_AVAILABLE, a⟩ = some b := by
    rw [ledger_add_frame A d u _ a v hkey, hb]
  have hbal : bal (ledger_add A d u BALANCE_TYPE_FREEZE a v) u BALANCE_TYPE_AVAILABLE a = b := by
    unfold bal; rw [hb1]; rfl
  rw [ledger_sub_eq _ u _ ha, if_pos ⟨hv, b, hb1, hle⟩, hbal]
  unfold balance_freeze balance_get balance_del
  simp only [ha, not_lt.mpr hv, if_false, hb, not_lt.mpr hle, hx]
  split_ifs
  · exact ⟨_, rfl⟩
  · exact ⟨_, rfl⟩

theorem balance_unfreeze_some {A : dict_asset_t} (d : dict_balance_t) (u : ℕ) {a : String}
    {as : asset_type} (ha : A a = some as) {v b : ℚ} (hv : 0 ≤ v)
    (hb : d ⟨u, BALANCE_TYPE_FREEZE, a⟩ = some b) (hle : v ≤ b) :
    ∃ x, balance_unfreeze A d u a v =
      some (x, ledger_sub A (ledger_add A d u BALANCE_TYPE_AVAILABLE a v) u
        BALANCE_TYPE_FREEZE a v) := by
  obtain ⟨x, hx⟩ := balance_add_some d u BALANCE_TYPE_AVAILABLE ha hv
  have hkey : (⟨u, BALANCE_TYPE_FREEZE, a⟩ : balance_key) ≠ ⟨u, BALANCE_TYPE_AVAILABLE, a⟩ := by
    simp [BALANCE_TYPE_AVAILABLE, BALANCE_TYPE_FREEZE]
  have hb1 : ledger_add A d u BALANCE_TYPE_AVAILABLE a v ⟨u, BALANCE_TYPE_FREEZE, a⟩ = some b := by
    rw [ledger_add_frame A d u _ a v hkey, hb]
  have hbal : bal (ledger_add A d u BALANCE_TYPE_AVAILABLE a v) u BALANCE_TYPE_FREEZE a = b := by
    unfold bal; rw [hb1]; rfl
  rw [ledger_sub_eq _ u _ ha, if_pos ⟨hv, b, hb1, hle⟩, hbal]
  unfold balance_unfreeze balance_get balance_del
  simp only [ha, not_lt.mpr hv, if_false, hb, not_lt.mpr hle, hx]
  split_ifs
  · exact ⟨_, rfl⟩
  · exact ⟨_, rfl⟩

theorem bal_pos_some {d : dict_balance_t} {u t : ℕ} {a : String} (h : 0 < bal d u t a) :
    d ⟨u, t, a⟩ = some (bal d u t a) := by
  unfold bal at h ⊢
  cases hk : d ⟨u, t, a⟩ with
  | none => rw [hk] at h; simp at h
  | some b => rfl

/-- the effect of moving `v` between the two balances of a user in an asset: the source loses
`v`, the target gains `v` -/
theorem ledger_move_spec {A : dict_asset_t} {d : dict_balance_t} (h : LedgerOK A d) (u : ℕ)
    {a : String} {as : asset_type} (ha : A a = some as) {v : ℚ} (hv : 0 ≤ v)
    (hg : on_grid v as.prec_save) {tsrc tdst : ℕ} (hne : tsrc ≠ tdst)
    (hle : v ≤ bal d u tsrc a) :
    LedgerOK A (ledger_sub A (ledger_add A d u tdst a v) u tsrc a v) ∧
    ∀ u' t' a', bal (ledger_sub A (ledger_add A d u tdst a v) u tsrc a v) u' t' a' =
      bal d u' t' a' +
        (if u' = u ∧ a' = a then (if t' = tdst then v else if t' = tsrc then -v else 0) else 0) := by
  refine ⟨ledger_sub_ok (ledger_add_ok h _ _ _ _) _ _ _ _, ?_⟩
  intro u' t' a'
  have hfrom : bal (ledger_add A d u tdst a v) u tsrc a = bal d u tsrc a := by
    rw [ledger_add_bal u tdst ha, if_neg (fun e => hne e.1.2.1)]
  rw [ledger_sub_bal u tsrc ha, hfrom]
  by_cases hk : u' = u ∧ a' = a
  · obtain ⟨rfl, rfl⟩ := hk
    simp only [and_self, true_and, and_true, if_true, hv, hle]
    by_cases ht : t' = tsrc
    · subst ht
      simp only [if_true, hne, if_false]
      rw [mpd_rescale_eq_self (on_grid_sub (bal_on_grid h u' t' ha) hg)]
      ring
    · simp only [ht, if_false]
      rw [ledger_add_bal u' tdst ha]
      simp only [true_and, and_true, hv, and_self]
      by_cases ht2 : t' = tdst
      · subst ht2
        simp only [if_true]
        rw [mpd_rescale_eq_self (on_grid_add (bal_on_grid h u' t' ha) hg)]
      · simp only [ht2, if_false, add_zero]
  · have hk1 : ¬ (u' = u ∧ t' = tsrc ∧ a' = a) := fun e => hk ⟨e.1, e.2.2⟩
    have hk2 : ¬ (u' = u ∧ t' = tdst ∧ a' = a) := fun e => hk ⟨e.1, e.2.2⟩
    rw [if_neg (fun e => hk1 e.1), ledger_add_bal u tdst ha, if_neg (fun e => hk2 e.1), if_neg hk,
      add_zero]

/-! ## Resting and finishing an order -/

theorem MarketOK.raise_bound {A : dict_asset_t} {n n' : ℕ} {m : market_t} (h : MarketOK A n m)
    (hn : n ≤ n') : MarketOK A n' m :=
  ⟨h.stock_ok, h.money_ok, h.asks_ok, h.bids_ok, h.ids_nodup,
    fun o ho => (h.ids_le o ho).trans hn, h.orders_iff, h.users_iff, h.users_nodup⟩

/-- adding one order with a fresh id to a book and to both indices -/
theorem MarketOK.insert {A : dict_asset_t} {n n' : ℕ} {m : market_t} (h : MarketOK A n m)
    {y : order_t} {asks' bids' : List order_t} (hn : n < y.id) (hn' : y.id ≤ n')
    (hp : (asks' ++ bids').Perm (y :: (m.asks ++ m.bids)))
    (ha : ∀ o ∈ asks', OrderOK m.stock_prec m.money_prec MARKET_ORDER_SIDE_ASK o)
    (hb : ∀ o ∈ bids', OrderOK m.stock_prec m.money_prec MARKET_ORDER_SIDE_BID o) :
    MarketOK A n'
      { m with
        asks := asks'
        bids := bids'
        orders := Function.update m.orders y.id true
        users := Function.update m.users y.user_id
          (some (skiplist_insert order_id_compare y.id ((m.users y.user_id).getD []))) } := by
  have hfresh : ∀ o ∈ m.asks ++ m.bids, o.id ≠ y.id := fun o ho e =>
    absurd (h.ids_le o ho) (by rw [e]; exact not_le.mpr hn)
  have hyl : y.id ∉ (m.users y.user_id).getD [] := fun hmem => by
    obtain ⟨o, ho, ho2, -⟩ := (h.users_iff y.user_id y.id).mp hmem
    exact hfresh o ho ho2
  refine ⟨h.stock_ok, h.money_ok, ha, hb, ?_, ?_, ?_, ?_, ?_⟩
  · show ((asks' ++ bids').map (fun o => o.id)).Nodup
    rw [(hp.map _).nodup_iff, List.map_cons, List.nodup_cons]
    refine ⟨?_, h.ids_nodup⟩
    intro hmem
    obtain ⟨o, ho, ho2⟩ := List.mem_map.mp hmem
    exact hfresh o ho ho2
  · intro o ho
    rcases List.mem_cons.mp (hp.mem_iff.mp ho) with e | e
    · rw [e]; exact hn'
    · exact (h.ids_le o e).trans (hn.le.trans hn')
  · intro id
    show Function.update m.orders y.id true id = true ↔ ∃ o ∈ asks' ++ bids', o.id = id
    rw [perm_exists_iff hp]
    by_cases e : id = y.id
    · subst e
      rw [Function.update_same]
      exact ⟨fun _ => ⟨y, List.mem_cons_self _ _, rfl⟩, fun _ => rfl⟩
    · rw [Function.update_noteq e, h.orders_iff id]
      constructor
      · rintro ⟨o, ho, ho2⟩
        exact ⟨o, List.mem_cons_of_mem _ ho, ho2⟩
      · rintro ⟨o, ho, ho2⟩
        rcases List.mem_cons.mp ho with e1 | e1
        · subst e1; exact absurd ho2.symm e
        · exact ⟨o, e1, ho2⟩
  · intro u id
    show id ∈ ((Function.update m.users y.user_id
      (some (skiplist_insert order_id_compare y.id ((m.users y.user_id).getD [])))) u).getD [] ↔
      ∃ o ∈ asks' ++ bids', o.id = id ∧ o.user_id = u
    rw [perm_exists_iff hp]
    by_cases e : u = y.user_id
    · subst e
      rw [Function.update_same, Option.getD_some,
        (skiplist_insert_perm order_id_compare y.id _).mem_iff, List.mem_cons,
        h.users_iff y.user_id id]
      constructor
      · rintro (e1 | ⟨o, ho, ho2, ho3⟩)
        · exact ⟨y, List.mem_cons_self _ _, e1.symm, rfl⟩
        · exact ⟨o, List.mem_cons_of_mem _ ho, ho2, ho3⟩
      · rintro ⟨o, ho, ho2, ho3⟩
        rcases List.mem_cons.mp ho with e1 | e1
        · subst e1; exact Or.inl ho2.symm
        · exact Or.inr ⟨o, e1, ho2, ho3⟩
    · rw [Function.update_noteq e, h.users_iff u id]
      constructor
      · rintro ⟨o, ho, ho2, ho3⟩
        exact ⟨o, List.mem_cons_of_mem _ ho, ho2, ho3⟩
      · rintro ⟨o, ho, ho2, ho3⟩
        rcases List.mem_cons.mp ho with e1 | e1
        · subst e1; exact absurd ho3.symm e
        · exact ⟨o, e1, ho2, ho3⟩
  · intro u
    show List.Nodup (((Function.update m.users y.user_id
      (some (skiplist_insert order_id_compare y.id ((m.users y.user_id).getD [])))) u).getD [])
    by_cases e : u = y.user_id
    · subst e
      rw [Function.update_same, Option.getD_some,
        (skiplist_insert_perm order_id_compare y.id _).nodup_iff, List.nodup_cons]
      exact ⟨hyl, h.users_nodup _⟩
    · rw [Function.update_noteq e]
      exact h.users_nodup u

/-- the result of `order_put` on a limit order whose id is not in use, with the two index
updates written out -/
theorem order_put_canon (g : globals) (m : market_t) (order : order_t)
    (htype : order.type = MARKET_ORDER_TYPE_LIMIT) (hfree : m.orders order.id = false) :
    order_put g m order =
      if order.side = MARKET_ORDER_SIDE_ASK then
        match balance_freeze g.dict_asset g.dict_balance order.user_id m.stock order.left with
        | none => (-277, g,
            { m with
              asks := skiplist_insert order_match_compare { order with freeze := order.left } m.asks
              bids := m.bids
              orders := Function.update m.orders order.id true
              users := Function.update m.users order.user_id (some
                (skiplist_insert order_id_compare order.id ((m.users order.user_id).getD []))) },
            { order with freeze := order.left })
        | some r => (0, { g with dict_balance := r.2 },
            { m with
              asks := skiplist_insert order_match_compare { order with freeze := order.left } m.asks
              bids := m.bids
              orders := Function.update m.orders order.id true
              users := Function.update m.users order.user_id (some
                (skiplist_insert order_id_compare order.id ((m.users order.user_id).getD []))) },
            { order with freeze := order.left })
      else
        match balance_freeze g.dict_asset g.dict_balance order.user_id m.money
            (order.price * order.left) with
        | none => (-286, g,
            { m with
              asks := m.asks
              bids := skiplist_insert order_match_compare
                { order with freeze := order.price * order.left } m.bids
              orders := Function.update m.orders order.id true
              users := Function.update m.users order.user_id (some
                (skiplist_insert order_id_compare order.id ((m.users order.user_id).getD []))) },
            { order with freeze := order.price * order.left })
        | some r => (0, { g with dict_balance := r.2 },
            { m with
              asks := m.asks
              bids := skiplist_insert order_match_compare
                { order with freeze := order.price * order.left } m.bids
              orders := Function.update m.orders order.id true
              users := Function.update m.users order.user_id (some
                (skiplist_insert order_id_compare order.id ((m.users order.user_id).getD []))) },
            { order with freeze := order.price * order.left }) := by
  unfold order_put
  rw [if_neg (not_not.mpr htype), hfree]
  simp only [Bool.false_eq_true, if_false]
  cases hu : m.users order.user_id <;> rfl

theorem order_put_spec {A : dict_asset_t} {n n' : ℕ} {c : ℕ → String → ℚ} {g : globals}
    {m : market_t} {order : order_t} (hI : MatchInv A n c g m) (hn : n < order.id)
    (hn' : order.id ≤ n') (htype : order.type = MARKET_ORDER_TYPE_LIMIT)
    (hside : order.side = MARKET_ORDER_SIDE_ASK ∨ order.side = MARKET_ORDER_SIDE_BID)
    (hprice : 0 < order.price) (hpg : on_grid order.price m.money_prec)
    (hleft : 0 < order.left) (hlg : on_grid order.left m.stock_prec)
    (hle : order.left ≤ order.amount) (hds : order.deal_stock + order.left = order.amount)
    (hmf0 : 0 ≤ order.maker_fee) (hmf1 : order.maker_fee < 1)
    (hav : (if order.side = MARKET_ORDER_SIDE_ASK then order.left
        else order.price * order.left) ≤
      bal g.dict_balance order.user_id BALANCE_TYPE_AVAILABLE
        (if order.side = MARKET_ORDER_SIDE_ASK then m.stock else m.money)) :
    (order_put g m order).1 = 0 ∧
    MatchInv A n' c (order_put g m order).2.1 (order_put g m order).2.2.1 ∧
    market_static (order_put g m order).2.2.1 = market_static m ∧
    (order_put g m order).2.1.order_id_start = g.order_id_start ∧
    (order_put g m order).2.1.dict_update = g.dict_update ∧
    (order_put g m order).2.2.2 = { order with freeze :=
      if order.side = MARKET_ORDER_SIDE_ASK then order.left else order.price * order.left } ∧
    (order_put g m order).2.2.1.asks =
      (if order.side = MARKET_ORDER_SIDE_ASK then
        skiplist_insert order_match_compare (order_put g m order).2.2.2 m.asks else m.asks) ∧
    (order_put g m order).2.2.1.bids =
      (if order.side = MARKET_ORDER_SIDE_ASK then m.bids else
        skiplist_insert order_match_compare (order_put g m order).2.2.2 m.bids) ∧
    (order_put g m order).2.2.1.orders order.id = true ∧
    order.id ∈ ((order_put g m order).2.2.1.users order.user_id).getD [] ∧
    ∀ u t a, bal (order_put g m order).2.1.dict_balance u t a = bal g.dict_balance u t a +
      (if u = order.user_id ∧
          a = (if order.side = MARKET_ORDER_SIDE_ASK then m.stock else m.money) then
        (if t = BALANCE_TYPE_FREEZE then
          (if order.side = MARKET_ORDER_SIDE_ASK then order.left else order.price * order.left)
        else if t = BALANCE_TYPE_AVAILABLE then
          -(if order.side = MARKET_ORDER_SIDE_ASK then order.left else order.price * order.left)
        else 0) else 0) := by
  have hM := hI.market_ok
  have hfresh : ∀ o ∈ m.asks ++ m.bids, o.id ≠ order.id := fun o ho e =>
    absurd (hM.ids_le o ho) (by rw [e]; exact not_le.mpr hn)
  have hfree : m.orders order.id = false := by
    cases hq : m.orders order.id with
    | false => rfl
    | true =>
      obtain ⟨o, ho, ho2⟩ := (hM.orders_iff order.id).mp hq
      exact absurd ho2 (hfresh o ho)
  obtain ⟨as, has, hsp⟩ := hM.stock_ok
  obtain ⟨am, ham, hmp, -⟩ := hM.money_ok
  have hne := type_available_ne_freeze
  rw [order_put_canon g m order htype hfree]
  rcases hside with hs | hs
  · -- an ask freezes `left` of the stock
    simp only [if_pos hs] at hav ⊢
    have hgl : on_grid order.left as.prec_save :=
      on_grid_mono hlg (le_trans (Nat.le_add_right _ _) hsp)
    have hA : g.dict_asset m.stock = some as := by rw [hI.asset_eq]; exact has
    obtain ⟨x, hx⟩ := balance_freeze_some g.dict_balance order.user_id hA hleft.le
      (bal_pos_some (lt_of_lt_of_le hleft hav)) hav
    have hmv := ledger_move_spec (by rw [hI.asset_eq]; exact hI.ledger_ok) order.user_id hA
      hleft.le hgl hne hav
    rw [hx]
    dsimp only
    have hperm := skiplist_insert_perm order_match_compare
      ({ order with freeze := order.left } : order_t) m.asks
    have hbf : ∀ u, book_frozen (skiplist_insert order_match_compare
        ({ order with freeze := order.left } : order_t) m.asks) u =
        book_frozen m.asks u + (if order.user_id = u then order.left else 0) := by
      intro u
      rw [book_frozen_perm hperm u, book_frozen_cons, add_comm]
    have hok : OrderOK m.stock_prec m.money_prec MARKET_ORDER_SIDE_ASK
        ({ order with freeze := order.left } : order_t) :=
      ⟨htype, hs, hprice, hpg, hleft, hlg, hle, hds, by rw [if_pos rfl], hmf0, hmf1⟩
    refine ⟨rfl, ⟨hI.asset_eq, ?_, ?_, ?_, hI.rest_nonneg⟩, rfl, rfl, rfl, rfl, rfl, rfl,
      Function.update_same _ _ _, ?_, ?_⟩
    · have := hmv.1
      rwa [hI.asset_eq] at this ⊢
    · refine MarketOK.insert hM (y := ({ order with freeze := order.left } : order_t)) hn hn'
        (hperm.append_right m.bids) ?_ hM.bids_ok
      intro o ho
      rcases List.mem_cons.mp (hperm.mem_iff.mp ho) with e | e
      · rw [e]; exact hok
      · exact hM.asks_ok o e
    · intro u a
      show bal _ u BALANCE_TYPE_FREEZE a = _
      rw [hmv.2 u BALANCE_TYPE_FREEZE a, hI.frozen_eq u a]
      simp only [market_frozen]
      rw [hbf u]
      simp only [if_true]
      by_cases h1 : m.stock = a
      · by_cases h2 : order.user_id = u
        · simp [h1.symm, h2.symm]; ring
        · simp [h1.symm, h2, Ne.symm h2]
      · simp [h1, Ne.symm h1]
    · show order.id ∈ ((Function.update m.users order.user_id _) order.user_id).getD []
      rw [Function.update_same, Option.getD_some,
        (skiplist_insert_perm order_id_compare order.id _).mem_iff]
      exact List.mem_cons_self _ _
    · intro u t a
      exact hmv.2 u t a
  · -- a bid freezes `price * left` of the money
    have hs' : ¬ order.side = MARKET_ORDER_SIDE_ASK := by rw [hs]; exact side_bid_ne_ask
    simp only [if_neg hs'] at hav ⊢
    have hfpos : 0 < order.price * order.left := mul_pos hprice hleft
    have hgl : on_grid (order.price * order.left) am.prec_save :=
      on_grid_mono (on_grid_mul hpg hlg) (by rw [add_comm]; exact hmp)
    have hA : g.dict_asset m.money = some am := by rw [hI.asset_eq]; exact ham
    obtain ⟨x, hx⟩ := balance_freeze_some g.dict_balance order.user_id hA hfpos.le
      (bal_pos_some (lt_of_lt_of_le hfpos hav)) hav
    have hmv := ledger_move_spec (by rw [hI.asset_eq]; exact hI.ledger_ok) order.user_id hA
      hfpos.le hgl hne hav
    rw [hx]
    dsimp only
    have hperm := skiplist_insert_perm order_match_compare
      ({ order with freeze := order.price * order.left } : order_t) m.bids
    have hbf : ∀ u, book_frozen (skiplist_insert order_match_compare
        ({ order with freeze := order.price * order.left } : order_t) m.bids) u =
        book_frozen m.bids u + (if order.user_id = u then order.price * order.left else 0) := by
      intro u
      rw [book_frozen_perm hperm u, book_frozen_cons, add_comm]
    have hok : OrderOK m.stock_prec m.money_prec MARKET_ORDER_SIDE_BID
        ({ order with freeze := order.price * order.left } : order_t) :=
      ⟨htype, hs, hprice, hpg, hleft, hlg, hle, hds, by rw [if_neg side_bid_ne_ask], hmf0, hmf1⟩
    refine ⟨rfl, ⟨hI.asset_eq, ?_, ?_, ?_, hI.rest_nonneg⟩, rfl, rfl, rfl, rfl, rfl, rfl,
      Function.update_same _ _ _, ?_, ?_⟩
    · have := hmv.1
      rwa [hI.asset_eq] at this ⊢
    · refine MarketOK.insert hM
        (y := ({ order with freeze := order.price * order.left } : order_t)) hn hn'
        ((hperm.append_left m.asks).trans List.perm_middle) hM.asks_ok ?_
      intro o ho
      rcases List.mem_cons.mp (hperm.mem_iff.mp ho) with e | e
      · rw [e]; exact hok
      · exact hM.bids_ok o e
    · intro u a
      show bal _ u BALANCE_TYPE_FREEZE a = _
      rw [hmv.2 u BALANCE_TYPE_FREEZE a, hI.frozen_eq u a]
      simp only [market_frozen]
      rw [hbf u]
      simp only [if_true]
      by_cases h1 : m.money = a
      · by_cases h2 : order.user_id = u
        · simp [h1.symm, h2.symm]; ring
        · simp [h1.symm, h2, Ne.symm h2]
      · simp [h1, Ne.symm h1]
    · show order.id ∈ ((Function.update m.users order.user_id _) order.user_id).getD []
      rw [Function.update_same, Option.getD_some,
        (skiplist_insert_perm order_id_compare order.id _).mem_iff]
      exact List.mem_cons_self _ _
    · intro u t a
      exact hmv.2 u t a

theorem MatchInv.log_event {A : dict_asset_t} {n : ℕ} {c : ℕ → String → ℚ} {g : globals}
    {m : market_t} (h : MatchInv A n c g m) (real : Bool) (evs : List event) :
    MatchInv A n c (emit real evs g) m :=
  ⟨by rw [emit_dict_asset]; exact h.asset_eq, by rw [emit_dict_balance]; exact h.ledger_ok,
    h.market_ok, fun u a => by rw [emit_dict_balance]; exact h.frozen_eq u a, h.rest_nonneg⟩

theorem MatchInv.raise_counter {A : dict_asset_t} {n n' : ℕ} {c : ℕ → String → ℚ} {g : globals}
    {m : market_t} (h : MatchInv A n c g m) (hn : n ≤ n') : MatchInv A n' c g m :=
  ⟨h.asset_eq, h.ledger_ok, h.market_ok.raise_bound hn, h.frozen_eq, h.rest_nonneg⟩

/-- no index of a well-formed market knows an id above the bound of the market -/
theorem MarketOK.fresh {A : dict_asset_t} {n : ℕ} {m : market_t} (h : MarketOK A n m) {id : ℕ}
    (hn : n < id) :
    (∀ o ∈ m.asks ++ m.bids, o.id ≠ id) ∧ m.orders id = false ∧
      ∀ u, id ∉ (m.users u).getD [] := by
  have hfresh : ∀ o ∈ m.asks ++ m.bids, o.id ≠ id := fun o ho e =>
    absurd (h.ids_le o ho) (by rw [e]; exact not_le.mpr hn)
  refine ⟨hfresh, ?_, ?_⟩
  · cases hq : m.orders id with
    | false => rfl
    | true =>
      obtain ⟨o, ho, ho2⟩ := (h.orders_iff id).mp hq
      exact absurd ho2 (hfresh o ho)
  · intro u hmem
    obtain ⟨o, ho, ho2, -⟩ := (h.users_iff u id).mp hmem
    exact hfresh o ho ho2

theorem put_limit_close_done (real : Bool) (g : globals) (m : market_t) (order : order_t)
    (h : order.left = 0) :
    put_limit_close real g m order =
      (emit real [event.order_history order,
        event.order_message ORDER_EVENT_FINISH order m.name] g, m, order) := by
  unfold put_limit_close
  rw [if_pos h]

theorem put_limit_close_rest (real : Bool) (g : globals) (m : market_t) (order : order_t)
    (h : order.left ≠ 0) :
    put_limit_close real g m order =
      ((order_put (emit real [event.order_message ORDER_EVENT_PUT order m.name] g) m order).2.1,
        (order_put (emit real [event.order_message ORDER_EVENT_PUT order m.name] g) m order).2.2.1,
        (order_put (emit real [event.order_message ORDER_EVENT_PUT order m.name] g) m
          order).2.2.2) := by
  unfold put_limit_close
  rw [if_neg h]

theorem put_limit_close_inv {A : dict_asset_t} {n n' : ℕ} {c : ℕ → String → ℚ} (real : Bool)
    {g : globals} {m : market_t} {order : order_t} (hI : MatchInv A n c g m) (hn : n < order.id)
    (hn' : order.id ≤ n') (htype : order.type = MARKET_ORDER_TYPE_LIMIT)
    (hside : order.side = MARKET_ORDER_SIDE_ASK ∨ order.side = MARKET_ORDER_SIDE_BID)
    (hprice : 0 < order.price) (hpg : on_grid order.price m.money_prec)
    (hleft : 0 ≤ order.left) (hlg : on_grid order.left m.stock_prec)
    (hle : order.left ≤ order.amount) (hds : order.deal_stock + order.left = order.amount)
    (hmf0 : 0 ≤ order.maker_fee) (hmf1 : order.maker_fee < 1)
    (hav : (if order.side = MARKET_ORDER_SIDE_ASK then order.left
        else order.price * order.left) ≤
      bal g.dict_balance order.user_id BALANCE_TYPE_AVAILABLE
        (if order.side = MARKET_ORDER_SIDE_ASK then m.stock else m.money)) :
    MatchInv A n' c (put_limit_close real g m order).1 (put_limit_close real g m order).2.1 ∧
    market_static (put_limit_close real g m order).2.1 = market_static m ∧
    (put_limit_close real g m order).1.order_id_start = g.order_id_start ∧
    (put_limit_close real g m order).1.dict_update = g.dict_update := by
  by_cases h0 : order.left = 0
  · rw [put_limit_close_done real g m order h0]
    exact ⟨(hI.log_event real _).raise_counter (hn.le.trans hn'), rfl, emit_order_id_start _ _ _,
      emit_dict_update _ _ _⟩
  · rw [put_limit_close_rest real g m order h0]
    have hpos : 0 < order.left := lt_of_le_of_ne hleft (Ne.symm h0)
    have := order_put_spec (hI.log_event real [event.order_message ORDER_EVENT_PUT order m.name])
      hn hn' htype hside hprice hpg hpos hlg hle hds hmf0 hmf1
      (by rw [emit_dict_balance]; exact hav)
    refine ⟨this.2.1, this.2.2.1, ?_, ?_⟩
    · rw [this.2.2.2.1, emit_order_id_start]
    · rw [this.2.2.2.2.1, emit_dict_update]

theorem market_static_eq {m m' : market_t} (h : market_static m' = market_static m) :
    m'.name = m.name ∧ m'.stock = m.stock ∧ m'.money = m.money ∧
      m'.stock_prec = m.stock_prec ∧ m'.money_prec = m.money_prec ∧
      m'.fee_prec = m.fee_prec ∧ m'.min_amount = m.min_amount := by
  unfold market_static at h
  simp only [Prod.mk.injEq] at h
  exact h

theorem MatchInv.counter {A : dict_asset_t} {n : ℕ} {c : ℕ → String → ℚ} {g : globals}
    {m : market_t} (h : MatchInv A n c g m) (id : ℕ) :
    MatchInv A n c { g with order_id_start := id } m :=
  ⟨h.asset_eq, h.ledger_ok, h.market_ok, h.frozen_eq, h.rest_nonneg⟩

theorem balance_short_false {d : dict_balance_t} {u t : ℕ} {a : String} {require : ℚ}
    (h : balance_short (balance_get d u t a) require = false) : require ≤ bal d u t a := by
  unfold balance_get at h
  unfold bal
  cases hk : d ⟨u, t, a⟩ with
  | none => rw [hk] at h; simp [balance_short] at h
  | some b =>
    rw [hk] at h
    simp only [balance_short, decide_eq_false_iff_not, not_lt] at h
    exact h

/-- the matching step of `market_put_limit_order` on a request that passed the checks of the
handler and the balance test -/
theorem put_limit_match_spec {A : dict_asset_t} {n : ℕ} {c : ℕ → String → ℚ} (real : Bool)
    {g : globals} {m : market_t} (hI : MatchInv A n c g m) (hn : g.order_id_start = n)
    (hw : n + 1 < 2 ^ 64) (user_id : ℕ) {side : ℕ} {amount price taker_fee : ℚ} (maker_fee : ℚ)
    (hside : side = MARKET_ORDER_SIDE_ASK ∨ side = MARKET_ORDER_SIDE_BID) (hamt : 0 < amount)
    (hag : on_grid amount m.stock_prec) (htf : taker_fee ≤ 1)
    (hshort : put_limit_short g m user_id side amount price = false) :
    MatchInv A n c (put_limit_match real g m user_id side amount price taker_fee maker_fee).1
      (put_limit_match real g m user_id side amount price taker_fee maker_fee).2.1 ∧
    market_static (put_limit_match real g m user_id side amount price taker_fee maker_fee).2.1 =
      market_static m ∧
    (put_limit_match real g m user_id side amount price taker_fee maker_fee).1.order_id_start =
      n + 1 ∧
    (put_limit_match real g m user_id side amount price taker_fee maker_fee).1.dict_update =
      g.dict_update ∧
    same_order_head (new_limit_order (n + 1) user_id side amount price taker_fee maker_fee)
      (put_limit_match real g m user_id side amount price taker_fee maker_fee).2.2.1 ∧
    (put_limit_match real g m user_id side amount price taker_fee maker_fee).2.2.1.deal_stock +
      (put_limit_match real g m user_id side amount price taker_fee maker_fee).2.2.1.left =
        amount ∧
    0 ≤ (put_limit_match real g m user_id side amount price taker_fee maker_fee).2.2.1.left ∧
    (put_limit_match real g m user_id side amount price taker_fee maker_fee).2.2.1.left ≤
      amount ∧
    on_grid (put_limit_match real g m user_id side amount price taker_fee maker_fee).2.2.1.left
      m.stock_prec ∧
    (if side = MARKET_ORDER_SIDE_ASK then
        (put_limit_match real g m user_id side amount price taker_fee maker_fee).2.2.1.left
      else price *
        (put_limit_match real g m user_id side amount price taker_fee maker_fee).2.2.1.left) ≤
      bal (put_limit_match real g m user_id side amount price taker_fee maker_fee).1.dict_balance
        user_id BALANCE_TYPE_AVAILABLE
        (if side = MARKET_ORDER_SIDE_ASK then m.stock else m.money) := by
  have hid : (g.order_id_start + 1) % 2 ^ 64 = n + 1 := by
    rw [hn]; exact Nat.mod_eq_of_lt hw
  unfold put_limit_match
  simp only [hid]
  rcases hside with hs | hs
  · have hav : amount ≤ bal g.dict_balance user_id BALANCE_TYPE_AVAILABLE m.stock := by
      unfold put_limit_short at hshort
      rw [if_pos hs] at hshort
      exact balance_short_false hshort
    simp only [if_pos hs]
    obtain ⟨h1, h2, h3, h4, h5, h6, h7, h8, h9, h10⟩ :=
      execute_limit_ask_order_loop_spec real m.bids { g with order_id_start := n + 1 } m
        (new_limit_order (n + 1) user_id side amount price taker_fee maker_fee)
        (hI.counter (n + 1)) rfl htf hamt.le hag hav
    exact ⟨h1, h2, h3, h4, h5, h6.trans (zero_add amount), h7, h8, h9, h10⟩
  · have hs' : ¬ side = MARKET_ORDER_SIDE_ASK := by rw [hs]; exact side_bid_ne_ask
    have hav : price * amount ≤ bal g.dict_balance user_id BALANCE_TYPE_AVAILABLE m.money := by
      unfold put_limit_short at hshort
      rw [if_neg hs'] at hshort
      rw [mul_comm]
      exact balance_short_false hshort
    simp only [if_neg hs']
    obtain ⟨h1, h2, h3, h4, h5, h6, h7, h8, h9, h10⟩ :=
      execute_limit_bid_order_loop_spec real m.asks { g with order_id_start := n + 1 } m
        (new_limit_order (n + 1) user_id side amount price taker_fee maker_fee)
        (hI.counter (n + 1)) rfl htf hamt.le hag hav
    exact ⟨h1, h2, h3, h4, h5, h6.trans (zero_add amount), h7, h8, h9, h10⟩

theorem put_limit_pass_eq (real : Bool) (g : globals) (m : market_t) (user_id side : ℕ)
    (amount price taker_fee maker_fee : ℚ)
    (h : put_limit_short g m user_id side amount price = false) (h2 : ¬ amount < m.min_amount) :
    market_put_limit_order real g m user_id side amount price taker_fee maker_fee =
      (0,
        (put_limit_close real
          (put_limit_match real g m user_id side amount price taker_fee maker_fee).1
          (put_limit_match real g m user_id side amount price taker_fee maker_fee).2.1
          (put_limit_match real g m user_id side amount price taker_fee maker_fee).2.2.1).1,
        (put_limit_close real
          (put_limit_match real g m user_id side amount price taker_fee maker_fee).1
          (put_limit_match real g m user_id side amount price taker_fee maker_fee).2.1
          (put_limit_match real g m user_id side amount price taker_fee maker_fee).2.2.1).2.1,
        some (put_limit_close real
          (put_limit_match real g m user_id side amount price taker_fee maker_fee).1
          (put_limit_match real g m user_id side amount price taker_fee maker_fee).2.1
          (put_limit_match real g m user_id side amount price taker_fee maker_fee).2.2.1).2.2,
        (put_limit_match real g m user_id side amount price taker_fee maker_fee).2.2.2) := by
  unfold market_put_limit_order
  simp only [h, h2, Bool.false_eq_true, if_false]

/-- `market_put_limit_order` keeps the invariant of the market, whatever it returns -/
theorem market_put_limit_order_inv {A : dict_asset_t} {n : ℕ} {c : ℕ → String → ℚ}
    (real : Bool) {g : globals} {m : market_t} (hI : MatchInv A n c g m)
    (hn : g.order_id_start = n) (hw : n + 1 < 2 ^ 64) (user_id : ℕ) {side : ℕ}
    {amount price taker_fee maker_fee : ℚ}
    (hside : side = MARKET_ORDER_SIDE_ASK ∨ side = MARKET_ORDER_SIDE_BID) (hamt : 0 < amount)
    (hag : on_grid amount m.stock_prec) (hprice : 0 < price)
    (hpg : on_grid price m.money_prec) (htf : taker_fee ≤ 1) (hmf0 : 0 ≤ maker_fee)
    (hmf1 : maker_fee < 1) :
    MatchInv A
      (market_put_limit_order real g m user_id side amount price taker_fee
        maker_fee).2.1.order_id_start c
      (market_put_limit_order real g m user_id side amount price taker_fee maker_fee).2.1
      (market_put_limit_order real g m user_id side amount price taker_fee maker_fee).2.2.1 ∧
    market_static
      (market_put_limit_order real g m user_id side amount price taker_fee maker_fee).2.2.1 =
        market_static m ∧
    n ≤ (market_put_limit_order real g m user_id side amount price taker_fee
      maker_fee).2.1.order_id_start ∧
    (market_put_limit_order real g m user_id side amount price taker_fee
      maker_fee).2.1.order_id_start ≤ n + 1 ∧
    (market_put_limit_order real g m user_id side amount price taker_fee
      maker_fee).2.1.dict_update = g.dict_update ∧
    (market_put_limit_order real g m user_id side amount price taker_fee
      maker_fee).2.1.dict_asset = g.dict_asset := by
  cases hshort : put_limit_short g m user_id side amount price with
  | true =>
    rw [put_limit_of_short real g m user_id side amount price taker_fee maker_fee hshort]
    exact ⟨hI.raise_counter hn.ge, rfl, hn.ge, hn.le.trans (Nat.le_succ n), rfl, rfl⟩
  | false =>
    by_cases hmin : amount < m.min_amount
    · rw [put_limit_of_small real g m user_id side amount price taker_fee maker_fee hshort hmin]
      exact ⟨hI.raise_counter hn.ge, rfl, hn.ge, hn.le.trans (Nat.le_succ n), rfl, rfl⟩
    · rw [put_limit_pass_eq real g m user_id side amount price taker_fee maker_fee hshort hmin]
      obtain ⟨h1, h2, h3, h4, h5, h6, h7, h8, h9, h10⟩ :=
        put_limit_match_spec real hI hn hw user_id maker_fee hside hamt hag htf hshort
      obtain ⟨e1, e2, e3, e4, e5, e6, e7, e8, e9⟩ := h5
      obtain ⟨-, s2, s3, s4, s5, -, -⟩ := market_static_eq h2
      have hc := put_limit_close_inv real h1 (by rw [e1]; exact Nat.lt_succ_self n)
        (show _ ≤ n + 1 from e1.le) (by rw [e2]; rfl) (by rw [e3]; exact hside)
        (by rw [e5]; exact hprice) (by rw [e5, s5]; exact hpg) h7 (by rw [s4]; exact h9)
        (by rw [e6]; exact h8) (by rw [e6]; exact h6) (by rw [e8]; exact hmf0)
        (by rw [e8]; exact hmf1) (by rw [e3, e4, e5, s2, s3]; exact h10)
      have hid : (put_limit_close real
          (put_limit_match real g m user_id side amount price taker_fee maker_fee).1
          (put_limit_match real g m user_id side amount price taker_fee maker_fee).2.1
          (put_limit_match real g m user_id side amount price taker_fee
            maker_fee).2.2.1).1.order_id_start = n + 1 := by
        rw [hc.2.2.1, h3]
      refine ⟨?_, hc.2.1.trans h2, ?_, ?_, ?_, ?_⟩
      · show MatchInv A (put_limit_close real _ _ _).1.order_id_start c _ _
        rw [hid]
        exact hc.1
      · show n ≤ (put_limit_close real _ _ _).1.order_id_start
        rw [hid]
        exact Nat.le_succ n
      · show (put_limit_close real _ _ _).1.order_id_start ≤ n + 1
        rw [hid]
      · show (put_limit_close real _ _ _).1.dict_update = g.dict_update
        rw [hc.2.2.2, h4]
      · show (put_limit_close real _ _ _).1.dict_asset = g.dict_asset
        rw [hc.1.asset_eq, hI.asset_eq]

theorem order_finish_ask_frozen (real : Bool) (g : globals) (m : market_t) (order : order_t)
    (hside : order.side = MARKET_ORDER_SIDE_ASK) (hfr : order.freeze > 0) {r : ℚ × dict_balance_t}
    (hr : balance_unfreeze g.dict_asset g.dict_balance order.user_id m.stock order.freeze =
      some r) :
    order_finish real g m order =
      order_finish_tail real { g with dict_balance := r.2 }
        { m with asks := skiplist_delete order_match_compare order m.asks } order := by
  unfold order_finish
  simp only [hside, if_true, hfr, hr]

theorem order_finish_bid_frozen (real : Bool) (g : globals) (m : market_t) (order : order_t)
    (hside : order.side ≠ MARKET_ORDER_SIDE_ASK) (hfr : order.freeze > 0)
    {r : ℚ × dict_balance_t}
    (hr : balance_unfreeze g.dict_asset g.dict_balance order.user_id m.money order.freeze =
      some r) :
    order_finish real g m order =
      order_finish_tail real { g with dict_balance := r.2 }
        { m with bids := skiplist_delete order_match_compare order m.bids } order := by
  unfold order_finish
  simp only [hside, if_false, if_true, hfr, hr]

theorem order_finish_tail_code (real : Bool) (g : globals) (m : market_t) (order : order_t) :
    (order_finish_tail real g m order).1 = 0 := rfl

theorem MarketOK.book_nodup {A : dict_asset_t} {n : ℕ} {m : market_t} (h : MarketOK A n m) :
    (m.asks.map (fun o => o.id)).Nodup ∧ (m.bids.map (fun o => o.id)).Nodup ∧
      ∀ x ∈ m.asks, ∀ y ∈ m.bids, x.id ≠ y.id := by
  have := h.ids_nodup
  rw [List.map_append, List.nodup_append] at this
  refine ⟨this.1, this.2.1, fun x hx y hy e => ?_⟩
  exact this.2.2 (List.mem_map.mpr ⟨x, hx, rfl⟩) (List.mem_map.mpr ⟨y, hy, e.symm⟩)

/-- `order_finish` of an order resting in a book: the order leaves the book and both indices,
and its `freeze` goes back from the frozen to the available balance of its owner -/
theorem order_finish_resting {A : dict_asset_t} {n : ℕ} {c : ℕ → String → ℚ} (real : Bool)
    {g : globals} {m : market_t} (hI : MatchInv A n c g m) {order : order_t}
    (hmem : order ∈ m.asks ++ m.bids) :
    (order_finish real g m order).1 = 0 ∧
    MatchInv A n c (order_finish real g m order).2.1 (order_finish real g m order).2.2 ∧
    market_static (order_finish real g m order).2.2 = market_static m ∧
    (order_finish real g m order).2.1.order_id_start = g.order_id_start ∧
    (order_finish real g m order).2.1.dict_update = g.dict_update ∧
    (m.asks ++ m.bids).Perm
      (order :: ((order_finish real g m order).2.2.asks ++
        (order_finish real g m order).2.2.bids)) ∧
    ∀ u t a, bal (order_finish real g m order).2.1.dict_balance u t a =
      bal g.dict_balance u t a +
        (if u = order.user_id ∧
            a = (if order.side = MARKET_ORDER_SIDE_ASK then m.stock else m.money) then
          (if t = BALANCE_TYPE_AVAILABLE then order.freeze
            else if t = BALANCE_TYPE_FREEZE then -order.freeze else 0) else 0) := by
  have hM := hI.market_ok
  obtain ⟨hna, hnb, -⟩ := hM.book_nodup
  obtain ⟨as, has, hsp⟩ := hM.stock_ok
  obtain ⟨am, ham, hmp, -⟩ := hM.money_ok
  have hne : BALANCE_TYPE_FREEZE ≠ BALANCE_TYPE_AVAILABLE := Ne.symm type_available_ne_freeze
  have hfa := book_frozen_nonneg (fun o ho => (hM.asks_ok o ho).freeze_nonneg) order.user_id
  have hfb := book_frozen_nonneg (fun o ho => (hM.bids_ok o ho).freeze_nonneg) order.user_id
  rcases List.mem_append.mp hmem with hin | hin
  · have hok := hM.asks_ok order hin
    have hs := hok.side_eq
    have hfz : order.freeze = order.left := by rw [hok.freeze_eq, if_pos rfl]
    have hfr : order.freeze > 0 := by rw [hfz]; exact hok.left_pos
    have hgl : on_grid order.freeze as.prec_save := by
      rw [hfz]
      exact on_grid_mono hok.left_grid (le_trans (Nat.le_add_right _ _) hsp)
    have hle : order.freeze ≤ bal g.dict_balance order.user_id BALANCE_TYPE_FREEZE m.stock := by
      rw [hI.frozen_eq]
      have h1 := book_frozen_mem_le (fun o ho => (hM.asks_ok o ho).freeze_nonneg) hin
      have h2 := hI.rest_nonneg order.user_id m.stock
      unfold market_frozen
      rw [if_pos rfl]
      split_ifs <;> linarith
    have hA : g.dict_asset m.stock = some as := by rw [hI.asset_eq]; exact has
    obtain ⟨x, hx⟩ := balance_unfreeze_some g.dict_balance order.user_id hA hfr.le
      (bal_pos_some (lt_of_lt_of_le hfr hle)) hle
    have hmv := ledger_move_spec (by rw [hI.asset_eq]; exact hI.ledger_ok) order.user_id hA
      hfr.le hgl hne hle
    have hperm := skiplist_delete_order hna hin
    rw [order_finish_ask_frozen real g m order hs hfr hx]
    simp only [if_pos hs]
    obtain ⟨t1, t2, t3, -, t5⟩ := order_finish_tail_globals real
      { g with dict_balance := (x, ledger_sub g.dict_asset (ledger_add g.dict_asset
        g.dict_balance order.user_id BALANCE_TYPE_AVAILABLE m.stock order.freeze) order.user_id
        BALANCE_TYPE_FREEZE m.stock order.freeze).2 }
      { m with asks := skiplist_delete order_match_compare order m.asks } order
    have hbf : ∀ u, book_frozen m.asks u =
        (if order.user_id = u then order.freeze else 0) +
          book_frozen (skiplist_delete order_match_compare order m.asks) u := by
      intro u
      rw [book_frozen_perm hperm u, book_frozen_cons]
    refine ⟨rfl, ⟨?_, ?_, ?_, ?_, hI.rest_nonneg⟩, ?_, t3, t5, ?_, ?_⟩
    · rw [t2]; exact hI.asset_eq
    · rw [t1]
      have := hmv.1
      rwa [hI.asset_eq] at this ⊢
    · rw [order_finish_tail_market]
      exact MarketOK.remove hM (hperm.append_right m.bids)
        (fun o ho => hperm.mem_iff.mpr (List.mem_cons_of_mem _ ho)) (fun o ho => ho)
    · intro u a
      rw [t1]
      show bal _ u BALANCE_TYPE_FREEZE a = _
      rw [hmv.2 u BALANCE_TYPE_FREEZE a, hI.frozen_eq u a, order_finish_tail_market]
      simp only [market_frozen]
      rw [hbf u]
      simp only [if_true, if_neg hne]
      by_cases h1 : m.stock = a
      · by_cases h2 : order.user_id = u
        · simp [h1.symm, h2.symm]; ring
        · simp [h1.symm, h2, Ne.symm h2]
      · simp [h1, Ne.symm h1]
    · rw [order_finish_tail_market]
      rfl
    · rw [order_finish_tail_market]
      exact hperm.append_right m.bids
    · intro u t a
      rw [t1]
      exact hmv.2 u t a
  · have hok := hM.bids_ok order hin
    have hs : order.side ≠ MARKET_ORDER_SIDE_ASK := by rw [hok.side_eq]; exact side_bid_ne_ask
    have hfz : order.freeze = order.price * order.left := by
      rw [hok.freeze_eq, if_neg side_bid_ne_ask]
    have hfr : order.freeze > 0 := by rw [hfz]; exact mul_pos hok.price_pos hok.left_pos
    have hgl : on_grid order.freeze am.prec_save := by
      rw [hfz]
      exact on_grid_mono (on_grid_mul hok.price_grid hok.left_grid) (by rw [add_comm]; exact hmp)
    have hle : order.freeze ≤ bal g.dict_balance order.user_id BALANCE_TYPE_FREEZE m.money := by
      rw [hI.frozen_eq]
      have h1 := book_frozen_mem_le (fun o ho => (hM.bids_ok o ho).freeze_nonneg) hin
      have h2 := hI.rest_nonneg order.user_id m.money
      unfold market_frozen
      rw [if_pos rfl]
      split_ifs <;> linarith
    have hA : g.dict_asset m.money = some am := by rw [hI.asset_eq]; exact ham
    obtain ⟨x, hx⟩ := balance_unfreeze_some g.dict_balance order.user_id hA hfr.le
      (bal_pos_some (lt_of_lt_of_le hfr hle)) hle
    have hmv := ledger_move_spec (by rw [hI.asset_eq]; exact hI.ledger_ok) order.user_id hA
      hfr.le hgl hne hle
    have hperm := skiplist_delete_order hnb hin
    rw [order_finish_bid_frozen real g m order hs hfr hx]
    simp only [if_neg hs]
    obtain ⟨t1, t2, t3, -, t5⟩ := order_finish_tail_globals real
      { g with dict_balance := (x, ledger_sub g.dict_asset (ledger_add g.dict_asset
        g.dict_balance order.user_id BALANCE_TYPE_AVAILABLE m.money order.freeze) order.user_id
        BALANCE_TYPE_FREEZE m.money order.freeze).2 }
      { m with bids := skiplist_delete order_match_compare order m.bids } order
    have hbf : ∀ u, book_frozen m.bids u =
        (if order.user_id = u then order.freeze else 0) +
          book_frozen (skiplist_delete order_match_compare order m.bids) u := by
      intro u
      rw [book_frozen_perm hperm u, book_frozen_cons]
    have hp2 : (m.asks ++ m.bids).Perm
        (order :: (m.asks ++ skiplist_delete order_match_compare order m.bids)) :=
      (hperm.append_left m.asks).trans List.perm_middle
    refine ⟨rfl, ⟨?_, ?_, ?_, ?_, hI.rest_nonneg⟩, ?_, t3, t5, ?_, ?_⟩
    · rw [t2]; exact hI.asset_eq
    · rw [t1]
      have := hmv.1
      rwa [hI.asset_eq] at this ⊢
    · rw [order_finish_tail_market]
      exact MarketOK.remove hM hp2 (fun o ho => ho)
        (fun o ho => hperm.mem_iff.mpr (List.mem_cons_of_mem _ ho))
    · intro u a
      rw [t1]
      show bal _ u BALANCE_TYPE_FREEZE a = _
      rw [hmv.2 u BALANCE_TYPE_FREEZE a, hI.frozen_eq u a, order_finish_tail_market]
      simp only [market_frozen]
      rw [hbf u]
      simp only [if_true, if_neg hne]
      by_cases h1 : m.money = a
      · by_cases h2 : order.user_id = u
        · simp [h1.symm, h2.symm]; ring
        · simp [h1.symm, h2, Ne.symm h2]
      · simp [h1, Ne.symm h1]
    · rw [order_finish_tail_market]
      rfl
    · rw [order_finish_tail_market]
      exact hp2
    · intro u t a
      rw [t1]
      exact hmv.2 u t a

theorem market_get_order_mem {m : market_t} {id : ℕ} {order : order_t}
    (h : market_get_order m id = some order) : order ∈ m.asks ++ m.bids ∧ order.id = id := by
  unfold market_get_order at h
  split_ifs at h
  have h2 := List.find?_some h
  exact ⟨List.mem_of_find?_eq_some h, by simpa using h2⟩

/-- `market_cancel_order` on an order of the book keeps the invariant of the market -/
theorem market_cancel_order_inv {A : dict_asset_t} {n : ℕ} {c : ℕ → String → ℚ} (real : Bool)
    {g : globals} {m : market_t} (hI : MatchInv A n c g m) {order : order_t}
    (hmem : order ∈ m.asks ++ m.bids) :
    (market_cancel_order real g m order).1 = 0 ∧
    MatchInv A n c (market_cancel_order real g m order).2.1
      (market_cancel_order real g m order).2.2 ∧
    market_static (market_cancel_order real g m order).2.2 = market_static m ∧
    (market_cancel_order real g m order).2.1.order_id_start = g.order_id_start ∧
    (market_cancel_order real g m order).2.1.dict_update = g.dict_update ∧
    (market_cancel_order real g m order).2.1.dict_asset = g.dict_asset := by
  have h := order_finish_resting real
    (hI.log_event real [event.order_message ORDER_EVENT_FINISH order m.name]) hmem
  refine ⟨rfl, h.2.1, h.2.2.1, ?_, ?_, ?_⟩
  · exact h.2.2.2.1.trans (emit_order_id_start _ _ _)
  · exact h.2.2.2.2.1.trans (emit_dict_update _ _ _)
  · exact h.2.1.asset_eq.trans hI.asset_eq.symm

/-- `market_put_market_order` returns and keeps the invariant of the market, whatever its
return code -/
theorem market_put_market_order_inv {A : dict_asset_t} {n : ℕ} {c : ℕ → String → ℚ}
    (real : Bool) {g : globals} {m : market_t} (hI : MatchInv A n c g m)
    (hn : g.order_id_start = n) (hw : n + 1 < 2 ^ 64) (user_id side : ℕ)
    {amount taker_fee : ℚ} (hamt : 0 < amount) (hag : on_grid amount m.stock_prec)
    (htf : taker_fee ≤ 1) :
    ∃ r, market_put_market_order real g m user_id side amount taker_fee = some r ∧
      MatchInv A r.2.1.order_id_start c r.2.1 r.2.2.1 ∧
      market_static r.2.2.1 = market_static m ∧ n ≤ r.2.1.order_id_start ∧
      r.2.1.order_id_start ≤ n + 1 ∧ r.2.1.dict_update = g.dict_update ∧
      r.2.1.dict_asset = g.dict_asset := by
  unfold market_put_market_order
  by_cases hc : put_market_check g m user_id side amount ≠ 0
  · rw [if_pos hc]
    exact ⟨_, rfl, hI.raise_counter hn.ge, rfl, hn.ge, hn.le.trans (Nat.le_succ n), rfl, rfl⟩
  rw [if_neg hc]
  have hid : (g.order_id_start + 1) % 2 ^ 64 = n + 1 := by
    rw [hn]; exact Nat.mod_eq_of_lt hw
  simp only [hid]
  by_cases hs : side = MARKET_ORDER_SIDE_ASK
  · simp only [if_pos hs]
    obtain ⟨h1, h2, h3, h4, -⟩ :=
      execute_market_ask_order_loop_spec real m.bids { g with order_id_start := n + 1 } m
        (new_market_order (n + 1) user_id side amount taker_fee)
        (hI.counter (n + 1)) rfl htf hamt.le hag
    have h3' : (execute_market_ask_order real { g with order_id_start := n + 1 } m
        (new_market_order (n + 1) user_id side amount taker_fee)).1.order_id_start = n + 1 := h3
    refine ⟨_, rfl, ?_, h2, ?_, ?_, ?_, ?_⟩
    · show MatchInv A (emit real _ _).order_id_start c _ _
      rw [emit_order_id_start, h3']
      exact (h1.log_event real _).raise_counter (Nat.le_succ n)
    · show n ≤ (emit real _ _).order_id_start
      rw [emit_order_id_start, h3']
      exact Nat.le_succ n
    · show (emit real _ _).order_id_start ≤ n + 1
      rw [emit_order_id_start]
      exact h3.le
    · show (emit real _ _).dict_update = g.dict_update
      rw [emit_dict_update]
      exact h4
    · show (emit real _ _).dict_asset = g.dict_asset
      rw [emit_dict_asset]
      exact h1.asset_eq.trans hI.asset_eq.symm
  · simp only [if_neg hs]
    obtain ⟨r, hr, h1, h2, h3, h4, -⟩ :=
      execute_market_bid_order_loop_spec real m.asks [] { g with order_id_start := n + 1 } m
        (new_market_order (n + 1) user_id side amount taker_fee)
        (hI.counter (n + 1)) rfl htf hamt.le
    have hr' : execute_market_bid_order real { g with order_id_start := n + 1 } m
        (new_market_order (n + 1) user_id side amount taker_fee) = some r := hr
    rw [hr']
    have h3' : r.1.order_id_start = n + 1 := h3
    refine ⟨_, rfl, ?_, h2, ?_, ?_, ?_, ?_⟩
    · show MatchInv A (emit real _ _).order_id_start c _ _
      rw [emit_order_id_start, h3']
      exact (h1.log_event real _).raise_counter (Nat.le_succ n)
    · show n ≤ (emit real _ _).order_id_start
      rw [emit_order_id_start, h3']
      exact Nat.le_succ n
    · show (emit real _ _).order_id_start ≤ n + 1
      rw [emit_order_id_start]
      exact h3.le
    · show (emit real _ _).dict_update = g.dict_update
      rw [emit_dict_update]
      exact h4
    · show (emit real _ _).dict_asset = g.dict_asset
      rw [emit_dict_asset]
      exact h1.asset_eq.trans hI.asset_eq.symm

/-! ## The invariant of the engine -/

theorem bal_frame {d d' : dict_balance_t} {u t : ℕ} {a : String}
    (h : d' ⟨u, t, a⟩ = d ⟨u, t, a⟩) : bal d' u t a = bal d u t a := by
  unfold bal; rw [h]

/-- `update_user_balance` keeps the ledger well formed and never touches a frozen balance,
the asset dictionary or the order counter -/
theorem update_user_balance_inv [L : name_limits] (real : Bool) (now : ℚ) {g : globals}
    (h : LedgerOK g.dict_asset g.dict_balance) (user_id : ℕ) (asset business : String)
    (business_id : ℕ) (change : ℚ) :
    LedgerOK g.dict_asset
      (update_user_balance real now g user_id asset business business_id change).2.dict_balance ∧
    (update_user_balance real now g user_id asset business business_id change).2.dict_asset =
      g.dict_asset ∧
    (update_user_balance real now g user_id asset business business_id
      change).2.order_id_start = g.order_id_start ∧
    ∀ u a,
      bal (update_user_balance real now g user_id asset business business_id
        change).2.dict_balance u BALANCE_TYPE_FREEZE a =
      bal g.dict_balance u BALANCE_TYPE_FREEZE a := by
  have hkey : ∀ u a, (⟨u, BALANCE_TYPE_FREEZE, a⟩ : balance_key) ≠
      ⟨user_id, BALANCE_TYPE_AVAILABLE, asset⟩ := by
    intro u a
    simp [BALANCE_TYPE_AVAILABLE, BALANCE_TYPE_FREEZE]
  unfold update_user_balance
  simp only
  cases hk : g.dict_update (update_key_of user_id asset business business_id) with
  | some x => exact ⟨h, rfl, rfl, fun _ _ => rfl⟩
  | none =>
    simp only
    by_cases hc : change ≥ 0
    · simp only [if_pos hc]
      cases hr : balance_add g.dict_asset g.dict_balance user_id BALANCE_TYPE_AVAILABLE asset
          |change| with
      | none => exact ⟨h, rfl, rfl, fun _ _ => rfl⟩
      | some r =>
        have e : r.2 = ledger_add g.dict_asset g.dict_balance user_id BALANCE_TYPE_AVAILABLE
            asset |change| := by
          unfold ledger_add; rw [hr]
        simp only [emit_dict_balance, emit_dict_asset, emit_order_id_start]
        rw [e]
        exact ⟨ledger_add_ok h _ _ _ _, trivial, trivial,
          fun u a => bal_frame (ledger_add_frame _ _ _ _ _ _ (hkey u a))⟩
    · simp only [if_neg hc]
      cases hr : balance_sub g.dict_asset g.dict_balance user_id BALANCE_TYPE_AVAILABLE asset
          |change| with
      | none => exact ⟨h, rfl, rfl, fun _ _ => rfl⟩
      | some r =>
        have e : r.2 = ledger_sub g.dict_asset g.dict_balance user_id BALANCE_TYPE_AVAILABLE
            asset |change| := by
          unfold ledger_sub; rw [hr]
        simp only [emit_dict_balance, emit_dict_asset, emit_order_id_start]
        rw [e]
        exact ⟨ledger_sub_ok h _ _ _ _, trivial, trivial,
          fun u a => bal_frame (ledger_sub_frame _ _ _ _ _ _ (hkey u a))⟩

theorem get_market_mem {e : engine} {name : String} {m : market_t}
    (h : get_market e name = some m) : m ∈ e.dict_market ∧ m.name = name := by
  unfold get_market at h
  exact ⟨List.mem_of_find?_eq_some h, by simpa using List.find?_some h⟩

theorem set_market_mem {ms : List market_t} {m x : market_t} (h : x ∈ set_market ms m) :
    x = m ∨ x ∈ ms := by
  induction ms with
  | nil => cases h
  | cons y ys ih =>
    unfold set_market at h
    split_ifs at h
    · rcases List.mem_cons.mp h with e | e
      · exact Or.inl e
      · exact Or.inr (List.mem_cons_of_mem _ e)
    · rcases List.mem_cons.mp h with e | e
      · exact Or.inr (e ▸ List.mem_cons_self _ _)
      · rcases ih e with e' | e'
        · exact Or.inl e'
        · exact Or.inr (List.mem_cons_of_mem _ e')

/-- writing back the market that `get_market` returned changes the frozen total by the
difference of the two frozen sums -/
theorem frozen_total_set_market {ms : List market_t} {name : String} {m m' : market_t}
    (h : ms.find? (fun x => x.name == name) = some m) (hname : m'.name = name) (u : ℕ)
    (a : String) :
    frozen_total (set_market ms m') u a =
      frozen_total ms u a - market_frozen m u a + market_frozen m' u a := by
  induction ms with
  | nil => cases h
  | cons y ys ih =>
    unfold set_market
    by_cases hy : y.name = name
    · have : (y :: ys).find? (fun x => x.name == name) = some y := by
        rw [List.find?_cons_of_pos]; simpa using hy
      rw [this] at h
      cases h
      rw [if_pos (hy.trans hname.symm)]
      unfold frozen_total
      simp only [List.map_cons, List.sum_cons]
      ring
    · rw [List.find?_cons_of_neg _ (by simpa using hy)] at h
      rw [if_neg (fun e => hy (e.trans hname))]
      have := ih h
      unfold frozen_total at this ⊢
      simp only [List.map_cons, List.sum_cons]
      rw [this]
      ring

theorem frozen_total_ge {A : dict_asset_t} {n : ℕ} {ms : List market_t}
    (hok : ∀ x ∈ ms, MarketOK A n x) {m : market_t} (hm : m ∈ ms) (u : ℕ) (a : String) :
    market_frozen m u a ≤ frozen_total ms u a := by
  induction ms with
  | nil => cases hm
  | cons y ys ih =>
    unfold frozen_total
    simp only [List.map_cons, List.sum_cons]
    have hrest : 0 ≤ frozen_total ys u a := by
      unfold frozen_total
      apply List.sum_nonneg
      intro x hx
      obtain ⟨z, hz, rfl⟩ := List.mem_map.mp hx
      exact market_frozen_nonneg (hok z (List.mem_cons_of_mem _ hz)) u a
    have hy := market_frozen_nonneg (hok y (List.mem_cons_self _ _)) u a
    rcases List.mem_cons.mp hm with e | e
    · subst e
      unfold frozen_total at hrest
      linarith
    · have := ih (fun x hx => hok x (List.mem_cons_of_mem _ hx)) e
      unfold frozen_total at this
      linarith

/-- the invariant of a matching loop on one market of a well-formed engine: the remainder is
what the other markets hold frozen -/
theorem EngineOK.match_inv {e : engine} (h : EngineOK e) {name : String} {m : market_t}
    (hm : get_market e name = some m) :
    MatchInv e.g.dict_asset e.g.order_id_start
      (fun u a => frozen_total e.dict_market u a - market_frozen m u a) e.g m :=
  ⟨rfl, h.ledger_ok, h.markets_ok m (get_market_mem hm).1,
    fun u a => by rw [h.frozen_eq u a]; ring,
    fun u a => sub_nonneg.mpr (frozen_total_ge h.markets_ok (get_market_mem hm).1 u a)⟩

/-- a command that leaves the invariant of the market it worked on leaves the engine well
formed -/
theorem EngineOK.write_back {e : engine} (h : EngineOK e) {name : String} {m : market_t}
    (hm : get_market e name = some m) {g' : globals} {m' : market_t}
    (hI : MatchInv e.g.dict_asset g'.order_id_start
      (fun u a => frozen_total e.dict_market u a - market_frozen m u a) g' m')
    (hst : market_static m' = market_static m) (hn : e.g.order_id_start ≤ g'.order_id_start) :
    EngineOK { g := g', dict_market := set_market e.dict_market m' } := by
  refine ⟨?_, ?_, ?_⟩
  · show LedgerOK g'.dict_asset g'.dict_balance
    rw [hI.asset_eq]; exact hI.ledger_ok
  · intro x hx
    show MarketOK g'.dict_asset g'.order_id_start x
    rw [hI.asset_eq]
    rcases set_market_mem hx with e1 | e1
    · rw [e1]; exact hI.market_ok
    · exact (h.markets_ok x e1).raise_bound hn
  · intro u a
    show bal g'.dict_balance u BALANCE_TYPE_FREEZE a =
      frozen_total (set_market e.dict_market m') u a
    rw [frozen_total_set_market hm ((market_static_eq hst).1.trans (get_market_mem hm).2) u a,
      hI.frozen_eq u a]
    ring

theorem EngineOK.log_operlog {e : engine} (h : EngineOK e) (real : Bool) (evs : List event) :
    EngineOK { e with g := emit real evs e.g } :=
  ⟨by
    show LedgerOK (ME.emit real evs e.g).dict_asset (ME.emit real evs e.g).dict_balance
    rw [emit_dict_asset, emit_dict_balance]; exact h.ledger_ok,
  fun m hm => by
    show MarketOK (ME.emit real evs e.g).dict_asset (ME.emit real evs e.g).order_id_start m
    rw [emit_dict_asset, emit_order_id_start]; exact h.markets_ok m hm,
  fun u a => by
    show bal (ME.emit real evs e.g).dict_balance u BALANCE_TYPE_FREEZE a = _
    rw [emit_dict_balance]; exact h.frozen_eq u a⟩

theorem decimal_some {str : Option ℚ} {prec : ℕ} {x : ℚ} (h : decimal str prec = some x) :
    on_grid x prec := by
  unfold decimal at h
  cases str with
  | none => cases h
  | some y =>
    simp only [Option.map_some'] at h
    cases h
    exact mpd_rescale_on_grid y prec

theorem on_cmd_order_put_limit_inv {e : engine} (h : EngineOK e)
    (hw : e.g.order_id_start + 1 < 2 ^ 64) (user_id : ℕ) (market_name : String) (side : ℕ)
    (amount price taker_fee maker_fee : Option ℚ) :
    EngineOK (on_cmd_order_put_limit e user_id market_name side amount price taker_fee
      maker_fee).2 ∧
    e.g.order_id_start ≤ (on_cmd_order_put_limit e user_id market_name side amount price
      taker_fee maker_fee).2.g.order_id_start ∧
    (on_cmd_order_put_limit e user_id market_name side amount price taker_fee
      maker_fee).2.g.order_id_start ≤ e.g.order_id_start + 1 := by
  have triv : EngineOK e ∧ e.g.order_id_start ≤ e.g.order_id_start ∧
      e.g.order_id_start ≤ e.g.order_id_start + 1 := ⟨h, le_rfl, Nat.le_succ _⟩
  unfold on_cmd_order_put_limit
  simp only
  cases hm : get_market e market_name with
  | none => exact triv
  | some market =>
    simp only
    by_cases hside : side % 2 ^ 32 ≠ MARKET_ORDER_SIDE_ASK ∧ side % 2 ^ 32 ≠ MARKET_ORDER_SIDE_BID
    · rw [if_pos hside]; exact triv
    rw [if_neg hside]
    have hside' : side % 2 ^ 32 = MARKET_ORDER_SIDE_ASK ∨
        side % 2 ^ 32 = MARKET_ORDER_SIDE_BID := by
      by_contra hc
      rw [not_or] at hc
      exact hside hc
    cases ha : decimal amount market.stock_prec with
    | none => exact triv
    | some amt =>
      simp only
      by_cases hamt : amt ≤ 0
      · rw [if_pos hamt]; exact triv
      rw [if_neg hamt]
      cases hp : decimal price market.money_prec with
      | none => exact triv
      | some prc =>
        simp only
        by_cases hprc : prc ≤ 0
        · rw [if_pos hprc]; exact triv
        rw [if_neg hprc]
        cases ht : decimal taker_fee market.fee_prec with
        | none => exact triv
        | some tf =>
          simp only
          by_cases htf : tf < 0 ∨ tf ≥ 1
          · rw [if_pos htf]; exact triv
          rw [if_neg htf]
          cases hk : decimal maker_fee market.fee_prec with
          | none => exact triv
          | some mf =>
            simp only
            by_cases hmf : mf < 0 ∨ mf ≥ 1
            · rw [if_pos hmf]; exact triv
            rw [if_neg hmf]
            rw [not_or, not_lt, not_le] at htf hmf
            obtain ⟨k1, k2, k3, k4, -, -⟩ := market_put_limit_order_inv true (h.match_inv hm) rfl
              hw (user_id % 2 ^ 32) hside' (not_le.mp hamt) (decimal_some ha) (not_le.mp hprc)
              (decimal_some hp) htf.2.le hmf.1 hmf.2
            have hE1 := h.write_back hm k1 k2 k3
            split_ifs
            · exact ⟨hE1, k3, k4⟩
            · exact ⟨hE1, k3, k4⟩
            · exact ⟨hE1, k3, k4⟩
            · exact ⟨hE1.log_operlog true _, k3, k4⟩

theorem on_cmd_order_put_market_inv {e : engine} (h : EngineOK e)
    (hw : e.g.order_id_start + 1 < 2 ^ 64) (user_id : ℕ) (market_name : String) (side : ℕ)
    (amount taker_fee : Option ℚ) :
    ∃ r, on_cmd_order_put_market e user_id market_name side amount taker_fee = some r ∧
      EngineOK r.2 ∧ e.g.order_id_start ≤ r.2.g.order_id_start ∧
      r.2.g.order_id_start ≤ e.g.order_id_start + 1 := by
  have triv : ∀ code : ℕ, ∃ r : ℕ × engine, some (code, e) = some r ∧
      EngineOK r.2 ∧ e.g.order_id_start ≤ r.2.g.order_id_start ∧
      r.2.g.order_id_start ≤ e.g.order_id_start + 1 :=
    fun code => ⟨_, rfl, h, le_rfl, Nat.le_succ _⟩
  unfold on_cmd_order_put_market
  simp only
  cases hm : get_market e market_name with
  | none => exact triv 1
  | some market =>
    simp only
    by_cases hside : side % 2 ^ 32 ≠ MARKET_ORDER_SIDE_ASK ∧ side % 2 ^ 32 ≠ MARKET_ORDER_SIDE_BID
    · rw [if_pos hside]; exact triv 1
    rw [if_neg hside]
    cases ha : decimal amount market.stock_prec with
    | none => exact triv 1
    | some amt =>
      simp only
      by_cases hamt : amt ≤ 0
      · rw [if_pos hamt]; exact triv 1
      rw [if_neg hamt]
      cases ht : decimal taker_fee market.fee_prec with
      | none => exact triv 1
      | some tf =>
        simp only
        by_cases htf : tf < 0 ∨ tf ≥ 1
        · rw [if_pos htf]; exact triv 1
        rw [if_neg htf]
        rw [not_or, not_lt, not_le] at htf
        obtain ⟨r, hr, k1, k2, k3, k4, -, -⟩ := market_put_market_order_inv true
          (h.match_inv hm) rfl hw (user_id % 2 ^ 32) (side % 2 ^ 32) (not_le.mp hamt)
          (decimal_some ha) htf.2.le
        rw [hr]
        have hE1 := h.write_back hm k1 k2 k3
        simp only
        split_ifs
        · exact ⟨_, rfl, hE1, k3, k4⟩
        · exact ⟨_, rfl, hE1, k3, k4⟩
        · exact ⟨_, rfl, hE1, k3, k4⟩
        · exact ⟨_, rfl, hE1, k3, k4⟩
        · exact ⟨_, rfl, hE1.log_operlog true _, k3, k4⟩

theorem on_cmd_order_cancel_inv {e : engine} (h : EngineOK e) (user_id : ℕ)
    (market_name : String) (order_id : ℕ) :
    EngineOK (on_cmd_order_cancel e user_id market_name order_id).2 ∧
    (on_cmd_order_cancel e user_id market_name order_id).2.g.order_id_start =
      e.g.order_id_start := by
  unfold on_cmd_order_cancel
  simp only
  cases hm : get_market e market_name with
  | none => exact ⟨h, rfl⟩
  | some market =>
    simp only
    cases ho : market_get_order market (order_id % 2 ^ 64) with
    | none => exact ⟨h, rfl⟩
    | some order =>
      simp only
      by_cases hu : order.user_id ≠ user_id % 2 ^ 32
      · rw [if_pos hu]; exact ⟨h, rfl⟩
      rw [if_neg hu]
      obtain ⟨-, k1, k2, k3, -, -⟩ := market_cancel_order_inv true (h.match_inv hm)
        (market_get_order_mem ho).1
      have hE1 := h.write_back hm (by rw [k3]; exact k1) k2 k3.ge
      split_ifs
      · exact ⟨hE1, k3⟩
      · exact ⟨hE1.log_operlog true _, k3⟩

theorem EngineOK.set_g {e : engine} (h : EngineOK e) {g' : globals}
    (ha : g'.dict_asset = e.g.dict_asset) (hn : g'.order_id_start = e.g.order_id_start)
    (hl : LedgerOK e.g.dict_asset g'.dict_balance)
    (hf : ∀ u a, bal g'.dict_balance u BALANCE_TYPE_FREEZE a =
      bal e.g.dict_balance u BALANCE_TYPE_FREEZE a) :
    EngineOK { e with g := g' } :=
  ⟨by show LedgerOK g'.dict_asset g'.dict_balance; rw [ha]; exact hl,
    fun m hm => by
      show MarketOK g'.dict_asset g'.order_id_start m
      rw [ha, hn]; exact h.markets_ok m hm,
    fun u a => (hf u a).trans (h.frozen_eq u a)⟩

theorem on_cmd_balance_update_inv [L : name_limits] {e : engine} (h : EngineOK e) (now : ℚ) (user_id : ℕ)
    (asset business : String) (business_id : ℕ) (change : Option ℚ) :
    EngineOK (on_cmd_balance_update now e user_id asset business business_id change).2 ∧
    (on_cmd_balance_update now e user_id asset business business_id change).2.g.order_id_start =
      e.g.order_id_start := by
  unfold on_cmd_balance_update
  simp only
  by_cases hp : asset_prec_show e.g.dict_asset asset < 0
  · rw [if_pos hp]; exact ⟨h, rfl⟩
  rw [if_neg hp]
  cases hc : decimal change (asset_prec_show e.g.dict_asset asset).toNat with
  | none => exact ⟨h, rfl⟩
  | some chg =>
    simp only
    obtain ⟨k1, k2, k3, k4⟩ := update_user_balance_inv true now h.ledger_ok (user_id % 2 ^ 32)
      asset business (business_id % 2 ^ 64) chg
    have hE := h.set_g k2 k3 k1 k4
    split_ifs
    · exact ⟨hE, k3⟩
    · exact ⟨hE, k3⟩
    · exact ⟨hE, k3⟩
    · exact ⟨hE.log_operlog true _, k3⟩

/-- every handler returns and leaves the engine well formed, as long as the order counter
does not wrap -/
theorem on_cmd_inv [L : name_limits] {e : engine} (h : EngineOK e) (hw : e.g.order_id_start + 1 < 2 ^ 64)
    (cmd : command) :
    ∃ r, on_cmd e cmd = some r ∧ EngineOK r.2 ∧
      r.2.g.order_id_start ≤ e.g.order_id_start + 1 := by
  cases cmd with
  | balance_update now user_id asset business business_id change =>
    obtain ⟨k1, k2⟩ := on_cmd_balance_update_inv h now user_id asset business business_id change
    exact ⟨_, rfl, k1, by rw [k2]; exact Nat.le_succ _⟩
  | order_put_limit user_id market side amount price taker_fee maker_fee =>
    obtain ⟨k1, -, k3⟩ := on_cmd_order_put_limit_inv h hw user_id market side amount price
      taker_fee maker_fee
    exact ⟨_, rfl, k1, k3⟩
  | order_put_market user_id market side amount taker_fee =>
    obtain ⟨r, hr, k1, -, k3⟩ := on_cmd_order_put_market_inv h hw user_id market side amount
      taker_fee
    exact ⟨r, hr, k1, k3⟩
  | order_cancel user_id market order_id =>
    obtain ⟨k1, k2⟩ := on_cmd_order_cancel_inv h user_id market order_id
    exact ⟨_, rfl, k1, by rw [k2]; exact Nat.le_succ _⟩

theorem run_inv [L : name_limits] : ∀ (cmds : List command) (e : engine), EngineOK e →
    e.g.order_id_start + cmds.length < 2 ^ 64 →
    ∃ e', run e cmds = some e' ∧ EngineOK e' ∧
      e'.g.order_id_start ≤ e.g.order_id_start + cmds.length := by
  intro cmds
  induction cmds with
  | nil =>
    intro e h _
    exact ⟨e, rfl, h, le_rfl⟩
  | cons c cs ih =>
    intro e h hw
    rw [List.length_cons] at hw
    obtain ⟨r, hr, k1, k2⟩ := on_cmd_inv h (by omega) c
    obtain ⟨e', he', k3, k4⟩ := ih r.2 k1 (by omega)
    refine ⟨e', ?_, k3, ?_⟩
    · rw [run, hr]
      exact he'
    · rw [List.length_cons]
      omega

theorem market_create_ok {A : dict_asset_t} {conf : market_conf} {m : market_t}
    (h : market_create A conf = some m) (n : ℕ) :
    MarketOK A n m ∧ m.asks = [] ∧ m.bids = [] := by
  unfold market_create at h
  split_ifs at h with h1 h2 h3 h4
  cases h
  simp only [Bool.or_eq_true, Bool.not_eq_true', not_or, Bool.not_eq_false] at h1
  unfold asset_exist at h1
  obtain ⟨as, has⟩ := Option.isSome_iff_exists.mp h1.1
  obtain ⟨am, ham⟩ := Option.isSome_iff_exists.mp h1.2
  unfold asset_prec at h2 h3 h4
  rw [ham] at h2 h4
  rw [has] at h3
  simp only [gt_iff_lt, not_lt] at h2 h3 h4
  refine ⟨⟨⟨as, has, by exact_mod_cast h3⟩, ⟨am, ham, by exact_mod_cast h2, by exact_mod_cast h4⟩,
    ?_, ?_, ?_, ?_, ?_, ?_, ?_⟩, rfl, rfl⟩
  · intro o ho; cases ho
  · intro o ho; cases ho
  · exact List.nodup_nil
  · intro o ho; cases ho
  · intro id
    constructor
    · intro hf; cases hf
    · rintro ⟨o, ho, -⟩; cases ho
  · intro u id
    constructor
    · intro hf; cases hf
    · rintro ⟨o, ho, -⟩; cases ho
  · intro u
    exact List.nodup_nil

theorem init_trade_ok {A : dict_asset_t} : ∀ {confs : List market_conf} {ms : List market_t},
    init_trade A confs = some ms → ∀ m ∈ ms, MarketOK A 0 m ∧ m.asks = [] ∧ m.bids = [] := by
  intro confs
  induction confs with
  | nil =>
    intro ms h m hm
    unfold init_trade at h
    cases h
    cases hm
  | cons conf rest ih =>
    intro ms h m hm
    unfold init_trade at h
    cases hc : market_create A conf with
    | none => rw [hc] at h; cases h
    | some x =>
      rw [hc] at h
      cases hr : init_trade A rest with
      | none => rw [hr] at h; cases h
      | some xs =>
        rw [hr] at h
        cases h
        rcases List.mem_cons.mp hm with e | e
        · rw [e]; exact market_create_ok hc 0
        · exact ih hr m e

theorem frozen_total_empty {ms : List market_t} (h : ∀ m ∈ ms, m.asks = [] ∧ m.bids = [])
    (u : ℕ) (a : String) : frozen_total ms u a = 0 := by
  unfold frozen_total
  apply List.sum_eq_zero
  intro x hx
  obtain ⟨m, hm, rfl⟩ := List.mem_map.mp hx
  unfold market_frozen
  rw [(h m hm).1, (h m hm).2]
  simp [book_frozen]

/-- the engine that `init_engine` builds is well formed, with the counter at zero -/
theorem init_engine_ok {assets : List (String × asset_type)} {markets : List market_conf}
    {e : engine} (h : init_engine assets markets = some e) :
    EngineOK e ∧ e.g.order_id_start = 0 := by
  unfold init_engine at h
  cases hA : init_balance assets with
  | none => rw [hA] at h; cases h
  | some A =>
    rw [hA] at h
    dsimp only at h
    cases hT : init_trade A markets with
    | none => rw [hT] at h; cases h
    | some ms =>
      rw [hT] at h
      cases h
      refine ⟨⟨?_, fun m hm => (init_trade_ok hT m hm).1, ?_⟩, rfl⟩
      · intro k v hk
        cases hk
      · intro u a
        show bal (fun _ => none) u BALANCE_TYPE_FREEZE a = frozen_total ms u a
        rw [frozen_total_empty (fun m hm => (init_trade_ok hT m hm).2) u a]
        rfl

/-- the engine is well formed in every state that a run from the empty state reaches -/
theorem engine_run_ok [L : name_limits] {assets : List (String × asset_type)} {markets : List market_conf}
    (cmds : List command) (h0 : (init_engine assets markets).isSome = true)
    (hl : cmds.length < 2 ^ 64) :
    ∃ e, engine_run assets markets cmds = some e ∧ EngineOK e ∧
      e.g.order_id_start ≤ cmds.length := by
  obtain ⟨e0, he0⟩ := Option.isSome_iff_exists.mp h0
  obtain ⟨hE, hz⟩ := init_engine_ok he0
  obtain ⟨e, he, hE', hc⟩ := run_inv cmds e0 hE (by rw [hz, zero_add]; exact hl)
  rw [hz, zero_add] at hc
  refine ⟨e, ?_, hE', hc⟩
  unfold engine_run
  rw [he0]
  exact he

theorem engine_run_some [L : name_limits] {assets : List (String × asset_type)} {markets : List market_conf}
    {cmds : List command} {e : engine} (h : engine_run assets markets cmds = some e)
    (hl : cmds.length < 2 ^ 64) : EngineOK e ∧ e.g.order_id_start ≤ cmds.length := by
  have h0 : (init_engine assets markets).isSome = true := by
    unfold engine_run at h
    cases hi : init_engine assets markets with
    | none => rw [hi] at h; cases h
    | some e0 => rfl
  obtain ⟨e', he', hE, hc⟩ := engine_run_ok cmds h0 hl
  rw [h] at he'
  cases he'
  exact ⟨hE, hc⟩

theorem put_limit_code_zero {real : Bool} {g : globals} {m : market_t} {user_id side : ℕ}
    {amount price taker_fee maker_fee : ℚ}
    (h : (market_put_limit_order real g m user_id side amount price taker_fee maker_fee).1 = 0) :
    put_limit_short g m user_id side amount price = false ∧ ¬ amount < m.min_amount := by
  cases hs : put_limit_short g m user_id side amount price with
  | true =>
    rw [put_limit_of_short real g m user_id side amount price taker_fee maker_fee hs] at h
    exact absurd h (by simp)
  | false =>
    refine ⟨rfl, fun hmin => ?_⟩
    rw [put_limit_of_small real g m user_id side amount price taker_fee maker_fee hs hmin] at h
    exact absurd h (by simp)

/-- what `market_put_limit_order` does with the order after matching, in a well-formed state
whose order counter is not about to wrap -/
theorem put_limit_rest_spec {A : dict_asset_t} {n : ℕ} {c : ℕ → String → ℚ} (real : Bool)
    {g : globals} {m : market_t} (hI : MatchInv A n c g m) (hn : g.order_id_start = n)
    (hw : n + 1 < 2 ^ 64) (user_id : ℕ) {side : ℕ} {amount price taker_fee maker_fee : ℚ}
    (hside : side = MARKET_ORDER_SIDE_ASK ∨ side = MARKET_ORDER_SIDE_BID) (hamt : 0 < amount)
    (hag : on_grid amount m.stock_prec) (hprice : 0 < price)
    (hpg : on_grid price m.money_prec) (htf : taker_fee ≤ 1) (hmf0 : 0 ≤ maker_fee)
    (hmf1 : maker_fee < 1)
    (hret : (market_put_limit_order real g m user_id side amount price taker_fee
      maker_fee).1 = 0) :
    ∃ o, (market_put_limit_order real g m user_id side amount price taker_fee
        maker_fee).2.2.2.1 = some o ∧
      o.id = n + 1 ∧ o.user_id = user_id ∧ o.side = side ∧ o.price = price ∧ 0 ≤ o.left ∧
      (o ∈ (if side = MARKET_ORDER_SIDE_ASK then
          (market_put_limit_order real g m user_id side amount price taker_fee
            maker_fee).2.2.1.asks
        else (market_put_limit_order real g m user_id side amount price taker_fee
            maker_fee).2.2.1.bids) ↔ 0 < o.left) ∧
      ((market_put_limit_order real g m user_id side amount price taker_fee
        maker_fee).2.2.1.orders o.id = true ↔ 0 < o.left) ∧
      (o.id ∈ ((market_put_limit_order real g m user_id side amount price taker_fee
        maker_fee).2.2.1.users user_id).getD [] ↔ 0 < o.left) ∧
      (0 < o.left →
        o.freeze = (if side = MARKET_ORDER_SIDE_ASK then o.left else price * o.left) ∧
        ∀ u t a,
          bal (market_put_limit_order real g m user_id side amount price taker_fee
            maker_fee).2.1.dict_balance u t a =
          bal (put_limit_match real g m user_id side amount price taker_fee
            maker_fee).1.dict_balance u t a +
            (if u = user_id ∧ a = (if side = MARKET_ORDER_SIDE_ASK then m.stock else m.money)
              then (if t = BALANCE_TYPE_FREEZE then o.freeze
                else if t = BALANCE_TYPE_AVAILABLE then -o.freeze else 0)
              else 0)) ∧
      (o.left = 0 →
        o.freeze = 0 ∧
        (∀ x ∈ (market_put_limit_order real g m user_id side amount price taker_fee
            maker_fee).2.2.1.asks ++
          (market_put_limit_order real g m user_id side amount price taker_fee
            maker_fee).2.2.1.bids, x.id ≠ o.id) ∧
        (market_put_limit_order real g m user_id side amount price taker_fee
          maker_fee).2.1.dict_balance =
        (put_limit_match real g m user_id side amount price taker_fee
          maker_fee).1.dict_balance) := by
  obtain ⟨hshort, hmin⟩ := put_limit_code_zero hret
  rw [put_limit_pass_eq real g m user_id side amount price taker_fee maker_fee hshort hmin]
  obtain ⟨h1, h2, h3, h4, h5, h6, h7, h8, h9, h10⟩ :=
    put_limit_match_spec real hI hn hw user_id maker_fee hside hamt hag htf hshort
  obtain ⟨e1, e2, e3, e4, e5, e6, e7, e8, e9⟩ := h5
  obtain ⟨-, s2, s3, s4, s5, -, -⟩ := market_static_eq h2
  clear hret
  generalize put_limit_match real g m user_id side amount price taker_fee maker_fee = r at *
  obtain ⟨g1, m1, o1, ds⟩ := r
  dsimp only at *
  have f1 : o1.id = n + 1 := e1
  have f3 : o1.side = side := e3
  have f4 : o1.user_id = user_id := e4
  have f5 : o1.price = price := e5
  have f9 : o1.freeze = 0 := e9
  have hfresh := h1.market_ok.fresh (show n < o1.id from by rw [f1]; exact Nat.lt_succ_self n)
  by_cases hz : o1.left = 0
  · rw [put_limit_close_done real g1 m1 o1 hz]
    refine ⟨o1, rfl, f1, f4, f3, f5, h7, ?_, ?_, ?_, ?_, ?_⟩
    · rw [hz]
      refine ⟨fun hin => absurd rfl (hfresh.1 o1 ?_), fun hlt => absurd hlt (lt_irrefl 0)⟩
      split_ifs at hin
      · exact List.mem_append_left _ hin
      · exact List.mem_append_right _ hin
    · rw [hz]
      exact ⟨fun hin => (by rw [hfresh.2.1] at hin; cases hin),
        fun hlt => absurd hlt (lt_irrefl 0)⟩
    · rw [hz]
      exact ⟨fun hin => absurd hin (hfresh.2.2 user_id),
        fun hlt => absurd hlt (lt_irrefl 0)⟩
    · intro hpos
      rw [hz] at hpos
      exact absurd hpos (lt_irrefl 0)
    · intro _
      exact ⟨f9, hfresh.1, emit_dict_balance _ _ _⟩
  · have hpos : 0 < o1.left := lt_of_le_of_ne h7 (Ne.symm hz)
    rw [put_limit_close_rest real g1 m1 o1 hz]
    obtain ⟨-, -, -, -, -, p6, p7, p8, p9, p10, p11⟩ :=
      order_put_spec (h1.log_event real [event.order_message ORDER_EVENT_PUT o1 m1.name])
        (by rw [f1]; exact Nat.lt_succ_self n) (show o1.id ≤ n + 1 from f1.le) e2
        (by rw [f3]; exact hside) (by rw [f5]; exact hprice) (by rw [f5, s5]; exact hpg) hpos
        (by rw [s4]; exact h9) (by rw [e6]; exact h8) (by rw [e6]; exact h6)
        (by rw [e8]; exact hmf0) (by rw [e8]; exact hmf1)
        (by rw [emit_dict_balance, f3, f4, f5, s2, s3]; exact h10)
    rw [emit_dict_balance, f3, f4, f5, s2, s3] at p11
    rw [f3] at p6 p7 p8
    rw [f4] at p10
    generalize order_put (emit real [event.order_message ORDER_EVENT_PUT o1 m1.name] g1) m1 o1 =
      P at *
    obtain ⟨code, g2, m2, o2⟩ := P
    dsimp only at *
    subst p6
    refine ⟨_, rfl, f1, f4, rfl, f5, h7, ?_, ?_, ?_, ?_, ?_⟩
    · refine ⟨fun _ => hpos, fun _ => ?_⟩
      rcases hside with hs | hs
      · rw [if_pos hs] at p7 ⊢
        rw [p7]
        exact (skiplist_insert_perm _ _ _).mem_iff.mpr (List.mem_cons_self _ _)
      · have hs' : ¬ side = MARKET_ORDER_SIDE_ASK := by rw [hs]; exact side_bid_ne_ask
        rw [if_neg hs'] at p8 ⊢
        rw [p8]
        exact (skiplist_insert_perm _ _ _).mem_iff.mpr (List.mem_cons_self _ _)
    · exact ⟨fun _ => hpos, fun _ => p9⟩
    · exact ⟨fun _ => hpos, fun _ => p10⟩
    · intro _
      refine ⟨?_, ?_⟩
      · show (if side = MARKET_ORDER_SIDE_ASK then o1.left else o1.price * o1.left) = _
        rw [f5]
      · intro u t a
        rw [p11 u t a, f5]
    · intro h0
      exact absurd h0 hz

/-! ## The resting order (C8) and the frozen balances (C10) -/

/-- C8: in a state reached from the empty engine state, with the order counter not about to
wrap, let `market_put_limit_order` return 0 on a request that passed the checks of the
handler (side ask or bid, positive amount and price at the precisions of the market, fee
rates below 1). Then the new order, whose id is the next value of the counter, is in the book
of its side, in the `orders` dictionary and in the list of its owner exactly when its `left`
after matching is greater than 0. When it rests, its `freeze` is `left` (ask) or
`price * left` (bid), and the ledger is the ledger after matching with that quantity of
stock (ask) or money (bid) moved from the available to the frozen balance of the owner, every
other balance unchanged. When `left` is 0, its `freeze` is 0, no order in either book has its
id, and the ledger is the ledger after matching. -/
theorem c8_put_limit_rests_iff_left [L : name_limits] (assets : List (String × asset_type))
    (markets : List market_conf) (cmds : List command) (e : engine) (name : String)
    (m : market_t) (real : Bool) (user_id side : ℕ) (amount price taker_fee maker_fee : ℚ)
    (hrun : engine_run assets markets cmds = some e) (hl : cmds.length + 1 < 2 ^ 64)
    (hm : get_market e name = some m)
    (hside : side = MARKET_ORDER_SIDE_ASK ∨ side = MARKET_ORDER_SIDE_BID) (hamt : 0 < amount)
    (hag : on_grid amount m.stock_prec) (hprice : 0 < price)
    (hpg : on_grid price m.money_prec) (htf : taker_fee < 1) (hmf0 : 0 ≤ maker_fee)
    (hmf1 : maker_fee < 1)
    (hret : (market_put_limit_order real e.g m user_id side amount price taker_fee
      maker_fee).1 = 0) :
    ∃ o, (market_put_limit_order real e.g m user_id side amount price taker_fee
        maker_fee).2.2.2.1 = some o ∧
      o.id = e.g.order_id_start + 1 ∧ o.user_id = user_id ∧ o.side = side ∧ o.price = price ∧
      0 ≤ o.left ∧
      (o ∈ (if side = MARKET_ORDER_SIDE_ASK then
          (market_put_limit_order real e.g m user_id side amount price taker_fee
            maker_fee).2.2.1.asks
        else (market_put_limit_order real e.g m user_id side amount price taker_fee
            maker_fee).2.2.1.bids) ↔ 0 < o.left) ∧
      ((market_put_limit_order real e.g m user_id side amount price taker_fee
        maker_fee).2.2.1.orders o.id = true ↔ 0 < o.left) ∧
      (o.id ∈ ((market_put_limit_order real e.g m user_id side amount price taker_fee
        maker_fee).2.2.1.users user_id).getD [] ↔ 0 < o.left) ∧
      (0 < o.left →
        o.freeze = (if side = MARKET_ORDER_SIDE_ASK then o.left else price * o.left) ∧
        ∀ u t a,
          bal (market_put_limit_order real e.g m user_id side amount price taker_fee
            maker_fee).2.1.dict_balance u t a =
          bal (put_limit_match real e.g m user_id side amount price taker_fee
            maker_fee).1.dict_balance u t a +
            (if u = user_id ∧ a = (if side = MARKET_ORDER_SIDE_ASK then m.stock else m.money)
              then (if t = BALANCE_TYPE_FREEZE then o.freeze
                else if t = BALANCE_TYPE_AVAILABLE then -o.freeze else 0)
              else 0)) ∧
      (o.left = 0 →
        o.freeze = 0 ∧
        (∀ x ∈ (market_put_limit_order real e.g m user_id side amount price taker_fee
            maker_fee).2.2.1.asks ++
          (market_put_limit_order real e.g m user_id side amount price taker_fee
            maker_fee).2.2.1.bids, x.id ≠ o.id) ∧
        (market_put_limit_order real e.g m user_id side amount price taker_fee
          maker_fee).2.1.dict_balance =
        (put_limit_match real e.g m user_id side amount price taker_fee
          maker_fee).1.dict_balance) := by
  obtain ⟨hE, hc⟩ := engine_run_some hrun (by omega)
  exact put_limit_rest_spec real (hE.match_inv hm) rfl (by omega) user_id hside hamt hag hprice
    hpg htf.le hmf0 hmf1 hret

theorem scenario_stkmny_spec (e : engine) (h : (get_market e "STKMNY").isSome = true) :
    get_market e "STKMNY" = some (scenario_stkmny e) := by
  unfold scenario_stkmny
  cases hm : get_market e "STKMNY" with
  | none => rw [hm] at h; cases h
  | some m => rfl

/-- Witness for C8: after the two credits of the scenarios, user 1 asks 1 @ 100 at fee
rates 0 into the empty market. -/
theorem c8_put_limit_rests_iff_left_witness :
    ∃ o, (market_put_limit_order true (scenario_state scenario_credit).g
        (scenario_stkmny (scenario_state scenario_credit)) 1 MARKET_ORDER_SIDE_ASK 1 100 0
        0).2.2.2.1 = some o ∧
      o.id = (scenario_state scenario_credit).g.order_id_start + 1 ∧ o.user_id = 1 ∧
      o.side = MARKET_ORDER_SIDE_ASK ∧ o.price = 100 :=
  have h := c8_put_limit_rests_iff_left (L := scenario_limits) scenario_assets scenario_markets
    scenario_credit
    (scenario_state scenario_credit) "STKMNY" (scenario_stkmny (scenario_state scenario_credit))
    true 1 MARKET_ORDER_SIDE_ASK 1 100 0 0 rfl (by decide)
    (scenario_stkmny_spec _ (by decide!)) (Or.inl rfl) (by decide!) (by decide!) (by decide!)
    (by decide!) (by decide!) (by decide!) (by decide!) (by decide!)
  h.imp (fun _ ho => ⟨ho.1, ho.2.1, ho.2.2.1, ho.2.2.2.1, ho.2.2.2.2.1⟩)

/-- C10: in every engine state reached from the empty state by fewer than 2^64 requests
(balance updates, limit orders, market orders, cancels, whether served or rejected), the
frozen balance of every user in every asset, 0 when absent, is the sum of `freeze` over the
user's orders resting in the ask books of the markets whose stock is that asset and in the
bid books of the markets whose money is that asset. The bound on the number of requests
keeps the 64-bit order counter from wrapping. -/
theorem c10_frozen_is_sum_of_freeze [L : name_limits] (assets : List (String × asset_type))
    (markets : List market_conf) (cmds : List command)
    (h0 : (init_engine assets markets).isSome = true) (hl : cmds.length < 2 ^ 64) :
    ∃ e, engine_run assets markets cmds = some e ∧ ∀ u a,
      bal e.g.dict_balance u BALANCE_TYPE_FREEZE a = frozen_total e.dict_market u a := by
  obtain ⟨e, he, hE, -⟩ := engine_run_ok cmds h0 hl
  exact ⟨e, he, hE.frozen_eq⟩

/-- Witness for C10: the requests of scenario 1. -/
theorem c10_frozen_is_sum_of_freeze_witness :
    ((init_engine scenario_assets scenario_markets).isSome = true ∧
      scenario1.length < 2 ^ 64) ∧
    ∃ e, engine_run (L := scenario_limits) scenario_assets scenario_markets scenario1 = some e ∧
      ∀ u a,
      bal e.g.dict_balance u BALANCE_TYPE_FREEZE a = frozen_total e.dict_market u a :=
  ⟨⟨by decide, by decide⟩,
    c10_frozen_is_sum_of_freeze (L := scenario_limits) scenario_assets scenario_markets scenario1
      (by decide)
      (by decide)⟩

/-! ## The deals of the matching loops -/

theorem same_order_head_trans {a b c : order_t} (h1 : same_order_head a b)
    (h2 : same_order_head b c) : same_order_head a c := by
  obtain ⟨a1, a2, a3, a4, a5, a6, a7, a8, a9⟩ := h1
  obtain ⟨b1, b2, b3, b4, b5, b6, b7, b8, b9⟩ := h2
  exact ⟨b1.trans a1, b2.trans a2, b3.trans a3, b4.trans a4, b5.trans a5, b6.trans a6,
    b7.trans a7, b8.trans a8, b9.trans a9⟩

/-- the deals of the loop of `execute_limit_ask_order`: makers, prices, amounts and fees -/
theorem execute_limit_ask_order_loop_deals (real : Bool) :
    ∀ (nodes : List order_t) (g : globals) (m : market_t) (taker : order_t),
    (∀ d ∈ (execute_limit_ask_order_loop real nodes g m taker).2.2.2,
      d.maker ∈ nodes ∧ same_order_head taker d.taker ∧ d.price = d.maker.price ∧
      d.amount = min d.taker.left d.maker.left ∧ d.deal = d.price * d.amount ∧
      d.ask_fee = d.deal * taker.taker_fee ∧ d.bid_fee = d.amount * d.maker.maker_fee ∧
      taker.price ≤ d.price) ∧
    (execute_limit_ask_order_loop real nodes g m taker).2.2.1.deal_fee =
      taker.deal_fee +
        ((execute_limit_ask_order_loop real nodes g m taker).2.2.2.map
          (fun d => d.ask_fee)).sum ∧
    same_order_head taker (execute_limit_ask_order_loop real nodes g m taker).2.2.1 := by
  intro nodes
  induction nodes with
  | nil =>
    intro g m taker
    exact ⟨fun d hd => (by cases hd), (add_zero _).symm, same_order_head_refl _⟩
  | cons maker rest ih =>
    intro g m taker
    have triv : (∀ d ∈ ([] : List deal_t),
        d.maker ∈ maker :: rest ∧ same_order_head taker d.taker ∧ d.price = d.maker.price ∧
        d.amount = min d.taker.left d.maker.left ∧ d.deal = d.price * d.amount ∧
        d.ask_fee = d.deal * taker.taker_fee ∧ d.bid_fee = d.amount * d.maker.maker_fee ∧
        taker.price ≤ d.price) ∧
        taker.deal_fee = taker.deal_fee + (([] : List deal_t).map (fun d => d.ask_fee)).sum ∧
        same_order_head taker taker :=
      ⟨fun d hd => (by cases hd), (add_zero _).symm, same_order_head_refl _⟩
    rw [execute_limit_ask_order_loop]
    by_cases hz : taker.left = 0
    · rw [if_pos hz]; exact triv
    rw [if_neg hz]
    by_cases hp : taker.price > maker.price
    · rw [if_pos hp]; exact triv
    rw [if_neg hp]
    simp only
    obtain ⟨amount, hamount⟩ : ∃ x, x = if taker.left < maker.left then taker.left
      else maker.left := ⟨_, rfl⟩
    rw [← hamount]
    have hmin : amount = min taker.left maker.left := by
      rw [hamount]
      split_ifs with hlt
      · exact (min_eq_left hlt.le).symm
      · exact (min_eq_right (not_lt.mp hlt)).symm
    obtain ⟨i1, i2, i3⟩ := ih (ask_taker_deal real g m taker maker amount).1
      (ask_taker_deal real g m taker maker amount).2.1
      (ask_taker_deal real g m taker maker amount).2.2.1
    have hh : same_order_head taker (ask_taker_deal real g m taker maker amount).2.2.1 :=
      same_order_head_fill_taker (same_order_head_refl taker) _ _ _ _
    refine ⟨?_, ?_, same_order_head_trans hh i3⟩
    · intro d hd
      rcases List.mem_cons.mp hd with e | e
      · rw [e]
        exact ⟨List.mem_cons_self _ _, same_order_head_refl _, rfl, hmin, rfl, rfl, rfl,
          not_lt.mp hp⟩
      · obtain ⟨j1, j2, j3, j4, j5, j6, j7, j8⟩ := i1 d e
        exact ⟨List.mem_cons_of_mem _ j1, same_order_head_trans hh j2, j3, j4, j5, j6, j7, j8⟩
    · rw [i2, List.map_cons, List.sum_cons, ← add_assoc]
      rfl

/-- the deals of the loop of `execute_limit_bid_order`: makers, prices, amounts and fees -/
theorem execute_limit_bid_order_loop_deals (real : Bool) :
    ∀ (nodes : List order_t) (g : globals) (m : market_t) (taker : order_t),
    (∀ d ∈ (execute_limit_bid_order_loop real nodes g m taker).2.2.2,
      d.maker ∈ nodes ∧ same_order_head taker d.taker ∧ d.price = d.maker.price ∧
      d.amount = min d.taker.left d.maker.left ∧ d.deal = d.price * d.amount ∧
      d.ask_fee = d.deal * d.maker.maker_fee ∧ d.bid_fee = d.amount * taker.taker_fee ∧
      d.price ≤ taker.price) ∧
    (execute_limit_bid_order_loop real nodes g m taker).2.2.1.deal_fee =
      taker.deal_fee +
        ((execute_limit_bid_order_loop real nodes g m taker).2.2.2.map
          (fun d => d.bid_fee)).sum ∧
    same_order_head taker (execute_limit_bid_order_loop real nodes g m taker).2.2.1 := by
  intro nodes
  induction nodes with
  | nil =>
    intro g m taker
    exact ⟨fun d hd => (by cases hd), (add_zero _).symm, same_order_head_refl _⟩
  | cons maker rest ih =>
    intro g m taker
    have triv : (∀ d ∈ ([] : List deal_t),
        d.maker ∈ maker :: rest ∧ same_order_head taker d.taker ∧ d.price = d.maker.price ∧
        d.amount = min d.taker.left d.maker.left ∧ d.deal = d.price * d.amount ∧
        d.ask_fee = d.deal * d.maker.maker_fee ∧ d.bid_fee = d.amount * taker.taker_fee ∧
        d.price ≤ taker.price) ∧
        taker.deal_fee = taker.deal_fee + (([] : List deal_t).map (fun d => d.bid_fee)).sum ∧
        same_order_head taker taker :=
      ⟨fun d hd => (by cases hd), (add_zero _).symm, same_order_head_refl _⟩
    rw [execute_limit_bid_order_loop]
    by_cases hz : taker.left = 0
    · rw [if_pos hz]; exact triv
    rw [if_neg hz]
    by_cases hp : taker.price < maker.price
    · rw [if_pos hp]; exact triv
    rw [if_neg hp]
    simp only
    obtain ⟨amount, hamount⟩ : ∃ x, x = if taker.left < maker.left then taker.left
      else maker.left := ⟨_, rfl⟩
    rw [← hamount]
    have hmin : amount = min taker.left maker.left := by
      rw [hamount]
      split_ifs with hlt
      · exact (min_eq_left hlt.le).symm
      · exact (min_eq_right (not_lt.mp hlt)).symm
    obtain ⟨i1, i2, i3⟩ := ih (bid_taker_deal real false g m taker maker amount).1
      (bid_taker_deal real false g m taker maker amount).2.1
      (bid_taker_deal real false g m taker maker amount).2.2.1
    have hh : same_order_head taker (bid_taker_deal real false g m taker maker amount).2.2.1 :=
      same_order_head_fill_taker (same_order_head_refl taker) _ _ _ _
    refine ⟨?_, ?_, same_order_head_trans hh i3⟩
    · intro d hd
      rcases List.mem_cons.mp hd with e | e
      · rw [e]
        exact ⟨List.mem_cons_self _ _, same_order_head_refl _, rfl, hmin, rfl, rfl, rfl,
          not_lt.mp hp⟩
      · obtain ⟨j1, j2, j3, j4, j5, j6, j7, j8⟩ := i1 d e
        exact ⟨List.mem_cons_of_mem _ j1, same_order_head_trans hh j2, j3, j4, j5, j6, j7, j8⟩
    · rw [i2, List.map_cons, List.sum_cons, ← add_assoc]
      rfl

/-- the deals of the loop of `execute_market_ask_order`: makers, prices, amounts and fees -/
theorem execute_market_ask_order_loop_deals (real : Bool) :
    ∀ (nodes : List order_t) (g : globals) (m : market_t) (taker : order_t),
    (∀ d ∈ (execute_market_ask_order_loop real nodes g m taker).2.2.2,
      d.maker ∈ nodes ∧ same_order_head taker d.taker ∧ d.price = d.maker.price ∧
      d.amount = min d.taker.left d.maker.left ∧ d.deal = d.price * d.amount ∧
      d.ask_fee = d.deal * taker.taker_fee ∧ d.bid_fee = d.amount * d.maker.maker_fee) ∧
    (execute_market_ask_order_loop real nodes g m taker).2.2.1.deal_fee =
      taker.deal_fee +
        ((execute_market_ask_order_loop real nodes g m taker).2.2.2.map
          (fun d => d.ask_fee)).sum ∧
    same_order_head taker (execute_market_ask_order_loop real nodes g m taker).2.2.1 := by
  intro nodes
  induction nodes with
  | nil =>
    intro g m taker
    exact ⟨fun d hd => (by cases hd), (add_zero _).symm, same_order_head_refl _⟩
  | cons maker rest ih =>
    intro g m taker
    rw [execute_market_ask_order_loop]
    by_cases hz : taker.left = 0
    · rw [if_pos hz]
      exact ⟨fun d hd => (by cases hd), (add_zero _).symm, same_order_head_refl _⟩
    rw [if_neg hz]
    simp only
    obtain ⟨amount, hamount⟩ : ∃ x, x = if taker.left < maker.left then taker.left
      else maker.left := ⟨_, rfl⟩
    rw [← hamount]
    have hmin : amount = min taker.left maker.left := by
      rw [hamount]
      split_ifs with hlt
      · exact (min_eq_left hlt.le).symm
      · exact (min_eq_right (not_lt.mp hlt)).symm
    obtain ⟨i1, i2, i3⟩ := ih (ask_taker_deal real g m taker maker amount).1
      (ask_taker_deal real g m taker maker amount).2.1
      (ask_taker_deal real g m taker maker amount).2.2.1
    have hh : same_order_head taker (ask_taker_deal real g m taker maker amount).2.2.1 :=
      same_order_head_fill_taker (same_order_head_refl taker) _ _ _ _
    refine ⟨?_, ?_, same_order_head_trans hh i3⟩
    · intro d hd
      rcases List.mem_cons.mp hd with e | e
      · rw [e]
        exact ⟨List.mem_cons_self _ _, same_order_head_refl _, rfl, hmin, rfl, rfl, rfl⟩
      · obtain ⟨j1, j2, j3, j4, j5, j6, j7⟩ := i1 d e
        exact ⟨List.mem_cons_of_mem _ j1, same_order_head_trans hh j2, j3, j4, j5, j6, j7⟩
    · rw [i2, List.map_cons, List.sum_cons, ← add_assoc]
      rfl

/-- the loop of `execute_market_bid_order` returns when the makers have positive prices, and
its deals: makers, prices, amounts and fees -/
theorem execute_market_bid_order_loop_deals (real : Bool) :
    ∀ (nodes : List order_t) (g : globals) (m : market_t) (taker : order_t),
    (∀ o ∈ nodes, 0 < o.price) → 0 ≤ taker.left →
    ∃ r, execute_market_bid_order_loop real nodes g m taker = some r ∧
      (∀ d ∈ r.2.2.2,
        d.maker ∈ nodes ∧ same_order_head taker d.taker ∧ d.price = d.maker.price ∧
        d.amount = min (mpd_rescale (d.taker.left / d.price) m.stock_prec) d.maker.left ∧
        d.deal = d.price * d.amount ∧ d.deal ≤ d.taker.left ∧
        d.ask_fee = d.deal * d.maker.maker_fee ∧ d.bid_fee = d.amount * taker.taker_fee) ∧
      r.2.2.1.deal_fee = taker.deal_fee + (r.2.2.2.map (fun d => d.bid_fee)).sum ∧
      same_order_head taker r.2.2.1 := by
  intro nodes
  induction nodes with
  | nil =>
    intro g m taker _ _
    exact ⟨_, rfl, fun d hd => (by cases hd), (add_zero _).symm, same_order_head_refl _⟩
  | cons maker rest ih =>
    intro g m taker hprice h0
    rw [execute_market_bid_order_loop]
    by_cases hz : taker.left = 0
    · rw [if_pos hz]
      exact ⟨_, rfl, fun d hd => (by cases hd), (add_zero _).symm, same_order_head_refl _⟩
    rw [if_neg hz]
    have hpp := hprice maker (List.mem_cons_self _ _)
    have hfit := mpd_rescale_div_mul_le m.stock_prec h0 hpp
    simp only
    rw [market_bid_fuel, market_bid_adjust_fits _ _ _ _ _ (not_lt.mpr hfit)]
    simp only
    obtain ⟨amount, hamount⟩ : ∃ x, x =
        if mpd_rescale (taker.left / maker.price) m.stock_prec > maker.left then maker.left
        else mpd_rescale (taker.left / maker.price) m.stock_prec := ⟨_, rfl⟩
    rw [← hamount]
    by_cases ha0 : amount = 0
    · rw [if_pos ha0]
      exact ⟨_, rfl, fun d hd => (by cases hd), (add_zero _).symm, same_order_head_refl _⟩
    rw [if_neg ha0]
    have hmin : amount = min (mpd_rescale (taker.left / maker.price) m.stock_prec)
        maker.left := by
      rw [hamount]
      split_ifs with hgt
      · exact (min_eq_right (le_of_lt hgt)).symm
      · exact (min_eq_left (not_lt.mp hgt)).symm
    have hale0 : amount ≤ mpd_rescale (taker.left / maker.price) m.stock_prec := by
      rw [hmin]; exact min_le_left _ _
    have hdeal : maker.price * amount ≤ taker.left := by
      calc maker.price * amount
          ≤ maker.price * mpd_rescale (taker.left / maker.price) m.stock_prec :=
            mul_le_mul_of_nonneg_left hale0 hpp.le
        _ = mpd_rescale (taker.left / maker.price) m.stock_prec * maker.price := mul_comm _ _
        _ ≤ taker.left := hfit
    have hl1 : (bid_taker_deal real true g m taker maker amount).2.2.1.left =
        taker.left - maker.price * amount := rfl
    have hsp : (bid_taker_deal real true g m taker maker amount).2.1.stock_prec =
        m.stock_prec := by
      unfold bid_taker_deal maker_done
      simp only
      split_ifs
      · unfold order_finish order_finish_tail
        simp only
        split_ifs <;> (try split) <;> (try split) <;> rfl
      · rfl
    obtain ⟨r, hr, i1, i2, i3⟩ := ih (bid_taker_deal real true g m taker maker amount).1
      (bid_taker_deal real true g m taker maker amount).2.1
      (bid_taker_deal real true g m taker maker amount).2.2.1
      (fun o ho => hprice o (List.mem_cons_of_mem _ ho)) (by rw [hl1]; linarith)
    have hh : same_order_head taker (bid_taker_deal real true g m taker maker amount).2.2.1 :=
      same_order_head_fill_taker (same_order_head_refl taker) _ _ _ _
    rw [hr]
    refine ⟨_, rfl, ?_, ?_, same_order_head_trans hh i3⟩
    · intro d hd
      rcases List.mem_cons.mp hd with e | e
      · rw [e]
        exact ⟨List.mem_cons_self _ _, same_order_head_refl _, rfl, hmin, rfl, hdeal, rfl, rfl⟩
      · obtain ⟨j1, j2, j3, j4, j5, j6, j7, j8⟩ := i1 d e
        rw [hsp] at j4
        exact ⟨List.mem_cons_of_mem _ j1, same_order_head_trans hh j2, j3, j4, j5, j6, j7, j8⟩
    · show r.2.2.1.deal_fee = _
      rw [i2, List.map_cons, List.sum_cons, ← add_assoc]
      rfl

theorem order_finish_tail_books (real : Bool) (g : globals) (m : market_t) (order : order_t) :
    (order_finish_tail real g m order).2.2.asks = m.asks ∧
    (order_finish_tail real g m order).2.2.bids = m.bids := by
  rw [order_finish_tail_market]
  exact ⟨rfl, rfl⟩

/-- the books after `order_finish`, whatever it returns: the order has left the book of its
side -/
theorem order_finish_books (real : Bool) (g : globals) (m : market_t) (order : order_t) :
    (order_finish real g m order).2.2.asks =
      (if order.side = MARKET_ORDER_SIDE_ASK then
        skiplist_delete order_match_compare order m.asks else m.asks) ∧
    (order_finish real g m order).2.2.bids =
      (if order.side = MARKET_ORDER_SIDE_ASK then m.bids
        else skiplist_delete order_match_compare order m.bids) := by
  unfold order_finish
  by_cases hs : order.side = MARKET_ORDER_SIDE_ASK
  · simp only [if_pos hs]
    by_cases hf : order.freeze > 0
    · simp only [if_pos hf]
      cases balance_unfreeze g.dict_asset g.dict_balance order.user_id m.stock order.freeze with
      | none => exact ⟨rfl, rfl⟩
      | some r => exact order_finish_tail_books real _ _ order
    · simp only [if_neg hf]
      exact order_finish_tail_books real _ _ order
  · simp only [if_neg hs]
    by_cases hf : order.freeze > 0
    · simp only [if_pos hf]
      cases balance_unfreeze g.dict_asset g.dict_balance order.user_id m.money order.freeze with
      | none => exact ⟨rfl, rfl⟩
      | some r => exact order_finish_tail_books real _ _ order
    · simp only [if_neg hf]
      exact order_finish_tail_books real _ _ order

/-- the books after `maker_done`: a maker with nothing left has gone from the book of its
side -/
theorem maker_done_books (real : Bool) (g : globals) (m : market_t) (maker : order_t) :
    (maker_done real g m maker).2.asks =
      (if maker.left = 0 ∧ maker.side = MARKET_ORDER_SIDE_ASK then
        skiplist_delete order_match_compare maker m.asks else m.asks) ∧
    (maker_done real g m maker).2.bids =
      (if maker.left = 0 ∧ ¬ maker.side = MARKET_ORDER_SIDE_ASK then
        skiplist_delete order_match_compare maker m.bids else m.bids) := by
  unfold maker_done
  by_cases h0 : maker.left = 0
  · rw [if_pos h0]
    obtain ⟨k1, k2⟩ := order_finish_books real
      (emit real [event.order_message ORDER_EVENT_FINISH maker m.name] g) m maker
    by_cases hs : maker.side = MARKET_ORDER_SIDE_ASK
    · rw [if_pos hs] at k1 k2
      rw [if_pos ⟨h0, hs⟩, if_neg (fun h => h.2 hs)]
      exact ⟨k1, k2⟩
    · rw [if_neg hs] at k1 k2
      rw [if_neg (fun h => hs h.2), if_pos ⟨h0, hs⟩]
      exact ⟨k1, k2⟩
  · rw [if_neg h0, if_neg (fun h => h0 h.1), if_neg (fun h => h0 h.1)]
    exact ⟨rfl, rfl⟩

/-- the books after one iteration of an ask taker on a maker of the bid book -/
theorem ask_taker_deal_books (real : Bool) (g : globals) (m : market_t) (taker : order_t)
    {maker : order_t} {pre rest : List order_t} (amount : ℚ)
    (hb : m.bids = pre ++ maker :: rest) (hid : ∀ o ∈ pre ++ rest, o.id ≠ maker.id)
    (hs : maker.side ≠ MARKET_ORDER_SIDE_ASK) :
    (ask_taker_deal real g m taker maker amount).2.1.asks = m.asks ∧
    (ask_taker_deal real g m taker maker amount).2.1.bids =
      pre ++ (if maker.left - amount = 0 then rest
        else fill_maker maker (maker.price * amount) amount (maker.price * amount)
          (amount * maker.maker_fee) :: rest) := by
  obtain ⟨k1, k2⟩ := maker_done_books real
    (settle real
      (emit real
        [event.order_deal_history ((g.deals_id_start + 1) % 2 ^ 64) taker MARKET_ROLE_TAKER
          maker MARKET_ROLE_MAKER maker.price amount (maker.price * amount)
          (maker.price * amount * taker.taker_fee) (amount * maker.maker_fee),
        event.deal_message m.name taker maker maker.price amount
          (maker.price * amount * taker.taker_fee) (amount * maker.maker_fee)
          MARKET_ORDER_SIDE_ASK ((g.deals_id_start + 1) % 2 ^ 64) m.stock m.money]
        { g with deals_id_start := (g.deals_id_start + 1) % 2 ^ 64 })
      taker.user_id maker.user_id m.stock amount m.money (maker.price * amount)
      (maker.price * amount * taker.taker_fee) (amount * maker.maker_fee))
    { m with bids := (book_update m.bids
        (fill_maker maker (maker.price * amount) amount (maker.price * amount)
          (amount * maker.maker_fee))) }
    (fill_maker maker (maker.price * amount) amount (maker.price * amount)
      (amount * maker.maker_fee))
  have hs' : ¬ (fill_maker maker (maker.price * amount) amount (maker.price * amount)
      (amount * maker.maker_fee)).side = MARKET_ORDER_SIDE_ASK := hs
  have hl : (fill_maker maker (maker.price * amount) amount (maker.price * amount)
      (amount * maker.maker_fee)).left = maker.left - amount := rfl
  rw [if_neg (fun h => hs' h.2)] at k1
  rw [hl] at k2
  refine ⟨k1, ?_⟩
  refine Eq.trans k2 ?_
  show (if maker.left - amount = 0 ∧ _ then skiplist_delete order_match_compare _
    (book_update m.bids _) else book_update m.bids _) = _
  rw [hb, book_update_mid (by rfl) hid]
  by_cases h0 : maker.left - amount = 0
  · rw [if_pos ⟨h0, hs'⟩, if_pos h0]
    exact skiplist_delete_mid (fun o ho => hid o (List.mem_append_left _ ho))
  · rw [if_neg (fun h => h0 h.1), if_neg h0]

/-- the books after one iteration of a bid taker on a maker of the ask book -/
theorem bid_taker_deal_books (real by_deal : Bool) (g : globals) (m : market_t)
    (taker : order_t) {maker : order_t} {pre rest : List order_t} (amount : ℚ)
    (hb : m.asks = pre ++ maker :: rest) (hid : ∀ o ∈ pre ++ rest, o.id ≠ maker.id)
    (hs : maker.side = MARKET_ORDER_SIDE_ASK) :
    (bid_taker_deal real by_deal g m taker maker amount).2.1.bids = m.bids ∧
    (bid_taker_deal real by_deal g m taker maker amount).2.1.asks =
      pre ++ (if maker.left - amount = 0 then rest
        else fill_maker maker amount amount (maker.price * amount)
          (maker.price * amount * maker.maker_fee) :: rest) := by
  obtain ⟨k1, k2⟩ := maker_done_books real
    (settle real
      (emit real
        [event.order_deal_history ((g.deals_id_start + 1) % 2 ^ 64) maker MARKET_ROLE_MAKER
          taker MARKET_ROLE_TAKER maker.price amount (maker.price * amount)
          (maker.price * amount * maker.maker_fee) (amount * taker.taker_fee),
        event.deal_message m.name maker taker maker.price amount
          (maker.price * amount * maker.maker_fee) (amount * taker.taker_fee)
          MARKET_ORDER_SIDE_BID ((g.deals_id_start + 1) % 2 ^ 64) m.stock m.money]
        { g with deals_id_start := (g.deals_id_start + 1) % 2 ^ 64 })
      taker.user_id maker.user_id m.money (maker.price * amount) m.stock amount
      (amount * taker.taker_fee) (maker.price * amount * maker.maker_fee))
    { m with asks := (book_update m.asks
        (fill_maker maker amount amount (maker.price * amount)
          (maker.price * amount * maker.maker_fee))) }
    (fill_maker maker amount amount (maker.price * amount)
      (maker.price * amount * maker.maker_fee))
  have hs' : (fill_maker maker amount amount (maker.price * amount)
      (maker.price * amount * maker.maker_fee)).side = MARKET_ORDER_SIDE_ASK := hs
  have hl : (fill_maker maker amount amount (maker.price * amount)
      (maker.price * amount * maker.maker_fee)).left = maker.left - amount := rfl
  rw [if_neg (fun h => h.2 hs')] at k2
  rw [hl] at k1
  refine ⟨k2, ?_⟩
  refine Eq.trans k1 ?_
  show (if maker.left - amount = 0 ∧ _ then skiplist_delete order_match_compare _
    (book_update m.asks _) else book_update m.asks _) = _
  rw [hb, book_update_mid (by rfl) hid]
  by_cases h0 : maker.left - amount = 0
  · rw [if_pos ⟨h0, hs'⟩, if_pos h0]
    exact skiplist_delete_mid (fun o ho => hid o (List.mem_append_left _ ho))
  · rw [if_neg (fun h => h0 h.1), if_neg h0]

/-- the walk of `execute_limit_ask_order` through the bid book: the makers of the deals are a
prefix of the book, all of them but the last are filled completely, the book that is left is
the rest (behind the last maker when that one is only partly filled), and the walk ends at
the end of the book, at a taker with nothing left or at a maker below the limit price -/
theorem execute_limit_ask_order_loop_walk (real : Bool) :
    ∀ (nodes : List order_t) (g : globals) (m : market_t) (taker : order_t),
    m.bids = nodes → (nodes.map (fun o => o.id)).Nodup →
    (∀ o ∈ nodes, o.side ≠ MARKET_ORDER_SIDE_ASK) →
    ∃ rest,
      nodes = (execute_limit_ask_order_loop real nodes g m taker).2.2.2.map (fun d => d.maker)
        ++ rest ∧
      (∀ d ∈ (execute_limit_ask_order_loop real nodes g m taker).2.2.2.dropLast,
        d.amount = d.maker.left) ∧
      ((execute_limit_ask_order_loop real nodes g m taker).2.1.bids = rest ∨
        ((execute_limit_ask_order_loop real nodes g m taker).2.2.1.left = 0 ∧
          ∃ d, (execute_limit_ask_order_loop real nodes g m taker).2.2.2.getLast? = some d ∧
            d.amount ≠ d.maker.left ∧
            (execute_limit_ask_order_loop real nodes g m taker).2.1.bids =
              fill_maker d.maker d.deal d.amount d.deal d.bid_fee :: rest)) ∧
      (rest = [] ∨ (execute_limit_ask_order_loop real nodes g m taker).2.2.1.left = 0 ∨
        ∃ x xs, rest = x :: xs ∧ taker.price > x.price) ∧
      (execute_limit_ask_order_loop real nodes g m taker).2.1.asks = m.asks := by
  intro nodes
  induction nodes with
  | nil =>
    intro g m taker hb _ _
    exact ⟨[], rfl, fun d hd => (by cases hd), Or.inl hb, Or.inl rfl, rfl⟩
  | cons maker rest ih =>
    intro g m taker hb hnd hside
    rw [List.map_cons, List.nodup_cons] at hnd
    have hid : ∀ o ∈ rest, o.id ≠ maker.id := fun o ho e =>
      hnd.1 (List.mem_map.mpr ⟨o, ho, e⟩)
    rw [execute_limit_ask_order_loop]
    by_cases hz : taker.left = 0
    · rw [if_pos hz]
      exact ⟨maker :: rest, rfl, fun d hd => (by cases hd), Or.inl hb, Or.inr (Or.inl hz), rfl⟩
    rw [if_neg hz]
    by_cases hp : taker.price > maker.price
    · rw [if_pos hp]
      exact ⟨maker :: rest, rfl, fun d hd => (by cases hd), Or.inl hb,
        Or.inr (Or.inr ⟨maker, rest, rfl, hp⟩), rfl⟩
    rw [if_neg hp]
    simp only
    obtain ⟨amount, hamount⟩ : ∃ x, x = if taker.left < maker.left then taker.left
      else maker.left := ⟨_, rfl⟩
    rw [← hamount]
    obtain ⟨b1, b2⟩ := ask_taker_deal_books real g m taker amount
      (show m.bids = [] ++ maker :: rest from hb) hid (hside maker (List.mem_cons_self _ _))
    rw [List.nil_append] at b2
    have hd0 : (ask_taker_deal real g m taker maker amount).2.2.2 =
        ⟨(g.deals_id_start + 1) % 2 ^ 64, taker, maker, maker.price, amount,
          maker.price * amount, maker.price * amount * taker.taker_fee,
          amount * maker.maker_fee⟩ := rfl
    have hl1 : (ask_taker_deal real g m taker maker amount).2.2.1.left = taker.left - amount :=
      rfl
    have hp1 : (ask_taker_deal real g m taker maker amount).2.2.1.price = taker.price := rfl
    by_cases h0 : maker.left - amount = 0
    · -- the maker is filled completely and leaves the book
      rw [if_pos h0] at b2
      obtain ⟨rest', i1, i2, i3, i4, i5⟩ := ih (ask_taker_deal real g m taker maker amount).1
        (ask_taker_deal real g m taker maker amount).2.1
        (ask_taker_deal real g m taker maker amount).2.2.1 b2 hnd.2
        (fun o ho => hside o (List.mem_cons_of_mem _ ho))
      rw [hp1] at i4
      refine ⟨rest', ?_, ?_, ?_, i4, i5.trans b1⟩
      · rw [List.map_cons, List.cons_append, ← i1, hd0]
      · intro d hd
        cases hds : (execute_limit_ask_order_loop real rest
            (ask_taker_deal real g m taker maker amount).1
            (ask_taker_deal real g m taker maker amount).2.1
            (ask_taker_deal real g m taker maker amount).2.2.1).2.2.2 with
        | nil => rw [hds] at hd; cases hd
        | cons x xs =>
          rw [hds, List.dropLast_cons₂] at hd
          rcases List.mem_cons.mp hd with e | e
          · rw [e, hd0]
            show amount = maker.left
            linarith
          · exact i2 d (by rw [hds]; exact e)
      · rcases i3 with i3 | ⟨j1, d, j2, j3, j4⟩
        · exact Or.inl i3
        · refine Or.inr ⟨j1, d, ?_, j3, j4⟩
          cases hds : (execute_limit_ask_order_loop real rest
              (ask_taker_deal real g m taker maker amount).1
              (ask_taker_deal real g m taker maker amount).2.1
              (ask_taker_deal real g m taker maker amount).2.2.1).2.2.2 with
          | nil => rw [hds] at j2; cases j2
          | cons x xs =>
            rw [hds] at j2
            rw [List.getLast?_cons_cons]
            exact j2
    · -- the maker is filled in part: the taker has nothing left and the walk ends
      rw [if_neg h0] at b2
      have hamt : amount = taker.left := by
        rw [hamount]
        split_ifs with hlt
        · rfl
        · exfalso
          apply h0
          rw [hamount, if_neg hlt, sub_self]
      have hz1 : (ask_taker_deal real g m taker maker amount).2.2.1.left = 0 := by
        rw [hl1, hamt, sub_self]
      rw [execute_limit_ask_order_loop_done real rest _ _ _ hz1]
      refine ⟨rest, rfl, fun d hd => (by cases hd), Or.inr ⟨hz1, _, rfl, ?_, b2⟩,
        Or.inr (Or.inl hz1), b1⟩
      rw [hd0]
      show amount ≠ maker.left
      intro e
      exact h0 (by rw [e, sub_self])

/-- the walk of `execute_limit_bid_order` through the ask book: the makers of the deals are a
prefix of the book, all of them but the last are filled completely, the book that is left is
the rest (behind the last maker when that one is only partly filled), and the walk ends at
the end of the book, at a taker with nothing left or at a maker above the limit price -/
theorem execute_limit_bid_order_loop_walk (real : Bool) :
    ∀ (nodes : List order_t) (g : globals) (m : market_t) (taker : order_t),
    m.asks = nodes → (nodes.map (fun o => o.id)).Nodup →
    (∀ o ∈ nodes, o.side = MARKET_ORDER_SIDE_ASK) →
    ∃ rest,
      nodes = (execute_limit_bid_order_loop real nodes g m taker).2.2.2.map (fun d => d.maker)
        ++ rest ∧
      (∀ d ∈ (execute_limit_bid_order_loop real nodes g m taker).2.2.2.dropLast,
        d.amount = d.maker.left) ∧
      ((execute_limit_bid_order_loop real nodes g m taker).2.1.asks = rest ∨
        ((execute_limit_bid_order_loop real nodes g m taker).2.2.1.left = 0 ∧
          ∃ d, (execute_limit_bid_order_loop real nodes g m taker).2.2.2.getLast? = some d ∧
            d.amount ≠ d.maker.left ∧
            (execute_limit_bid_order_loop real nodes g m taker).2.1.asks =
              fill_maker d.maker d.amount d.amount d.deal d.ask_fee :: rest)) ∧
      (rest = [] ∨ (execute_limit_bid_order_loop real nodes g m taker).2.2.1.left = 0 ∨
        ∃ x xs, rest = x :: xs ∧ taker.price < x.price) ∧
      (execute_limit_bid_order_loop real nodes g m taker).2.1.bids = m.bids := by
  intro nodes
  induction nodes with
  | nil =>
    intro g m taker hb _ _
    exact ⟨[], rfl, fun d hd => (by cases hd), Or.inl hb, Or.inl rfl, rfl⟩
  | cons maker rest ih =>
    intro g m taker hb hnd hside
    rw [List.map_cons, List.nodup_cons] at hnd
    have hid : ∀ o ∈ rest, o.id ≠ maker.id := fun o ho e =>
      hnd.1 (List.mem_map.mpr ⟨o, ho, e⟩)
    rw [execute_limit_bid_order_loop]
    by_cases hz : taker.left = 0
    · rw [if_pos hz]
      exact ⟨maker :: rest, rfl, fun d hd => (by cases hd), Or.inl hb, Or.inr (Or.inl hz), rfl⟩
    rw [if_neg hz]
    by_cases hp : taker.price < maker.price
    · rw [if_pos hp]
      exact ⟨maker :: rest, rfl, fun d hd => (by cases hd), Or.inl hb,
        Or.inr (Or.inr ⟨maker, rest, rfl, hp⟩), rfl⟩
    rw [if_neg hp]
    simp only
    obtain ⟨amount, hamount⟩ : ∃ x, x = if taker.left < maker.left then taker.left
      else maker.left := ⟨_, rfl⟩
    rw [← hamount]
    obtain ⟨b1, b2⟩ := bid_taker_deal_books real false g m taker amount
      (show m.asks = [] ++ maker :: rest from hb) hid (hside maker (List.mem_cons_self _ _))
    rw [List.nil_append] at b2
    have hd0 : (bid_taker_deal real false g m taker maker amount).2.2.2 =
        ⟨(g.deals_id_start + 1) % 2 ^ 64, taker, maker, maker.price, amount,
          maker.price * amount, maker.price * amount * maker.maker_fee,
          amount * taker.taker_fee⟩ := rfl
    have hl1 : (bid_taker_deal real false g m taker maker amount).2.2.1.left =
        taker.left - amount := rfl
    have hp1 : (bid_taker_deal real false g m taker maker amount).2.2.1.price = taker.price := rfl
    by_cases h0 : maker.left - amount = 0
    · -- the maker is filled completely and leaves the book
      rw [if_pos h0] at b2
      obtain ⟨rest', i1, i2, i3, i4, i5⟩ := ih
        (bid_taker_deal real false g m taker maker amount).1
        (bid_taker_deal real false g m taker maker amount).2.1
        (bid_taker_deal real false g m taker maker amount).2.2.1 b2 hnd.2
        (fun o ho => hside o (List.mem_cons_of_mem _ ho))
      rw [hp1] at i4
      refine ⟨rest', ?_, ?_, ?_, i4, i5.trans b1⟩
      · rw [List.map_cons, List.cons_append, ← i1, hd0]
      · intro d hd
        cases hds : (execute_limit_bid_order_loop real rest
            (bid_taker_deal real false g m taker maker amount).1
            (bid_taker_deal real false g m taker maker amount).2.1
            (bid_taker_deal real false g m taker maker amount).2.2.1).2.2.2 with
        | nil => rw [hds] at hd; cases hd
        | cons x xs =>
          rw [hds, List.dropLast_cons₂] at hd
          rcases List.mem_cons.mp hd with e | e
          · rw [e, hd0]
            show amount = maker.left
            linarith
          · exact i2 d (by rw [hds]; exact e)
      · rcases i3 with i3 | ⟨j1, d, j2, j3, j4⟩
        · exact Or.inl i3
        · refine Or.inr ⟨j1, d, ?_, j3, j4⟩
          cases hds : (execute_limit_bid_order_loop real rest
              (bid_taker_deal real false g m taker maker amount).1
              (bid_taker_deal real false g m taker maker amount).2.1
              (bid_taker_deal real false g m taker maker amount).2.2.1).2.2.2 with
          | nil => rw [hds] at j2; cases j2
          | cons x xs =>
            rw [hds] at j2
            rw [List.getLast?_cons_cons]
            exact j2
    · -- the maker is filled in part: the taker has nothing left and the walk ends
      rw [if_neg h0] at b2
      have hamt : amount = taker.left := by
        rw [hamount]
        split_ifs with hlt
        · rfl
        · exfalso
          apply h0
          rw [hamount, if_neg hlt, sub_self]
      have hz1 : (bid_taker_deal real false g m taker maker amount).2.2.1.left = 0 := by
        rw [hl1, hamt, sub_self]
      rw [execute_limit_bid_order_loop_done real rest _ _ _ hz1]
      refine ⟨rest, rfl, fun d hd => (by cases hd), Or.inr ⟨hz1, _, rfl, ?_, b2⟩,
        Or.inr (Or.inl hz1), b1⟩
      rw [hd0]
      show amount ≠ maker.left
      intro e
      exact h0 (by rw [e, sub_self])

/-- the ledger after one iteration of an ask taker, for a maker that has nothing frozen left
once it is filled completely -/
theorem ask_taker_deal_ledger (real : Bool) (g : globals) (m : market_t) (taker maker : order_t)
    (amount : ℚ) (hfr : maker.left - amount = 0 → maker.freeze ≤ maker.price * amount) :
    (ask_taker_deal real g m taker maker amount).1.dict_balance =
      ledger_receive g.dict_asset
        (ledger_sub g.dict_asset
          (ledger_receive g.dict_asset
            (ledger_sub g.dict_asset g.dict_balance taker.user_id BALANCE_TYPE_AVAILABLE m.stock
              amount)
            taker.user_id m.money (maker.price * amount)
            (maker.price * amount * taker.taker_fee))
          maker.user_id BALANCE_TYPE_FREEZE m.money (maker.price * amount))
        maker.user_id m.stock amount (amount * maker.maker_fee) := by
  have h := maker_done_globals real
    (settle real
      (emit real
        [event.order_deal_history ((g.deals_id_start + 1) % 2 ^ 64) taker MARKET_ROLE_TAKER
          maker MARKET_ROLE_MAKER maker.price amount (maker.price * amount)
          (maker.price * amount * taker.taker_fee) (amount * maker.maker_fee),
        event.deal_message m.name taker maker maker.price amount
          (maker.price * amount * taker.taker_fee) (amount * maker.maker_fee)
          MARKET_ORDER_SIDE_ASK ((g.deals_id_start + 1) % 2 ^ 64) m.stock m.money]
        { g with deals_id_start := (g.deals_id_start + 1) % 2 ^ 64 })
      taker.user_id maker.user_id m.stock amount m.money (maker.price * amount)
      (maker.price * amount * taker.taker_fee) (amount * maker.maker_fee))
    { m with bids := (book_update m.bids
        (fill_maker maker (maker.price * amount) amount (maker.price * amount)
          (amount * maker.maker_fee))) }
    (fill_maker maker (maker.price * amount) amount (maker.price * amount)
      (amount * maker.maker_fee))
    (fun h0 => not_lt.mpr (sub_nonpos.mpr (hfr h0)))
  refine Eq.trans h.1 ?_
  rw [settle_dict_balance, emit_dict_balance, emit_dict_asset]
  rfl

/-- the ledger after one iteration of a bid taker, for a maker that has nothing frozen left
once it is filled completely -/
theorem bid_taker_deal_ledger (real by_deal : Bool) (g : globals) (m : market_t)
    (taker maker : order_t) (amount : ℚ)
    (hfr : maker.left - amount = 0 → maker.freeze ≤ amount) :
    (bid_taker_deal real by_deal g m taker maker amount).1.dict_balance =
      ledger_receive g.dict_asset
        (ledger_sub g.dict_asset
          (ledger_receive g.dict_asset
            (ledger_sub g.dict_asset g.dict_balance taker.user_id BALANCE_TYPE_AVAILABLE m.money
              (maker.price * amount))
            taker.user_id m.stock amount (amount * taker.taker_fee))
          maker.user_id BALANCE_TYPE_FREEZE m.stock amount)
        maker.user_id m.money (maker.price * amount)
        (maker.price * amount * maker.maker_fee) := by
  have h := maker_done_globals real
    (settle real
      (emit real
        [event.order_deal_history ((g.deals_id_start + 1) % 2 ^ 64) maker MARKET_ROLE_MAKER
          taker MARKET_ROLE_TAKER maker.price amount (maker.price * amount)
          (maker.price * amount * maker.maker_fee) (amount * taker.taker_fee),
        event.deal_message m.name maker taker maker.price amount
          (maker.price * amount * maker.maker_fee) (amount * taker.taker_fee)
          MARKET_ORDER_SIDE_BID ((g.deals_id_start + 1) % 2 ^ 64) m.stock m.money]
        { g with deals_id_start := (g.deals_id_start + 1) % 2 ^ 64 })
      taker.user_id maker.user_id m.money (maker.price * amount) m.stock amount
      (amount * taker.taker_fee) (maker.price * amount * maker.maker_fee))
    { m with asks := (book_update m.asks
        (fill_maker maker amount amount (maker.price * amount)
          (maker.price * amount * maker.maker_fee))) }
    (fill_maker maker amount amount (maker.price * amount)
      (maker.price * amount * maker.maker_fee))
    (fun h0 => not_lt.mpr (sub_nonpos.mpr (hfr h0)))
  refine Eq.trans h.1 ?_
  rw [settle_dict_balance, emit_dict_balance, emit_dict_asset]
  rfl

/-! ## Conservation and the digits of the money fee (C1) -/

/-- C1 fails on the code: in `scenario_fee_digits` the only deal is 0.0001 @ 1.0001 for
0.00010001 `MNY`, with `ask_fee` 0.000000010001 `MNY` and `bid_fee` 0; users 1 and 2, the
only holders, own 1000 `MNY` before the order and 999.99999998 `MNY` after it: the total goes
down by 0.00000002, not by the fee, because `balance_sub` cuts the seller's balance
0.000099999999 to the 8 digits of the asset. -/
theorem c1_fee_truncation_breaks_conservation :
    (scenario_run scenario_fee_digits_before).map
        (fun e => asset_total e.g.dict_balance [1, 2] "MNY") = some 1000 ∧
    (scenario_run scenario_fee_digits).map
        (fun e => (asset_total e.g.dict_balance [1, 2] "MNY", log_deals e.g.log,
          balance_get e.g.dict_balance 1 BALANCE_TYPE_AVAILABLE "MNY")) =
      some (99999999998 / 100000000,
        [⟨1, 1, 2, 10001 / 10000, 1 / 10000, 10001 / 100000000, 10001 / 1000000000000, 0⟩],
        some (9999 / 100000000)) ∧
    (1000 : ℚ) - 99999999998 / 100000000 ≠ 10001 / 1000000000000 := by
  decide!

/-! ## Prices and amounts (C4), the walk through the book (C5) -/

theorem put_limit_deals (real : Bool) (g : globals) (m : market_t) (user_id side : ℕ)
    (amount price taker_fee maker_fee : ℚ) :
    ∀ d ∈ (market_put_limit_order real g m user_id side amount price taker_fee
        maker_fee).2.2.2.2,
      d ∈ (put_limit_match real g m user_id side amount price taker_fee maker_fee).2.2.2 := by
  intro d hd
  cases hshort : put_limit_short g m user_id side amount price with
  | true =>
    rw [put_limit_of_short real g m user_id side amount price taker_fee maker_fee hshort] at hd
    cases hd
  | false =>
    by_cases hmin : amount < m.min_amount
    · rw [put_limit_of_small real g m user_id side amount price taker_fee maker_fee hshort
        hmin] at hd
      cases hd
    · rw [put_limit_pass_eq real g m user_id side amount price taker_fee maker_fee hshort
        hmin] at hd
      exact hd

/-- C4: every deal that `market_put_limit_order` executes is between the incoming order (the
taker, as it stands before the deal) and an order of the opposite book (the maker, as it
stands before the deal); its price is the maker's price, its amount is the smaller of the
taker's and the maker's `left` before the deal, and its money is `price * amount`; so an ask
never sells below its limit and a bid never buys above its limit. Scenario 1 (ask 1 @ 100
by user 1, then bid 1 @ 100 by user 2) records exactly one deal, with price 100, amount 1
and money 100. -/
theorem c4_limit_deal_price_and_amount (real : Bool) (g : globals) (m : market_t)
    (user_id side : ℕ) (amount price taker_fee maker_fee : ℚ) :
    (∀ d ∈ (market_put_limit_order real g m user_id side amount price taker_fee
        maker_fee).2.2.2.2,
      d.taker.id = (g.order_id_start + 1) % 2 ^ 64 ∧ d.taker.user_id = user_id ∧
      d.taker.price = price ∧
      d.maker ∈ (if side = MARKET_ORDER_SIDE_ASK then m.bids else m.asks) ∧
      d.price = d.maker.price ∧ d.amount = min d.taker.left d.maker.left ∧
      d.deal = d.price * d.amount ∧
      (side = MARKET_ORDER_SIDE_ASK → price ≤ d.price) ∧
      (side = MARKET_ORDER_SIDE_BID → d.price ≤ price)) ∧
    (scenario_run scenario1).map (fun e => log_deals e.g.log) =
      some [⟨1, 1, 2, 100, 1, 100, 0, 0⟩] := by
  refine ⟨fun d hd => ?_, by decide!⟩
  have hd' := put_limit_deals real g m user_id side amount price taker_fee maker_fee d hd
  unfold put_limit_match at hd'
  simp only at hd'
  by_cases hs : side = MARKET_ORDER_SIDE_ASK
  · rw [if_pos hs] at hd' ⊢
    obtain ⟨h1, -, -⟩ := execute_limit_ask_order_loop_deals real m.bids
      { g with order_id_start := (g.order_id_start + 1) % 2 ^ 64 } m
      (new_limit_order ((g.order_id_start + 1) % 2 ^ 64) user_id side amount price taker_fee
        maker_fee)
    obtain ⟨j1, j2, j3, j4, j5, -, -, j8⟩ := h1 d hd'
    obtain ⟨e1, -, -, e4, e5, -⟩ := j2
    refine ⟨e1, e4, e5, j1, j3, j4, j5, fun _ => j8, fun hb => ?_⟩
    rw [hs] at hb
    exact absurd hb.symm side_bid_ne_ask
  · rw [if_neg hs] at hd' ⊢
    obtain ⟨h1, -, -⟩ := execute_limit_bid_order_loop_deals real m.asks
      { g with order_id_start := (g.order_id_start + 1) % 2 ^ 64 } m
      (new_limit_order ((g.order_id_start + 1) % 2 ^ 64) user_id side amount price taker_fee
        maker_fee)
    obtain ⟨j1, j2, j3, j4, j5, -, -, j8⟩ := h1 d hd'
    obtain ⟨e1, -, -, e4, e5, -⟩ := j2
    exact ⟨e1, e4, e5, j1, j3, j4, j5, fun ha => absurd ha hs, fun _ => j8⟩

theorem sorted_book_nodup {book : List order_t}
    (h : book.Pairwise (fun a b => order_match_compare a b < 0)) :
    (book.map (fun o => o.id)).Nodup := by
  rw [List.Nodup, List.pairwise_map]
  refine h.imp ?_
  intro a b hab e
  rw [order_match_compare_eq_zero.mpr e] at hab
  exact lt_irrefl 0 hab

/-- C5: let the bid book be sorted by `order_match_compare` and hold bids only. Then the
makers of the deals of `execute_limit_ask_order`, in the order of the deals, are a prefix of
the bid book; each of them has a price at or above the taker's limit; every deal but the
last takes the whole `left` of its maker; the bid book afterwards is the rest of the book,
behind the last maker written back with what is left of it when the last deal did not fill
it (the taker then has nothing left); and the rest is empty, or the taker has nothing left,
or the head of the rest has a price below the taker's limit (`taker.price > maker.price`).
The same holds for `execute_limit_bid_order` on a sorted ask book that holds asks only, with
prices at or below the limit and a rest whose head is above it (`taker.price <
maker.price`). `market_put_limit_order` matches by one of these two routines. -/
theorem c5_limit_matching_walks_the_book (real : Bool) (g : globals) (m : market_t)
    (taker : order_t) :
    (m.bids.Pairwise (fun a b => order_match_compare a b < 0) →
      (∀ o ∈ m.bids, o.side = MARKET_ORDER_SIDE_BID) →
      ∃ rest,
        m.bids = (execute_limit_ask_order real g m taker).2.2.2.map (fun d => d.maker)
          ++ rest ∧
        (∀ d ∈ (execute_limit_ask_order real g m taker).2.2.2, taker.price ≤ d.maker.price) ∧
        (∀ d ∈ (execute_limit_ask_order real g m taker).2.2.2.dropLast,
          d.amount = d.maker.left) ∧
        ((execute_limit_ask_order real g m taker).2.1.bids = rest ∨
          ((execute_limit_ask_order real g m taker).2.2.1.left = 0 ∧
            ∃ d, (execute_limit_ask_order real g m taker).2.2.2.getLast? = some d ∧
              d.amount ≠ d.maker.left ∧
              (execute_limit_ask_order real g m taker).2.1.bids =
                fill_maker d.maker d.deal d.amount d.deal d.bid_fee :: rest)) ∧
        (rest = [] ∨ (execute_limit_ask_order real g m taker).2.2.1.left = 0 ∨
          ∃ x xs, rest = x :: xs ∧ taker.price > x.price)) ∧
    (m.asks.Pairwise (fun a b => order_match_compare a b < 0) →
      (∀ o ∈ m.asks, o.side = MARKET_ORDER_SIDE_ASK) →
      ∃ rest,
        m.asks = (execute_limit_bid_order real g m taker).2.2.2.map (fun d => d.maker)
          ++ rest ∧
        (∀ d ∈ (execute_limit_bid_order real g m taker).2.2.2, d.maker.price ≤ taker.price) ∧
        (∀ d ∈ (execute_limit_bid_order real g m taker).2.2.2.dropLast,
          d.amount = d.maker.left) ∧
        ((execute_limit_bid_order real g m taker).2.1.asks = rest ∨
          ((execute_limit_bid_order real g m taker).2.2.1.left = 0 ∧
            ∃ d, (execute_limit_bid_order real g m taker).2.2.2.getLast? = some d ∧
              d.amount ≠ d.maker.left ∧
              (execute_limit_bid_order real g m taker).2.1.asks =
                fill_maker d.maker d.amount d.amount d.deal d.ask_fee :: rest)) ∧
        (rest = [] ∨ (execute_limit_bid_order real g m taker).2.2.1.left = 0 ∨
          ∃ x xs, rest = x :: xs ∧ taker.price < x.price)) := by
  constructor
  · intro hsort hside
    obtain ⟨rest, w1, w2, w3, w4, -⟩ := execute_limit_ask_order_loop_walk real m.bids g m taker
      rfl (sorted_book_nodup hsort)
      (fun o ho => by rw [hside o ho]; exact side_bid_ne_ask)
    obtain ⟨h1, -, -⟩ := execute_limit_ask_order_loop_deals real m.bids g m taker
    refine ⟨rest, w1, fun d hd => ?_, w2, w3, w4⟩
    obtain ⟨-, -, j3, -, -, -, -, j8⟩ := h1 d hd
    rw [← j3]; exact j8
  · intro hsort hside
    obtain ⟨rest, w1, w2, w3, w4, -⟩ := execute_limit_bid_order_loop_walk real m.asks g m taker
      rfl (sorted_book_nodup hsort) hside
    obtain ⟨h1, -, -⟩ := execute_limit_bid_order_loop_deals real m.asks g m taker
    refine ⟨rest, w1, fun d hd => ?_, w2, w3, w4⟩
    obtain ⟨-, -, j3, -, -, -, -, j8⟩ := h1 d hd
    rw [← j3]; exact j8

/-- Witness for C5: user 3 asks 4 @ 9 into a bid book holding the bids 3 @ 10 and 2 @ 9 of
user 2. -/
theorem c5_limit_matching_walks_the_book_witness :
    ∃ rest,
      (scenario_market (1 / 10000) []
        [{ new_limit_order 1 2 MARKET_ORDER_SIDE_BID 3 10 0 0 with freeze := 30 },
          { new_limit_order 2 2 MARKET_ORDER_SIDE_BID 2 9 0 0 with freeze := 18 }]).bids =
        (execute_limit_ask_order true
          (scenario_globals [(⟨3, BALANCE_TYPE_AVAILABLE, "STK"⟩, 4),
            (⟨2, BALANCE_TYPE_FREEZE, "MNY"⟩, 48)] 3 0)
          (scenario_market (1 / 10000) []
            [{ new_limit_order 1 2 MARKET_ORDER_SIDE_BID 3 10 0 0 with freeze := 30 },
              { new_limit_order 2 2 MARKET_ORDER_SIDE_BID 2 9 0 0 with freeze := 18 }])
          (new_limit_order 3 3 MARKET_ORDER_SIDE_ASK 4 9 0 0)).2.2.2.map (fun d => d.maker)
          ++ rest :=
  ((c5_limit_matching_walks_the_book true
    (scenario_globals [(⟨3, BALANCE_TYPE_AVAILABLE, "STK"⟩, 4),
      (⟨2, BALANCE_TYPE_FREEZE, "MNY"⟩, 48)] 3 0)
    (scenario_market (1 / 10000) []
      [{ new_limit_order 1 2 MARKET_ORDER_SIDE_BID 3 10 0 0 with freeze := 30 },
        { new_limit_order 2 2 MARKET_ORDER_SIDE_BID 2 9 0 0 with freeze := 18 }])
    (new_limit_order 3 3 MARKET_ORDER_SIDE_ASK 4 9 0 0)).1 (by decide!) (by decide!)).imp
    (fun _ h => h.1)

/-! ## The predicate of a resting order (C9) -/

/-- C9: the predicate `0 < left ≤ amount`, `deal_stock + left = amount`, `freeze = left`
(ask) or `freeze = price * left` (bid) holds for every order resting in a book in every
engine state reached from the empty state by fewer than 2^64 requests (balance updates,
limit orders, market orders, cancels, whether served or rejected; the bound keeps the
64-bit order counter from wrapping). Within one iteration of a matching loop on a maker
of a book with distinct order ids, the maker leaves the book when the deal takes all of its
`left`, and is otherwise written back with the deal applied; and a deal of a positive amount
below `left` applied to a maker that satisfies the predicate gives an order that satisfies
it again. -/
theorem c9_resting_order_invariant [L : name_limits] :
    (∀ (assets : List (String × asset_type)) (markets : List market_conf)
        (cmds : List command),
      (init_engine assets markets).isSome = true → cmds.length < 2 ^ 64 →
      ∃ e, engine_run assets markets cmds = some e ∧ ∀ m ∈ e.dict_market,
        (∀ o ∈ m.asks, 0 < o.left ∧ o.left ≤ o.amount ∧ o.deal_stock + o.left = o.amount ∧
          o.freeze = o.left) ∧
        (∀ o ∈ m.bids, 0 < o.left ∧ o.left ≤ o.amount ∧ o.deal_stock + o.left = o.amount ∧
          o.freeze = o.price * o.left)) ∧
    (∀ (real : Bool) (g : globals) (m : market_t) (taker maker : order_t)
        (pre rest : List order_t) (amount : ℚ),
      m.bids = pre ++ maker :: rest → (∀ o ∈ pre ++ rest, o.id ≠ maker.id) →
      maker.side = MARKET_ORDER_SIDE_BID →
      (ask_taker_deal real g m taker maker amount).2.1.bids =
        pre ++ (if maker.left - amount = 0 then rest
          else fill_maker maker (maker.price * amount) amount (maker.price * amount)
            (amount * maker.maker_fee) :: rest)) ∧
    (∀ (real by_deal : Bool) (g : globals) (m : market_t) (taker maker : order_t)
        (pre rest : List order_t) (amount : ℚ),
      m.asks = pre ++ maker :: rest → (∀ o ∈ pre ++ rest, o.id ≠ maker.id) →
      maker.side = MARKET_ORDER_SIDE_ASK →
      (bid_taker_deal real by_deal g m taker maker amount).2.1.asks =
        pre ++ (if maker.left - amount = 0 then rest
          else fill_maker maker amount amount (maker.price * amount)
            (maker.price * amount * maker.maker_fee) :: rest)) ∧
    (∀ (maker : order_t) (amount fee : ℚ),
      0 < maker.left → maker.left ≤ maker.amount →
      maker.deal_stock + maker.left = maker.amount → 0 < amount → amount < maker.left →
      (maker.freeze = maker.price * maker.left →
        0 < (fill_maker maker (maker.price * amount) amount (maker.price * amount) fee).left ∧
        (fill_maker maker (maker.price * amount) amount (maker.price * amount) fee).left ≤
          (fill_maker maker (maker.price * amount) amount (maker.price * amount) fee).amount ∧
        (fill_maker maker (maker.price * amount) amount (maker.price * amount)
            fee).deal_stock +
          (fill_maker maker (maker.price * amount) amount (maker.price * amount) fee).left =
          (fill_maker maker (maker.price * amount) amount (maker.price * amount) fee).amount ∧
        (fill_maker maker (maker.price * amount) amount (maker.price * amount) fee).freeze =
          (fill_maker maker (maker.price * amount) amount (maker.price * amount) fee).price *
          (fill_maker maker (maker.price * amount) amount (maker.price * amount) fee).left) ∧
      (maker.freeze = maker.left →
        0 < (fill_maker maker amount amount (maker.price * amount) fee).left ∧
        (fill_maker maker amount amount (maker.price * amount) fee).left ≤
          (fill_maker maker amount amount (maker.price * amount) fee).amount ∧
        (fill_maker maker amount amount (maker.price * amount) fee).deal_stock +
          (fill_maker maker amount amount (maker.price * amount) fee).left =
          (fill_maker maker amount amount (maker.price * amount) fee).amount ∧
        (fill_maker maker amount amount (maker.price * amount) fee).freeze =
          (fill_maker maker amount amount (maker.price * amount) fee).left)) := by
  refine ⟨?_, ?_, ?_, ?_⟩
  · intro assets markets cmds h0 hl
    obtain ⟨e, he, hE, -⟩ := engine_run_ok cmds h0 hl
    refine ⟨e, he, fun m hm => ⟨fun o ho => ?_, fun o ho => ?_⟩⟩
    · have hok := (hE.markets_ok m hm).asks_ok o ho
      exact ⟨hok.left_pos, hok.left_le, hok.deal_left, by rw [hok.freeze_eq, if_pos rfl]⟩
    · have hok := (hE.markets_ok m hm).bids_ok o ho
      exact ⟨hok.left_pos, hok.left_le, hok.deal_left,
        by rw [hok.freeze_eq, if_neg side_bid_ne_ask]⟩
  · intro real g m taker maker pre rest amount hb hid hs
    exact (ask_taker_deal_books real g m taker amount hb hid
      (by rw [hs]; exact side_bid_ne_ask)).2
  · intro real by_deal g m taker maker pre rest amount hb hid hs
    exact (bid_taker_deal_books real by_deal g m taker amount hb hid hs).2
  · intro maker amount fee hpos hle hds hapos halt
    refine ⟨fun hfz => ⟨?_, ?_, ?_, ?_⟩, fun hfz => ⟨?_, ?_, ?_, ?_⟩⟩
    · show 0 < maker.left - amount
      linarith
    · show maker.left - amount ≤ maker.amount
      linarith
    · show maker.deal_stock + amount + (maker.left - amount) = maker.amount
      linarith
    · show maker.freeze - maker.price * amount = maker.price * (maker.left - amount)
      rw [hfz]; ring
    · show 0 < maker.left - amount
      linarith
    · show maker.left - amount ≤ maker.amount
      linarith
    · show maker.deal_stock + amount + (maker.left - amount) = maker.amount
      linarith
    · show maker.freeze - amount = maker.left - amount
      rw [hfz]

/-- Witness for C9: the requests of scenario 2. -/
theorem c9_resting_order_invariant_witness :
    ((init_engine scenario_assets scenario_markets).isSome = true ∧
      scenario2.length < 2 ^ 64) ∧
    ∃ e, engine_run (L := scenario_limits) scenario_assets scenario_markets scenario2 = some e ∧
      ∀ m ∈ e.dict_market,
        (∀ o ∈ m.asks, 0 < o.left ∧ o.left ≤ o.amount ∧ o.deal_stock + o.left = o.amount ∧
          o.freeze = o.left) ∧
        (∀ o ∈ m.bids, 0 < o.left ∧ o.left ≤ o.amount ∧ o.deal_stock + o.left = o.amount ∧
          o.freeze = o.price * o.left) :=
  ⟨⟨by decide, by decide⟩,
    (c9_resting_order_invariant (L := scenario_limits)).1 scenario_assets scenario_markets
      scenario2 (by decide)
      (by decide)⟩

/-! ## The ledger operations on stored entries (C11 to C14) -/

/-- C11 fails on the code: `balance_set` of 0.000000001 `STK` (an asset of precision 8) into
an empty ledger stores an entry of value 0 and returns 0; `balance_sub` of 0.000000009 from
an entry of 0.00000001 leaves an entry of value 0; and the requests of
`scenario_zero_entry`, served by the handlers, leave user 1 with an available `MNY` entry of
value 0. In each case the amount is not zero when it is compared with zero, and the
rescaling that follows makes it zero. -/
theorem c11_zero_entry_after_rescale :
    (balance_set scenario_dict_asset (fun _ => none) 1 BALANCE_TYPE_AVAILABLE "STK"
        (1 / 1000000000)).map
      (fun r => (r.1, r.2 ⟨1, BALANCE_TYPE_AVAILABLE, "STK"⟩)) = some (0, some 0) ∧
    (balance_sub scenario_dict_asset
        (scenario_globals [(⟨1, BALANCE_TYPE_AVAILABLE, "MNY"⟩, 1 / 100000000)] 0 0).dict_balance
        1 BALANCE_TYPE_AVAILABLE "MNY" (9 / 1000000000)).map
      (fun r => (r.1, r.2 ⟨1, BALANCE_TYPE_AVAILABLE, "MNY"⟩)) = some (0, some 0) ∧
    (scenario_run scenario_zero_entry).map
      (fun e => balance_get e.g.dict_balance 1 BALANCE_TYPE_AVAILABLE "MNY") =
        some (some 0) := by
  decide!

/-- C12: `balance_sub` fails exactly when the asset is not configured, or the amount is
negative, or the entry is absent, or the entry is smaller than the amount; a failed call
leaves the ledger as it was; a successful call returns 0 and deletes the entry when the
difference is exactly zero, and otherwise returns and stores the difference rescaled to
`prec_save`; no other entry changes. -/
theorem c12_balance_sub_spec (A : dict_asset_t) (d : dict_balance_t) (u k : ℕ) (a : String)
    (v : ℚ) :
    (balance_sub A d u k a v = none ↔
      (A a = none ∨ v < 0 ∨ d ⟨u, k, a⟩ = none ∨ ∃ b, d ⟨u, k, a⟩ = some b ∧ b < v)) ∧
    (balance_sub A d u k a v = none → ledger_sub A d u k a v = d) ∧
    (∀ r, balance_sub A d u k a v = some r →
      ledger_sub A d u k a v = r.2 ∧
      ∃ as b, A a = some as ∧ d ⟨u, k, a⟩ = some b ∧
        (b - v = 0 → r.1 = 0 ∧ r.2 ⟨u, k, a⟩ = none) ∧
        (b - v ≠ 0 → r.1 = mpd_rescale (b - v) as.prec_save ∧
          r.2 ⟨u, k, a⟩ = some (mpd_rescale (b - v) as.prec_save)) ∧
        ∀ key, key ≠ ⟨u, k, a⟩ → r.2 key = d key) := by
  refine ⟨?_, ?_, ?_⟩
  · unfold balance_sub balance_get balance_del
    cases ha : A a with
    | none => simp
    | some as =>
      by_cases hv : v < 0
      · simp [hv]
      · cases hb : d ⟨u, k, a⟩ with
        | none => simp [hv]
        | some b =>
          by_cases hlt : b < v
          · simp [hv, hlt]
          · by_cases h0 : b - v = 0 <;> simp [hv, hlt, h0]
  · intro h
    unfold ledger_sub
    rw [h]
  · intro r h
    refine ⟨by unfold ledger_sub; rw [h], ?_⟩
    unfold balance_sub balance_get balance_del at h
    cases ha : A a with
    | none => rw [ha] at h; simp at h
    | some as =>
      cases hb : d ⟨u, k, a⟩ with
      | none => rw [ha, hb] at h; simp at h
      | some b =>
        rw [ha, hb] at h
        dsimp only at h
        refine ⟨as, b, rfl, rfl, ?_⟩
        split_ifs at h with h1 h2 h3
        · cases h
          exact ⟨fun _ => ⟨rfl, Function.update_same _ _ _⟩, fun hn => absurd h3 hn,
            fun key hkey => Function.update_noteq hkey _ _⟩
        · cases h
          exact ⟨fun hz => absurd hz h3, fun _ => ⟨rfl, Function.update_same _ _ _⟩,
            fun key hkey => Function.update_noteq hkey _ _⟩

/-- the witness of C12: 30 `STK` taken from an entry of 100 `STK` is not a failure, so none
of the four conditions of failure holds -/
theorem c12_balance_sub_spec_witness :
    (balance_sub scenario_dict_asset
        (scenario_globals [(⟨1, BALANCE_TYPE_AVAILABLE, "STK"⟩, 100)] 0 0).dict_balance
        1 BALANCE_TYPE_AVAILABLE "STK" 30).isSome = true ∧
    ¬ (scenario_dict_asset "STK" = none ∨ (30 : ℚ) < 0 ∨
      (scenario_globals [(⟨1, BALANCE_TYPE_AVAILABLE, "STK"⟩, 100)] 0 0).dict_balance
        ⟨1, BALANCE_TYPE_AVAILABLE, "STK"⟩ = none ∨
      ∃ b, (scenario_globals [(⟨1, BALANCE_TYPE_AVAILABLE, "STK"⟩, 100)] 0 0).dict_balance
        ⟨1, BALANCE_TYPE_AVAILABLE, "STK"⟩ = some b ∧ b < 30) := by
  have h1 : (balance_sub scenario_dict_asset
        (scenario_globals [(⟨1, BALANCE_TYPE_AVAILABLE, "STK"⟩, 100)] 0 0).dict_balance
        1 BALANCE_TYPE_AVAILABLE "STK" 30).isSome = true := by decide!
  refine ⟨h1, fun hc => ?_⟩
  rw [(c12_balance_sub_spec scenario_dict_asset
    (scenario_globals [(⟨1, BALANCE_TYPE_AVAILABLE, "STK"⟩, 100)] 0 0).dict_balance
    1 BALANCE_TYPE_AVAILABLE "STK" 30).1.mpr hc] at h1
  exact Bool.noConfusion h1

/-- C13: for a configured asset, `balance_freeze` succeeds exactly when `balance_sub` on the
available balance succeeds; a successful call returns what that `balance_sub` returns and
leaves the ledger of that `balance_sub` followed by `balance_add` on the frozen balance; a
failed call has stopped at one of the tests made before the first write. -/
theorem c13_balance_freeze_is_sub_then_add (A : dict_asset_t) (d : dict_balance_t) (u : ℕ)
    (a : String) (v : ℚ) (as : asset_type) (ha : A a = some as) :
    ((balance_freeze A d u a v).isSome = true ↔
      (balance_sub A d u BALANCE_TYPE_AVAILABLE a v).isSome = true) ∧
    (∀ r, balance_freeze A d u a v = some r →
      ∃ r1 r2, balance_sub A d u BALANCE_TYPE_AVAILABLE a v = some r1 ∧
        balance_add A r1.2 u BALANCE_TYPE_FREEZE a v = some r2 ∧ r.1 = r1.1 ∧ r.2 = r2.2) ∧
    (balance_freeze A d u a v = none →
      v < 0 ∨ d ⟨u, BALANCE_TYPE_AVAILABLE, a⟩ = none ∨
        ∃ b, d ⟨u, BALANCE_TYPE_AVAILABLE, a⟩ = some b ∧ b < v) := by
  have hkey : (⟨u, BALANCE_TYPE_AVAILABLE, a⟩ : balance_key) ≠ ⟨u, BALANCE_TYPE_FREEZE, a⟩ := by
    simp [BALANCE_TYPE_AVAILABLE, BALANCE_TYPE_FREEZE]
  by_cases hv : v < 0
  · refine ⟨?_, ?_, fun _ => Or.inl hv⟩
    · unfold balance_freeze balance_sub; simp [ha, hv]
    · intro r h; unfold balance_freeze at h; simp [ha, hv] at h
  cases hb : d ⟨u, BALANCE_TYPE_AVAILABLE, a⟩ with
  | none =>
    refine ⟨?_, ?_, fun _ => Or.inr (Or.inl rfl)⟩
    · unfold balance_freeze balance_sub balance_get; simp [ha, hv, hb]
    · intro r h; unfold balance_freeze balance_get at h; simp [ha, hv, hb] at h
  | some b =>
    by_cases hlt : b < v
    · refine ⟨?_, ?_, fun _ => Or.inr (Or.inr ⟨b, rfl, hlt⟩)⟩
      · unfold balance_freeze balance_sub balance_get; simp [ha, hv, hb, hlt]
      · intro r h; unfold balance_freeze balance_get at h; simp [ha, hv, hb, hlt] at h
    · obtain ⟨x, hx⟩ := balance_add_some d u BALANCE_TYPE_FREEZE ha (not_lt.mp hv)
      have hfr : balance_freeze A d u a v =
          if b - v = 0 then
            some (0, Function.update (ledger_add A d u BALANCE_TYPE_FREEZE a v)
              ⟨u, BALANCE_TYPE_AVAILABLE, a⟩ none)
          else some (mpd_rescale (b - v) as.prec_save,
            Function.update (ledger_add A d u BALANCE_TYPE_FREEZE a v)
              ⟨u, BALANCE_TYPE_AVAILABLE, a⟩ (some (mpd_rescale (b - v) as.prec_save))) := by
        unfold balance_freeze balance_get balance_del
        simp only [ha, hv, if_false, hb, hlt, hx]
      have hsub : balance_sub A d u BALANCE_TYPE_AVAILABLE a v =
          if b - v = 0 then some (0, Function.update d ⟨u, BALANCE_TYPE_AVAILABLE, a⟩ none)
          else some (mpd_rescale (b - v) as.prec_save,
            Function.update d ⟨u, BALANCE_TYPE_AVAILABLE, a⟩
              (some (mpd_rescale (b - v) as.prec_save))) := by
        unfold balance_sub balance_get balance_del
        simp only [ha, hv, if_false, hb, hlt]
      have hadd : ∀ y, ∃ z, balance_add A (Function.update d ⟨u, BALANCE_TYPE_AVAILABLE, a⟩ y) u
            BALANCE_TYPE_FREEZE a v =
          some (z, Function.update (ledger_add A d u BALANCE_TYPE_FREEZE a v)
            ⟨u, BALANCE_TYPE_AVAILABLE, a⟩ y) := by
        intro y
        have hl : ledger_add A d u BALANCE_TYPE_FREEZE a v =
            (match balance_add A d u BALANCE_TYPE_FREEZE a v with
              | some r => r.2 | none => d) := rfl
        rw [hl]
        unfold balance_add balance_set balance_del
        simp only [ha, hv, if_false, Function.update_noteq hkey.symm]
        cases d ⟨u, BALANCE_TYPE_FREEZE, a⟩ with
        | none =>
          by_cases h0 : v = 0
          · simp only [h0, if_true]
            exact ⟨_, congrArg some (Prod.ext rfl (Function.update_comm hkey _ _ _))⟩
          · simp only [h0, if_false]
            exact ⟨_, congrArg some (Prod.ext rfl (Function.update_comm hkey _ _ _))⟩
        | some f =>
          exact ⟨_, congrArg some (Prod.ext rfl (Function.update_comm hkey _ _ _))⟩
      refine ⟨?_, ?_, ?_⟩
      · rw [hfr, hsub]; split_ifs <;> simp
      · intro r h
        rw [hfr] at h
        rw [hsub]
        split_ifs at h ⊢ with h0
        · cases h
          obtain ⟨z, hz⟩ := hadd none
          exact ⟨_, _, rfl, hz, rfl, rfl⟩
        · cases h
          obtain ⟨z, hz⟩ := hadd (some (mpd_rescale (b - v) as.prec_save))
          exact ⟨_, _, rfl, hz, rfl, rfl⟩
      · intro h
        rw [hfr] at h
        split_ifs at h

/-- the witness of C13: freezing 30 `STK` of an available balance of 100 `STK` succeeds -/
theorem c13_balance_freeze_is_sub_then_add_witness :
    (balance_freeze scenario_dict_asset
        (scenario_globals [(⟨1, BALANCE_TYPE_AVAILABLE, "STK"⟩, 100)] 0 0).dict_balance
        1 "STK" 30).isSome = true ∧
    (balance_sub scenario_dict_asset
        (scenario_globals [(⟨1, BALANCE_TYPE_AVAILABLE, "STK"⟩, 100)] 0 0).dict_balance
        1 BALANCE_TYPE_AVAILABLE "STK" 30).isSome = true := by
  have h1 : (balance_freeze scenario_dict_asset
        (scenario_globals [(⟨1, BALANCE_TYPE_AVAILABLE, "STK"⟩, 100)] 0 0).dict_balance
        1 "STK" 30).isSome = true := by decide!
  exact ⟨h1, (c13_balance_freeze_is_sub_then_add scenario_dict_asset
    (scenario_globals [(⟨1, BALANCE_TYPE_AVAILABLE, "STK"⟩, 100)] 0 0).dict_balance
    1 "STK" 30 ⟨8, 8⟩ (by decide)).1.mp h1⟩

/-- C14 fails on the code in three ways, each on a ledger whose entries have at most 8
fractional digits, for the asset `STK` of precision 8. With an available balance of 100 and
no frozen entry, `balance_freeze` of 0 succeeds and the `balance_unfreeze` of 0 that follows
fails, and `balance_freeze` of 0.000000012 succeeds (it stores 0.00000001) and the
`balance_unfreeze` of 0.000000012 that follows fails. With a frozen entry of value 0,
freezing and unfreezing 30 both succeed and the frozen entry is absent afterwards. -/
theorem c14_counterexample :
    (on_grid (100 : ℚ) 8 ∧
      (balance_freeze scenario_dict_asset
        (scenario_globals [(⟨1, BALANCE_TYPE_AVAILABLE, "STK"⟩, 100)] 0 0).dict_balance
        1 "STK" 0).isSome = true ∧
      ((balance_freeze scenario_dict_asset
        (scenario_globals [(⟨1, BALANCE_TYPE_AVAILABLE, "STK"⟩, 100)] 0 0).dict_balance
        1 "STK" 0).bind
          (fun r => balance_unfreeze scenario_dict_asset r.2 1 "STK" 0)).isSome = false) ∧
    ((balance_freeze scenario_dict_asset
        (scenario_globals [(⟨1, BALANCE_TYPE_AVAILABLE, "STK"⟩, 100)] 0 0).dict_balance
        1 "STK" (12 / 1000000000)).isSome = true ∧
      ((balance_freeze scenario_dict_asset
        (scenario_globals [(⟨1, BALANCE_TYPE_AVAILABLE, "STK"⟩, 100)] 0 0).dict_balance
        1 "STK" (12 / 1000000000)).bind
          (fun r => balance_unfreeze scenario_dict_asset r.2 1 "STK" (12 / 1000000000))).isSome =
        false) ∧
    (on_grid (0 : ℚ) 8 ∧
      (scenario_globals [(⟨1, BALANCE_TYPE_AVAILABLE, "STK"⟩, 100),
          (⟨1, BALANCE_TYPE_FREEZE, "STK"⟩, 0)] 0 0).dict_balance
        ⟨1, BALANCE_TYPE_FREEZE, "STK"⟩ = some 0 ∧
      ((balance_freeze scenario_dict_asset
        (scenario_globals [(⟨1, BALANCE_TYPE_AVAILABLE, "STK"⟩, 100),
          (⟨1, BALANCE_TYPE_FREEZE, "STK"⟩, 0)] 0 0).dict_balance
        1 "STK" 30).bind
          (fun r => balance_unfreeze scenario_dict_asset r.2 1 "STK" 30)).map
        (fun r => r.2 ⟨1, BALANCE_TYPE_FREEZE, "STK"⟩) = some none) := by
  decide!

/-- C14, amended: for a configured asset, an amount greater than zero with no more
fractional digits than the asset stores, an available entry with no more fractional digits
than the asset stores and a frozen entry that, if present, is greater than zero and has no
more fractional digits than the asset stores: when `balance_freeze` succeeds, the
`balance_unfreeze` of the same amount that follows succeeds and leaves the ledger that was
there before the freeze, with the same keys and the same values. -/
theorem c14_freeze_unfreeze_round_trip (A : dict_asset_t) (d : dict_balance_t) (u : ℕ)
    (a : String) (v : ℚ) (as : asset_type) (ha : A a = some as) (hv : 0 < v)
    (hg : on_grid v as.prec_save)
    (hA : ∀ b, d ⟨u, BALANCE_TYPE_AVAILABLE, a⟩ = some b → on_grid b as.prec_save)
    (hF : ∀ f, d ⟨u, BALANCE_TYPE_FREEZE, a⟩ = some f → 0 < f ∧ on_grid f as.prec_save)
    (r : ℚ × dict_balance_t) (h : balance_freeze A d u a v = some r) :
    ∃ r2, balance_unfreeze A r.2 u a v = some r2 ∧ r2.2 = d := by
  have hkey : (⟨u, BALANCE_TYPE_AVAILABLE, a⟩ : balance_key) ≠ ⟨u, BALANCE_TYPE_FREEZE, a⟩ := by
    simp [BALANCE_TYPE_AVAILABLE, BALANCE_TYPE_FREEZE]
  have hv0 : ¬ v < 0 := not_lt.mpr hv.le
  have hvne : v ≠ 0 := hv.ne.symm
  unfold balance_freeze balance_get balance_add balance_set balance_del at h
  rw [ha] at h
  simp only [hv0, if_false, hvne] at h
  cases hb : d ⟨u, BALANCE_TYPE_AVAILABLE, a⟩ with
  | none => rw [hb] at h; simp at h
  | some b =>
    rw [hb] at h
    dsimp only at h
    have hbg := hA b hb
    by_cases hlt : b < v
    · simp [hlt] at h
    rw [if_neg hlt] at h
    have hbv : on_grid (b - v) as.prec_save := on_grid_sub hbg hg
    have hbv' : mpd_rescale (b - v + v) as.prec_save = b := by
      rw [sub_add_cancel]; exact hbg
    unfold balance_unfreeze balance_get balance_add balance_set balance_del
    rw [ha]
    simp only [hv0, if_false, hvne]
    cases hf : d ⟨u, BALANCE_TYPE_FREEZE, a⟩ with
    | none =>
      rw [hf] at h
      dsimp only at h
      rw [mpd_rescale_eq_self hg] at h ⊢
      split_ifs at h with h0
      · cases h
        have hbe : b = v := by linarith
        simp only [Function.update_noteq hkey.symm, Function.update_same, lt_irrefl,
          if_false, sub_self, if_true]
        refine ⟨_, rfl, ?_⟩
        funext key
        by_cases h1 : key = ⟨u, BALANCE_TYPE_FREEZE, a⟩
        · subst h1; simp [hf]
        · by_cases h2 : key = ⟨u, BALANCE_TYPE_AVAILABLE, a⟩
          · subst h2; simp [hb, hbe, Function.update_noteq hkey]
          · simp [Function.update_noteq h1, Function.update_noteq h2]
      · cases h
        simp only [Function.update_noteq hkey.symm, Function.update_same, lt_irrefl,
          if_false, sub_self, if_true, hbv', mpd_rescale_eq_self hbv]
        refine ⟨_, rfl, ?_⟩
        funext key
        by_cases h1 : key = ⟨u, BALANCE_TYPE_FREEZE, a⟩
        · subst h1; simp [hf]
        · by_cases h2 : key = ⟨u, BALANCE_TYPE_AVAILABLE, a⟩
          · subst h2; simp [hb, Function.update_noteq hkey]
          · simp [Function.update_noteq h1, Function.update_noteq h2]
    | some f =>
      rw [hf] at h
      dsimp only at h
      obtain ⟨hfpos, hfg⟩ := hF f hf
      have hfv : mpd_rescale (f + v) as.prec_save = f + v := on_grid_add hfg hg
      have hnl : ¬ f + v < v := by linarith
      have hne : f + v - v ≠ 0 := by rw [add_sub_cancel_right]; exact hfpos.ne.symm
      have hfe : mpd_rescale (f + v - v) as.prec_save = f := by
        rw [add_sub_cancel_right]; exact hfg
      rw [hfv] at h
      split_ifs at h with h0
      · cases h
        have hbe : b = v := by linarith
        simp only [Function.update_noteq hkey.symm, Function.update_same, hnl,
          if_false, hne, hfe, mpd_rescale_eq_self hg]
        refine ⟨_, rfl, ?_⟩
        funext key
        by_cases h1 : key = ⟨u, BALANCE_TYPE_FREEZE, a⟩
        · subst h1; simp [hf]
        · by_cases h2 : key = ⟨u, BALANCE_TYPE_AVAILABLE, a⟩
          · subst h2; simp [hb, hbe, Function.update_noteq hkey]
          · simp [Function.update_noteq h1, Function.update_noteq h2]
      · cases h
        simp only [Function.update_noteq hkey.symm, Function.update_same, hnl,
          if_false, hne, hfe, hbv', mpd_rescale_eq_self hbv]
        refine ⟨_, rfl, ?_⟩
        funext key
        by_cases h1 : key = ⟨u, BALANCE_TYPE_FREEZE, a⟩
        · subst h1; simp [hf]
        · by_cases h2 : key = ⟨u, BALANCE_TYPE_AVAILABLE, a⟩
          · subst h2; simp [hb, Function.update_noteq hkey]
          · simp [Function.update_noteq h1, Function.update_noteq h2]

/-- the witness of C14: freezing and unfreezing 30 `STK` of an available balance of 100 `STK`
gives the ledger back -/
theorem c14_freeze_unfreeze_round_trip_witness :
    ∃ r, balance_freeze scenario_dict_asset
        (scenario_globals [(⟨1, BALANCE_TYPE_AVAILABLE, "STK"⟩, 100)] 0 0).dict_balance
        1 "STK" 30 = some r ∧
      ∃ r2, balance_unfreeze scenario_dict_asset r.2 1 "STK" 30 = some r2 ∧
        r2.2 = (scenario_globals [(⟨1, BALANCE_TYPE_AVAILABLE, "STK"⟩, 100)] 0 0).dict_balance := by
  have h1 : (balance_freeze scenario_dict_asset
        (scenario_globals [(⟨1, BALANCE_TYPE_AVAILABLE, "STK"⟩, 100)] 0 0).dict_balance
        1 "STK" 30).isSome = true := by decide!
  obtain ⟨r, hr⟩ := Option.isSome_iff_exists.mp h1
  have hb : (scenario_globals [(⟨1, BALANCE_TYPE_AVAILABLE, "STK"⟩, 100)] 0 0).dict_balance
      ⟨1, BALANCE_TYPE_AVAILABLE, "STK"⟩ = some 100 := by decide!
  have hf : (scenario_globals [(⟨1, BALANCE_TYPE_AVAILABLE, "STK"⟩, 100)] 0 0).dict_balance
      ⟨1, BALANCE_TYPE_FREEZE, "STK"⟩ = none := by decide!
  exact ⟨r, hr, c14_freeze_unfreeze_round_trip scenario_dict_asset _ 1 "STK" 30 ⟨8, 8⟩
    (by decide) (by norm_num) (by decide!)
    (fun b h => by rw [hb] at h; cases h; decide!)
    (fun f h => by rw [hf] at h; cases h) r hr⟩

/-! ## Market orders (C15 to C17) -/

theorem put_market_check_range (g : globals) (m : market_t) (user_id side : ℕ) (amount : ℚ) :
    put_market_check g m user_id side amount = 0 ∨
    put_market_check g m user_id side amount = -1 ∨
    put_market_check g m user_id side amount = -2 ∨
    put_market_check g m user_id side amount = -3 := by
  unfold put_market_check
  by_cases hs : side = MARKET_ORDER_SIDE_ASK
  · rw [if_pos hs]
    cases balance_short (balance_get g.dict_balance user_id BALANCE_TYPE_AVAILABLE m.stock)
        amount with
    | true => simp
    | false =>
      cases m.bids with
      | nil => simp
      | cons o os => by_cases hlt : amount < m.min_amount <;> simp [hlt]
  · rw [if_neg hs]
    cases balance_short (balance_get g.dict_balance user_id BALANCE_TYPE_AVAILABLE m.money)
        amount with
    | true => simp
    | false =>
      cases m.asks with
      | nil => simp
      | cons o os => by_cases hlt : amount < o.price * m.min_amount <;> simp [hlt]

theorem bal_short_iff (d : dict_balance_t) (u t : ℕ) (a : String) {require : ℚ}
    (hr : 0 < require) :
    balance_short (balance_get d u t a) require = false ↔ require ≤ bal d u t a := by
  unfold balance_get bal
  cases d ⟨u, t, a⟩ with
  | none => simp [balance_short, hr]
  | some b => simp [balance_short]

theorem put_market_check_zero_iff (g : globals) (m : market_t) (user_id side : ℕ)
    {amount : ℚ} (hside : side = MARKET_ORDER_SIDE_ASK ∨ side = MARKET_ORDER_SIDE_BID)
    (hamt : 0 < amount) :
    put_market_check g m user_id side amount = 0 ↔
      ((side = MARKET_ORDER_SIDE_ASK ∧
          amount ≤ bal g.dict_balance user_id BALANCE_TYPE_AVAILABLE m.stock ∧
          m.bids ≠ [] ∧ m.min_amount ≤ amount) ∨
        (side = MARKET_ORDER_SIDE_BID ∧
          amount ≤ bal g.dict_balance user_id BALANCE_TYPE_AVAILABLE m.money ∧
          ∃ best rest, m.asks = best :: rest ∧ best.price * m.min_amount ≤ amount)) := by
  have hne : MARKET_ORDER_SIDE_BID ≠ MARKET_ORDER_SIDE_ASK := by decide
  unfold put_market_check
  rcases hside with hs | hs
  · subst hs
    simp only [if_true, true_and, hne.symm, false_and, or_false]
    rw [← bal_short_iff _ _ _ _ hamt]
    cases hsh : balance_short (balance_get g.dict_balance user_id BALANCE_TYPE_AVAILABLE m.stock)
        amount with
    | true => simp
    | false =>
      cases hb : m.bids with
      | nil => simp
      | cons o os =>
        by_cases hlt : amount < m.min_amount
        · simp [hlt]
        · simp [hlt, not_lt.mp hlt]
  · subst hs
    simp only [hne, if_false, false_and, false_or, true_and]
    rw [← bal_short_iff _ _ _ _ hamt]
    cases hsh : balance_short (balance_get g.dict_balance user_id BALANCE_TYPE_AVAILABLE m.money)
        amount with
    | true => simp
    | false =>
      cases hb : m.asks with
      | nil => simp
      | cons o os =>
        by_cases hlt : amount < o.price * m.min_amount
        · simp [hlt]
        · simp [hlt, not_lt.mp hlt]

/-- C15: for a request of a positive amount on a market whose asks have positive prices,
`market_put_market_order` returns, and it returns 0 exactly when, for an ask, the available
stock of the user is at least the amount, the bid book is not empty and the amount is at
least `min_amount`, and, for a bid, the available money of the user is at least the amount,
the ask book is not empty and the amount is at least the price of the best ask times
`min_amount` (an amount equal to that product is accepted). Otherwise it returns -1, -2 or
-3 and leaves the global state (ledger and counters) and the market (books and indexes)
as they were, with no order and no deal. -/
theorem c15_put_market_order_accepts_iff (real : Bool) (g : globals) (m : market_t)
    (user_id side : ℕ) (amount taker_fee : ℚ)
    (hside : side = MARKET_ORDER_SIDE_ASK ∨ side = MARKET_ORDER_SIDE_BID)
    (hamt : 0 < amount) (hprice : ∀ o ∈ m.asks, 0 < o.price) :
    ∃ r, market_put_market_order real g m user_id side amount taker_fee = some r ∧
      (r.1 = 0 ↔
        ((side = MARKET_ORDER_SIDE_ASK ∧
            amount ≤ bal g.dict_balance user_id BALANCE_TYPE_AVAILABLE m.stock ∧
            m.bids ≠ [] ∧ m.min_amount ≤ amount) ∨
          (side = MARKET_ORDER_SIDE_BID ∧
            amount ≤ bal g.dict_balance user_id BALANCE_TYPE_AVAILABLE m.money ∧
            ∃ best rest, m.asks = best :: rest ∧ best.price * m.min_amount ≤ amount))) ∧
      (r.1 ≠ 0 → (r.1 = -1 ∨ r.1 = -2 ∨ r.1 = -3) ∧ r.2.1 = g ∧ r.2.2.1 = m ∧
        r.2.2.2.1 = none ∧ r.2.2.2.2 = []) := by
  rw [← put_market_check_zero_iff g m user_id side hside hamt]
  unfold market_put_market_order
  by_cases hc : put_market_check g m user_id side amount ≠ 0
  · rw [if_pos hc]
    refine ⟨_, rfl, Iff.rfl, fun _ => ⟨?_, rfl, rfl, rfl, rfl⟩⟩
    rcases put_market_check_range g m user_id side amount with h | h | h | h
    · exact absurd h hc
    · exact Or.inl h
    · exact Or.inr (Or.inl h)
    · exact Or.inr (Or.inr h)
  · rw [if_neg hc]
    have hc0 : put_market_check g m user_id side amount = 0 := not_not.mp hc
    by_cases hs : side = MARKET_ORDER_SIDE_ASK
    · simp only [if_pos hs]
      exact ⟨_, rfl, ⟨fun _ => hc0, fun _ => rfl⟩, fun h => absurd rfl h⟩
    · simp only [if_neg hs]
      obtain ⟨r, hr, -⟩ := execute_market_bid_order_loop_deals real m.asks
        { g with order_id_start := (g.order_id_start + 1) % 2 ^ 64 } m
        (new_market_order ((g.order_id_start + 1) % 2 ^ 64) user_id side amount taker_fee)
        hprice hamt.le
      have hr' : execute_market_bid_order real
          { g with order_id_start := (g.order_id_start + 1) % 2 ^ 64 } m
          (new_market_order ((g.order_id_start + 1) % 2 ^ 64) user_id side amount taker_fee) =
            some r := hr
      rw [hr']
      exact ⟨_, rfl, ⟨fun _ => hc0, fun _ => rfl⟩, fun h => absurd rfl h⟩

/-- Witness for C15: against a book holding the ask 1 @ 10 and with `min_amount` 0.0001, a
market bid of exactly 0.001 `MNY` by a user holding 1000 `MNY` is accepted. -/
theorem c15_put_market_order_accepts_iff_witness :
    ∃ r, market_put_market_order true
        (scenario_globals [(⟨2, BALANCE_TYPE_AVAILABLE, "MNY"⟩, 1000),
          (⟨1, BALANCE_TYPE_FREEZE, "STK"⟩, 1)] 1 0)
        (scenario_market (1 / 10000)
          [{ new_limit_order 1 1 MARKET_ORDER_SIDE_ASK 1 10 0 0 with freeze := 1 }] [])
        2 MARKET_ORDER_SIDE_BID (1 / 1000) 0 = some r ∧ r.1 = 0 := by
  obtain ⟨r, hr, h0, -⟩ := c15_put_market_order_accepts_iff true
    (scenario_globals [(⟨2, BALANCE_TYPE_AVAILABLE, "MNY"⟩, 1000),
      (⟨1, BALANCE_TYPE_FREEZE, "STK"⟩, 1)] 1 0)
    (scenario_market (1 / 10000)
      [{ new_limit_order 1 1 MARKET_ORDER_SIDE_ASK 1 10 0 0 with freeze := 1 }] [])
    2 MARKET_ORDER_SIDE_BID (1 / 1000) 0 (Or.inr rfl) (by norm_num) (by decide!)
  exact ⟨r, hr, h0.mpr (Or.inr ⟨rfl, by decide!, _, _, rfl, by decide!⟩)⟩

/-- the orders of a book after one maker was filled are orders of the book before, by id
and owner -/
theorem book_step_owners {pre rest : List order_t} {maker : order_t} (cnd : Prop)
    [Decidable cnd] (x y z w : ℚ) :
    ∀ o2 ∈ pre ++ (if cnd then rest else fill_maker maker x y z w :: rest),
      ∃ o ∈ pre ++ maker :: rest, o.id = o2.id ∧ o.user_id = o2.user_id := by
  intro o2 ho2
  rcases List.mem_append.mp ho2 with h | h
  · exact ⟨o2, List.mem_append_left _ h, rfl, rfl⟩
  · split_ifs at h
    · exact ⟨o2, List.mem_append_right _ (List.mem_cons_of_mem _ h), rfl, rfl⟩
    · rcases List.mem_cons.mp h with e | e
      · exact ⟨maker, List.mem_append_right _ (List.mem_cons_self _ _), by rw [e]; rfl,
          by rw [e]; rfl⟩
      · exact ⟨o2, List.mem_append_right _ (List.mem_cons_of_mem _ e), rfl, rfl⟩

/-- the loop of `execute_market_ask_order` leaves the ask book as it was, and the orders of
the bid book it leaves are orders of the bid book before, by id and owner -/
theorem execute_market_ask_order_loop_books {A : dict_asset_t} {n : ℕ} {c : ℕ → String → ℚ}
    (real : Bool) : ∀ (nodes : List order_t) (g : globals) (m : market_t) (taker : order_t),
    MatchInv A n c g m → m.bids = nodes → taker.taker_fee ≤ 1 → 0 ≤ taker.left →
    on_grid taker.left m.stock_prec →
    (execute_market_ask_order_loop real nodes g m taker).2.1.asks = m.asks ∧
    ∀ o2 ∈ (execute_market_ask_order_loop real nodes g m taker).2.1.bids,
      ∃ o ∈ m.bids, o.id = o2.id ∧ o.user_id = o2.user_id := by
  intro nodes
  induction nodes with
  | nil =>
    intro g m taker hI _ _ h0 hg
    exact ⟨rfl, fun o2 ho2 => ⟨o2, ho2, rfl, rfl⟩⟩
  | cons maker rest ih =>
    intro g m taker hI hb hfee h0 hg
    rw [execute_market_ask_order_loop]
    by_cases hz : taker.left = 0
    · rw [if_pos hz]
      exact ⟨rfl, fun o2 ho2 => ⟨o2, ho2, rfl, rfl⟩⟩
    rw [if_neg hz]
    have hm := hI.market_ok.bids_ok maker (by rw [hb]; exact List.mem_cons_self _ _)
    have hpos : 0 < taker.left := lt_of_le_of_ne h0 (Ne.symm hz)
    obtain ⟨amount, hamount⟩ : ∃ x, x = if taker.left < maker.left then taker.left
      else maker.left := ⟨_, rfl⟩
    have hapos : 0 < amount := by rw [hamount]; split_ifs; exacts [hpos, hm.left_pos]
    have hale : amount ≤ maker.left := by rw [hamount]; split_ifs with h; exacts [h.le, le_rfl]
    have hag : on_grid amount m.stock_prec := by
      rw [hamount]; split_ifs; exacts [hg, hm.left_grid]
    obtain ⟨hI1, hasks1, hbids1, hst1, -⟩ :=
      ask_taker_deal_spec real taker hI (show m.bids = [] ++ maker :: rest from hb) hapos hale hag
        hfee
    have hown1 : ∀ o2 ∈ (ask_taker_deal real g m taker maker amount).2.1.bids,
        ∃ o ∈ m.bids, o.id = o2.id ∧ o.user_id = o2.user_id := by
      rw [hbids1, show m.bids = [] ++ maker :: rest from hb]
      exact book_step_owners _ _ _ _ _
    rw [List.nil_append] at hbids1
    simp only
    rw [← hamount]
    have hst1' := hst1
    unfold market_static at hst1'
    simp only [Prod.mk.injEq] at hst1'
    obtain ⟨_, _, _, hsp1, _⟩ := hst1'
    have ht1 : (ask_taker_deal real g m taker maker amount).2.2.1 =
        fill_taker taker amount amount (maker.price * amount)
          (maker.price * amount * taker.taker_fee) := rfl
    have hl1 : (ask_taker_deal real g m taker maker amount).2.2.1.left = taker.left - amount := by
      rw [ht1]; rfl
    by_cases hlt : taker.left < maker.left
    · have hae : amount = taker.left := by rw [hamount, if_pos hlt]
      have hz1 : (ask_taker_deal real g m taker maker amount).2.2.1.left = 0 := by
        rw [hl1, hae, sub_self]
      rw [execute_market_ask_order_loop_done real rest _ _ _ hz1]
      exact ⟨hasks1, hown1⟩
    · have hae : amount = maker.left := by rw [hamount, if_neg hlt]
      have hb1 : (ask_taker_deal real g m taker maker amount).2.1.bids = rest := by
        rw [hbids1, if_pos (by rw [hae, sub_self])]
      obtain ⟨k1, k2⟩ := ih _ _ (ask_taker_deal real g m taker maker amount).2.2.1 hI1 hb1
        (by rw [ht1]; exact hfee) (by rw [hl1]; linarith [not_lt.mp hlt])
        (by rw [hl1, hsp1]; exact on_grid_sub hg hag)
      refine ⟨k1.trans hasks1, fun o2 ho2 => ?_⟩
      obtain ⟨o1, ho1, e1, e2⟩ := k2 o2 ho2
      obtain ⟨o, ho, e3, e4⟩ := hown1 o1 ho1
      exact ⟨o, ho, e3.trans e1, e4.trans e2⟩

/-- the loop of `execute_market_bid_order` leaves the bid book as it was, and the orders of
the ask book it leaves are orders of the ask book before, by id and owner -/
theorem execute_market_bid_order_loop_books {A : dict_asset_t} {n : ℕ} {c : ℕ → String → ℚ}
    (real : Bool) : ∀ (nodes pre : List order_t) (g : globals) (m : market_t) (taker : order_t),
    MatchInv A n c g m → m.asks = pre ++ nodes → taker.taker_fee ≤ 1 → 0 ≤ taker.left →
    ∀ r, execute_market_bid_order_loop real nodes g m taker = some r →
      r.2.1.bids = m.bids ∧
      ∀ o2 ∈ r.2.1.asks, ∃ o ∈ m.asks, o.id = o2.id ∧ o.user_id = o2.user_id := by
  intro nodes
  induction nodes with
  | nil =>
    intro pre g m taker hI _ _ h0 r hr
    cases hr
    exact ⟨rfl, fun o2 ho2 => ⟨o2, ho2, rfl, rfl⟩⟩
  | cons maker rest ih =>
    intro pre g m taker hI hb hfee h0 r hr
    rw [execute_market_bid_order_loop] at hr
    by_cases hz : taker.left = 0
    · rw [if_pos hz] at hr
      cases hr
      exact ⟨rfl, fun o2 ho2 => ⟨o2, ho2, rfl, rfl⟩⟩
    rw [if_neg hz] at hr
    have hm := hI.market_ok.asks_ok maker (by
      rw [hb]; exact List.mem_append_right _ (List.mem_cons_self _ _))
    have hfit := mpd_rescale_div_mul_le m.stock_prec h0 hm.price_pos
    simp only at hr
    rw [market_bid_fuel, market_bid_adjust_fits _ _ _ _ _ (not_lt.mpr hfit)] at hr
    simp only at hr
    obtain ⟨amount, hamount⟩ : ∃ x, x =
        if mpd_rescale (taker.left / maker.price) m.stock_prec > maker.left then maker.left
        else mpd_rescale (taker.left / maker.price) m.stock_prec := ⟨_, rfl⟩
    rw [← hamount] at hr
    by_cases ha0 : amount = 0
    · rw [if_pos ha0] at hr
      cases hr
      exact ⟨rfl, fun o2 ho2 => ⟨o2, ho2, rfl, rfl⟩⟩
    rw [if_neg ha0] at hr
    have hr0 : 0 ≤ mpd_rescale (taker.left / maker.price) m.stock_prec :=
      mpd_rescale_nonneg _ (div_nonneg h0 hm.price_pos.le)
    have hapos : 0 < amount := by
      apply lt_of_le_of_ne _ (Ne.symm ha0)
      rw [hamount]; split_ifs; exacts [hm.left_pos.le, hr0]
    have hale : amount ≤ maker.left := by
      rw [hamount]; split_ifs with h; exacts [le_rfl, not_lt.mp h]
    have hale0 : amount ≤ mpd_rescale (taker.left / maker.price) m.stock_prec := by
      rw [hamount]; split_ifs with h; exacts [h.le, le_rfl]
    have hag : on_grid amount m.stock_prec := by
      rw [hamount]; split_ifs; exacts [hm.left_grid, mpd_rescale_on_grid _ _]
    have hdeal : maker.price * amount ≤ taker.left := by
      calc maker.price * amount
          ≤ maker.price * mpd_rescale (taker.left / maker.price) m.stock_prec :=
            mul_le_mul_of_nonneg_left hale0 hm.price_pos.le
        _ = mpd_rescale (taker.left / maker.price) m.stock_prec * maker.price := mul_comm _ _
        _ ≤ taker.left := hfit
    obtain ⟨hI1, hbids1, hasks1, -⟩ :=
      bid_taker_deal_spec real true taker hI hb hapos hale hag hfee
    have hown1 : ∀ o2 ∈ (bid_taker_deal real true g m taker maker amount).2.1.asks,
        ∃ o ∈ m.asks, o.id = o2.id ∧ o.user_id = o2.user_id := by
      rw [hasks1, hb]
      exact book_step_owners _ _ _ _ _
    have ht1 : (bid_taker_deal real true g m taker maker amount).2.2.1 =
        fill_taker taker (maker.price * amount) amount (maker.price * amount)
          (amount * taker.taker_fee) := rfl
    have hl1 : (bid_taker_deal real true g m taker maker amount).2.2.1.left =
        taker.left - maker.price * amount := by
      rw [ht1]; rfl
    have hasks2 : ∃ pre2, (bid_taker_deal real true g m taker maker amount).2.1.asks =
        pre2 ++ rest := by
      rw [hasks1]
      split_ifs
      · exact ⟨pre, rfl⟩
      · exact ⟨pre ++ [_], by rw [List.append_assoc]; rfl⟩
    obtain ⟨pre2, hpre2⟩ := hasks2
    cases hrest : execute_market_bid_order_loop real rest
        (bid_taker_deal real true g m taker maker amount).1
        (bid_taker_deal real true g m taker maker amount).2.1
        (bid_taker_deal real true g m taker maker amount).2.2.1 with
    | none => rw [hrest] at hr; cases hr
    | some r2 =>
      rw [hrest] at hr
      cases hr
      obtain ⟨k1, k2⟩ := ih pre2 _ _ (bid_taker_deal real true g m taker maker amount).2.2.1
        hI1 hpre2 (by rw [ht1]; exact hfee) (by rw [hl1]; linarith) r2 hrest
      refine ⟨k1.trans hbids1, fun o2 ho2 => ?_⟩
      obtain ⟨o1, ho1, e1, e2⟩ := k2 o2 ho2
      obtain ⟨o, ho, e3, e4⟩ := hown1 o1 ho1
      exact ⟨o, ho, e3.trans e1, e4.trans e2⟩

theorem book_frozen_absent {book : List order_t} {u : ℕ} (h : ∀ o ∈ book, o.user_id ≠ u) :
    book_frozen book u = 0 := by
  unfold book_frozen
  induction book with
  | nil => rfl
  | cons x xs ih =>
    rw [List.map_cons, List.sum_cons, if_neg (h x (List.mem_cons_self _ _)), zero_add]
    exact ih (fun o ho => h o (List.mem_cons_of_mem _ ho))

/-- an accepted market order: the invariant of the market holds for the state reached with the
bound on the ids that held before, the order carries the next id, and the books hold orders
they held before -/
theorem put_market_pass_spec {A : dict_asset_t} {n : ℕ} {c : ℕ → String → ℚ}
    (real : Bool) {g : globals} {m : market_t} (hI : MatchInv A n c g m)
    (hn : g.order_id_start = n) (hw : n + 1 < 2 ^ 64) (user_id side : ℕ)
    {amount taker_fee : ℚ} (hamt : 0 < amount) (hag : on_grid amount m.stock_prec)
    (htf : taker_fee ≤ 1) :
    ∃ r, market_put_market_order real g m user_id side amount taker_fee = some r ∧
      (r.1 = 0 → ∃ o, r.2.2.2.1 = some o ∧
        same_order_head (new_market_order (n + 1) user_id side amount taker_fee) o ∧
        MatchInv A n c r.2.1 r.2.2.1 ∧ r.2.1.order_id_start = n + 1 ∧
        (side = MARKET_ORDER_SIDE_ASK → r.2.2.1.asks = m.asks) ∧
        (side ≠ MARKET_ORDER_SIDE_ASK → r.2.2.1.bids = m.bids) ∧
        (∀ o2 ∈ r.2.2.1.asks, ∃ o1 ∈ m.asks, o1.id = o2.id ∧ o1.user_id = o2.user_id) ∧
        (∀ o2 ∈ r.2.2.1.bids, ∃ o1 ∈ m.bids, o1.id = o2.id ∧ o1.user_id = o2.user_id)) := by
  unfold market_put_market_order
  by_cases hc : put_market_check g m user_id side amount ≠ 0
  · rw [if_pos hc]
    exact ⟨_, rfl, fun h => absurd h hc⟩
  rw [if_neg hc]
  have hid : (g.order_id_start + 1) % 2 ^ 64 = n + 1 := by
    rw [hn]; exact Nat.mod_eq_of_lt hw
  simp only [hid]
  by_cases hs : side = MARKET_ORDER_SIDE_ASK
  · simp only [if_pos hs]
    obtain ⟨h1, h2, h3, h4, h5, -⟩ :=
      execute_market_ask_order_loop_spec real m.bids { g with order_id_start := n + 1 } m
        (new_market_order (n + 1) user_id side amount taker_fee)
        (hI.counter (n + 1)) rfl htf hamt.le hag
    obtain ⟨k1, k2⟩ :=
      execute_market_ask_order_loop_books real m.bids { g with order_id_start := n + 1 } m
        (new_market_order (n + 1) user_id side amount taker_fee)
        (hI.counter (n + 1)) rfl htf hamt.le hag
    refine ⟨_, rfl, fun _ => ⟨_, rfl, h5, ?_, ?_, fun _ => k1, fun h => absurd hs h, ?_, k2⟩⟩
    · exact h1.log_event real _
    · show (emit real _ _).order_id_start = n + 1
      rw [emit_order_id_start]
      exact h3
    · intro o2 ho2
      have ho2' : o2 ∈ m.asks := by rw [← k1]; exact ho2
      exact ⟨o2, ho2', rfl, rfl⟩
  · simp only [if_neg hs]
    obtain ⟨r, hr, h1, h2, h3, h4, h5, -⟩ :=
      execute_market_bid_order_loop_spec real m.asks [] { g with order_id_start := n + 1 } m
        (new_market_order (n + 1) user_id side amount taker_fee)
        (hI.counter (n + 1)) rfl htf hamt.le
    obtain ⟨k1, k2⟩ :=
      execute_market_bid_order_loop_books real m.asks [] { g with order_id_start := n + 1 } m
        (new_market_order (n + 1) user_id side amount taker_fee)
        (hI.counter (n + 1)) rfl htf hamt.le r hr
    have hr2 : execute_market_bid_order real { g with order_id_start := n + 1 } m
        (new_market_order (n + 1) user_id side amount taker_fee) = some r := hr
    rw [hr2]
    refine ⟨_, rfl, fun _ => ⟨_, rfl, h5, ?_, ?_, fun h => absurd h hs, fun _ => k1, k2, ?_⟩⟩
    · exact h1.log_event real _
    · show (emit real _ _).order_id_start = n + 1
      rw [emit_order_id_start]
      exact h3
    · intro o2 ho2
      have ho2' : o2 ∈ m.bids := by rw [← k1]; exact ho2
      exact ⟨o2, ho2', rfl, rfl⟩

/-- C16: in every engine state reached from the empty state by requests (fewer than 2^64 - 1,
so that the order counter does not wrap), a market order of a positive amount at the
precision of the stock and a taker fee rate of at most 1 returns, and when it is accepted
(whatever ended the matching loop) the order it created is a market order of the user with
`freeze` 0, its id is the id of no order of either book, the `orders` index does not know the
id, and the id is in the order list of no user. The frozen balance of the taker changes, in
every asset, by exactly the change of the `freeze` of the taker's own resting orders of this
market; in particular it is the same as before when the taker has no resting order in the
book that the market order is matched against. -/
theorem c16_market_order_leaves_no_trace [L : name_limits] (assets : List (String × asset_type))
    (markets : List market_conf) (cmds : List command) (e : engine) (name : String)
    (m : market_t) (real : Bool) (user_id side : ℕ) (amount taker_fee : ℚ)
    (hrun : engine_run assets markets cmds = some e) (hl : cmds.length + 1 < 2 ^ 64)
    (hm : get_market e name = some m) (hamt : 0 < amount)
    (hag : on_grid amount m.stock_prec) (htf : taker_fee ≤ 1) :
    ∃ r, market_put_market_order real e.g m user_id side amount taker_fee = some r ∧
      (r.1 = 0 → ∃ o, r.2.2.2.1 = some o ∧ o.user_id = user_id ∧
        o.type = MARKET_ORDER_TYPE_MARKET ∧ o.freeze = 0 ∧
        (∀ x ∈ r.2.2.1.asks ++ r.2.2.1.bids, x.id ≠ o.id) ∧
        r.2.2.1.orders o.id = false ∧
        (∀ w, o.id ∉ (r.2.2.1.users w).getD []) ∧
        (∀ a, bal r.2.1.dict_balance user_id BALANCE_TYPE_FREEZE a -
            bal e.g.dict_balance user_id BALANCE_TYPE_FREEZE a =
          market_frozen r.2.2.1 user_id a - market_frozen m user_id a) ∧
        ((∀ x ∈ (if side = MARKET_ORDER_SIDE_ASK then m.bids else m.asks),
            x.user_id ≠ user_id) →
          ∀ a, bal r.2.1.dict_balance user_id BALANCE_TYPE_FREEZE a =
            bal e.g.dict_balance user_id BALANCE_TYPE_FREEZE a)) := by
  obtain ⟨hE, hc⟩ := engine_run_some hrun (by omega)
  have hI := hE.match_inv hm
  obtain ⟨r, hr, hz⟩ := put_market_pass_spec real hI rfl (by omega) user_id side hamt hag htf
  refine ⟨r, hr, fun h0 => ?_⟩
  obtain ⟨o, ho, hh, hI2, -, ka, kb, oa, ob⟩ := hz h0
  obtain ⟨e1, e2, -, e4, -, -, -, -, e9⟩ := hh
  have hid : o.id = e.g.order_id_start + 1 := e1
  obtain ⟨f1, f2, f3⟩ := hI2.market_ok.fresh (show e.g.order_id_start < o.id by omega)
  have hdiff : ∀ a, bal r.2.1.dict_balance user_id BALANCE_TYPE_FREEZE a -
      bal e.g.dict_balance user_id BALANCE_TYPE_FREEZE a =
        market_frozen r.2.2.1 user_id a - market_frozen m user_id a := by
    intro a
    rw [hI2.frozen_eq user_id a, hI.frozen_eq user_id a]
    ring
  refine ⟨o, ho, e4, e2, e9, f1, f2, f3, hdiff, fun hno a => ?_⟩
  have hsame : market_frozen r.2.2.1 user_id a = market_frozen m user_id a := by
    unfold market_frozen
    have hst : market_static r.2.2.1 = market_static m := by
      obtain ⟨r2, hr2, -, hst, -⟩ := market_put_market_order_inv real hI rfl
        (show e.g.order_id_start + 1 < 2 ^ 64 by omega) user_id side hamt hag htf
      rw [hr] at hr2
      cases hr2
      exact hst
    unfold market_static at hst
    simp only [Prod.mk.injEq] at hst
    obtain ⟨-, hstock, hmoney, -⟩ := hst
    rw [hstock, hmoney]
    by_cases hs : side = MARKET_ORDER_SIDE_ASK
    · rw [if_pos hs] at hno
      have hno2 : ∀ o2 ∈ r.2.2.1.bids, o2.user_id ≠ user_id := fun o2 ho2 => by
        obtain ⟨o1, ho1, -, eu⟩ := ob o2 ho2
        rw [← eu]; exact hno o1 ho1
      rw [ka hs, book_frozen_absent hno, book_frozen_absent hno2]
    · rw [if_neg hs] at hno
      have hno2 : ∀ o2 ∈ r.2.2.1.asks, o2.user_id ≠ user_id := fun o2 ho2 => by
        obtain ⟨o1, ho1, -, eu⟩ := oa o2 ho2
        rw [← eu]; exact hno o1 ho1
      rw [kb hs, book_frozen_absent hno, book_frozen_absent hno2]
  have := hdiff a
  rw [hsame, sub_self] at this
  exact sub_eq_zero.mp this

theorem scenario_state_spec (cmds : List command) (h : (scenario_run cmds).isSome = true) :
    engine_run (L := scenario_limits) scenario_assets scenario_markets cmds = some (scenario_state cmds) := by
  unfold scenario_state
  cases hm : scenario_run cmds with
  | none => rw [hm] at h; cases h
  | some e => exact hm

/-- Witness for C16: after the credits and the bid 2 @ 50 of user 2, user 1 sells 1 `STK` at
the market. -/
theorem c16_market_order_leaves_no_trace_witness :
    ∃ r, market_put_market_order true (scenario_state scenario4_before).g
        (scenario_stkmny (scenario_state scenario4_before)) 1 MARKET_ORDER_SIDE_ASK 1 0 =
          some r ∧
      r.1 = 0 ∧
      ∃ o, r.2.2.2.1 = some o ∧ r.2.2.1.orders o.id = false ∧
        bal r.2.1.dict_balance 1 BALANCE_TYPE_FREEZE "STK" =
          bal (scenario_state scenario4_before).g.dict_balance 1 BALANCE_TYPE_FREEZE "STK" := by
  obtain ⟨r, hr, hz⟩ := c16_market_order_leaves_no_trace (L := scenario_limits) scenario_assets
    scenario_markets
    scenario4_before (scenario_state scenario4_before) "STKMNY"
    (scenario_stkmny (scenario_state scenario4_before)) true 1 MARKET_ORDER_SIDE_ASK 1 0
    (scenario_state_spec _ (by decide!)) (by decide)
    (scenario_stkmny_spec _ (by decide!)) (by norm_num) (by decide!) (by norm_num)
  have h0 : (market_put_market_order true (scenario_state scenario4_before).g
      (scenario_stkmny (scenario_state scenario4_before)) 1 MARKET_ORDER_SIDE_ASK 1 0).map
        (fun r => r.1) = some 0 := by decide!
  rw [hr] at h0
  have h1 : r.1 = 0 := Option.some.inj h0
  obtain ⟨o, ho, -, -, -, -, hord, -, -, hfr⟩ := hz h1
  exact ⟨r, hr, h1, o, ho, hord, hfr (by decide!) "STK"⟩

/-- the loop of `execute_market_bid_order` returns when the makers have positive prices and
no negative `left`; every deal has a positive amount of at most the `left` of its maker and
costs at most the `left` of the taker before it, which is never negative, and what the taker
has spent and what it has left add up to what it had -/
theorem execute_market_bid_order_loop_amounts (real : Bool) :
    ∀ (nodes : List order_t) (g : globals) (m : market_t) (taker : order_t),
    (∀ o ∈ nodes, 0 < o.price ∧ 0 ≤ o.left) → 0 ≤ taker.left →
    ∃ r, execute_market_bid_order_loop real nodes g m taker = some r ∧
      (∀ d ∈ r.2.2.2,
        d.maker ∈ nodes ∧ 0 < d.amount ∧ d.amount ≤ d.maker.left ∧
        d.amount * d.maker.price ≤ d.taker.left ∧ 0 ≤ d.taker.left ∧
        d.taker.left ≤ taker.left) ∧
      0 ≤ r.2.2.1.left ∧ r.2.2.1.left ≤ taker.left ∧
      r.2.2.1.deal_money + r.2.2.1.left = taker.deal_money + taker.left := by
  intro nodes
  induction nodes with
  | nil =>
    intro g m taker _ h0
    exact ⟨_, rfl, fun d hd => (by cases hd), h0, le_rfl, rfl⟩
  | cons maker rest ih =>
    intro g m taker hprice h0
    rw [execute_market_bid_order_loop]
    by_cases hz : taker.left = 0
    · rw [if_pos hz]
      exact ⟨_, rfl, fun d hd => (by cases hd), h0, le_rfl, rfl⟩
    rw [if_neg hz]
    obtain ⟨hpp, hml⟩ := hprice maker (List.mem_cons_self _ _)
    have hfit := mpd_rescale_div_mul_le m.stock_prec h0 hpp
    simp only
    rw [market_bid_fuel, market_bid_adjust_fits _ _ _ _ _ (not_lt.mpr hfit)]
    simp only
    obtain ⟨amount, hamount⟩ : ∃ x, x =
        if mpd_rescale (taker.left / maker.price) m.stock_prec > maker.left then maker.left
        else mpd_rescale (taker.left / maker.price) m.stock_prec := ⟨_, rfl⟩
    rw [← hamount]
    by_cases ha0 : amount = 0
    · rw [if_pos ha0]
      exact ⟨_, rfl, fun d hd => (by cases hd), h0, le_rfl, rfl⟩
    rw [if_neg ha0]
    have hr0 : 0 ≤ mpd_rescale (taker.left / maker.price) m.stock_prec :=
      mpd_rescale_nonneg _ (div_nonneg h0 hpp.le)
    have hapos : 0 < amount := by
      apply lt_of_le_of_ne _ (Ne.symm ha0)
      rw [hamount]; split_ifs; exacts [hml, hr0]
    have hale : amount ≤ maker.left := by
      rw [hamount]; split_ifs with h; exacts [le_rfl, not_lt.mp h]
    have hale0 : amount ≤ mpd_rescale (taker.left / maker.price) m.stock_prec := by
      rw [hamount]; split_ifs with h; exacts [h.le, le_rfl]
    have hdeal : amount * maker.price ≤ taker.left :=
      le_trans (mul_le_mul_of_nonneg_right hale0 hpp.le) hfit
    have hl1 : (bid_taker_deal real true g m taker maker amount).2.2.1.left =
        taker.left - maker.price * amount := rfl
    have hd1 : (bid_taker_deal real true g m taker maker amount).2.2.1.deal_money =
        taker.deal_money + maker.price * amount := rfl
    have hpa : 0 < maker.price * amount := mul_pos hpp hapos
    obtain ⟨r, hr, i1, i2, i3, i4⟩ := ih (bid_taker_deal real true g m taker maker amount).1
      (bid_taker_deal real true g m taker maker amount).2.1
      (bid_taker_deal real true g m taker maker amount).2.2.1
      (fun o ho => hprice o (List.mem_cons_of_mem _ ho)) (by rw [hl1]; linarith)
    rw [hr]
    refine ⟨_, rfl, ?_, i2, ?_, ?_⟩
    · intro d hd
      rcases List.mem_cons.mp hd with e | e
      · rw [e]
        exact ⟨List.mem_cons_self _ _, hapos, hale, hdeal, h0, le_rfl⟩
      · obtain ⟨j1, j2, j3, j4, j5, j6⟩ := i1 d e
        refine ⟨List.mem_cons_of_mem _ j1, j2, j3, j4, j5, ?_⟩
        rw [hl1] at j6
        linarith
    · show r.2.2.1.left ≤ taker.left
      rw [hl1] at i3
      linarith
    · show r.2.2.1.deal_money + r.2.2.1.left = taker.deal_money + taker.left
      rw [i4, hl1, hd1]
      ring

/-- C17: `execute_market_bid_order`, run for a taker with `left` not negative against asks
with positive prices and no negative `left`, returns; every deal has an amount greater than
zero and at most the `left` of its maker, and the amount times the price of the maker is at
most the `left` the taker had just before the deal, which is not negative; the `left` of the
taker is not negative at the end, and when `deal_money + left = amount` held for the taker
before, it holds afterwards, so that `deal_money` is at most `amount`. In scenario 3 (market
`STKMNY` with `stock_prec` 4 and `money_prec` 2, asks 1 @ 7.03 and 2 @ 7.05 of user 1, market
bid of 10 `MNY` by user 2) the engine writes the finished ask and then the market order to
`order_history`, the latter with `deal_stock` 1.4212, `deal_money` 9.99946 and `left`
0.00054, and the second ask rests with `left` 1.5788. -/
theorem c17_market_bid_amounts :
    (∀ (real : Bool) (g : globals) (m : market_t) (taker : order_t),
      (∀ o ∈ m.asks, 0 < o.price ∧ 0 ≤ o.left) → 0 ≤ taker.left →
      ∃ r, execute_market_bid_order real g m taker = some r ∧
        (∀ d ∈ r.2.2.2, d.maker ∈ m.asks ∧ 0 < d.amount ∧ d.amount ≤ d.maker.left ∧
          d.amount * d.maker.price ≤ d.taker.left ∧ 0 ≤ d.taker.left) ∧
        0 ≤ r.2.2.1.left ∧
        (taker.deal_money + taker.left = taker.amount →
          r.2.2.1.deal_money + r.2.2.1.left = r.2.2.1.amount ∧
          r.2.2.1.deal_money ≤ r.2.2.1.amount)) ∧
    (engine_run (L := scenario_limits) scenario_assets scenario3_markets scenario3).map
      (fun e => log_order_rows e.g.log) =
      some [⟨MARKET_ORDER_TYPE_LIMIT, 1, 1, 703 / 100, 0⟩,
        ⟨MARKET_ORDER_TYPE_MARKET, 2, 14212 / 10000, 999946 / 100000, 54 / 100000⟩] ∧
    (engine_run (L := scenario_limits) scenario_assets scenario3_markets scenario3).map
      (fun e => e.dict_market.map (fun m => m.asks.map (fun o => (o.price, o.left)))) =
      some [[(705 / 100, 15788 / 10000)]] := by
  refine ⟨?_, by decide!, by decide!⟩
  intro real g m taker hbook h0
  obtain ⟨r, hr, i1, i2, -, i4⟩ :=
    execute_market_bid_order_loop_amounts real m.asks g m taker hbook h0
  obtain ⟨r2, hr2, -, -, hh⟩ :=
    execute_market_bid_order_loop_deals real m.asks g m taker (fun o ho => (hbook o ho).1) h0
  rw [hr] at hr2
  cases hr2
  refine ⟨r, hr, fun d hd => ?_, i2, fun hsum => ?_⟩
  · obtain ⟨j1, j2, j3, j4, j5, -⟩ := i1 d hd
    exact ⟨j1, j2, j3, j4, j5⟩
  · have ha : r.2.2.1.amount = taker.amount := hh.2.2.2.2.2.1
    rw [ha, i4, hsum]
    refine ⟨rfl, ?_⟩
    have : r.2.2.1.deal_money + r.2.2.1.left = taker.amount := by rw [i4, hsum]
    linarith

/-- Witness for C17: a market bid of 10 `MNY` against the asks 1 @ 7.03 and 2 @ 7.05. -/
theorem c17_market_bid_amounts_witness :
    ∃ r, execute_market_bid_order true
        (scenario_globals [(⟨2, BALANCE_TYPE_AVAILABLE, "MNY"⟩, 1000),
          (⟨1, BALANCE_TYPE_FREEZE, "STK"⟩, 3)] 3 0)
        (scenario_market (1 / 10000)
          [{ new_limit_order 1 1 MARKET_ORDER_SIDE_ASK 1 (703 / 100) 0 0 with freeze := 1 },
            { new_limit_order 2 1 MARKET_ORDER_SIDE_ASK 2 (705 / 100) 0 0 with freeze := 2 }] [])
        (new_market_order 3 2 MARKET_ORDER_SIDE_BID 10 0) = some r ∧
      0 ≤ r.2.2.1.left ∧ r.2.2.1.deal_money ≤ r.2.2.1.amount := by
  obtain ⟨r, hr, -, h1, h2⟩ := c17_market_bid_amounts.1 true
    (scenario_globals [(⟨2, BALANCE_TYPE_AVAILABLE, "MNY"⟩, 1000),
      (⟨1, BALANCE_TYPE_FREEZE, "STK"⟩, 3)] 3 0)
    (scenario_market (1 / 10000)
      [{ new_limit_order 1 1 MARKET_ORDER_SIDE_ASK 1 (703 / 100) 0 0 with freeze := 1 },
        { new_limit_order 2 1 MARKET_ORDER_SIDE_ASK 2 (705 / 100) 0 0 with freeze := 2 }] [])
    (new_market_order 3 2 MARKET_ORDER_SIDE_BID 10 0) (by decide!) (by decide!)
  exact ⟨r, hr, h1, (h2 (by decide!)).2⟩

/-! ## Cancelling a resting order (C18) -/

/-- in a book with distinct ids, `skiplist_delete` of an order of the book removes that
order -/
theorem skiplist_delete_eq_erase {x : order_t} {l : List order_t}
    (hn : (l.map (fun o => o.id)).Nodup) (hx : x ∈ l) :
    skiplist_delete order_match_compare x l = l.erase x := by
  unfold skiplist_delete
  induction l with
  | nil => cases hx
  | cons y ys ih =>
    by_cases h : y.id = x.id
    · have hyx : y = x := by
        rcases List.mem_cons.mp hx with e | e
        · exact e.symm
        · rw [List.map_cons, List.nodup_cons] at hn
          exact absurd (List.mem_map.mpr ⟨x, e, h.symm⟩) hn.1
      rw [List.eraseP_cons_of_pos (by simp [order_match_compare_eq_zero, h]), hyx,
        List.erase_cons_head]
    · have hne : y ≠ x := fun e => h (by rw [e])
      have hx2 : x ∈ ys := by
        rcases List.mem_cons.mp hx with e | e
        · exact absurd e.symm hne
        · exact e
      rw [List.map_cons, List.nodup_cons] at hn
      rw [List.eraseP_cons_of_neg (by simp [order_match_compare_eq_zero, h]),
        List.erase_cons_tail (by simpa using hne), ih hn.2 hx2]

/-- a successful `balance_unfreeze` writes the frozen and the available entry of the user in
the asset and no other entry -/
theorem balance_unfreeze_frame {A : dict_asset_t} {d : dict_balance_t} {u : ℕ} {a : String}
    {v : ℚ} {r : ℚ × dict_balance_t} (h : balance_unfreeze A d u a v = some r)
    {k : balance_key} (h1 : k ≠ ⟨u, BALANCE_TYPE_FREEZE, a⟩)
    (h2 : k ≠ ⟨u, BALANCE_TYPE_AVAILABLE, a⟩) : r.2 k = d k := by
  cases ha : A a with
  | none => unfold balance_unfreeze at h; rw [ha] at h; cases h
  | some as =>
    by_cases hv : v < 0
    · unfold balance_unfreeze at h; simp [ha, hv] at h
    cases hb : d ⟨u, BALANCE_TYPE_FREEZE, a⟩ with
    | none => unfold balance_unfreeze balance_get at h; simp [ha, hv, hb] at h
    | some b =>
      by_cases hlt : b < v
      · unfold balance_unfreeze balance_get at h; simp [ha, hv, hb, hlt] at h
      · obtain ⟨x, hx⟩ := balance_unfreeze_some d u ha (not_lt.mp hv) hb (not_lt.mp hlt)
        rw [hx] at h
        cases h
        show ledger_sub A (ledger_add A d u BALANCE_TYPE_AVAILABLE a v) u BALANCE_TYPE_FREEZE a v k
          = d k
        rw [ledger_sub_frame _ _ _ _ _ _ h1, ledger_add_frame _ _ _ _ _ _ h2]

/-- `order_finish` writes the frozen and the available balance of the owner in the asset the
order locks, and no other entry of the ledger; it leaves both counters and the cache of
applied updates as they are -/
theorem order_finish_frame (real : Bool) (g : globals) (m : market_t) (order : order_t) :
    (∀ k : balance_key,
      k ≠ ⟨order.user_id, BALANCE_TYPE_FREEZE,
        if order.side = MARKET_ORDER_SIDE_ASK then m.stock else m.money⟩ →
      k ≠ ⟨order.user_id, BALANCE_TYPE_AVAILABLE,
        if order.side = MARKET_ORDER_SIDE_ASK then m.stock else m.money⟩ →
      (order_finish real g m order).2.1.dict_balance k = g.dict_balance k) ∧
    (order_finish real g m order).2.1.order_id_start = g.order_id_start ∧
    (order_finish real g m order).2.1.deals_id_start = g.deals_id_start ∧
    (order_finish real g m order).2.1.dict_update = g.dict_update := by
  have htail : ∀ (g2 : globals) (m2 : market_t),
      (order_finish_tail real g2 m2 order).2.1.dict_balance = g2.dict_balance ∧
      (order_finish_tail real g2 m2 order).2.1.order_id_start = g2.order_id_start ∧
      (order_finish_tail real g2 m2 order).2.1.deals_id_start = g2.deals_id_start ∧
      (order_finish_tail real g2 m2 order).2.1.dict_update = g2.dict_update := by
    intro g2 m2
    unfold order_finish_tail
    simp only
    split_ifs <;> simp
  unfold order_finish
  by_cases hs : order.side = MARKET_ORDER_SIDE_ASK
  · simp only [if_pos hs]
    by_cases hf : order.freeze > 0
    · simp only [if_pos hf]
      cases hu : balance_unfreeze g.dict_asset g.dict_balance order.user_id m.stock
          order.freeze with
      | none => exact ⟨fun _ _ _ => rfl, rfl, rfl, rfl⟩
      | some r =>
        obtain ⟨t1, t2, t3, t4⟩ := htail { g with dict_balance := r.2 }
          { m with asks := skiplist_delete order_match_compare order m.asks }
        refine ⟨fun k h1 h2 => ?_, t2, t3, t4⟩
        show (order_finish_tail real { g with dict_balance := r.2 }
          { m with asks := skiplist_delete order_match_compare order m.asks }
          order).2.1.dict_balance k = g.dict_balance k
        rw [t1]
        exact balance_unfreeze_frame hu h1 h2
    · simp only [if_neg hf]
      obtain ⟨t1, t2, t3, t4⟩ := htail g
        { m with asks := skiplist_delete order_match_compare order m.asks }
      exact ⟨fun k _ _ => by rw [t1], t2, t3, t4⟩
  · simp only [if_neg hs]
    by_cases hf : order.freeze > 0
    · simp only [if_pos hf]
      cases hu : balance_unfreeze g.dict_asset g.dict_balance order.user_id m.money
          order.freeze with
      | none => exact ⟨fun _ _ _ => rfl, rfl, rfl, rfl⟩
      | some r =>
        obtain ⟨t1, t2, t3, t4⟩ := htail { g with dict_balance := r.2 }
          { m with bids := skiplist_delete order_match_compare order m.bids }
        refine ⟨fun k h1 h2 => ?_, t2, t3, t4⟩
        show (order_finish_tail real { g with dict_balance := r.2 }
          { m with bids := skiplist_delete order_match_compare order m.bids }
          order).2.1.dict_balance k = g.dict_balance k
        rw [t1]
        exact balance_unfreeze_frame hu h1 h2
    · simp only [if_neg hf]
      obtain ⟨t1, t2, t3, t4⟩ := htail g
        { m with bids := skiplist_delete order_match_compare order m.bids }
      exact ⟨fun k _ _ => by rw [t1], t2, t3, t4⟩

/-- when `order_finish` returns 0 it has dropped the id from the `orders` index and from the
order list of the owner -/
theorem order_finish_indexes (real : Bool) (g : globals) (m : market_t) (order : order_t)
    (h : (order_finish real g m order).1 = 0) :
    (order_finish real g m order).2.2.orders = Function.update m.orders order.id false ∧
    (order_finish real g m order).2.2.users =
      (match m.users order.user_id with
        | some order_list => Function.update m.users order.user_id
            (some (order_list.erase order.id))
        | none => m.users) := by
  have htail : ∀ (g2 : globals) (m2 : market_t), m2.orders = m.orders → m2.users = m.users →
      (order_finish_tail real g2 m2 order).2.2.orders =
        Function.update m.orders order.id false ∧
      (order_finish_tail real g2 m2 order).2.2.users =
        (match m.users order.user_id with
          | some order_list => Function.update m.users order.user_id
              (some (order_list.erase order.id))
          | none => m.users) := by
    intro g2 m2 e1 e2
    rw [order_finish_tail_market]
    refine ⟨?_, ?_⟩
    · show Function.update m2.orders order.id false = _
      rw [e1]
    · show (match m2.users order.user_id with
        | some order_list => Function.update m2.users order.user_id
            (some (skiplist_delete order_id_compare order.id order_list))
        | none => m2.users) = _
      rw [e2]
      cases m.users order.user_id with
      | none => rfl
      | some l => simp only [skiplist_delete_id]
  unfold order_finish at h ⊢
  by_cases hs : order.side = MARKET_ORDER_SIDE_ASK
  · simp only [if_pos hs] at h ⊢
    by_cases hf : order.freeze > 0
    · simp only [if_pos hf] at h ⊢
      cases hu : balance_unfreeze g.dict_asset g.dict_balance order.user_id m.stock
          order.freeze with
      | none => rw [hu] at h; simp at h
      | some r => exact htail _ _ rfl rfl
    · simp only [if_neg hf]
      exact htail _ _ rfl rfl
  · simp only [if_neg hs] at h ⊢
    by_cases hf : order.freeze > 0
    · simp only [if_pos hf] at h ⊢
      cases hu : balance_unfreeze g.dict_asset g.dict_balance order.user_id m.money
          order.freeze with
      | none => rw [hu] at h; simp at h
      | some r => exact htail _ _ rfl rfl
    · simp only [if_neg hf]
      exact htail _ _ rfl rfl

/-- C18: in every engine state reached from the empty state by fewer than 2^64 requests,
`market_cancel_order` of an order resting in a book of a market returns 0; each book is the
book before without the order (the other book is as it was, every other order is unchanged and
keeps its place); the `orders` index forgets the id and the order list of the owner is the list
before without the id; the frozen balance of the owner in the asset the order locks (the stock
for an ask, the money for a bid) goes down by `freeze` and the available balance goes up by
`freeze`; no other entry of the ledger changes; `order_id_start`, `deals_id_start` and the
configuration of the market are as before. In scenario 4 the bid 2 @ 50 of user 2 freezes
100 `MNY` of the 1000; after the cancel the frozen entry is gone, 1000 `MNY` are available,
the books are empty and no row was written to `order_history`. -/
theorem c18_cancel_order_frame [L : name_limits] :
    (∀ (assets : List (String × asset_type)) (markets : List market_conf)
      (cmds : List command) (e : engine) (name : String) (m : market_t) (real : Bool)
      (order : order_t),
      engine_run assets markets cmds = some e → cmds.length < 2 ^ 64 →
      get_market e name = some m → order ∈ m.asks ++ m.bids →
      (market_cancel_order real e.g m order).1 = 0 ∧
      (market_cancel_order real e.g m order).2.2.asks = m.asks.erase order ∧
      (market_cancel_order real e.g m order).2.2.bids = m.bids.erase order ∧
      order ∉ (market_cancel_order real e.g m order).2.2.asks ++
        (market_cancel_order real e.g m order).2.2.bids ∧
      (market_cancel_order real e.g m order).2.2.orders =
        Function.update m.orders order.id false ∧
      (∃ l, m.users order.user_id = some l ∧ order.id ∈ l ∧ order.id ∉ l.erase order.id ∧
        (market_cancel_order real e.g m order).2.2.users =
          Function.update m.users order.user_id (some (l.erase order.id))) ∧
      bal (market_cancel_order real e.g m order).2.1.dict_balance order.user_id
          BALANCE_TYPE_FREEZE (if order.side = MARKET_ORDER_SIDE_ASK then m.stock else m.money) =
        bal e.g.dict_balance order.user_id BALANCE_TYPE_FREEZE
          (if order.side = MARKET_ORDER_SIDE_ASK then m.stock else m.money) - order.freeze ∧
      bal (market_cancel_order real e.g m order).2.1.dict_balance order.user_id
          BALANCE_TYPE_AVAILABLE
          (if order.side = MARKET_ORDER_SIDE_ASK then m.stock else m.money) =
        bal e.g.dict_balance order.user_id BALANCE_TYPE_AVAILABLE
          (if order.side = MARKET_ORDER_SIDE_ASK then m.stock else m.money) + order.freeze ∧
      (∀ k : balance_key,
        k ≠ ⟨order.user_id, BALANCE_TYPE_FREEZE,
          if order.side = MARKET_ORDER_SIDE_ASK then m.stock else m.money⟩ →
        k ≠ ⟨order.user_id, BALANCE_TYPE_AVAILABLE,
          if order.side = MARKET_ORDER_SIDE_ASK then m.stock else m.money⟩ →
        (market_cancel_order real e.g m order).2.1.dict_balance k = e.g.dict_balance k) ∧
      (market_cancel_order real e.g m order).2.1.order_id_start = e.g.order_id_start ∧
      (market_cancel_order real e.g m order).2.1.deals_id_start = e.g.deals_id_start ∧
      market_static (market_cancel_order real e.g m order).2.2 = market_static m) ∧
    ((engine_run (L := scenario_limits) scenario_assets scenario_markets scenario4_before).map
      (fun e => [balance_get e.g.dict_balance 2 BALANCE_TYPE_FREEZE "MNY",
        balance_get e.g.dict_balance 2 BALANCE_TYPE_AVAILABLE "MNY"]) =
      some [some 100, some 900]) ∧
    ((engine_run (L := scenario_limits) scenario_assets scenario_markets scenario4).map
      (fun e => [balance_get e.g.dict_balance 2 BALANCE_TYPE_FREEZE "MNY",
        balance_get e.g.dict_balance 2 BALANCE_TYPE_AVAILABLE "MNY"]) =
      some [none, some 1000]) ∧
    ((engine_run (L := scenario_limits) scenario_assets scenario_markets scenario4).map
      (fun e => (e.dict_market.map (fun m => m.asks ++ m.bids), log_order_rows e.g.log)) =
      some ([[]], [])) := by
  refine ⟨?_, by decide!, by decide!, by decide!⟩
  intro assets markets cmds e name m real order hrun hl hm hmem
  obtain ⟨hE, -⟩ := engine_run_some hrun hl
  have hI := (hE.match_inv hm).log_event real [event.order_message ORDER_EVENT_FINISH order m.name]
  have hM := hI.market_ok
  obtain ⟨hna, hnb, hcross⟩ := hM.book_nodup
  obtain ⟨c1, c2, c3, c4, -, -, c7⟩ := order_finish_resting real hI hmem
  obtain ⟨b1, b2⟩ := order_finish_books real
    (emit real [event.order_message ORDER_EVENT_FINISH order m.name] e.g) m order
  obtain ⟨f1, f2, f3, -⟩ := order_finish_frame real
    (emit real [event.order_message ORDER_EVENT_FINISH order m.name] e.g) m order
  obtain ⟨i1, i2⟩ := order_finish_indexes real
    (emit real [event.order_message ORDER_EVENT_FINISH order m.name] e.g) m order c1
  have hasks : (market_cancel_order real e.g m order).2.2.asks = m.asks.erase order := by
    show (order_finish real _ m order).2.2.asks = _
    rw [b1]
    rcases List.mem_append.mp hmem with hin | hin
    · rw [if_pos (hM.asks_ok order hin).side_eq, skiplist_delete_eq_erase hna hin]
    · have hs : order.side ≠ MARKET_ORDER_SIDE_ASK := by
        rw [(hM.bids_ok order hin).side_eq]; decide
      rw [if_neg hs, List.erase_of_not_mem (fun h => hcross order h order hin rfl)]
  have hbids : (market_cancel_order real e.g m order).2.2.bids = m.bids.erase order := by
    show (order_finish real _ m order).2.2.bids = _
    rw [b2]
    rcases List.mem_append.mp hmem with hin | hin
    · rw [if_pos (hM.asks_ok order hin).side_eq,
        List.erase_of_not_mem (fun h => hcross order hin order h rfl)]
    · have hs : order.side ≠ MARKET_ORDER_SIDE_ASK := by
        rw [(hM.bids_ok order hin).side_eq]; decide
      rw [if_neg hs, skiplist_delete_eq_erase hnb hin]
  have hnot : order ∉ (market_cancel_order real e.g m order).2.2.asks ++
      (market_cancel_order real e.g m order).2.2.bids := by
    rw [hasks, hbids]
    intro h
    rcases List.mem_append.mp h with h | h
    · exact (List.Nodup.of_map _ hna).not_mem_erase h
    · exact (List.Nodup.of_map _ hnb).not_mem_erase h
  have husers : ∃ l, m.users order.user_id = some l ∧ order.id ∈ l ∧
      order.id ∉ l.erase order.id ∧
      (market_cancel_order real e.g m order).2.2.users =
        Function.update m.users order.user_id (some (l.erase order.id)) := by
    have hin : order.id ∈ (m.users order.user_id).getD [] :=
      (hM.users_iff order.user_id order.id).mpr ⟨order, hmem, rfl, rfl⟩
    have hnd := hM.users_nodup order.user_id
    cases hu : m.users order.user_id with
    | none => rw [hu] at hin; cases hin
    | some l =>
      rw [hu] at hin hnd
      refine ⟨l, rfl, hin, hnd.not_mem_erase, ?_⟩
      show (order_finish real _ m order).2.2.users = _
      rw [i2, hu]
  have hbal := fun t => c7 order.user_id t
    (if order.side = MARKET_ORDER_SIDE_ASK then m.stock else m.money)
  have hne : BALANCE_TYPE_FREEZE ≠ BALANCE_TYPE_AVAILABLE := by decide
  refine ⟨rfl, hasks, hbids, hnot, i1, husers, ?_, ?_, ?_, ?_, ?_, c3⟩
  · show bal (order_finish real _ m order).2.1.dict_balance _ _ _ = _
    rw [hbal BALANCE_TYPE_FREEZE, emit_dict_balance]
    simp only [and_self, if_true, if_neg hne]
    ring
  · show bal (order_finish real _ m order).2.1.dict_balance _ _ _ = _
    rw [hbal BALANCE_TYPE_AVAILABLE, emit_dict_balance]
    simp only [and_self, if_true]
  · intro k h1 h2
    show (order_finish real _ m order).2.1.dict_balance k = _
    rw [f1 k h1 h2, emit_dict_balance]
  · show (order_finish real _ m order).2.1.order_id_start = _
    rw [f2, emit_order_id_start]
  · show (order_finish real _ m order).2.1.deals_id_start = _
    rw [f3, emit_deals_id_start]

/-- Witness for C18: the cancel of the bid 2 @ 50 of user 2 in scenario 4. -/
theorem c18_cancel_order_frame_witness :
    (market_cancel_order true (scenario_state scenario4_before).g
      (scenario_stkmny (scenario_state scenario4_before))
      { new_limit_order 1 2 MARKET_ORDER_SIDE_BID 2 50 0 0 with freeze := 100 }).1 = 0 ∧
    (market_cancel_order true (scenario_state scenario4_before).g
      (scenario_stkmny (scenario_state scenario4_before))
      { new_limit_order 1 2 MARKET_ORDER_SIDE_BID 2 50 0 0 with freeze := 100 }).2.2.bids =
      (scenario_stkmny (scenario_state scenario4_before)).bids.erase
        { new_limit_order 1 2 MARKET_ORDER_SIDE_BID 2 50 0 0 with freeze := 100 } :=
  have h := (c18_cancel_order_frame (L := scenario_limits)).1 scenario_assets scenario_markets
    scenario4_before
    (scenario_state scenario4_before) "STKMNY" (scenario_stkmny (scenario_state scenario4_before))
    true { new_limit_order 1 2 MARKET_ORDER_SIDE_BID 2 50 0 0 with freeze := 100 }
    (scenario_state_spec _ (by decide!)) (by decide) (scenario_stkmny_spec _ (by decide!))
    (by decide!)
  ⟨h.1, h.2.2.1⟩

/-! ## The cache of applied balance updates (C19, C20) -/

/-- the sign of `order_match_compare` on two orders of the same type with different ids:
negative exactly when the first goes first by price (ascending for asks, descending for
the other side) and then by id -/
theorem order_match_compare_neg_iff {o1 o2 : order_t} (ht : o1.type = o2.type)
    (hid : o1.id ≠ o2.id) :
    order_match_compare o1 o2 < 0 ↔
      (if o1.side = MARKET_ORDER_SIDE_ASK then
        o1.price < o2.price ∨ (o1.price = o2.price ∧ o1.id < o2.id)
      else o2.price < o1.price ∨ (o1.price = o2.price ∧ o1.id < o2.id)) := by
  unfold order_match_compare
  rw [if_neg hid, if_neg (not_not.mpr ht)]
  have key : ∀ (p q : ℚ),
      ((if (if p < q then (-1 : ℤ) else if p = q then 0 else 1) ≠ 0 then
          (if p < q then (-1 : ℤ) else if p = q then 0 else 1)
        else if o1.id > o2.id then 1 else -1) < 0 ↔ p < q ∨ (p = q ∧ o1.id < o2.id)) := by
    intro p q
    rcases lt_trichotomy p q with h | h | h
    · rw [if_pos h, if_pos (show (-1 : ℤ) ≠ 0 by decide)]
      exact ⟨fun _ => Or.inl h, fun _ => by decide⟩
    · have h1 : ¬ p < q := by rw [h]; exact lt_irrefl _
      rw [if_neg h1, if_pos h]
      by_cases hgt : o1.id > o2.id
      · rw [if_neg (show ¬ (0 : ℤ) ≠ 0 by decide), if_pos hgt]
        constructor
        · intro hh; exact absurd hh (by decide)
        · rintro (hh | ⟨_, hh⟩)
          · exact absurd hh h1
          · omega
      · rw [if_neg (show ¬ (0 : ℤ) ≠ 0 by decide), if_neg hgt]
        exact ⟨fun _ => Or.inr ⟨h, by omega⟩, fun _ => by decide⟩
    · have h1 : ¬ p < q := not_lt.mpr h.le
      have h2 : ¬ p = q := h.ne.symm
      rw [if_neg h1, if_neg h2, if_pos (show (1 : ℤ) ≠ 0 by decide)]
      constructor
      · intro hh; exact absurd hh (by decide)
      · rintro (hh | ⟨hh, _⟩)
        · exact absurd hh h1
        · exact absurd hh h2
  by_cases hs : o1.side = MARKET_ORDER_SIDE_ASK
  · simp only [if_pos hs]
    exact key o1.price o2.price
  · simp only [if_neg hs]
    rw [key o2.price o1.price]
    constructor
    · rintro (h | ⟨h1, h2⟩)
      · exact Or.inl h
      · exact Or.inr ⟨h1.symm, h2⟩
    · rintro (h | ⟨h1, h2⟩)
      · exact Or.inl h
      · exact Or.inr ⟨h1.symm, h2⟩

/-- on two orders of the same type and side with different ids `order_match_compare` is
positive exactly when the comparison in the other order is negative -/
theorem order_match_compare_pos_iff {o1 o2 : order_t} (ht : o1.type = o2.type)
    (hs : o1.side = o2.side) (hid : o1.id ≠ o2.id) :
    0 < order_match_compare o1 o2 ↔ order_match_compare o2 o1 < 0 := by
  rw [order_match_compare_neg_iff ht.symm (Ne.symm hid)]
  have hnn : ¬ order_match_compare o1 o2 < 0 ↔ 0 < order_match_compare o1 o2 := by
    have h0 : order_match_compare o1 o2 ≠ 0 := fun h => hid (order_match_compare_eq_zero.mp h)
    constructor
    · intro h; exact lt_of_le_of_ne (not_lt.mp h) (Ne.symm h0)
    · intro h; exact not_lt.mpr h.le
  rw [← hnn, order_match_compare_neg_iff ht hid, ← hs]
  by_cases hs1 : o1.side = MARKET_ORDER_SIDE_ASK
  · simp only [if_pos hs1]
    constructor
    · intro h
      rw [not_or, not_and_or] at h
      rcases lt_or_eq_of_le (not_lt.mp h.1) with h1 | h1
      · exact Or.inl h1
      · refine Or.inr ⟨h1, ?_⟩
        rcases h.2 with h2 | h2
        · exact absurd h1.symm h2
        · omega
    · rintro (h | ⟨h1, h2⟩)
      · rw [not_or, not_and_or]
        exact ⟨not_lt.mpr h.le, Or.inl h.ne.symm⟩
      · rw [not_or, not_and_or]
        exact ⟨not_lt.mpr h1.le, Or.inr (by omega)⟩
  · simp only [if_neg hs1]
    constructor
    · intro h
      rw [not_or, not_and_or] at h
      rcases lt_or_eq_of_le (not_lt.mp h.1) with h1 | h1
      · exact Or.inl h1
      · refine Or.inr ⟨h1.symm, ?_⟩
        rcases h.2 with h2 | h2
        · exact absurd h1 h2
        · omega
    · rintro (h | ⟨h1, h2⟩)
      · rw [not_or, not_and_or]
        exact ⟨not_lt.mpr h.le, Or.inl h.ne⟩
      · rw [not_or, not_and_or]
        exact ⟨not_lt.mpr h1.symm.le, Or.inr (by omega)⟩

theorem order_match_compare_trans {o1 o2 o3 : order_t} (h12 : o1.type = o2.type)
    (h23 : o2.type = o3.type) (s12 : o1.side = o2.side) (hid : o1.id ≠ o3.id)
    (a : order_match_compare o1 o2 < 0) (b : order_match_compare o2 o3 < 0) :
    order_match_compare o1 o3 < 0 := by
  have i12 : o1.id ≠ o2.id := fun e => by
    rw [order_match_compare_eq_zero.mpr e] at a; exact absurd a (lt_irrefl _)
  have i23 : o2.id ≠ o3.id := fun e => by
    rw [order_match_compare_eq_zero.mpr e] at b; exact absurd b (lt_irrefl _)
  rw [order_match_compare_neg_iff h12 i12] at a
  rw [order_match_compare_neg_iff h23 i23, ← s12] at b
  rw [order_match_compare_neg_iff (h12.trans h23) hid]
  by_cases hs : o1.side = MARKET_ORDER_SIDE_ASK
  · simp only [if_pos hs] at a b ⊢
    rcases a with a | ⟨a1, a2⟩ <;> rcases b with b | ⟨b1, b2⟩
    · exact Or.inl (a.trans b)
    · exact Or.inl (b1 ▸ a)
    · exact Or.inl (a1 ▸ b)
    · exact Or.inr ⟨a1.trans b1, a2.trans b2⟩
  · simp only [if_neg hs] at a b ⊢
    rcases a with a | ⟨a1, a2⟩ <;> rcases b with b | ⟨b1, b2⟩
    · exact Or.inl (b.trans a)
    · exact Or.inl (b1 ▸ a)
    · exact Or.inl (a1 ▸ b)
    · exact Or.inr ⟨a1.trans b1, a2.trans b2⟩

/-- C26: for two orders of the same type (two limit orders) and the same side,
`order_match_compare` is 0 exactly when the ids are equal; when the ids differ it is negative
exactly when the first order precedes the second by price (ascending for asks, descending for
bids) and then by ascending id, and it is positive exactly when the comparison of the two
in the other order is negative; and for a third order of that type and side whose id differs
from the id of the first, the relation of comparing below is transitive. -/
theorem c26_order_match_compare (o1 o2 o3 : order_t) (ht : o1.type = o2.type)
    (hs : o1.side = o2.side) :
    (order_match_compare o1 o2 = 0 ↔ o1.id = o2.id) ∧
    (o1.id ≠ o2.id →
      (order_match_compare o1 o2 < 0 ↔
        (if o1.side = MARKET_ORDER_SIDE_ASK then
          o1.price < o2.price ∨ (o1.price = o2.price ∧ o1.id < o2.id)
        else o2.price < o1.price ∨ (o1.price = o2.price ∧ o1.id < o2.id))) ∧
      (0 < order_match_compare o1 o2 ↔ order_match_compare o2 o1 < 0) ∧
      (order_match_compare o1 o2 < 0 ∨ order_match_compare o2 o1 < 0)) ∧
    (o2.type = o3.type → o2.side = o3.side → o1.id ≠ o3.id →
      order_match_compare o1 o2 < 0 → order_match_compare o2 o3 < 0 →
      order_match_compare o1 o3 < 0) := by
  refine ⟨order_match_compare_eq_zero, fun hid => ⟨order_match_compare_neg_iff ht hid,
    order_match_compare_pos_iff ht hs hid, ?_⟩,
    fun h23 _ hid a b => order_match_compare_trans ht h23 hs hid a b⟩
  have h0 : order_match_compare o1 o2 ≠ 0 := fun h => hid (order_match_compare_eq_zero.mp h)
  rcases lt_or_gt_of_ne h0 with h | h
  · exact Or.inl h
  · exact Or.inr ((order_match_compare_pos_iff ht hs hid).mp h)

/-- Witness for C26: the asks 1 @ 7.03 with id 1 and 2 @ 7.05 with id 2. -/
theorem c26_order_match_compare_witness :
    order_match_compare (new_limit_order 1 1 MARKET_ORDER_SIDE_ASK 1 (703 / 100) 0 0)
      (new_limit_order 2 1 MARKET_ORDER_SIDE_ASK 2 (705 / 100) 0 0) ≠ 0 :=
  fun h => absurd ((c26_order_match_compare
    (new_limit_order 1 1 MARKET_ORDER_SIDE_ASK 1 (703 / 100) 0 0)
    (new_limit_order 2 1 MARKET_ORDER_SIDE_ASK 2 (705 / 100) 0 0)
    (new_limit_order 2 1 MARKET_ORDER_SIDE_ASK 2 (705 / 100) 0 0) rfl rfl).1.mp h) (by decide)

/-! ## Termination of the market bid (C27) -/

/-- the inner loop of `execute_market_bid_order` ends within the bound of `market_bid_fuel`:
it lowers `amount` by `k` units until `amount * price` fits into `left`, and the value before
the last step did not fit -/
theorem market_bid_adjust_ends {price left : ℚ} (stock_prec : ℕ) (hp : 0 < price) :
    ∀ (fuel : ℕ) (amount : ℚ),
    (amount * price - left) / (price / 10 ^ stock_prec) ≤ fuel →
    ∃ k : ℕ, k ≤ fuel ∧
      market_bid_adjust price left stock_prec (fuel + 1) amount =
        some (amount - k / 10 ^ stock_prec) ∧
      (amount - k / 10 ^ stock_prec) * price ≤ left ∧
      (0 < k → left < (amount - (k - 1 : ℚ) / 10 ^ stock_prec) * price) := by
  have h10 := pow10_pos stock_prec
  have hq : 0 < price / 10 ^ stock_prec := div_pos hp h10
  intro fuel
  induction fuel with
  | zero =>
    intro amount hb
    have hfit : amount * price ≤ left := by
      rw [div_le_iff₀ hq] at hb
      simp only [Nat.cast_zero, zero_mul] at hb
      linarith
    refine ⟨0, le_rfl, ?_, ?_, fun h => absurd h (lt_irrefl _)⟩
    · rw [market_bid_adjust, if_neg (not_lt.mpr hfit)]
      simp
    · simpa using hfit
  | succ n ih =>
    intro amount hb
    by_cases hgt : amount * price > left
    · have hb2 : ((amount - 1 / 10 ^ stock_prec) * price - left) / (price / 10 ^ stock_prec)
          ≤ n := by
        rw [div_le_iff₀ hq] at hb ⊢
        push_cast at hb
        have : (amount - 1 / 10 ^ stock_prec) * price =
            amount * price - price / 10 ^ stock_prec := by ring
        rw [this]
        linarith
      obtain ⟨k, hk, e1, e2, e3⟩ := ih (amount - 1 / 10 ^ stock_prec) hb2
      have hsub : amount - 1 / 10 ^ stock_prec - (k : ℚ) / 10 ^ stock_prec =
          amount - ((k + 1 : ℕ) : ℚ) / 10 ^ stock_prec := by
        push_cast; ring
      refine ⟨k + 1, Nat.succ_le_succ hk, ?_, ?_, fun _ => ?_⟩
      · rw [market_bid_adjust, if_pos hgt, e1, hsub]
      · rw [← hsub]; exact e2
      · by_cases hk0 : 0 < k
        · have := e3 hk0
          have heq : amount - 1 / 10 ^ stock_prec - ((k : ℚ) - 1) / 10 ^ stock_prec =
              amount - (((k + 1 : ℕ) : ℚ) - 1) / 10 ^ stock_prec := by
            push_cast; ring
          rw [← heq]; exact this
        · have hk0' : k = 0 := by omega
          subst hk0'
          simpa using hgt
    · refine ⟨0, Nat.zero_le _, ?_, ?_, fun h => absurd h (lt_irrefl _)⟩
      · rw [market_bid_adjust, if_neg hgt]
        simp
      · simpa using not_lt.mp hgt

/-- from an amount on the grid of `stock_prec` that is not negative, the inner loop of
`execute_market_bid_order` ends, within the bound of `market_bid_fuel`, at an amount on the
grid that is not negative, not above the start and fits into `left` -/
theorem market_bid_adjust_spec {price left : ℚ} (stock_prec : ℕ) {amount : ℚ} (hp : 0 < price)
    (hl : 0 ≤ left) (ha : 0 ≤ amount) (hg : on_grid amount stock_prec) :
    ∃ a, market_bid_adjust price left stock_prec
        (market_bid_fuel price left stock_prec amount) amount = some a ∧
      0 ≤ a ∧ a ≤ amount ∧ a * price ≤ left ∧ on_grid a stock_prec := by
  have h10 := pow10_pos stock_prec
  obtain ⟨k, -, e1, e2, e3⟩ := market_bid_adjust_ends stock_prec hp
    ⌈(amount * price - left) / (price / 10 ^ stock_prec)⌉₊ amount (Nat.le_ceil _)
  obtain ⟨j, hj⟩ := (on_grid_iff amount stock_prec).mp hg
  have hgk : on_grid (amount - (k : ℚ) / 10 ^ stock_prec) stock_prec :=
    on_grid_sub hg (by
      have := on_grid_of_int (k : ℤ) stock_prec
      simpa using this)
  refine ⟨_, e1, ?_, ?_, e2, hgk⟩
  · by_cases hk0 : 0 < k
    · have h1 := e3 hk0
      have h2 : 0 < (amount - ((k : ℚ) - 1) / 10 ^ stock_prec) * price := lt_of_le_of_lt hl h1
      have h3 : 0 < amount - ((k : ℚ) - 1) / 10 ^ stock_prec := by
        by_contra hc
        have := mul_nonpos_of_nonpos_of_nonneg (not_lt.mp hc) hp.le
        linarith
      rw [hj] at h3 ⊢
      have h4 : 0 < ((j : ℚ) - ((k : ℚ) - 1)) / 10 ^ stock_prec := by
        have : (j : ℚ) / 10 ^ stock_prec - ((k : ℚ) - 1) / 10 ^ stock_prec =
            ((j : ℚ) - ((k : ℚ) - 1)) / 10 ^ stock_prec := by ring
        rw [← this]; exact h3
      have h5 : (0 : ℚ) < (j : ℚ) - ((k : ℚ) - 1) := by
        by_contra hc
        have := div_nonpos_of_nonpos_of_nonneg (not_lt.mp hc) h10.le
        linarith
      have h6 : (0 : ℤ) < j - ((k : ℤ) - 1) := by exact_mod_cast h5
      have h7 : (0 : ℤ) ≤ j - (k : ℤ) := by omega
      have h8 : (0 : ℚ) ≤ (j : ℚ) - (k : ℚ) := by exact_mod_cast h7
      have : (j : ℚ) / 10 ^ stock_prec - (k : ℚ) / 10 ^ stock_prec =
          ((j : ℚ) - (k : ℚ)) / 10 ^ stock_prec := by ring
      rw [this]
      exact div_nonneg h8 h10.le
    · have hk0' : k = 0 := by omega
      subst hk0'
      simpa using ha
  · have : 0 ≤ (k : ℚ) / 10 ^ stock_prec := div_nonneg (Nat.cast_nonneg k) h10.le
    linarith

/-- the makers of the deals of the loop of `execute_market_bid_order` are nodes of the walk,
in the order of the walk, each at most once -/
theorem execute_market_bid_order_loop_visits (real : Bool) :
    ∀ (nodes : List order_t) (g : globals) (m : market_t) (taker : order_t)
      (r : globals × market_t × order_t × List deal_t),
    execute_market_bid_order_loop real nodes g m taker = some r →
    (r.2.2.2.map (fun d => d.maker)).Sublist nodes := by
  intro nodes
  induction nodes with
  | nil =>
    intro g m taker r hr
    cases hr
    exact List.Sublist.refl _
  | cons maker rest ih =>
    intro g m taker r hr
    rw [execute_market_bid_order_loop] at hr
    split_ifs at hr with hz
    · cases hr; exact List.nil_sublist _
    · simp only at hr
      split at hr
      · cases hr
      · split_ifs at hr
        all_goals first
          | (cases hr; exact List.nil_sublist _)
          | (split at hr
             · cases hr
             · rename_i rest2 hrest
               cases hr
               exact (ih _ _ _ _ hrest).cons₂ maker)

/-- C27: for every maker price greater than zero, every `left` of the taker greater than zero
and every `stock_prec`, the inner loop of `execute_market_bid_order` (lower `amount` by one
unit of `stock_prec` while `amount * price > left`) ends within the bound `market_bid_fuel`,
from the amount the code starts with (the quotient `left / price` rescaled to `stock_prec`)
and from every other start that is on the grid of `stock_prec` and not negative, at an
amount that is not negative, not above the start, and fits into `left`. And
`execute_market_bid_order` on asks with positive prices and a taker with `left` not negative
returns, and the makers of its deals are asks of the book in the order of the book, each
at most once. -/
theorem c27_market_bid_terminates :
    (∀ (price left : ℚ) (stock_prec : ℕ), 0 < price → 0 < left →
      (∃ a, market_bid_adjust price left stock_prec
          (market_bid_fuel price left stock_prec (mpd_rescale (left / price) stock_prec))
          (mpd_rescale (left / price) stock_prec) = some a ∧ 0 ≤ a ∧ a * price ≤ left) ∧
      ∀ amount : ℚ, 0 ≤ amount → on_grid amount stock_prec →
        ∃ a, market_bid_adjust price left stock_prec
            (market_bid_fuel price left stock_prec amount) amount = some a ∧
          0 ≤ a ∧ a ≤ amount ∧ a * price ≤ left) ∧
    (∀ (real : Bool) (g : globals) (m : market_t) (taker : order_t),
      (∀ o ∈ m.asks, 0 < o.price) → 0 ≤ taker.left →
      ∃ r, execute_market_bid_order real g m taker = some r ∧
        (r.2.2.2.map (fun d => d.maker)).Sublist m.asks ∧
        r.2.2.2.length ≤ m.asks.length) := by
  refine ⟨fun price left stock_prec hp hl => ⟨?_, fun amount ha hg => ?_⟩, ?_⟩
  · obtain ⟨a, e1, e2, -, e4, -⟩ := market_bid_adjust_spec stock_prec hp hl.le
      (mpd_rescale_nonneg stock_prec (div_nonneg hl.le hp.le)) (mpd_rescale_on_grid _ _)
    exact ⟨a, e1, e2, e4⟩
  · obtain ⟨a, e1, e2, e3, e4, -⟩ := market_bid_adjust_spec stock_prec hp hl.le ha hg
    exact ⟨a, e1, e2, e3, e4⟩
  · intro real g m taker hprice h0
    obtain ⟨r, hr, -⟩ := execute_market_bid_order_loop_deals real m.asks g m taker hprice h0
    have hsub := execute_market_bid_order_loop_visits real m.asks g m taker r hr
    refine ⟨r, hr, hsub, ?_⟩
    have := hsub.length_le
    rwa [List.length_map] at this

/-- Witness for C27: a maker price of 7.05, 2.97 left and `stock_prec` 4, started one unit
above the quotient. -/
theorem c27_market_bid_terminates_witness :
    ∃ a, market_bid_adjust (705 / 100) (297 / 100) 4
        (market_bid_fuel (705 / 100) (297 / 100) 4 (4213 / 10000)) (4213 / 10000) = some a ∧
      0 ≤ a ∧ a ≤ 4213 / 10000 ∧ a * (705 / 100) ≤ 297 / 100 :=
  (c27_market_bid_terminates.1 (705 / 100) (297 / 100) 4 (by norm_num) (by norm_num)).2
    (4213 / 10000) (by norm_num) (by decide!)

/-! ## Replay: what `real` changes (C21, C22) -/

theorem log_grows_refl (real : Bool) (l : List event) : log_grows real l l :=
  ⟨List.prefix_refl l, fun _ => rfl⟩

theorem log_grows_trans {real : Bool} {l1 l2 l3 : List event} (h1 : log_grows real l1 l2)
    (h2 : log_grows real l2 l3) : log_grows real l1 l3 :=
  ⟨h1.1.trans h2.1, fun h => (h2.2 h).trans (h1.2 h)⟩

theorem emit_false (evs : List event) (g : globals) : emit false evs g = g := rfl

@[simp] theorem with_log_dict_asset (g : globals) (l : List event) :
    (with_log g l).dict_asset = g.dict_asset := rfl

@[simp] theorem with_log_dict_balance (g : globals) (l : List event) :
    (with_log g l).dict_balance = g.dict_balance := rfl

@[simp] theorem with_log_order_id_start (g : globals) (l : List event) :
    (with_log g l).order_id_start = g.order_id_start := rfl

@[simp] theorem with_log_deals_id_start (g : globals) (l : List event) :
    (with_log g l).deals_id_start = g.deals_id_start := rfl

@[simp] theorem with_log_dict_update (g : globals) (l : List event) :
    (with_log g l).dict_update = g.dict_update := rfl

@[simp] theorem with_log_log (g : globals) (l : List event) : (with_log g l).log = l := rfl

theorem with_log_with_log (g : globals) (l1 l2 : List event) :
    with_log (with_log g l1) l2 = with_log g l2 := rfl

theorem emit_with_log (real : Bool) (evs : List event) (g : globals) (l : List event) :
    emit real evs (with_log g l) = with_log g (if real = true then l ++ evs else l) := by
  cases real <;> rfl

theorem emit_log_grows (real : Bool) (evs l : List event) :
    log_grows real l (if real = true then l ++ evs else l) := by
  cases real with
  | false => exact log_grows_refl _ _
  | true => exact ⟨List.prefix_append l evs, fun h => by cases h⟩

theorem do_balance_sub_with_log (g : globals) (l : List event) (u t : ℕ) (a : String) (v : ℚ) :
    do_balance_sub (with_log g l) u t a v = with_log (do_balance_sub g u t a v) l := rfl

theorem do_balance_add_with_log (g : globals) (l : List event) (u t : ℕ) (a : String) (v : ℚ) :
    do_balance_add (with_log g l) u t a v = with_log (do_balance_add g u t a v) l := rfl

theorem charge_fee_with_log (real : Bool) (g : globals) (l : List event) (u : ℕ) (a : String)
    (fee : ℚ) :
    charge_fee real (with_log g l) u a fee =
      with_log (charge_fee false g u a fee) (charge_fee real (with_log g l) u a fee).log := by
  unfold charge_fee
  split_ifs
  · rw [do_balance_sub_with_log, emit_with_log, emit_false]
    rfl
  · rfl

theorem charge_fee_log_grows (real : Bool) (g : globals) (l : List event) (u : ℕ) (a : String)
    (fee : ℚ) : log_grows real l (charge_fee real (with_log g l) u a fee).log := by
  unfold charge_fee
  split_ifs
  · rw [do_balance_sub_with_log, emit_with_log]
    exact emit_log_grows _ _ _
  · exact log_grows_refl _ _

theorem settle_with_log (real : Bool) (g : globals) (l : List event) (taker_id maker_id : ℕ)
    (give : String) (give_amount : ℚ) (take : String) (take_amount taker_charge
    maker_charge : ℚ) :
    settle real (with_log g l) taker_id maker_id give give_amount take take_amount
        taker_charge maker_charge =
      with_log (settle false g taker_id maker_id give give_amount take take_amount
        taker_charge maker_charge)
        (settle real (with_log g l) taker_id maker_id give give_amount take take_amount
          taker_charge maker_charge).log := by
  unfold settle
  simp only [emit_false]
  rw [do_balance_sub_with_log, emit_with_log, do_balance_add_with_log, emit_with_log,
    charge_fee_with_log real _ _ taker_id take taker_charge, do_balance_sub_with_log,
    emit_with_log, do_balance_add_with_log, emit_with_log,
    charge_fee_with_log real _ _ maker_id give maker_charge]
  rfl

theorem settle_log_grows (real : Bool) (g : globals) (l : List event) (taker_id maker_id : ℕ)
    (give : String) (give_amount : ℚ) (take : String) (take_amount taker_charge
    maker_charge : ℚ) :
    log_grows real l (settle real (with_log g l) taker_id maker_id give give_amount take
      take_amount taker_charge maker_charge).log := by
  unfold settle
  simp only
  rw [do_balance_sub_with_log, emit_with_log, do_balance_add_with_log, emit_with_log,
    charge_fee_with_log real _ _ taker_id take taker_charge, do_balance_sub_with_log,
    emit_with_log, do_balance_add_with_log, emit_with_log]
  exact log_grows_trans (log_grows_trans (log_grows_trans (log_grows_trans
    (log_grows_trans (emit_log_grows _ _ _) (emit_log_grows _ _ _))
    (charge_fee_log_grows _ _ _ _ _ _)) (emit_log_grows _ _ _)) (emit_log_grows _ _ _))
    (charge_fee_log_grows _ _ _ _ _ _)

theorem order_finish_with_log (real : Bool) (g : globals) (l : List event) (m : market_t)
    (order : order_t) :
    order_finish real (with_log g l) m order =
      ((order_finish false g m order).1,
        with_log (order_finish false g m order).2.1
          (order_finish real (with_log g l) m order).2.1.log,
        (order_finish false g m order).2.2) := by
  unfold order_finish order_finish_tail
  simp only [with_log_dict_asset, with_log_dict_balance]
  split_ifs <;> (try split) <;> cases real <;> rfl

theorem order_finish_log_grows (real : Bool) (g : globals) (l : List event) (m : market_t)
    (order : order_t) : log_grows real l (order_finish real (with_log g l) m order).2.1.log := by
  unfold order_finish order_finish_tail
  simp only [with_log_dict_asset, with_log_dict_balance]
  split_ifs <;> (try split) <;> cases real <;>
    first
      | exact log_grows_refl _ _
      | exact ⟨List.prefix_append l _, fun h => by cases h⟩

theorem maker_done_with_log (real : Bool) (g : globals) (l : List event) (m : market_t)
    (maker : order_t) :
    maker_done real (with_log g l) m maker =
      (with_log (maker_done false g m maker).1 (maker_done real (with_log g l) m maker).1.log,
        (maker_done false g m maker).2) := by
  unfold maker_done
  split_ifs
  · simp only [emit_false]
    rw [emit_with_log, order_finish_with_log]
    rfl
  · rw [emit_with_log, emit_false]
    rfl

theorem maker_done_log_grows (real : Bool) (g : globals) (l : List event) (m : market_t)
    (maker : order_t) : log_grows real l (maker_done real (with_log g l) m maker).1.log := by
  unfold maker_done
  split_ifs
  · simp only
    rw [emit_with_log]
    exact log_grows_trans (emit_log_grows _ _ _) (order_finish_log_grows _ _ _ _ _)
  · rw [emit_with_log]
    exact emit_log_grows _ _ _

theorem set_deals_id_start_with_log (g : globals) (l : List event) (d : ℕ) :
    ({ with_log g l with deals_id_start := d } : globals) =
      with_log { g with deals_id_start := d } l := rfl

theorem ask_taker_deal_with_log (real : Bool) (g : globals) (l : List event) (m : market_t)
    (taker maker : order_t) (amount : ℚ) :
    ask_taker_deal real (with_log g l) m taker maker amount =
      (with_log (ask_taker_deal false g m taker maker amount).1
          (ask_taker_deal real (with_log g l) m taker maker amount).1.log,
        (ask_taker_deal false g m taker maker amount).2) := by
  unfold ask_taker_deal
  simp only [emit_false]
  rw [set_deals_id_start_with_log, emit_with_log, settle_with_log, maker_done_with_log]
  rfl

theorem ask_taker_deal_log_grows (real : Bool) (g : globals) (l : List event) (m : market_t)
    (taker maker : order_t) (amount : ℚ) :
    log_grows real l (ask_taker_deal real (with_log g l) m taker maker amount).1.log := by
  unfold ask_taker_deal
  simp only
  rw [set_deals_id_start_with_log, emit_with_log, settle_with_log]
  exact log_grows_trans (log_grows_trans (emit_log_grows _ _ _) (settle_log_grows _ _ _ _ _ _ _ _ _
    _ _)) (maker_done_log_grows _ _ _ _ _)

theorem bid_taker_deal_with_log (real by_deal : Bool) (g : globals) (l : List event)
    (m : market_t) (taker maker : order_t) (amount : ℚ) :
    bid_taker_deal real by_deal (with_log g l) m taker maker amount =
      (with_log (bid_taker_deal false by_deal g m taker maker amount).1
          (bid_taker_deal real by_deal (with_log g l) m taker maker amount).1.log,
        (bid_taker_deal false by_deal g m taker maker amount).2) := by
  unfold bid_taker_deal
  simp only [emit_false]
  rw [set_deals_id_start_with_log, emit_with_log, settle_with_log, maker_done_with_log]
  rfl

theorem bid_taker_deal_log_grows (real by_deal : Bool) (g : globals) (l : List event)
    (m : market_t) (taker maker : order_t) (amount : ℚ) :
    log_grows real l (bid_taker_deal real by_deal (with_log g l) m taker maker amount).1.log := by
  unfold bid_taker_deal
  simp only
  rw [set_deals_id_start_with_log, emit_with_log, settle_with_log]
  exact log_grows_trans (log_grows_trans (emit_log_grows _ _ _) (settle_log_grows _ _ _ _ _ _ _ _ _
    _ _)) (maker_done_log_grows _ _ _ _ _)

theorem execute_limit_ask_order_loop_with_log (real : Bool) :
    ∀ (nodes : List order_t) (g : globals) (l : List event) (m : market_t) (taker : order_t),
    execute_limit_ask_order_loop real nodes (with_log g l) m taker =
      (with_log (execute_limit_ask_order_loop false nodes g m taker).1
          (execute_limit_ask_order_loop real nodes (with_log g l) m taker).1.log,
        (execute_limit_ask_order_loop false nodes g m taker).2) ∧
    log_grows real l (execute_limit_ask_order_loop real nodes (with_log g l) m taker).1.log := by
  intro nodes
  induction nodes with
  | nil =>
    intro g l m taker
    exact ⟨rfl, log_grows_refl _ _⟩
  | cons maker rest ih =>
    intro g l m taker
    simp only [execute_limit_ask_order_loop]
    by_cases hz : taker.left = 0
    · simp only [if_pos hz]
      exact ⟨rfl, log_grows_refl _ _⟩
    by_cases hp : taker.price > maker.price
    · simp only [if_neg hz, if_pos hp]
      exact ⟨rfl, log_grows_refl _ _⟩
    simp only [if_neg hz, if_neg hp]
    rw [ask_taker_deal_with_log]
    simp only
    constructor
    · rw [(ih _ _ _ _).1]
      rfl
    · exact log_grows_trans (ask_taker_deal_log_grows _ _ _ _ _ _ _) (ih _ _ _ _).2

theorem execute_limit_bid_order_loop_with_log (real : Bool) :
    ∀ (nodes : List order_t) (g : globals) (l : List event) (m : market_t) (taker : order_t),
    execute_limit_bid_order_loop real nodes (with_log g l) m taker =
      (with_log (execute_limit_bid_order_loop false nodes g m taker).1
          (execute_limit_bid_order_loop real nodes (with_log g l) m taker).1.log,
        (execute_limit_bid_order_loop false nodes g m taker).2) ∧
    log_grows real l (execute_limit_bid_order_loop real nodes (with_log g l) m taker).1.log := by
  intro nodes
  induction nodes with
  | nil =>
    intro g l m taker
    exact ⟨rfl, log_grows_refl _ _⟩
  | cons maker rest ih =>
    intro g l m taker
    simp only [execute_limit_bid_order_loop]
    by_cases hz : taker.left = 0
    · simp only [if_pos hz]
      exact ⟨rfl, log_grows_refl _ _⟩
    by_cases hp : taker.price < maker.price
    · simp only [if_neg hz, if_pos hp]
      exact ⟨rfl, log_grows_refl _ _⟩
    simp only [if_neg hz, if_neg hp]
    rw [bid_taker_deal_with_log]
    simp only
    constructor
    · rw [(ih _ _ _ _).1]
      rfl
    · exact log_grows_trans (bid_taker_deal_log_grows _ _ _ _ _ _ _ _) (ih _ _ _ _).2

theorem execute_market_ask_order_loop_with_log (real : Bool) :
    ∀ (nodes : List order_t) (g : globals) (l : List event) (m : market_t) (taker : order_t),
    execute_market_ask_order_loop real nodes (with_log g l) m taker =
      (with_log (execute_market_ask_order_loop false nodes g m taker).1
          (execute_market_ask_order_loop real nodes (with_log g l) m taker).1.log,
        (execute_market_ask_order_loop false nodes g m taker).2) ∧
    log_grows real l (execute_market_ask_order_loop real nodes (with_log g l) m taker).1.log := by
  intro nodes
  induction nodes with
  | nil =>
    intro g l m taker
    exact ⟨rfl, log_grows_refl _ _⟩
  | cons maker rest ih =>
    intro g l m taker
    simp only [execute_market_ask_order_loop]
    by_cases hz : taker.left = 0
    · simp only [if_pos hz]
      exact ⟨rfl, log_grows_refl _ _⟩
    simp only [if_neg hz]
    rw [ask_taker_deal_with_log]
    simp only
    constructor
    · rw [(ih _ _ _ _).1]
      rfl
    · exact log_grows_trans (ask_taker_deal_log_grows _ _ _ _ _ _ _) (ih _ _ _ _).2

theorem execute_market_bid_order_loop_with_log (real : Bool) :
    ∀ (nodes : List order_t) (g : globals) (l : List event) (m : market_t) (taker : order_t),
    match execute_market_bid_order_loop false nodes g m taker with
    | none => execute_market_bid_order_loop real nodes (with_log g l) m taker = none
    | some r => ∃ l2, log_grows real l l2 ∧
        execute_market_bid_order_loop real nodes (with_log g l) m taker =
          some (with_log r.1 l2, r.2) := by
  intro nodes
  induction nodes with
  | nil =>
    intro g l m taker
    exact ⟨l, log_grows_refl _ _, rfl⟩
  | cons maker rest ih =>
    intro g l m taker
    simp only [execute_market_bid_order_loop]
    by_cases hz : taker.left = 0
    · simp only [if_pos hz]
      exact ⟨l, log_grows_refl _ _, rfl⟩
    simp only [if_neg hz]
    cases market_bid_adjust maker.price taker.left m.stock_prec
        (market_bid_fuel maker.price taker.left m.stock_prec
          (mpd_rescale (taker.left / maker.price) m.stock_prec))
        (mpd_rescale (taker.left / maker.price) m.stock_prec) with
    | none => rfl
    | some amount =>
      simp only
      by_cases ha0 : (if amount > maker.left then maker.left else amount) = 0
      · simp only [if_pos ha0]
        exact ⟨l, log_grows_refl _ _, rfl⟩
      simp only [if_neg ha0]
      rw [bid_taker_deal_with_log]
      simp only
      have h := ih (bid_taker_deal false true g m taker maker
          (if amount > maker.left then maker.left else amount)).1
        (bid_taker_deal real true (with_log g l) m taker maker
          (if amount > maker.left then maker.left else amount)).1.log
        (bid_taker_deal false true g m taker maker
          (if amount > maker.left then maker.left else amount)).2.1
        (bid_taker_deal false true g m taker maker
          (if amount > maker.left then maker.left else amount)).2.2.1
      cases hrest : execute_market_bid_order_loop false rest
          (bid_taker_deal false true g m taker maker
            (if amount > maker.left then maker.left else amount)).1
          (bid_taker_deal false true g m taker maker
            (if amount > maker.left then maker.left else amount)).2.1
          (bid_taker_deal false true g m taker maker
            (if amount > maker.left then maker.left else amount)).2.2.1 with
      | none =>
        rw [hrest] at h
        simp only at h ⊢
        rw [h]
      | some r2 =>
        rw [hrest] at h
        obtain ⟨l2, g2, e2⟩ := h
        simp only
        rw [e2]
        exact ⟨l2, log_grows_trans (bid_taker_deal_log_grows _ _ _ _ _ _ _ _) g2, rfl⟩

theorem set_order_id_start_with_log (g : globals) (l : List event) (n : ℕ) :
    ({ with_log g l with order_id_start := n } : globals) =
      with_log { g with order_id_start := n } l := rfl

theorem order_put_with_log (g : globals) (l : List event) (m : market_t) (order : order_t) :
    order_put (with_log g l) m order =
      ((order_put g m order).1, with_log (order_put g m order).2.1 l,
        (order_put g m order).2.2) := by
  unfold order_put
  simp only [with_log_dict_asset, with_log_dict_balance]
  split_ifs <;> (try split) <;> (try split) <;> rfl

theorem put_limit_match_with_log (real : Bool) (g : globals) (l : List event) (m : market_t)
    (user_id side : ℕ) (amount price taker_fee maker_fee : ℚ) :
    put_limit_match real (with_log g l) m user_id side amount price taker_fee maker_fee =
      (with_log (put_limit_match false g m user_id side amount price taker_fee maker_fee).1
          (put_limit_match real (with_log g l) m user_id side amount price taker_fee
            maker_fee).1.log,
        (put_limit_match false g m user_id side amount price taker_fee maker_fee).2) ∧
    log_grows real l (put_limit_match real (with_log g l) m user_id side amount price taker_fee
      maker_fee).1.log := by
  unfold put_limit_match execute_limit_ask_order execute_limit_bid_order
  simp only
  rw [set_order_id_start_with_log]
  split_ifs
  · constructor
    · rw [(execute_limit_ask_order_loop_with_log real _ _ _ _ _).1]
      rfl
    · exact (execute_limit_ask_order_loop_with_log real _ _ _ _ _).2
  · constructor
    · rw [(execute_limit_bid_order_loop_with_log real _ _ _ _ _).1]
      rfl
    · exact (execute_limit_bid_order_loop_with_log real _ _ _ _ _).2

theorem put_limit_close_with_log (real : Bool) (g : globals) (l : List event) (m : market_t)
    (order : order_t) :
    put_limit_close real (with_log g l) m order =
      (with_log (put_limit_close false g m order).1
          (put_limit_close real (with_log g l) m order).1.log,
        (put_limit_close false g m order).2) ∧
    log_grows real l (put_limit_close real (with_log g l) m order).1.log := by
  unfold put_limit_close
  split_ifs
  · rw [emit_with_log, emit_false]
    exact ⟨rfl, emit_log_grows _ _ _⟩
  · simp only [emit_false]
    rw [emit_with_log, order_put_with_log]
    exact ⟨rfl, emit_log_grows _ _ _⟩

theorem same_but_log_with_log (g : globals) (l : List event) : same_but_log g (with_log g l) :=
  ⟨rfl, rfl, rfl, rfl, rfl⟩

theorem market_put_limit_order_with_log (real : Bool) (g : globals) (l : List event)
    (m : market_t) (user_id side : ℕ) (amount price taker_fee maker_fee : ℚ) :
    market_put_limit_order real (with_log g l) m user_id side amount price taker_fee maker_fee =
      ((market_put_limit_order false g m user_id side amount price taker_fee maker_fee).1,
        with_log (market_put_limit_order false g m user_id side amount price taker_fee
            maker_fee).2.1
          (market_put_limit_order real (with_log g l) m user_id side amount price taker_fee
            maker_fee).2.1.log,
        (market_put_limit_order false g m user_id side amount price taker_fee maker_fee).2.2) ∧
    log_grows real l (market_put_limit_order real (with_log g l) m user_id side amount price
      taker_fee maker_fee).2.1.log := by
  have hs : put_limit_short (with_log g l) m user_id side amount price =
      put_limit_short g m user_id side amount price := rfl
  unfold market_put_limit_order
  rw [hs]
  split_ifs
  · exact ⟨rfl, log_grows_refl _ _⟩
  · exact ⟨rfl, log_grows_refl _ _⟩
  · simp only
    rw [(put_limit_match_with_log real g l m user_id side amount price taker_fee maker_fee).1]
    simp only
    constructor
    · rw [(put_limit_close_with_log real _ _ _ _).1]
      rfl
    · exact log_grows_trans
        (put_limit_match_with_log real g l m user_id side amount price taker_fee maker_fee).2
        (put_limit_close_with_log real _ _ _ _).2

theorem market_put_market_order_with_log (real : Bool) (g : globals) (l : List event)
    (m : market_t) (user_id side : ℕ) (amount taker_fee : ℚ) :
    match market_put_market_order false g m user_id side amount taker_fee with
    | none => market_put_market_order real (with_log g l) m user_id side amount taker_fee = none
    | some r => ∃ l2, log_grows real l l2 ∧
        market_put_market_order real (with_log g l) m user_id side amount taker_fee =
          some (r.1, with_log r.2.1 l2, r.2.2) := by
  have hc : put_market_check (with_log g l) m user_id side amount =
      put_market_check g m user_id side amount := rfl
  unfold market_put_market_order
  rw [hc]
  split_ifs with h1 h2
  · exact ⟨l, log_grows_refl _ _, rfl⟩
  · simp only
    unfold execute_market_ask_order
    rw [set_order_id_start_with_log,
      (execute_market_ask_order_loop_with_log real _ _ _ _ _).1, emit_with_log]
    exact ⟨_, log_grows_trans (execute_market_ask_order_loop_with_log real _ _ _ _ _).2
      (emit_log_grows _ _ _), rfl⟩
  · simp only
    unfold execute_market_bid_order
    rw [set_order_id_start_with_log]
    simp only [with_log_order_id_start]
    have h := execute_market_bid_order_loop_with_log real m.asks
      { g with order_id_start := (g.order_id_start + 1) % 2 ^ 64 } l m
      (new_market_order ((g.order_id_start + 1) % 2 ^ 64) user_id side amount taker_fee)
    cases hr : execute_market_bid_order_loop false m.asks
        { g with order_id_start := (g.order_id_start + 1) % 2 ^ 64 } m
        (new_market_order ((g.order_id_start + 1) % 2 ^ 64) user_id side amount taker_fee) with
    | none =>
      rw [hr] at h
      simp only at h ⊢
      rw [h]
    | some r =>
      rw [hr] at h
      obtain ⟨l2, g2, e2⟩ := h
      simp only
      rw [e2]
      simp only
      rw [emit_with_log]
      exact ⟨_, log_grows_trans g2 (emit_log_grows _ _ _), rfl⟩

theorem market_cancel_order_with_log (real : Bool) (g : globals) (l : List event)
    (m : market_t) (order : order_t) :
    market_cancel_order real (with_log g l) m order =
      ((market_cancel_order false g m order).1,
        with_log (market_cancel_order false g m order).2.1
          (market_cancel_order real (with_log g l) m order).2.1.log,
        (market_cancel_order false g m order).2.2) ∧
    log_grows real l (market_cancel_order real (with_log g l) m order).2.1.log := by
  unfold market_cancel_order
  simp only [emit_false]
  rw [emit_with_log, order_finish_with_log]
  exact ⟨rfl, log_grows_trans (emit_log_grows _ _ _) (order_finish_log_grows _ _ _ _ _)⟩

theorem update_user_balance_with_log [L : name_limits] (real : Bool) (now : ℚ) (g : globals) (l : List event)
    (user_id : ℕ) (asset business : String) (business_id : ℕ) (change : ℚ) :
    update_user_balance real now (with_log g l) user_id asset business business_id change =
      ((update_user_balance false now g user_id asset business business_id change).1,
        with_log (update_user_balance false now g user_id asset business business_id change).2
          (update_user_balance real now (with_log g l) user_id asset business business_id
            change).2.log) ∧
    log_grows real l (update_user_balance real now (with_log g l) user_id asset business
      business_id change).2.log := by
  unfold update_user_balance
  simp only [with_log_dict_asset, with_log_dict_balance, with_log_dict_update]
  split
  · exact ⟨rfl, log_grows_refl _ _⟩
  · split
    · exact ⟨rfl, log_grows_refl _ _⟩
    · cases real with
      | false => exact ⟨rfl, log_grows_refl _ _⟩
      | true => exact ⟨rfl, List.prefix_append l _, fun h => by cases h⟩

/-- C21: from the same global state and market, with the same arguments (and the same clock
reading for `update_user_balance`), each of `update_user_balance`, `market_put_limit_order`,
`market_put_market_order` and `market_cancel_order` run with `real` false gives what it gives
with `real` true: the same return code, the same asset dictionary, ledger, `order_id_start`,
`deals_id_start` and cache of applied updates, the same market (books, orders index, user
lists), the same order object and the same deals; `market_put_market_order` returns with
`real` false exactly when it returns with `real` true. Only the event log can differ. -/
theorem c21_replay_gives_the_same_state [L : name_limits] (g : globals) (m : market_t) :
    (∀ (now : ℚ) (user_id : ℕ) (asset business : String) (business_id : ℕ) (change : ℚ),
      (update_user_balance false now g user_id asset business business_id change).1 =
        (update_user_balance true now g user_id asset business business_id change).1 ∧
      same_but_log (update_user_balance false now g user_id asset business business_id change).2
        (update_user_balance true now g user_id asset business business_id change).2) ∧
    (∀ (user_id side : ℕ) (amount price taker_fee maker_fee : ℚ),
      (market_put_limit_order false g m user_id side amount price taker_fee maker_fee).1 =
        (market_put_limit_order true g m user_id side amount price taker_fee maker_fee).1 ∧
      same_but_log
        (market_put_limit_order false g m user_id side amount price taker_fee maker_fee).2.1
        (market_put_limit_order true g m user_id side amount price taker_fee maker_fee).2.1 ∧
      (market_put_limit_order false g m user_id side amount price taker_fee maker_fee).2.2 =
        (market_put_limit_order true g m user_id side amount price taker_fee maker_fee).2.2) ∧
    (∀ (user_id side : ℕ) (amount taker_fee : ℚ),
      (market_put_market_order false g m user_id side amount taker_fee = none ↔
        market_put_market_order true g m user_id side amount taker_fee = none) ∧
      ∀ r, market_put_market_order false g m user_id side amount taker_fee = some r →
        ∃ r2, market_put_market_order true g m user_id side amount taker_fee = some r2 ∧
          r.1 = r2.1 ∧ same_but_log r.2.1 r2.2.1 ∧ r.2.2 = r2.2.2) ∧
    (∀ order : order_t,
      (market_cancel_order false g m order).1 = (market_cancel_order true g m order).1 ∧
      same_but_log (market_cancel_order false g m order).2.1
        (market_cancel_order true g m order).2.1 ∧
      (market_cancel_order false g m order).2.2 = (market_cancel_order true g m order).2.2) := by
  refine ⟨?_, ?_, ?_, ?_⟩
  · intro now user_id asset business business_id change
    have h := (update_user_balance_with_log true now g g.log user_id asset business business_id
      change).1
    have h2 : update_user_balance true now g user_id asset business business_id change = _ := h
    rw [h2]
    exact ⟨rfl, same_but_log_with_log _ _⟩
  · intro user_id side amount price taker_fee maker_fee
    have h := (market_put_limit_order_with_log true g g.log m user_id side amount price
      taker_fee maker_fee).1
    have h2 : market_put_limit_order true g m user_id side amount price taker_fee
      maker_fee = _ := h
    rw [h2]
    exact ⟨rfl, same_but_log_with_log _ _, rfl⟩
  · intro user_id side amount taker_fee
    have h := market_put_market_order_with_log true g g.log m user_id side amount taker_fee
    cases hr : market_put_market_order false g m user_id side amount taker_fee with
    | none =>
      rw [hr] at h
      have h2 : market_put_market_order true g m user_id side amount taker_fee = none := h
      exact ⟨⟨fun _ => h2, fun _ => rfl⟩, fun r hc => by cases hc⟩
    | some r =>
      rw [hr] at h
      obtain ⟨l2, -, e2⟩ := h
      have h2 : market_put_market_order true g m user_id side amount taker_fee = _ := e2
      rw [h2]
      refine ⟨⟨fun hc => (by cases hc), fun hc => (by cases hc)⟩, fun r1 hr1 => ?_⟩
      cases hr1
      exact ⟨_, rfl, rfl, same_but_log_with_log _ _, rfl⟩
  · intro order
    have h := (market_cancel_order_with_log true g g.log m order).1
    have h2 : market_cancel_order true g m order = _ := h
    rw [h2]
    exact ⟨rfl, same_but_log_with_log _ _, rfl⟩

/-- Witness for C21: a market bid of 0.001 `MNY` against the ask 1 @ 10, replayed and live. -/
theorem c21_replay_gives_the_same_state_witness :
    ∃ r r2, market_put_market_order false
        (scenario_globals [(⟨2, BALANCE_TYPE_AVAILABLE, "MNY"⟩, 1000),
          (⟨1, BALANCE_TYPE_FREEZE, "STK"⟩, 1)] 1 0)
        (scenario_market (1 / 10000)
          [{ new_limit_order 1 1 MARKET_ORDER_SIDE_ASK 1 10 0 0 with freeze := 1 }] [])
        2 MARKET_ORDER_SIDE_BID (1 / 1000) 0 = some r ∧
      market_put_market_order true
        (scenario_globals [(⟨2, BALANCE_TYPE_AVAILABLE, "MNY"⟩, 1000),
          (⟨1, BALANCE_TYPE_FREEZE, "STK"⟩, 1)] 1 0)
        (scenario_market (1 / 10000)
          [{ new_limit_order 1 1 MARKET_ORDER_SIDE_ASK 1 10 0 0 with freeze := 1 }] [])
        2 MARKET_ORDER_SIDE_BID (1 / 1000) 0 = some r2 ∧
      r.1 = r2.1 ∧ r.2.2 = r2.2.2 := by
  have h1 : (market_put_market_order false
        (scenario_globals [(⟨2, BALANCE_TYPE_AVAILABLE, "MNY"⟩, 1000),
          (⟨1, BALANCE_TYPE_FREEZE, "STK"⟩, 1)] 1 0)
        (scenario_market (1 / 10000)
          [{ new_limit_order 1 1 MARKET_ORDER_SIDE_ASK 1 10 0 0 with freeze := 1 }] [])
        2 MARKET_ORDER_SIDE_BID (1 / 1000) 0).isSome = true := by decide!
  obtain ⟨r, hr⟩ := Option.isSome_iff_exists.mp h1
  obtain ⟨r2, hr2, e1, -, e3⟩ := ((c21_replay_gives_the_same_state (L := scenario_limits)
    (scenario_globals [(⟨2, BALANCE_TYPE_AVAILABLE, "MNY"⟩, 1000),
      (⟨1, BALANCE_TYPE_FREEZE, "STK"⟩, 1)] 1 0)
    (scenario_market (1 / 10000)
      [{ new_limit_order 1 1 MARKET_ORDER_SIDE_ASK 1 10 0 0 with freeze := 1 }] [])).2.2.1
    2 MARKET_ORDER_SIDE_BID (1 / 1000) 0).2 r hr
  exact ⟨r, r2, hr, hr2, e1, e3⟩

/-- C22: run with `real` false, each of `update_user_balance`, `market_put_limit_order`,
`market_put_market_order` (when it returns) and `market_cancel_order` leaves the event log as
it is: no row of a history table (orders, deals, balances) and no message of the balances,
orders and deals topics is emitted. -/
theorem c22_replay_emits_nothing [L : name_limits] (g : globals) (m : market_t) :
    (∀ (now : ℚ) (user_id : ℕ) (asset business : String) (business_id : ℕ) (change : ℚ),
      (update_user_balance false now g user_id asset business business_id change).2.log =
        g.log) ∧
    (∀ (user_id side : ℕ) (amount price taker_fee maker_fee : ℚ),
      (market_put_limit_order false g m user_id side amount price taker_fee
        maker_fee).2.1.log = g.log) ∧
    (∀ (user_id side : ℕ) (amount taker_fee : ℚ) r,
      market_put_market_order false g m user_id side amount taker_fee = some r →
      r.2.1.log = g.log) ∧
    (∀ order : order_t, (market_cancel_order false g m order).2.1.log = g.log) := by
  refine ⟨?_, ?_, ?_, ?_⟩
  · intro now user_id asset business business_id change
    exact (update_user_balance_with_log false now g g.log user_id asset business business_id
      change).2.2 rfl
  · intro user_id side amount price taker_fee maker_fee
    exact (market_put_limit_order_with_log false g g.log m user_id side amount price
      taker_fee maker_fee).2.2 rfl
  · intro user_id side amount taker_fee r hr
    have h := market_put_market_order_with_log false g g.log m user_id side amount taker_fee
    rw [hr] at h
    obtain ⟨l2, g2, e2⟩ := h
    have h2 : market_put_market_order false g m user_id side amount taker_fee = _ := e2
    rw [hr] at h2
    have h3 : r.2.1.log = l2 := congrArg (fun x => x.2.1.log) (Option.some.inj h2)
    rw [h3]
    exact g2.2 rfl
  · intro order
    exact (market_cancel_order_with_log false g g.log m order).2.2 rfl

/-- Witness for C22: a replayed market bid of 0.001 `MNY` against the ask 1 @ 10. -/
theorem c22_replay_emits_nothing_witness :
    ∃ r, market_put_market_order false
        (scenario_globals [(⟨2, BALANCE_TYPE_AVAILABLE, "MNY"⟩, 1000),
          (⟨1, BALANCE_TYPE_FREEZE, "STK"⟩, 1)] 1 0)
        (scenario_market (1 / 10000)
          [{ new_limit_order 1 1 MARKET_ORDER_SIDE_ASK 1 10 0 0 with freeze := 1 }] [])
        2 MARKET_ORDER_SIDE_BID (1 / 1000) 0 = some r ∧
      r.2.1.log = (scenario_globals [(⟨2, BALANCE_TYPE_AVAILABLE, "MNY"⟩, 1000),
          (⟨1, BALANCE_TYPE_FREEZE, "STK"⟩, 1)] 1 0).log := by
  have h1 : (market_put_market_order false
        (scenario_globals [(⟨2, BALANCE_TYPE_AVAILABLE, "MNY"⟩, 1000),
          (⟨1, BALANCE_TYPE_FREEZE, "STK"⟩, 1)] 1 0)
        (scenario_market (1 / 10000)
          [{ new_limit_order 1 1 MARKET_ORDER_SIDE_ASK 1 10 0 0 with freeze := 1 }] [])
        2 MARKET_ORDER_SIDE_BID (1 / 1000) 0).isSome = true := by decide!
  obtain ⟨r, hr⟩ := Option.isSome_iff_exists.mp h1
  exact ⟨r, hr, (c22_replay_emits_nothing (L := scenario_limits)
    (scenario_globals [(⟨2, BALANCE_TYPE_AVAILABLE, "MNY"⟩, 1000),
      (⟨1, BALANCE_TYPE_FREEZE, "STK"⟩, 1)] 1 0)
    (scenario_market (1 / 10000)
      [{ new_limit_order 1 1 MARKET_ORDER_SIDE_ASK 1 10 0 0 with freeze := 1 }] [])).2.2.1
    2 MARKET_ORDER_SIDE_BID (1 / 1000) 0 r hr⟩

/-! ## The two id counters (C23) -/

theorem maker_done_counters (real : Bool) (g : globals) (m : market_t) (maker : order_t) :
    (maker_done real g m maker).1.order_id_start = g.order_id_start ∧
    (maker_done real g m maker).1.deals_id_start = g.deals_id_start := by
  unfold maker_done
  split_ifs
  · obtain ⟨-, f2, f3, -⟩ := order_finish_frame real
      (emit real [event.order_message ORDER_EVENT_FINISH maker m.name] g) m maker
    exact ⟨f2.trans (emit_order_id_start _ _ _), f3.trans (emit_deals_id_start _ _ _)⟩
  · exact ⟨emit_order_id_start _ _ _, emit_deals_id_start _ _ _⟩

theorem ask_taker_deal_counters (real : Bool) (g : globals) (m : market_t)
    (taker maker : order_t) (amount : ℚ) :
    (ask_taker_deal real g m taker maker amount).1.order_id_start = g.order_id_start ∧
    (ask_taker_deal real g m taker maker amount).1.deals_id_start =
      (g.deals_id_start + 1) % 2 ^ 64 ∧
    (ask_taker_deal real g m taker maker amount).2.2.2.deal_id =
      (g.deals_id_start + 1) % 2 ^ 64 ∧
    (ask_taker_deal real g m taker maker amount).2.2.1.id = taker.id := by
  unfold ask_taker_deal
  simp only
  refine ⟨?_, ?_, trivial, rfl⟩
  · rw [(maker_done_counters _ _ _ _).1, (settle_frame _ _ _ _ _ _ _ _ _ _).2.1,
      emit_order_id_start]
  · rw [(maker_done_counters _ _ _ _).2, (settle_frame _ _ _ _ _ _ _ _ _ _).2.2.1,
      emit_deals_id_start]

theorem bid_taker_deal_counters (real by_deal : Bool) (g : globals) (m : market_t)
    (taker maker : order_t) (amount : ℚ) :
    (bid_taker_deal real by_deal g m taker maker amount).1.order_id_start = g.order_id_start ∧
    (bid_taker_deal real by_deal g m taker maker amount).1.deals_id_start =
      (g.deals_id_start + 1) % 2 ^ 64 ∧
    (bid_taker_deal real by_deal g m taker maker amount).2.2.2.deal_id =
      (g.deals_id_start + 1) % 2 ^ 64 ∧
    (bid_taker_deal real by_deal g m taker maker amount).2.2.1.id = taker.id := by
  unfold bid_taker_deal
  simp only
  refine ⟨?_, ?_, trivial, rfl⟩
  · rw [(maker_done_counters _ _ _ _).1, (settle_frame _ _ _ _ _ _ _ _ _ _).2.1,
      emit_order_id_start]
  · rw [(maker_done_counters _ _ _ _).2, (settle_frame _ _ _ _ _ _ _ _ _ _).2.2.1,
      emit_deals_id_start]

theorem deal_ids_step (d k : ℕ) :
    (d + 1) % 2 ^ 64 :: (List.range k).map (fun i => ((d + 1) % 2 ^ 64 + i + 1) % 2 ^ 64) =
      (List.range (k + 1)).map (fun i => (d + i + 1) % 2 ^ 64) := by
  rw [List.range_succ_eq_map, List.map_cons, List.map_map]
  refine congrArg₂ _ rfl (List.map_congr_left (fun i _ => ?_))
  show ((d + 1) % 2 ^ 64 + i + 1) % 2 ^ 64 = (d + (i + 1) + 1) % 2 ^ 64
  rw [Nat.add_assoc, Nat.mod_add_mod]
  congr 1
  omega

theorem deal_ids_count (d k : ℕ) : ((d + 1) % 2 ^ 64 + k) % 2 ^ 64 = (d + (k + 1)) % 2 ^ 64 := by
  rw [Nat.mod_add_mod]
  congr 1
  omega

/-- the counters and the taker id through the loop of `execute_limit_ask_order_loop`: `order_id_start` is not
written, `deals_id_start` goes up by one for each deal, and the deals carry the values it
takes, in order -/
theorem execute_limit_ask_order_loop_counters (real : Bool) :
    ∀ (nodes : List order_t) (g : globals) (m : market_t) (taker : order_t),
    g.deals_id_start < 2 ^ 64 →
    (execute_limit_ask_order_loop real nodes g m taker).1.order_id_start = g.order_id_start ∧
    (execute_limit_ask_order_loop real nodes g m taker).1.deals_id_start =
      (g.deals_id_start + (execute_limit_ask_order_loop real nodes g m taker).2.2.2.length) % 2 ^ 64 ∧
    (execute_limit_ask_order_loop real nodes g m taker).2.2.2.map (fun d => d.deal_id) =
      (List.range (execute_limit_ask_order_loop real nodes g m taker).2.2.2.length).map
        (fun i => (g.deals_id_start + i + 1) % 2 ^ 64) ∧
    (execute_limit_ask_order_loop real nodes g m taker).2.2.1.id = taker.id := by
  intro nodes
  induction nodes with
  | nil =>
    intro g m taker hd
    exact ⟨rfl, (Nat.mod_eq_of_lt hd).symm, rfl, rfl⟩
  | cons maker rest ih =>
    intro g m taker hd
    simp only [execute_limit_ask_order_loop]
    by_cases hz : taker.left = 0
    · simp only [if_pos hz]
      refine ⟨?_, ?_, ?_, ?_⟩ <;>
        first | trivial | rfl | exact (Nat.mod_eq_of_lt hd).symm
    by_cases hp : taker.price > maker.price
    · simp only [if_neg hz, if_pos hp]
      refine ⟨?_, ?_, ?_, ?_⟩ <;>
        first | trivial | rfl | exact (Nat.mod_eq_of_lt hd).symm
    simp only [if_neg hz, if_neg hp]
    obtain ⟨c1, c2, c3, c4⟩ := ask_taker_deal_counters real g m taker maker
      (if taker.left < maker.left then taker.left else maker.left)
    obtain ⟨i1, i2, i3, i4⟩ := ih
      (ask_taker_deal real g m taker maker
        (if taker.left < maker.left then taker.left else maker.left)).1
      (ask_taker_deal real g m taker maker
        (if taker.left < maker.left then taker.left else maker.left)).2.1
      (ask_taker_deal real g m taker maker
        (if taker.left < maker.left then taker.left else maker.left)).2.2.1
      (by rw [c2]; exact Nat.mod_lt _ (by norm_num))
    refine ⟨i1.trans c1, ?_, ?_, i4.trans c4⟩
    · rw [i2, c2, List.length_cons]
      exact deal_ids_count _ _
    · rw [List.map_cons, i3, c2, c3, List.length_cons]
      exact deal_ids_step _ _

/-- the counters and the taker id through the loop of `execute_limit_bid_order_loop`: `order_id_start` is not
written, `deals_id_start` goes up by one for each deal, and the deals carry the values it
takes, in order -/
theorem execute_limit_bid_order_loop_counters (real : Bool) :
    ∀ (nodes : List order_t) (g : globals) (m : market_t) (taker : order_t),
    g.deals_id_start < 2 ^ 64 →
    (execute_limit_bid_order_loop real nodes g m taker).1.order_id_start = g.order_id_start ∧
    (execute_limit_bid_order_loop real nodes g m taker).1.deals_id_start =
      (g.deals_id_start + (execute_limit_bid_order_loop real nodes g m taker).2.2.2.length) % 2 ^ 64 ∧
    (execute_limit_bid_order_loop real nodes g m taker).2.2.2.map (fun d => d.deal_id) =
      (List.range (execute_limit_bid_order_loop real nodes g m taker).2.2.2.length).map
        (fun i => (g.deals_id_start + i + 1) % 2 ^ 64) ∧
    (execute_limit_bid_order_loop real nodes g m taker).2.2.1.id = taker.id := by
  intro nodes
  induction nodes with
  | nil =>
    intro g m taker hd
    exact ⟨rfl, (Nat.mod_eq_of_lt hd).symm, rfl, rfl⟩
  | cons maker rest ih =>
    intro g m taker hd
    simp only [execute_limit_bid_order_loop]
    by_cases hz : taker.left = 0
    · simp only [if_pos hz]
      refine ⟨?_, ?_, ?_, ?_⟩ <;>
        first | trivial | rfl | exact (Nat.mod_eq_of_lt hd).symm
    by_cases hp : taker.price < maker.price
    · simp only [if_neg hz, if_pos hp]
      refine ⟨?_, ?_, ?_, ?_⟩ <;>
        first | trivial | rfl | exact (Nat.mod_eq_of_lt hd).symm
    simp only [if_neg hz, if_neg hp]
    obtain ⟨c1, c2, c3, c4⟩ := bid_taker_deal_counters real false g m taker maker
      (if taker.left < maker.left then taker.left else maker.left)
    obtain ⟨i1, i2, i3, i4⟩ := ih
      (bid_taker_deal real false g m taker maker
        (if taker.left < maker.left then taker.left else maker.left)).1
      (bid_taker_deal real false g m taker maker
        (if taker.left < maker.left then taker.left else maker.left)).2.1
      (bid_taker_deal real false g m taker maker
        (if taker.left < maker.left then taker.left else maker.left)).2.2.1
      (by rw [c2]; exact Nat.mod_lt _ (by norm_num))
    refine ⟨i1.trans c1, ?_, ?_, i4.trans c4⟩
    · rw [i2, c2, List.length_cons]
      exact deal_ids_count _ _
    · rw [List.map_cons, i3, c2, c3, List.length_cons]
      exact deal_ids_step _ _

/-- the counters and the taker id through the loop of `execute_market_ask_order_loop`: `order_id_start` is not
written, `deals_id_start` goes up by one for each deal, and the deals carry the values it
takes, in order -/
theorem execute_market_ask_order_loop_counters (real : Bool) :
    ∀ (nodes : List order_t) (g : globals) (m : market_t) (taker : order_t),
    g.deals_id_start < 2 ^ 64 →
    (execute_market_ask_order_loop real nodes g m taker).1.order_id_start = g.order_id_start ∧
    (execute_market_ask_order_loop real nodes g m taker).1.deals_id_start =
      (g.deals_id_start + (execute_market_ask_order_loop real nodes g m taker).2.2.2.length) % 2 ^ 64 ∧
    (execute_market_ask_order_loop real nodes g m taker).2.2.2.map (fun d => d.deal_id) =
      (List.range (execute_market_ask_order_loop real nodes g m taker).2.2.2.length).map
        (fun i => (g.deals_id_start + i + 1) % 2 ^ 64) ∧
    (execute_market_ask_order_loop real nodes g m taker).2.2.1.id = taker.id := by
  intro nodes
  induction nodes with
  | nil =>
    intro g m taker hd
    exact ⟨rfl, (Nat.mod_eq_of_lt hd).symm, rfl, rfl⟩
  | cons maker rest ih =>
    intro g m taker hd
    simp only [execute_market_ask_order_loop]
    by_cases hz : taker.left = 0
    · simp only [if_pos hz]
      refine ⟨?_, ?_, ?_, ?_⟩ <;>
        first | trivial | rfl | exact (Nat.mod_eq_of_lt hd).symm
    simp only [if_neg hz]
    obtain ⟨c1, c2, c3, c4⟩ := ask_taker_deal_counters real g m taker maker
      (if taker.left < maker.left then taker.left else maker.left)
    obtain ⟨i1, i2, i3, i4⟩ := ih
      (ask_taker_deal real g m taker maker
        (if taker.left < maker.left then taker.left else maker.left)).1
      (ask_taker_deal real g m taker maker
        (if taker.left < maker.left then taker.left else maker.left)).2.1
      (ask_taker_deal real g m taker maker
        (if taker.left < maker.left then taker.left else maker.left)).2.2.1
      (by rw [c2]; exact Nat.mod_lt _ (by norm_num))
    refine ⟨i1.trans c1, ?_, ?_, i4.trans c4⟩
    · rw [i2, c2, List.length_cons]
      exact deal_ids_count _ _
    · rw [List.map_cons, i3, c2, c3, List.length_cons]
      exact deal_ids_step _ _

/-- the counters and the taker id through the loop of `execute_market_bid_order`, when it
returns -/
theorem execute_market_bid_order_loop_counters (real : Bool) :
    ∀ (nodes : List order_t) (g : globals) (m : market_t) (taker : order_t)
      (r : globals × market_t × order_t × List deal_t),
    g.deals_id_start < 2 ^ 64 →
    execute_market_bid_order_loop real nodes g m taker = some r →
    r.1.order_id_start = g.order_id_start ∧
    r.1.deals_id_start = (g.deals_id_start + r.2.2.2.length) % 2 ^ 64 ∧
    r.2.2.2.map (fun d => d.deal_id) =
      (List.range r.2.2.2.length).map (fun i => (g.deals_id_start + i + 1) % 2 ^ 64) ∧
    r.2.2.1.id = taker.id := by
  intro nodes
  induction nodes with
  | nil =>
    intro g m taker r hd hr
    cases hr
    exact ⟨rfl, (Nat.mod_eq_of_lt hd).symm, rfl, rfl⟩
  | cons maker rest ih =>
    intro g m taker r hd hr
    rw [execute_market_bid_order_loop] at hr
    by_cases hz : taker.left = 0
    · rw [if_pos hz] at hr
      cases hr
      exact ⟨rfl, (Nat.mod_eq_of_lt hd).symm, rfl, rfl⟩
    rw [if_neg hz] at hr
    simp only at hr
    cases hadj : market_bid_adjust maker.price taker.left m.stock_prec
        (market_bid_fuel maker.price taker.left m.stock_prec
          (mpd_rescale (taker.left / maker.price) m.stock_prec))
        (mpd_rescale (taker.left / maker.price) m.stock_prec) with
    | none => rw [hadj] at hr; cases hr
    | some amount =>
      rw [hadj] at hr
      simp only at hr
      by_cases ha0 : (if amount > maker.left then maker.left else amount) = 0
      · rw [if_pos ha0] at hr
        cases hr
        exact ⟨rfl, (Nat.mod_eq_of_lt hd).symm, rfl, rfl⟩
      rw [if_neg ha0] at hr
      obtain ⟨c1, c2, c3, c4⟩ := bid_taker_deal_counters real true g m taker maker
        (if amount > maker.left then maker.left else amount)
      cases hrest : execute_market_bid_order_loop real rest
          (bid_taker_deal real true g m taker maker
            (if amount > maker.left then maker.left else amount)).1
          (bid_taker_deal real true g m taker maker
            (if amount > maker.left then maker.left else amount)).2.1
          (bid_taker_deal real true g m taker maker
            (if amount > maker.left then maker.left else amount)).2.2.1 with
      | none => rw [hrest] at hr; cases hr
      | some r2 =>
        rw [hrest] at hr
        cases hr
        obtain ⟨i1, i2, i3, i4⟩ := ih _ _ _ r2
          (by rw [c2]; exact Nat.mod_lt _ (by norm_num)) hrest
        refine ⟨i1.trans c1, ?_, ?_, i4.trans c4⟩
        · show r2.1.deals_id_start = _
          rw [i2, c2, List.length_cons]
          exact deal_ids_count _ _
        · show (bid_taker_deal real true g m taker maker
              (if amount > maker.left then maker.left else amount)).2.2.2.deal_id ::
            r2.2.2.2.map (fun d => d.deal_id) = _
          rw [i3, c2, c3, List.length_cons]
          exact deal_ids_step _ _

theorem order_put_counters (g : globals) (m : market_t) (order : order_t) :
    (order_put g m order).2.1.order_id_start = g.order_id_start ∧
    (order_put g m order).2.1.deals_id_start = g.deals_id_start ∧
    (order_put g m order).2.2.2.id = order.id := by
  unfold order_put
  simp only
  split_ifs <;> (try split) <;> (try split) <;> exact ⟨rfl, rfl, rfl⟩

theorem put_limit_close_counters (real : Bool) (g : globals) (m : market_t) (order : order_t) :
    (put_limit_close real g m order).1.order_id_start = g.order_id_start ∧
    (put_limit_close real g m order).1.deals_id_start = g.deals_id_start ∧
    (put_limit_close real g m order).2.2.id = order.id := by
  unfold put_limit_close
  split_ifs
  · exact ⟨emit_order_id_start _ _ _, emit_deals_id_start _ _ _, rfl⟩
  · obtain ⟨k1, k2, k3⟩ := order_put_counters
      (emit real [event.order_message ORDER_EVENT_PUT order m.name] g) m order
    exact ⟨k1.trans (emit_order_id_start _ _ _), k2.trans (emit_deals_id_start _ _ _), k3⟩

/-- no wrap: the ids of the deals are the values above the counter, in increasing order -/
theorem deal_ids_increase {d k : ℕ} (h : d + k < 2 ^ 64) :
    ((List.range k).map (fun i => (d + i + 1) % 2 ^ 64)).Pairwise (fun a b => a < b) ∧
    ∀ x ∈ (List.range k).map (fun i => (d + i + 1) % 2 ^ 64), d < x := by
  have he : (List.range k).map (fun i => (d + i + 1) % 2 ^ 64) =
      (List.range k).map (fun i => d + i + 1) := by
    apply List.map_congr_left
    intro i hi
    rw [List.mem_range] at hi
    exact Nat.mod_eq_of_lt (by omega)
  rw [he]
  constructor
  · rw [List.pairwise_map]
    exact (List.pairwise_lt_range k).imp (fun hab => by omega)
  · intro x hx
    obtain ⟨i, -, rfl⟩ := List.mem_map.mp hx
    omega

theorem put_limit_match_counters (real : Bool) (g : globals) (m : market_t)
    (user_id side : ℕ) (amount price taker_fee maker_fee : ℚ)
    (hd : g.deals_id_start < 2 ^ 64) :
    (put_limit_match real g m user_id side amount price taker_fee maker_fee).1.order_id_start =
      (g.order_id_start + 1) % 2 ^ 64 ∧
    (put_limit_match real g m user_id side amount price taker_fee maker_fee).1.deals_id_start =
      (g.deals_id_start +
        (put_limit_match real g m user_id side amount price taker_fee
          maker_fee).2.2.2.length) % 2 ^ 64 ∧
    (put_limit_match real g m user_id side amount price taker_fee maker_fee).2.2.2.map
        (fun d => d.deal_id) =
      (List.range (put_limit_match real g m user_id side amount price taker_fee
        maker_fee).2.2.2.length).map (fun i => (g.deals_id_start + i + 1) % 2 ^ 64) ∧
    (put_limit_match real g m user_id side amount price taker_fee maker_fee).2.2.1.id =
      (g.order_id_start + 1) % 2 ^ 64 := by
  unfold put_limit_match execute_limit_ask_order execute_limit_bid_order
  simp only
  split_ifs
  · exact execute_limit_ask_order_loop_counters real m.bids
      { g with order_id_start := (g.order_id_start + 1) % 2 ^ 64 } m _ hd
  · exact execute_limit_bid_order_loop_counters real m.asks
      { g with order_id_start := (g.order_id_start + 1) % 2 ^ 64 } m _ hd

/-- C23: let `deals_id_start` hold a 64-bit value. A `market_put_limit_order` or
`market_put_market_order` that returns 0 leaves `order_id_start` one higher (modulo 2^64),
the order it created carries that value as its id, `deals_id_start` is higher (modulo 2^64)
by the number of deals executed, and the deals carry the values `deals_id_start + 1`,
`deals_id_start + 2`, ... in the order of execution. A placement that returns another code,
and every `market_cancel_order`, leaves both counters as they are and executes no deal. So
as long as a counter does not wrap, no command lowers it, the new order id is above every
earlier value of `order_id_start`, and the deal ids of a command are above the earlier value
of `deals_id_start` and strictly increasing. Scenario 1, served from the empty state, ends
with `order_id_start` 2 and `deals_id_start` 1. -/
theorem c23_counters (real : Bool) (g : globals) (m : market_t)
    (hd : g.deals_id_start < 2 ^ 64) :
    (∀ (user_id side : ℕ) (amount price taker_fee maker_fee : ℚ) r,
      r = market_put_limit_order real g m user_id side amount price taker_fee maker_fee →
      (r.1 = 0 →
        r.2.1.order_id_start = (g.order_id_start + 1) % 2 ^ 64 ∧
        (∃ o, r.2.2.2.1 = some o ∧ o.id = (g.order_id_start + 1) % 2 ^ 64) ∧
        r.2.1.deals_id_start = (g.deals_id_start + r.2.2.2.2.length) % 2 ^ 64 ∧
        r.2.2.2.2.map (fun d => d.deal_id) =
          (List.range r.2.2.2.2.length).map (fun i => (g.deals_id_start + i + 1) % 2 ^ 64)) ∧
      (r.1 ≠ 0 → r.2.1.order_id_start = g.order_id_start ∧
        r.2.1.deals_id_start = g.deals_id_start ∧ r.2.2.2.2 = [])) ∧
    (∀ (user_id side : ℕ) (amount taker_fee : ℚ) r,
      market_put_market_order real g m user_id side amount taker_fee = some r →
      (r.1 = 0 →
        r.2.1.order_id_start = (g.order_id_start + 1) % 2 ^ 64 ∧
        (∃ o, r.2.2.2.1 = some o ∧ o.id = (g.order_id_start + 1) % 2 ^ 64) ∧
        r.2.1.deals_id_start = (g.deals_id_start + r.2.2.2.2.length) % 2 ^ 64 ∧
        r.2.2.2.2.map (fun d => d.deal_id) =
          (List.range r.2.2.2.2.length).map (fun i => (g.deals_id_start + i + 1) % 2 ^ 64)) ∧
      (r.1 ≠ 0 → r.2.1.order_id_start = g.order_id_start ∧
        r.2.1.deals_id_start = g.deals_id_start ∧ r.2.2.2.2 = [])) ∧
    (∀ order : order_t,
      (market_cancel_order real g m order).2.1.order_id_start = g.order_id_start ∧
      (market_cancel_order real g m order).2.1.deals_id_start = g.deals_id_start) ∧
    (g.order_id_start + 1 < 2 ^ 64 →
      g.order_id_start < (g.order_id_start + 1) % 2 ^ 64) ∧
    (∀ k : ℕ, g.deals_id_start + k < 2 ^ 64 →
      g.deals_id_start ≤ (g.deals_id_start + k) % 2 ^ 64 ∧
      ((List.range k).map (fun i => (g.deals_id_start + i + 1) % 2 ^ 64)).Pairwise
        (fun a b => a < b) ∧
      ∀ x ∈ (List.range k).map (fun i => (g.deals_id_start + i + 1) % 2 ^ 64),
        g.deals_id_start < x) ∧
    (engine_run (L := scenario_limits) scenario_assets scenario_markets scenario1).map
      (fun e => (e.g.order_id_start, e.g.deals_id_start)) = some (2, 1) := by
  refine ⟨?_, ?_, ?_, ?_, ?_, by decide!⟩
  · intro user_id side amount price taker_fee maker_fee r hr
    subst hr
    unfold market_put_limit_order
    split_ifs
    · exact ⟨fun h => absurd (show (-1 : ℤ) = 0 from h) (by decide), fun _ => ⟨rfl, rfl, rfl⟩⟩
    · exact ⟨fun h => absurd (show (-2 : ℤ) = 0 from h) (by decide), fun _ => ⟨rfl, rfl, rfl⟩⟩
    · refine ⟨fun _ => ?_, fun h => absurd rfl h⟩
      obtain ⟨p1, p2, p3, p4⟩ := put_limit_match_counters real g m user_id side amount price
        taker_fee maker_fee hd
      obtain ⟨q1, q2, q3⟩ := put_limit_close_counters real
        (put_limit_match real g m user_id side amount price taker_fee maker_fee).1
        (put_limit_match real g m user_id side amount price taker_fee maker_fee).2.1
        (put_limit_match real g m user_id side amount price taker_fee maker_fee).2.2.1
      exact ⟨q1.trans p1, ⟨_, rfl, q3.trans p4⟩, q2.trans p2, p3⟩
  · intro user_id side amount taker_fee r hr
    unfold market_put_market_order at hr
    split_ifs at hr with h1 h2
    · cases hr
      exact ⟨fun h => absurd h h1, fun _ => ⟨rfl, rfl, rfl⟩⟩
    · simp only at hr
      cases hr
      obtain ⟨p1, p2, p3, p4⟩ := execute_market_ask_order_loop_counters real m.bids
        { g with order_id_start := (g.order_id_start + 1) % 2 ^ 64 } m
        (new_market_order ((g.order_id_start + 1) % 2 ^ 64) user_id side amount taker_fee) hd
      refine ⟨fun _ => ⟨?_, ⟨_, rfl, p4⟩, ?_, p3⟩, fun h => absurd rfl h⟩
      · exact (emit_order_id_start _ _ _).trans p1
      · exact (emit_deals_id_start _ _ _).trans p2
    · simp only at hr
      cases hb : execute_market_bid_order real
          { g with order_id_start := (g.order_id_start + 1) % 2 ^ 64 } m
          (new_market_order ((g.order_id_start + 1) % 2 ^ 64) user_id side amount taker_fee) with
      | none => rw [hb] at hr; cases hr
      | some r2 =>
        rw [hb] at hr
        cases hr
        obtain ⟨p1, p2, p3, p4⟩ := execute_market_bid_order_loop_counters real m.asks
          { g with order_id_start := (g.order_id_start + 1) % 2 ^ 64 } m
          (new_market_order ((g.order_id_start + 1) % 2 ^ 64) user_id side amount taker_fee)
          r2 hd hb
        refine ⟨fun _ => ⟨?_, ⟨_, rfl, p4⟩, ?_, p3⟩, fun h => absurd rfl h⟩
        · exact (emit_order_id_start _ _ _).trans p1
        · exact (emit_deals_id_start _ _ _).trans p2
  · intro order
    obtain ⟨-, f2, f3, -⟩ := order_finish_frame real
      (emit real [event.order_message ORDER_EVENT_FINISH order m.name] g) m order
    exact ⟨f2.trans (emit_order_id_start _ _ _), f3.trans (emit_deals_id_start _ _ _)⟩
  · intro h
    rw [Nat.mod_eq_of_lt h]
    exact Nat.lt_succ_self _
  · intro k hk
    refine ⟨?_, deal_ids_increase hk⟩
    rw [Nat.mod_eq_of_lt hk]
    exact Nat.le_add_right _ _

/-- Witness for C23: the market bid of 0.001 `MNY` against the ask 1 @ 10. -/
theorem c23_counters_witness :
    ∃ r, market_put_market_order true
        (scenario_globals [(⟨2, BALANCE_TYPE_AVAILABLE, "MNY"⟩, 1000),
          (⟨1, BALANCE_TYPE_FREEZE, "STK"⟩, 1)] 1 0)
        (scenario_market (1 / 10000)
          [{ new_limit_order 1 1 MARKET_ORDER_SIDE_ASK 1 10 0 0 with freeze := 1 }] [])
        2 MARKET_ORDER_SIDE_BID (1 / 1000) 0 = some r ∧
      r.2.1.order_id_start = 2 := by
  have h1 : (market_put_market_order true
        (scenario_globals [(⟨2, BALANCE_TYPE_AVAILABLE, "MNY"⟩, 1000),
          (⟨1, BALANCE_TYPE_FREEZE, "STK"⟩, 1)] 1 0)
        (scenario_market (1 / 10000)
          [{ new_limit_order 1 1 MARKET_ORDER_SIDE_ASK 1 10 0 0 with freeze := 1 }] [])
        2 MARKET_ORDER_SIDE_BID (1 / 1000) 0).map (fun r => r.1) = some 0 := by decide!
  obtain ⟨r, hr⟩ : ∃ r, market_put_market_order true
        (scenario_globals [(⟨2, BALANCE_TYPE_AVAILABLE, "MNY"⟩, 1000),
          (⟨1, BALANCE_TYPE_FREEZE, "STK"⟩, 1)] 1 0)
        (scenario_market (1 / 10000)
          [{ new_limit_order 1 1 MARKET_ORDER_SIDE_ASK 1 10 0 0 with freeze := 1 }] [])
        2 MARKET_ORDER_SIDE_BID (1 / 1000) 0 = some r := by
    cases hx : market_put_market_order true
        (scenario_globals [(⟨2, BALANCE_TYPE_AVAILABLE, "MNY"⟩, 1000),
          (⟨1, BALANCE_TYPE_FREEZE, "STK"⟩, 1)] 1 0)
        (scenario_market (1 / 10000)
          [{ new_limit_order 1 1 MARKET_ORDER_SIDE_ASK 1 10 0 0 with freeze := 1 }] [])
        2 MARKET_ORDER_SIDE_BID (1 / 1000) 0 with
    | none => rw [hx] at h1; cases h1
    | some r => exact ⟨r, rfl⟩
  rw [hr] at h1
  have h0 : r.1 = 0 := Option.some.inj h1
  exact ⟨r, hr, (((c23_counters true
    (scenario_globals [(⟨2, BALANCE_TYPE_AVAILABLE, "MNY"⟩, 1000),
      (⟨1, BALANCE_TYPE_FREEZE, "STK"⟩, 1)] 1 0)
    (scenario_market (1 / 10000)
      [{ new_limit_order 1 1 MARKET_ORDER_SIDE_ASK 1 10 0 0 with freeze := 1 }] [])
    (by decide)).2.1 2 MARKET_ORDER_SIDE_BID (1 / 1000) 0 r hr).1 h0).1⟩

/-! ## The admission gate (C24) and the fee rates of a limit order (C25) -/

/-- C24: for each of the four requests that change the state (`balance.update`,
`order.put_limit`, `order.put_market`, `order.cancel`), when `is_operlog_block`,
`is_history_block` or `is_message_block` holds on arrival, `svr_on_recv_pkg` replies with
code 3 and hands back the engine state it was given: ledger, books, counters, the cache of
applied updates and the log (the operlog included) are untouched, the handler is not called.
When none of the three holds the request goes to its handler. And `is_message_block` holds
exactly when one of the three message lists holds `MAX_PENDING_MESSAGE` messages or more. -/
theorem c24_admission_gate [L : name_limits] (c : pending_limits) (p : pending) (e : engine) (cmd : command) :
    ((is_operlog_block c p = true ∨ is_history_block c p = true ∨
        is_message_block c p = true) →
      svr_on_recv_pkg c p e cmd = some (3, e)) ∧
    (¬ (is_operlog_block c p = true ∨ is_history_block c p = true ∨
        is_message_block c p = true) →
      svr_on_recv_pkg c p e cmd = on_cmd e cmd) ∧
    (is_message_block c p = true ↔
      (c.MAX_PENDING_MESSAGE ≤ p.list_deals_len ∨ c.MAX_PENDING_MESSAGE ≤ p.list_orders_len ∨
        c.MAX_PENDING_MESSAGE ≤ p.list_balances_len)) := by
  refine ⟨fun h => ?_, fun h => ?_, ?_⟩
  · have hb : (is_operlog_block c p || is_history_block c p || is_message_block c p) = true := by
      rcases h with h | h | h <;> simp [h]
    cases cmd <;> simp only [svr_on_recv_pkg, hb, if_true]
  · have hb : ¬ (is_operlog_block c p || is_history_block c p || is_message_block c p) = true := by
      intro hc
      simp only [Bool.or_eq_true] at hc
      rcases hc with (h1 | h1) | h1
      · exact h (Or.inl h1)
      · exact h (Or.inr (Or.inl h1))
      · exact h (Or.inr (Or.inr h1))
    cases cmd <;> simp [svr_on_recv_pkg, hb, on_cmd]
  · unfold is_message_block
    by_cases h1 : p.list_deals_len ≥ c.MAX_PENDING_MESSAGE
    · simp [h1]
    · by_cases h2 : p.list_orders_len ≥ c.MAX_PENDING_MESSAGE
      · simp [h1, h2]
      · by_cases h3 : p.list_balances_len ≥ c.MAX_PENDING_MESSAGE
        · simp [h1, h2, h3]
        · have h1' := h1
          have h2' := h2
          have h3' := h3
          rw [ge_iff_le] at h1' h2' h3'
          simp [h1, h2, h3, h1', h2', h3']

/-- Witness for C24: with 100 requests pending in the operlog job and a limit of 100, the
first credit of the scenarios is refused. -/
theorem c24_admission_gate_witness :
    svr_on_recv_pkg (L := scenario_limits) ⟨100, 1000, 1000⟩ ⟨100, 0, 0, 0, 0⟩
      (scenario_state [])
      (.balance_update 0 1 "STK" "deposit" 1 (some 10)) = some (3, scenario_state []) :=
  (c24_admission_gate (L := scenario_limits) ⟨100, 1000, 1000⟩ ⟨100, 0, 0, 0, 0⟩
    (scenario_state [])
    (.balance_update 0 1 "STK" "deposit" 1 (some 10))).1 (Or.inl (by decide))

theorem order_put_fees (g : globals) (m : market_t) (order : order_t) :
    (order_put g m order).2.2.2.taker_fee = order.taker_fee ∧
      (order_put g m order).2.2.2.maker_fee = order.maker_fee := by
  unfold order_put
  simp only
  split_ifs <;> (try split) <;> exact ⟨rfl, rfl⟩

theorem put_limit_close_fees (real : Bool) (g : globals) (m : market_t) (order : order_t) :
    (put_limit_close real g m order).2.2.taker_fee = order.taker_fee ∧
      (put_limit_close real g m order).2.2.maker_fee = order.maker_fee := by
  unfold put_limit_close
  split_ifs
  · exact ⟨rfl, rfl⟩
  · exact order_put_fees _ _ _

theorem put_limit_match_fees (real : Bool) (g : globals) (m : market_t) (user_id side : ℕ)
    (amount price taker_fee maker_fee : ℚ) :
    (put_limit_match real g m user_id side amount price taker_fee maker_fee).2.2.1.taker_fee =
        taker_fee ∧
      (put_limit_match real g m user_id side amount price taker_fee maker_fee).2.2.1.maker_fee =
        maker_fee := by
  unfold put_limit_match
  simp only
  split_ifs
  · have h := (execute_limit_ask_order_loop_deals real m.bids
      { g with order_id_start := (g.order_id_start + 1) % 2 ^ 64 } m
      (new_limit_order ((g.order_id_start + 1) % 2 ^ 64) user_id side amount price taker_fee
        maker_fee)).2.2
    exact ⟨h.2.2.2.2.2.2.1, h.2.2.2.2.2.2.2.1⟩
  · have h := (execute_limit_bid_order_loop_deals real m.asks
      { g with order_id_start := (g.order_id_start + 1) % 2 ^ 64 } m
      (new_limit_order ((g.order_id_start + 1) % 2 ^ 64) user_id side amount price taker_fee
        maker_fee)).2.2
    exact ⟨h.2.2.2.2.2.2.1, h.2.2.2.2.2.2.2.1⟩

/-- the order that `market_put_limit_order` leaves carries the two rates it was called with -/
theorem market_put_limit_order_fees (real : Bool) (g : globals) (m : market_t)
    (user_id side : ℕ) (amount price taker_fee maker_fee : ℚ) (o : order_t)
    (h : (market_put_limit_order real g m user_id side amount price taker_fee
      maker_fee).2.2.2.1 = some o) :
    o.taker_fee = taker_fee ∧ o.maker_fee = maker_fee := by
  unfold market_put_limit_order at h
  have h1 := put_limit_close_fees real
    (put_limit_match real g m user_id side amount price taker_fee maker_fee).1
    (put_limit_match real g m user_id side amount price taker_fee maker_fee).2.1
    (put_limit_match real g m user_id side amount price taker_fee maker_fee).2.2.1
  have h2 := put_limit_match_fees real g m user_id side amount price taker_fee maker_fee
  split_ifs at h
  all_goals first
    | (cases h; done)
    | (simp only [Option.some.injEq] at h
       subst h
       exact ⟨h1.1.trans h2.1, h1.2.trans h2.2⟩)

/-- C25, counterexample: in the scenario market (`fee_prec` 4), after the credits, user 1
asks 1 @ 100 with `taker_fee` -0.00001 and `maker_fee` 0.00001. The submitted taker fee is
below zero, yet the reply is 0 and not 1, and the order rests with both rates 0: the
submitted maker fee, which lies in [0, 1), is not the rate on the order. -/
theorem c25_counterexample :
    (-1 / 100000 : ℚ) < 0 ∧ (1 / 100000 : ℚ) ≠ 0 ∧
    (on_cmd_order_put_limit (scenario_state scenario_credit) 1 "STKMNY"
      MARKET_ORDER_SIDE_ASK (some 1) (some 100) (some (-1 / 100000)) (some (1 / 100000))).1 = 0 ∧
    (scenario_stkmny (on_cmd_order_put_limit (scenario_state scenario_credit) 1 "STKMNY"
      MARKET_ORDER_SIDE_ASK (some 1) (some 100) (some (-1 / 100000))
        (some (1 / 100000))).2).asks.map
      (fun o => (o.id, o.taker_fee, o.maker_fee)) = [(1, 0, 0)] := by
  decide!

/-- C25, amended: for an `order.put_limit` request that is well formed apart from its fees
(the market exists, the side is ask or bid, amount and price parse and are positive at the
precision of the market), `on_cmd_order_put_limit` replies 1 exactly when the taker or the
maker fee, as `decimal` returns it at `fee_prec` digits, is below 0 or at least 1, and then
the state is unchanged. Otherwise `market_put_limit_order` is called with the two rescaled
rates, its return code decides the reply (10, 11, 2 or 0, never 1), and an order it leaves
carries exactly these two rates. For fees that have no more than `fee_prec` digits the test
is on the submitted values themselves; 0 and 1 minus one unit of `fee_prec` are such fees
and lie in [0, 1). -/
theorem c25_fee_validation (e : engine) (user_id : ℕ) (market_name : String) (side : ℕ)
    (amount price taker_fee maker_fee : ℚ) (market : market_t)
    (hm : get_market e market_name = some market)
    (hside : side % 2 ^ 32 = MARKET_ORDER_SIDE_ASK ∨ side % 2 ^ 32 = MARKET_ORDER_SIDE_BID)
    (ha : 0 < mpd_rescale amount market.stock_prec)
    (hp : 0 < mpd_rescale price market.money_prec) :
    ((on_cmd_order_put_limit e user_id market_name side (some amount) (some price)
        (some taker_fee) (some maker_fee)).1 = 1 ↔
      (mpd_rescale taker_fee market.fee_prec < 0 ∨ 1 ≤ mpd_rescale taker_fee market.fee_prec ∨
        mpd_rescale maker_fee market.fee_prec < 0 ∨
        1 ≤ mpd_rescale maker_fee market.fee_prec)) ∧
    ((on_cmd_order_put_limit e user_id market_name side (some amount) (some price)
        (some taker_fee) (some maker_fee)).1 = 1 →
      (on_cmd_order_put_limit e user_id market_name side (some amount) (some price)
        (some taker_fee) (some maker_fee)).2 = e) ∧
    (¬ (mpd_rescale taker_fee market.fee_prec < 0 ∨ 1 ≤ mpd_rescale taker_fee market.fee_prec ∨
        mpd_rescale maker_fee market.fee_prec < 0 ∨
        1 ≤ mpd_rescale maker_fee market.fee_prec) →
      ∃ r, r = market_put_limit_order true e.g market (user_id % 2 ^ 32) (side % 2 ^ 32)
          (mpd_rescale amount market.stock_prec) (mpd_rescale price market.money_prec)
          (mpd_rescale taker_fee market.fee_prec) (mpd_rescale maker_fee market.fee_prec) ∧
        on_cmd_order_put_limit e user_id market_name side (some amount) (some price)
            (some taker_fee) (some maker_fee) =
          (if r.1 = -1 then (10, { g := r.2.1, dict_market := set_market e.dict_market r.2.2.1 })
           else if r.1 = -2 then
            (11, { g := r.2.1, dict_market := set_market e.dict_market r.2.2.1 })
           else if r.1 < 0 then
            (2, { g := r.2.1, dict_market := set_market e.dict_market r.2.2.1 })
           else (0, { g := emit true [event.operlog "limit_order"] r.2.1,
                      dict_market := set_market e.dict_market r.2.2.1 })) ∧
        ∀ o, r.2.2.2.1 = some o →
          o.taker_fee = mpd_rescale taker_fee market.fee_prec ∧
            o.maker_fee = mpd_rescale maker_fee market.fee_prec) ∧
    (on_grid taker_fee market.fee_prec → on_grid maker_fee market.fee_prec →
      ((on_cmd_order_put_limit e user_id market_name side (some amount) (some price)
          (some taker_fee) (some maker_fee)).1 = 1 ↔
        (taker_fee < 0 ∨ 1 ≤ taker_fee ∨ maker_fee < 0 ∨ 1 ≤ maker_fee))) ∧
    on_grid 0 market.fee_prec ∧
    (on_grid (1 - 1 / 10 ^ market.fee_prec) market.fee_prec ∧
      (0 : ℚ) ≤ 1 - 1 / 10 ^ market.fee_prec ∧ (1 : ℚ) - 1 / 10 ^ market.fee_prec < 1) := by
  have hs : ¬ (side % 2 ^ 32 ≠ MARKET_ORDER_SIDE_ASK ∧ side % 2 ^ 32 ≠ MARKET_ORDER_SIDE_BID) := by
    rintro ⟨h1, h2⟩
    rcases hside with h | h
    · exact h1 h
    · exact h2 h
  have ha' : ¬ mpd_rescale amount market.stock_prec ≤ 0 := not_le.mpr ha
  have hp' : ¬ mpd_rescale price market.money_prec ≤ 0 := not_le.mpr hp
  have hval : ∀ r, r = market_put_limit_order true e.g market (user_id % 2 ^ 32) (side % 2 ^ 32)
        (mpd_rescale amount market.stock_prec) (mpd_rescale price market.money_prec)
        (mpd_rescale taker_fee market.fee_prec) (mpd_rescale maker_fee market.fee_prec) →
      on_cmd_order_put_limit e user_id market_name side (some amount) (some price)
        (some taker_fee) (some maker_fee) =
      if mpd_rescale taker_fee market.fee_prec < 0 ∨ mpd_rescale taker_fee market.fee_prec ≥ 1
      then (1, e)
      else if mpd_rescale maker_fee market.fee_prec < 0 ∨
          mpd_rescale maker_fee market.fee_prec ≥ 1 then (1, e)
      else
        (if r.1 = -1 then (10, { g := r.2.1, dict_market := set_market e.dict_market r.2.2.1 })
         else if r.1 = -2 then
          (11, { g := r.2.1, dict_market := set_market e.dict_market r.2.2.1 })
         else if r.1 < 0 then
          (2, { g := r.2.1, dict_market := set_market e.dict_market r.2.2.1 })
         else (0, { g := emit true [event.operlog "limit_order"] r.2.1,
                    dict_market := set_market e.dict_market r.2.2.1 })) := by
    intro r hr
    subst hr
    unfold on_cmd_order_put_limit
    simp only [hm, decimal, Option.map_some', if_neg hs, if_neg ha', if_neg hp']
  have hiff : (on_cmd_order_put_limit e user_id market_name side (some amount) (some price)
        (some taker_fee) (some maker_fee)).1 = 1 ↔
      (mpd_rescale taker_fee market.fee_prec < 0 ∨ 1 ≤ mpd_rescale taker_fee market.fee_prec ∨
        mpd_rescale maker_fee market.fee_prec < 0 ∨
        1 ≤ mpd_rescale maker_fee market.fee_prec) := by
    rw [hval _ rfl]
    by_cases h1 : mpd_rescale taker_fee market.fee_prec < 0 ∨
        mpd_rescale taker_fee market.fee_prec ≥ 1
    · rw [if_pos h1]
      refine ⟨fun _ => ?_, fun _ => rfl⟩
      rcases h1 with h | h
      · exact Or.inl h
      · exact Or.inr (Or.inl h)
    · rw [if_neg h1]
      by_cases h2 : mpd_rescale maker_fee market.fee_prec < 0 ∨
          mpd_rescale maker_fee market.fee_prec ≥ 1
      · rw [if_pos h2]
        refine ⟨fun _ => ?_, fun _ => rfl⟩
        rcases h2 with h | h
        · exact Or.inr (Or.inr (Or.inl h))
        · exact Or.inr (Or.inr (Or.inr h))
      · rw [if_neg h2]
        constructor
        · intro h
          exfalso
          split_ifs at h <;> simp at h
        · rintro (h | h | h | h)
          · exact absurd (Or.inl h) h1
          · exact absurd (Or.inr h) h1
          · exact absurd (Or.inl h) h2
          · exact absurd (Or.inr h) h2
  refine ⟨hiff, ?_, ?_, ?_, on_grid_zero _, ?_⟩
  · intro h
    have h' := hiff.mp h
    rw [hval _ rfl]
    by_cases h1 : mpd_rescale taker_fee market.fee_prec < 0 ∨
        mpd_rescale taker_fee market.fee_prec ≥ 1
    · rw [if_pos h1]
    · rw [if_neg h1]
      by_cases h2 : mpd_rescale maker_fee market.fee_prec < 0 ∨
          mpd_rescale maker_fee market.fee_prec ≥ 1
      · rw [if_pos h2]
      · exfalso
        rcases h' with h | h | h | h
        · exact h1 (Or.inl h)
        · exact h1 (Or.inr h)
        · exact h2 (Or.inl h)
        · exact h2 (Or.inr h)
  · intro hn
    have h1 : ¬ (mpd_rescale taker_fee market.fee_prec < 0 ∨
        mpd_rescale taker_fee market.fee_prec ≥ 1) := by
      rintro (h | h)
      · exact hn (Or.inl h)
      · exact hn (Or.inr (Or.inl h))
    have h2 : ¬ (mpd_rescale maker_fee market.fee_prec < 0 ∨
        mpd_rescale maker_fee market.fee_prec ≥ 1) := by
      rintro (h | h)
      · exact hn (Or.inr (Or.inr (Or.inl h)))
      · exact hn (Or.inr (Or.inr (Or.inr h)))
    refine ⟨_, rfl, ?_, fun o ho => market_put_limit_order_fees _ _ _ _ _ _ _ _ _ o ho⟩
    rw [hval _ rfl, if_neg h1, if_neg h2]
  · intro g1 g2
    have e1 : mpd_rescale taker_fee market.fee_prec = taker_fee := g1
    have e2 : mpd_rescale maker_fee market.fee_prec = maker_fee := g2
    rw [hiff, e1, e2]
  · have hpos : (0 : ℚ) < 10 ^ market.fee_prec := by positivity
    have hone : (1 : ℚ) ≤ 10 ^ market.fee_prec := one_le_pow₀ (by norm_num)
    refine ⟨?_, ?_, ?_⟩
    · have h := on_grid_of_int ((10 : ℤ) ^ market.fee_prec - 1) market.fee_prec
      have he : (((10 : ℤ) ^ market.fee_prec - 1 : ℤ) : ℚ) / 10 ^ market.fee_prec =
          1 - 1 / 10 ^ market.fee_prec := by
        push_cast
        field_simp
      rwa [he] at h
    · rw [sub_nonneg, div_le_one hpos]
      exact hone
    · have : (0 : ℚ) < 1 / 10 ^ market.fee_prec := by positivity
      linarith

/-- Witness for C25: in the scenario market the fee 0.9999, which is 1 minus one unit of
`fee_prec`, passes, and -0.0001 is refused. -/
theorem c25_fee_validation_witness :
    (on_cmd_order_put_limit (scenario_state scenario_credit) 1 "STKMNY" MARKET_ORDER_SIDE_ASK
        (some 1) (some 100) (some (9999 / 10000)) (some 0)).1 ≠ 1 ∧
    (on_cmd_order_put_limit (scenario_state scenario_credit) 1 "STKMNY" MARKET_ORDER_SIDE_ASK
        (some 1) (some 100) (some (-1 / 10000)) (some 0)).1 = 1 :=
  ⟨fun h => absurd ((c25_fee_validation (scenario_state scenario_credit) 1 "STKMNY"
      MARKET_ORDER_SIDE_ASK 1 100 (9999 / 10000) 0 _ (scenario_stkmny_spec _ (by decide!))
      (by decide) (by decide!) (by decide!)).1.mp h) (by decide!),
    (c25_fee_validation (scenario_state scenario_credit) 1 "STKMNY"
      MARKET_ORDER_SIDE_ASK 1 100 (-1 / 10000) 0 _ (scenario_stkmny_spec _ (by decide!))
      (by decide) (by decide!) (by decide!)).1.mpr (Or.inl (by decide!))⟩

/-! ## Merged depth (C28) -/

theorem mpd_divmod_nonneg {a b : ℚ} (ha : 0 ≤ a) (hb : 0 < b) :
    mpd_divmod a b = ((⌊a / b⌋ : ℚ), a - (⌊a / b⌋ : ℚ) * b) := by
  unfold mpd_divmod
  simp only
  rw [if_pos (div_nonneg ha hb.le)]

theorem depth_ask_price_spec {interval p : ℚ} (hi : 0 < interval) (hp : 0 ≤ p) :
    smallest_multiple_ge interval p (depth_ask_price interval p) := by
  unfold depth_ask_price
  simp only
  rw [mpd_divmod_nonneg hp hi]
  simp only
  have hfl : (⌊p / interval⌋ : ℚ) * interval ≤ p := by
    have := Int.floor_le (p / interval)
    calc (⌊p / interval⌋ : ℚ) * interval ≤ p / interval * interval :=
          mul_le_mul_of_nonneg_right this hi.le
      _ = p := div_mul_cancel₀ p hi.ne'
  have hlt : p < ((⌊p / interval⌋ : ℚ) + 1) * interval := by
    have := Int.lt_floor_add_one (p / interval)
    calc p = p / interval * interval := (div_mul_cancel₀ p hi.ne').symm
      _ < ((⌊p / interval⌋ : ℚ) + 1) * interval := mul_lt_mul_of_pos_right this hi
  by_cases hr : p - (⌊p / interval⌋ : ℚ) * interval ≠ 0
  · rw [if_pos hr]
    refine ⟨⟨⌊p / interval⌋ + 1, by push_cast; ring⟩, ?_, ?_⟩
    · have : (⌊p / interval⌋ : ℚ) * interval + interval =
          ((⌊p / interval⌋ : ℚ) + 1) * interval := by ring
      rw [this]
      exact hlt.le
    · intro j hj
      have hj1 : p / interval ≤ (j : ℚ) := by
        rw [div_le_iff₀ hi]
        exact hj
      have hj2 : ⌊p / interval⌋ ≤ j := by
        have := (Int.floor_le (p / interval)).trans hj1
        exact_mod_cast this
      have hj3 : ⌊p / interval⌋ ≠ j := by
        intro he
        apply hr
        have h1 : (j : ℚ) * interval ≤ p := by rw [← he]; exact hfl
        have h2 : p = (j : ℚ) * interval := le_antisymm hj h1
        rw [he]
        linarith
      have hj4 : ⌊p / interval⌋ + 1 ≤ j := by omega
      have hj5 : ((⌊p / interval⌋ : ℚ) + 1) ≤ (j : ℚ) := by exact_mod_cast hj4
      calc (⌊p / interval⌋ : ℚ) * interval + interval
          = ((⌊p / interval⌋ : ℚ) + 1) * interval := by ring
        _ ≤ (j : ℚ) * interval := mul_le_mul_of_nonneg_right hj5 hi.le
  · rw [if_neg hr]
    have hr0 : p - (⌊p / interval⌋ : ℚ) * interval = 0 := not_not.mp hr
    have he : (⌊p / interval⌋ : ℚ) * interval = p := by linarith
    refine ⟨⟨⌊p / interval⌋, rfl⟩, by rw [he], ?_⟩
    intro j hj
    rw [he]
    exact hj

theorem depth_bid_price_spec {interval p : ℚ} (hi : 0 < interval) (hp : 0 ≤ p) :
    largest_multiple_le interval p (depth_bid_price interval p) := by
  unfold depth_bid_price
  simp only
  rw [mpd_divmod_nonneg hp hi]
  simp only
  refine ⟨⟨⌊p / interval⌋, rfl⟩, ?_, ?_⟩
  · have := Int.floor_le (p / interval)
    calc (⌊p / interval⌋ : ℚ) * interval ≤ p / interval * interval :=
          mul_le_mul_of_nonneg_right this hi.le
      _ = p := div_mul_cancel₀ p hi.ne'
  · intro j hj
    have hj1 : (j : ℚ) ≤ p / interval := by
      rw [le_div_iff₀ hi]
      exact hj
    have hj2 : j ≤ ⌊p / interval⌋ := Int.le_floor.mpr hj1
    have hj3 : (j : ℚ) ≤ (⌊p / interval⌋ : ℚ) := by exact_mod_cast hj2
    exact mul_le_mul_of_nonneg_right hj3 hi.le

theorem depth_asks_inner_spec (price : ℚ) :
    ∀ (nodes : List order_t) (amount : ℚ), ∃ grp rest, nodes = grp ++ rest ∧
      depth_asks_inner price nodes amount = (amount + (grp.map (fun o => o.left)).sum, rest) ∧
      (∀ o ∈ grp, o.price ≤ price) ∧ (∀ o ∈ rest.head?, price < o.price) := by
  intro nodes
  induction nodes with
  | nil =>
    intro amount
    exact ⟨[], [], rfl, by simp [depth_asks_inner], fun o ho => (by cases ho),
      fun o ho => (by cases ho)⟩
  | cons order nodes ih =>
    intro amount
    unfold depth_asks_inner
    by_cases h : price ≥ order.price
    · rw [if_pos h]
      obtain ⟨grp, rest, h1, h2, h3, h4⟩ := ih (amount + order.left)
      refine ⟨order :: grp, rest, by rw [h1]; rfl, ?_, ?_, h4⟩
      · rw [h2, List.map_cons, List.sum_cons, add_assoc]
      · intro o ho
        rcases List.mem_cons.mp ho with rfl | ho
        · exact h
        · exact h3 o ho
    · rw [if_neg h]
      refine ⟨[], order :: nodes, rfl, by simp, fun o ho => (by cases ho), ?_⟩
      intro o ho
      simp only [List.head?_cons, Option.mem_def, Option.some.injEq] at ho
      subst ho
      exact not_le.mp h

theorem depth_bids_inner_spec (price : ℚ) :
    ∀ (nodes : List order_t) (amount : ℚ), ∃ grp rest, nodes = grp ++ rest ∧
      depth_bids_inner price nodes amount = (amount + (grp.map (fun o => o.left)).sum, rest) ∧
      (∀ o ∈ grp, price ≤ o.price) ∧ (∀ o ∈ rest.head?, o.price < price) := by
  intro nodes
  induction nodes with
  | nil =>
    intro amount
    exact ⟨[], [], rfl, by simp [depth_bids_inner], fun o ho => (by cases ho),
      fun o ho => (by cases ho)⟩
  | cons order nodes ih =>
    intro amount
    unfold depth_bids_inner
    by_cases h : price ≤ order.price
    · rw [if_pos h]
      obtain ⟨grp, rest, h1, h2, h3, h4⟩ := ih (amount + order.left)
      refine ⟨order :: grp, rest, by rw [h1]; rfl, ?_, ?_, h4⟩
      · rw [h2, List.map_cons, List.sum_cons, add_assoc]
      · intro o ho
        rcases List.mem_cons.mp ho with rfl | ho
        · exact h
        · exact h3 o ho
    · rw [if_neg h]
      refine ⟨[], order :: nodes, rfl, by simp, fun o ho => (by cases ho), ?_⟩
      intro o ho
      simp only [List.head?_cons, Option.mem_def, Option.some.injEq] at ho
      subst ho
      exact not_le.mp h

/-- the levels of the ask loop of `get_depth_merge` as consecutive groups of the book -/
theorem depth_asks_loop_groups (interval : ℚ) :
    ∀ (n : ℕ) (nodes : List order_t), ∃ groups : List (order_t × List order_t),
      (∃ rest, nodes = depth_members groups ++ rest ∧ (rest ≠ [] → groups.length = n)) ∧
      groups.length ≤ n ∧
      depth_asks_loop interval n nodes =
        groups.map (fun grp => (depth_ask_price interval grp.1.price, depth_amount grp)) ∧
      (∀ grp ∈ groups, ∀ o ∈ grp.2, o.price ≤ depth_ask_price interval grp.1.price) ∧
      (∀ grp ∈ groups, ∀ o ∈ grp.1 :: grp.2, o ∈ nodes) := by
  intro n
  induction n with
  | zero =>
    intro nodes
    exact ⟨[], ⟨nodes, rfl, fun _ => rfl⟩, le_rfl, by cases nodes <;> rfl,
      fun grp hg => (by cases hg), fun grp hg => (by cases hg)⟩
  | succ n ih =>
    intro nodes
    cases nodes with
    | nil =>
      exact ⟨[], ⟨[], rfl, fun h => absurd rfl h⟩, Nat.zero_le _, rfl,
        fun grp hg => (by cases hg), fun grp hg => (by cases hg)⟩
    | cons order nodes =>
      obtain ⟨grp, rest, h1, h2, h3, _⟩ :=
        depth_asks_inner_spec (depth_ask_price interval order.price) nodes order.left
      obtain ⟨groups, ⟨rest2, k1, k2⟩, k3, k4, k5, k6⟩ := ih rest
      refine ⟨(order, grp) :: groups, ⟨rest2, ?_, ?_⟩, ?_, ?_, ?_, ?_⟩
      · rw [h1, k1]
        simp [depth_members]
      · intro hr
        rw [List.length_cons, k2 hr]
      · rw [List.length_cons]
        omega
      · show (depth_ask_price interval order.price,
            (depth_asks_inner (depth_ask_price interval order.price) nodes order.left).1) ::
          depth_asks_loop interval n
            (depth_asks_inner (depth_ask_price interval order.price) nodes order.left).2 = _
        rw [h2, List.map_cons, k4]
        simp [depth_amount]
      · intro g hg o ho
        rcases List.mem_cons.mp hg with rfl | hg
        · exact h3 o ho
        · exact k5 g hg o ho
      · intro g hg o ho
        rcases List.mem_cons.mp hg with rfl | hg
        · rcases List.mem_cons.mp ho with rfl | ho
          · exact List.mem_cons_self _ _
          · rw [h1]
            exact List.mem_cons_of_mem _ (List.mem_append_left _ ho)
        · have := k6 g hg o ho
          rw [h1]
          exact List.mem_cons_of_mem _ (List.mem_append_right _ this)

/-- the levels of the bid loop of `get_depth_merge` as consecutive groups of the book -/
theorem depth_bids_loop_groups (interval : ℚ) :
    ∀ (n : ℕ) (nodes : List order_t), ∃ groups : List (order_t × List order_t),
      (∃ rest, nodes = depth_members groups ++ rest ∧ (rest ≠ [] → groups.length = n)) ∧
      groups.length ≤ n ∧
      depth_bids_loop interval n nodes =
        groups.map (fun grp => (depth_bid_price interval grp.1.price, depth_amount grp)) ∧
      (∀ grp ∈ groups, ∀ o ∈ grp.2, depth_bid_price interval grp.1.price ≤ o.price) ∧
      (∀ grp ∈ groups, ∀ o ∈ grp.1 :: grp.2, o ∈ nodes) := by
  intro n
  induction n with
  | zero =>
    intro nodes
    exact ⟨[], ⟨nodes, rfl, fun _ => rfl⟩, le_rfl, by cases nodes <;> rfl,
      fun grp hg => (by cases hg), fun grp hg => (by cases hg)⟩
  | succ n ih =>
    intro nodes
    cases nodes with
    | nil =>
      exact ⟨[], ⟨[], rfl, fun h => absurd rfl h⟩, Nat.zero_le _, rfl,
        fun grp hg => (by cases hg), fun grp hg => (by cases hg)⟩
    | cons order nodes =>
      obtain ⟨grp, rest, h1, h2, h3, _⟩ :=
        depth_bids_inner_spec (depth_bid_price interval order.price) nodes order.left
      obtain ⟨groups, ⟨rest2, k1, k2⟩, k3, k4, k5, k6⟩ := ih rest
      refine ⟨(order, grp) :: groups, ⟨rest2, ?_, ?_⟩, ?_, ?_, ?_, ?_⟩
      · rw [h1, k1]
        simp [depth_members]
      · intro hr
        rw [List.length_cons, k2 hr]
      · rw [List.length_cons]
        omega
      · show (depth_bid_price interval order.price,
            (depth_bids_inner (depth_bid_price interval order.price) nodes order.left).1) ::
          depth_bids_loop interval n
            (depth_bids_inner (depth_bid_price interval order.price) nodes order.left).2 = _
        rw [h2, List.map_cons, k4]
        simp [depth_amount]
      · intro g hg o ho
        rcases List.mem_cons.mp hg with rfl | hg
        · exact h3 o ho
        · exact k5 g hg o ho
      · intro g hg o ho
        rcases List.mem_cons.mp hg with rfl | hg
        · rcases List.mem_cons.mp ho with rfl | ho
          · exact List.mem_cons_self _ _
          · rw [h1]
            exact List.mem_cons_of_mem _ (List.mem_append_left _ ho)
        · have := k6 g hg o ho
          rw [h1]
          exact List.mem_cons_of_mem _ (List.mem_append_right _ this)

theorem depth_asks_loop_head (interval : ℚ) (n : ℕ) (nodes : List order_t) :
    ∀ y ∈ ((depth_asks_loop interval n nodes).map Prod.fst).head?,
      ∃ o rest, nodes = o :: rest ∧ y = depth_ask_price interval o.price := by
  intro y hy
  cases n with
  | zero => cases nodes <;> cases hy
  | succ n =>
    cases nodes with
    | nil => cases hy
    | cons order nodes =>
      simp only [depth_asks_loop, List.map_cons, List.head?_cons, Option.mem_def,
        Option.some.injEq] at hy
      exact ⟨order, nodes, rfl, hy.symm⟩

theorem depth_bids_loop_head (interval : ℚ) (n : ℕ) (nodes : List order_t) :
    ∀ y ∈ ((depth_bids_loop interval n nodes).map Prod.fst).head?,
      ∃ o rest, nodes = o :: rest ∧ y = depth_bid_price interval o.price := by
  intro y hy
  cases n with
  | zero => cases nodes <;> cases hy
  | succ n =>
    cases nodes with
    | nil => cases hy
    | cons order nodes =>
      simp only [depth_bids_loop, List.map_cons, List.head?_cons, Option.mem_def,
        Option.some.injEq] at hy
      exact ⟨order, nodes, rfl, hy.symm⟩

/-- the level prices of the ask loop of `get_depth_merge` increase strictly -/
theorem depth_asks_loop_chain {interval : ℚ} (hi : 0 < interval) :
    ∀ (n : ℕ) (nodes : List order_t), (∀ o ∈ nodes, 0 ≤ o.price) →
      List.Chain' (fun a b : ℚ => a < b) ((depth_asks_loop interval n nodes).map Prod.fst) := by
  intro n
  induction n with
  | zero =>
    intro nodes _
    cases nodes <;> exact List.chain'_nil
  | succ n ih =>
    intro nodes hp
    cases nodes with
    | nil => exact List.chain'_nil
    | cons order nodes =>
      obtain ⟨grp, rest, h1, h2, _, h4⟩ :=
        depth_asks_inner_spec (depth_ask_price interval order.price) nodes order.left
      have hrest : ∀ o ∈ rest, 0 ≤ o.price := fun o ho =>
        hp o (List.mem_cons_of_mem _ (by rw [h1]; exact List.mem_append_right _ ho))
      show List.Chain' _ (((depth_ask_price interval order.price,
            (depth_asks_inner (depth_ask_price interval order.price) nodes order.left).1) ::
          depth_asks_loop interval n
            (depth_asks_inner (depth_ask_price interval order.price) nodes
              order.left).2).map Prod.fst)
      rw [h2, List.map_cons, List.chain'_cons']
      refine ⟨?_, ih rest hrest⟩
      intro y hy
      obtain ⟨o, rest2, e1, e2⟩ := depth_asks_loop_head interval n rest y hy
      have h5 : depth_ask_price interval order.price < o.price :=
        h4 o (by rw [e1]; rfl)
      have h6 : o.price ≤ depth_ask_price interval o.price :=
        (depth_ask_price_spec hi (hrest o (by rw [e1]; exact List.mem_cons_self _ _))).2.1
      rw [e2]
      exact lt_of_lt_of_le h5 h6

/-- the level prices of the bid loop of `get_depth_merge` decrease strictly -/
theorem depth_bids_loop_chain {interval : ℚ} (hi : 0 < interval) :
    ∀ (n : ℕ) (nodes : List order_t), (∀ o ∈ nodes, 0 ≤ o.price) →
      List.Chain' (fun a b : ℚ => b < a) ((depth_bids_loop interval n nodes).map Prod.fst) := by
  intro n
  induction n with
  | zero =>
    intro nodes _
    cases nodes <;> exact List.chain'_nil
  | succ n ih =>
    intro nodes hp
    cases nodes with
    | nil => exact List.chain'_nil
    | cons order nodes =>
      obtain ⟨grp, rest, h1, h2, _, h4⟩ :=
        depth_bids_inner_spec (depth_bid_price interval order.price) nodes order.left
      have hrest : ∀ o ∈ rest, 0 ≤ o.price := fun o ho =>
        hp o (List.mem_cons_of_mem _ (by rw [h1]; exact List.mem_append_right _ ho))
      show List.Chain' _ (((depth_bid_price interval order.price,
            (depth_bids_inner (depth_bid_price interval order.price) nodes order.left).1) ::
          depth_bids_loop interval n
            (depth_bids_inner (depth_bid_price interval order.price) nodes
              order.left).2).map Prod.fst)
      rw [h2, List.map_cons, List.chain'_cons']
      refine ⟨?_, ih rest hrest⟩
      intro y hy
      obtain ⟨o, rest2, e1, e2⟩ := depth_bids_loop_head interval n rest y hy
      have h5 : o.price < depth_bid_price interval order.price :=
        h4 o (by rw [e1]; rfl)
      have h6 : depth_bid_price interval o.price ≤ o.price :=
        (depth_bid_price_spec hi (hrest o (by rw [e1]; exact List.mem_cons_self _ _))).2.1
      rw [e2]
      exact lt_of_le_of_lt h6 h5

/-- C28: for every interval > 0 and every limit, on a book whose prices are not negative,
`get_depth_merge` returns on each side at most `limit` levels, and the levels are those of
consecutive groups of orders of the book, taken from its head without gap or overlap (so
an order is in at most one level, and the book is covered entirely when fewer than `limit`
levels come out): the price of an ask level is the smallest multiple of `interval` that is
at least the price of the first order of its group, the price of a bid level the largest
multiple that is at most that price; no order of an ask group is priced above its level,
none of a bid group below; the amount of a level is the sum of `left` over its group; and
the level prices increase strictly on the ask side and decrease strictly on the bid
side. -/
theorem c28_get_depth_merge (market : market_t) (limit : ℕ) (interval : ℚ)
    (hi : 0 < interval) (hp : ∀ o ∈ market.asks ++ market.bids, 0 ≤ o.price) :
    (∃ groups : List (order_t × List order_t),
      (get_depth_merge market limit interval).1 =
        groups.map (fun grp => (depth_ask_price interval grp.1.price, depth_amount grp)) ∧
      groups.length ≤ limit ∧
      depth_members groups <+: market.asks ∧
      (groups.length < limit → depth_members groups = market.asks) ∧
      (∀ grp ∈ groups,
        smallest_multiple_ge interval grp.1.price (depth_ask_price interval grp.1.price) ∧
        ∀ o ∈ grp.1 :: grp.2, o.price ≤ depth_ask_price interval grp.1.price) ∧
      ((get_depth_merge market limit interval).1.map Prod.fst).Pairwise (fun a b => a < b)) ∧
    (∃ groups : List (order_t × List order_t),
      (get_depth_merge market limit interval).2 =
        groups.map (fun grp => (depth_bid_price interval grp.1.price, depth_amount grp)) ∧
      groups.length ≤ limit ∧
      depth_members groups <+: market.bids ∧
      (groups.length < limit → depth_members groups = market.bids) ∧
      (∀ grp ∈ groups,
        largest_multiple_le interval grp.1.price (depth_bid_price interval grp.1.price) ∧
        ∀ o ∈ grp.1 :: grp.2, depth_bid_price interval grp.1.price ≤ o.price) ∧
      ((get_depth_merge market limit interval).2.map Prod.fst).Pairwise (fun a b => b < a)) := by
  have hpa : ∀ o ∈ market.asks, 0 ≤ o.price := fun o ho => hp o (List.mem_append_left _ ho)
  have hpb : ∀ o ∈ market.bids, 0 ≤ o.price := fun o ho => hp o (List.mem_append_right _ ho)
  constructor
  · obtain ⟨groups, ⟨rest, k1, k2⟩, k3, k4, k5, k6⟩ :=
      depth_asks_loop_groups interval limit market.asks
    refine ⟨groups, k4, k3, ⟨rest, k1.symm⟩, ?_, ?_, ?_⟩
    · intro hlt
      by_cases hr : rest = []
      · rw [k1, hr, List.append_nil]
      · exact absurd (k2 hr) (Nat.ne_of_lt hlt)
    · intro grp hg
      have h0 : 0 ≤ grp.1.price := hpa _ (k6 grp hg grp.1 (List.mem_cons_self _ _))
      refine ⟨depth_ask_price_spec hi h0, ?_⟩
      intro o ho
      rcases List.mem_cons.mp ho with rfl | ho
      · exact (depth_ask_price_spec hi h0).2.1
      · exact k5 grp hg o ho
    · exact List.chain'_iff_pairwise.mp (depth_asks_loop_chain hi limit market.asks hpa)
  · obtain ⟨groups, ⟨rest, k1, k2⟩, k3, k4, k5, k6⟩ :=
      depth_bids_loop_groups interval limit market.bids
    refine ⟨groups, k4, k3, ⟨rest, k1.symm⟩, ?_, ?_, ?_⟩
    · intro hlt
      by_cases hr : rest = []
      · rw [k1, hr, List.append_nil]
      · exact absurd (k2 hr) (Nat.ne_of_lt hlt)
    · intro grp hg
      have h0 : 0 ≤ grp.1.price := hpb _ (k6 grp hg grp.1 (List.mem_cons_self _ _))
      refine ⟨depth_bid_price_spec hi h0, ?_⟩
      intro o ho
      rcases List.mem_cons.mp ho with rfl | ho
      · exact (depth_bid_price_spec hi h0).2.1
      · exact k5 grp hg o ho
    · have hc := depth_bids_loop_chain hi limit market.bids hpb
      exact (List.chain'_iff_pairwise (R := fun a b : ℚ => b < a)).mp hc

/-- Witness for C28: the book of `scenario_depth_market` merged at interval 0.5 with
limit 2 gives the ask levels 100.5 (amount 3) and 101.5 (amount 3) and the bid levels
99.5 (amount 9) and 99 (amount 6). -/
theorem c28_get_depth_merge_witness :
    get_depth_merge scenario_depth_market 2 (1 / 2) =
      ([(201 / 2, 3), (203 / 2, 3)], [(199 / 2, 9), (99, 6)]) ∧
    ((get_depth_merge scenario_depth_market 2 (1 / 2)).1.map Prod.fst).Pairwise
      (fun a b => a < b) ∧
    ((get_depth_merge scenario_depth_market 2 (1 / 2)).2.map Prod.fst).Pairwise
      (fun a b => b < a) :=
  ⟨by decide!,
    (c28_get_depth_merge scenario_depth_market 2 (1 / 2) (by norm_num)
      (by decide!)).1.choose_spec.2.2.2.2.2,
    (c28_get_depth_merge scenario_depth_market 2 (1 / 2) (by norm_num)
      (by decide!)).2.choose_spec.2.2.2.2.2⟩

/-! ## The message buffers (C29) -/

theorem push_message_count (produce : ℕ → produce_result) (message : String) (topic : topic_t)
    (list : List String) (rk : kafka_t) (x : topic_t × String) :
    List.countP (fun y => decide (y = x)) (push_message produce message topic list rk).2.2.produced +
        List.countP (fun y => decide (y = x)) (push_message produce message topic list rk).2.2.dropped +
        List.countP (fun y => decide (y = x)) ((push_message produce message topic list rk).2.1.map
          (fun m => (topic, m))) =
      List.countP (fun y => decide (y = x)) rk.produced + List.countP (fun y => decide (y = x)) rk.dropped +
        List.countP (fun y => decide (y = x)) (list.map (fun m => (topic, m))) + List.countP (fun y => decide (y = x)) [(topic, message)] := by
  unfold push_message
  split_ifs
  · simp only [List.map_append, List.countP_append, List.map_cons, List.map_nil]
    omega
  · split <;>
      simp only [List.map_append, List.countP_append, List.map_cons, List.map_nil] <;> omega

theorem push_message_dropped (produce : ℕ → produce_result) (h : ∀ k, produce k ≠ .failed)
    (message : String) (topic : topic_t) (list : List String) (rk : kafka_t) :
    (push_message produce message topic list rk).2.2.dropped = rk.dropped ∧
      (push_message produce message topic list rk).1 = 0 := by
  unfold push_message
  split_ifs
  · exact ⟨rfl, rfl⟩
  · split
    · exact ⟨rfl, rfl⟩
    · exact ⟨rfl, rfl⟩
    · rename_i hk
      exact absurd hk (h _)

theorem produce_list_count (produce : ℕ → produce_result) (topic : topic_t)
    (x : topic_t × String) :
    ∀ (list : List String) (rk : kafka_t),
      List.countP (fun y => decide (y = x)) (produce_list produce topic list rk).2.produced +
          List.countP (fun y => decide (y = x)) (produce_list produce topic list rk).2.dropped +
          List.countP (fun y => decide (y = x)) ((produce_list produce topic list rk).1.map (fun m => (topic, m))) =
        List.countP (fun y => decide (y = x)) rk.produced + List.countP (fun y => decide (y = x)) rk.dropped +
          List.countP (fun y => decide (y = x)) (list.map (fun m => (topic, m))) := by
  intro list
  induction list with
  | nil => intro rk; rfl
  | cons node rest ih =>
    intro rk
    unfold produce_list
    split
    · rw [ih]
      simp only [List.countP_append, List.map_cons, List.countP_cons, List.countP_nil]
      omega
    · rfl
    · rw [ih]
      simp only [List.countP_append, List.map_cons, List.countP_cons, List.countP_nil]
      omega

theorem produce_list_dropped (produce : ℕ → produce_result) (h : ∀ k, produce k ≠ .failed)
    (topic : topic_t) :
    ∀ (list : List String) (rk : kafka_t),
      (produce_list produce topic list rk).2.dropped = rk.dropped := by
  intro list
  induction list with
  | nil => intro rk; rfl
  | cons node rest ih =>
    intro rk
    unfold produce_list
    split
    · rw [ih]
    · rfl
    · rename_i hk
      exact absurd hk (h _)

/-- the timer neither creates nor loses a message: each one stays produced, dropped or
buffered -/
theorem on_timer_count (produce : ℕ → produce_result) (s : message_state)
    (x : topic_t × String) :
    List.countP (fun y => decide (y = x)) (on_timer produce s).rk.produced + List.countP (fun y => decide (y = x)) (on_timer produce s).rk.dropped +
        List.countP (fun y => decide (y = x)) (buffered_messages (on_timer produce s)) =
      List.countP (fun y => decide (y = x)) s.rk.produced + List.countP (fun y => decide (y = x)) s.rk.dropped +
        List.countP (fun y => decide (y = x)) (buffered_messages s) := by
  have key1 : ∀ s : message_state,
      List.countP (fun y => decide (y = x)) (if s.list_balances.length ≠ 0 then
          { s with list_balances := (produce_list produce .balances s.list_balances s.rk).1,
                   rk := (produce_list produce .balances s.list_balances s.rk).2 }
          else s).rk.produced +
        List.countP (fun y => decide (y = x)) (if s.list_balances.length ≠ 0 then
          { s with list_balances := (produce_list produce .balances s.list_balances s.rk).1,
                   rk := (produce_list produce .balances s.list_balances s.rk).2 }
          else s).rk.dropped +
        List.countP (fun y => decide (y = x)) (buffered_messages (if s.list_balances.length ≠ 0 then
          { s with list_balances := (produce_list produce .balances s.list_balances s.rk).1,
                   rk := (produce_list produce .balances s.list_balances s.rk).2 }
          else s)) =
      List.countP (fun y => decide (y = x)) s.rk.produced + List.countP (fun y => decide (y = x)) s.rk.dropped +
        List.countP (fun y => decide (y = x)) (buffered_messages s) := by
    intro s
    split_ifs
    · have hb := produce_list_count produce .balances x s.list_balances s.rk
      simp only [buffered_messages, List.countP_append] at hb ⊢
      omega
    · rfl
  have key2 : ∀ s : message_state,
      List.countP (fun y => decide (y = x)) (if s.list_orders.length ≠ 0 then
          { s with list_orders := (produce_list produce .orders s.list_orders s.rk).1,
                   rk := (produce_list produce .orders s.list_orders s.rk).2 }
          else s).rk.produced +
        List.countP (fun y => decide (y = x)) (if s.list_orders.length ≠ 0 then
          { s with list_orders := (produce_list produce .orders s.list_orders s.rk).1,
                   rk := (produce_list produce .orders s.list_orders s.rk).2 }
          else s).rk.dropped +
        List.countP (fun y => decide (y = x)) (buffered_messages (if s.list_orders.length ≠ 0 then
          { s with list_orders := (produce_list produce .orders s.list_orders s.rk).1,
                   rk := (produce_list produce .orders s.list_orders s.rk).2 }
          else s)) =
      List.countP (fun y => decide (y = x)) s.rk.produced + List.countP (fun y => decide (y = x)) s.rk.dropped +
        List.countP (fun y => decide (y = x)) (buffered_messages s) := by
    intro s
    split_ifs
    · have hb := produce_list_count produce .orders x s.list_orders s.rk
      simp only [buffered_messages, List.countP_append] at hb ⊢
      omega
    · rfl
  have key3 : ∀ s : message_state,
      List.countP (fun y => decide (y = x)) (if s.list_deals.length ≠ 0 then
          { s with list_deals := (produce_list produce .deals s.list_deals s.rk).1,
                   rk := (produce_list produce .deals s.list_deals s.rk).2 }
          else s).rk.produced +
        List.countP (fun y => decide (y = x)) (if s.list_deals.length ≠ 0 then
          { s with list_deals := (produce_list produce .deals s.list_deals s.rk).1,
                   rk := (produce_list produce .deals s.list_deals s.rk).2 }
          else s).rk.dropped +
        List.countP (fun y => decide (y = x)) (buffered_messages (if s.list_deals.length ≠ 0 then
          { s with list_deals := (produce_list produce .deals s.list_deals s.rk).1,
                   rk := (produce_list produce .deals s.list_deals s.rk).2 }
          else s)) =
      List.countP (fun y => decide (y = x)) s.rk.produced + List.countP (fun y => decide (y = x)) s.rk.dropped +
        List.countP (fun y => decide (y = x)) (buffered_messages s) := by
    intro s
    split_ifs
    · have hb := produce_list_count produce .deals x s.list_deals s.rk
      simp only [buffered_messages, List.countP_append] at hb ⊢
      omega
    · rfl
  exact (key3 _).trans ((key2 _).trans (key1 s))

theorem on_timer_dropped (produce : ℕ → produce_result) (h : ∀ k, produce k ≠ .failed)
    (s : message_state) : (on_timer produce s).rk.dropped = s.rk.dropped := by
  have key1 : ∀ s : message_state,
      (if s.list_balances.length ≠ 0 then
          { s with list_balances := (produce_list produce .balances s.list_balances s.rk).1,
                   rk := (produce_list produce .balances s.list_balances s.rk).2 }
          else s).rk.dropped = s.rk.dropped := by
    intro s
    split_ifs
    · exact produce_list_dropped produce h _ _ _
    · rfl
  have key2 : ∀ s : message_state,
      (if s.list_orders.length ≠ 0 then
          { s with list_orders := (produce_list produce .orders s.list_orders s.rk).1,
                   rk := (produce_list produce .orders s.list_orders s.rk).2 }
          else s).rk.dropped = s.rk.dropped := by
    intro s
    split_ifs
    · exact produce_list_dropped produce h _ _ _
    · rfl
  have key3 : ∀ s : message_state,
      (if s.list_deals.length ≠ 0 then
          { s with list_deals := (produce_list produce .deals s.list_deals s.rk).1,
                   rk := (produce_list produce .deals s.list_deals s.rk).2 }
          else s).rk.dropped = s.rk.dropped := by
    intro s
    split_ifs
    · exact produce_list_dropped produce h _ _ _
    · rfl
  exact (key3 _).trans ((key2 _).trans (key1 s))

theorem push_topic_message_count (produce : ℕ → produce_result) (topic : topic_t)
    (message : String) (s : message_state) (x : topic_t × String) :
    List.countP (fun y => decide (y = x)) (push_topic_message produce topic message s).rk.produced +
        List.countP (fun y => decide (y = x)) (push_topic_message produce topic message s).rk.dropped +
        List.countP (fun y => decide (y = x)) (buffered_messages (push_topic_message produce topic message s)) =
      List.countP (fun y => decide (y = x)) s.rk.produced + List.countP (fun y => decide (y = x)) s.rk.dropped +
        List.countP (fun y => decide (y = x)) (buffered_messages s) + List.countP (fun y => decide (y = x)) [(topic, message)] := by
  cases topic
  · have hb := push_message_count produce message .balances s.list_balances s.rk x
    simp only [push_topic_message, buffered_messages, List.countP_append] at hb ⊢
    omega
  · have hb := push_message_count produce message .orders s.list_orders s.rk x
    simp only [push_topic_message, buffered_messages, List.countP_append] at hb ⊢
    omega
  · have hb := push_message_count produce message .deals s.list_deals s.rk x
    simp only [push_topic_message, buffered_messages, List.countP_append] at hb ⊢
    omega

theorem push_topic_message_dropped (produce : ℕ → produce_result)
    (h : ∀ k, produce k ≠ .failed) (topic : topic_t) (message : String) (s : message_state) :
    (push_topic_message produce topic message s).rk.dropped = s.rk.dropped := by
  cases topic
  · exact (push_message_dropped produce h message .balances s.list_balances s.rk).1
  · exact (push_message_dropped produce h message .orders s.list_orders s.rk).1
  · exact (push_message_dropped produce h message .deals s.list_deals s.rk).1

theorem message_run_count (produce : ℕ → produce_result) (x : topic_t × String) :
    ∀ (ops : List message_op) (s : message_state),
      List.countP (fun y => decide (y = x)) (message_run produce s ops).rk.produced +
          List.countP (fun y => decide (y = x)) (message_run produce s ops).rk.dropped +
          List.countP (fun y => decide (y = x)) (buffered_messages (message_run produce s ops)) =
        List.countP (fun y => decide (y = x)) s.rk.produced + List.countP (fun y => decide (y = x)) s.rk.dropped +
          List.countP (fun y => decide (y = x)) (buffered_messages s) + List.countP (fun y => decide (y = x)) (pushed_messages ops) := by
  intro ops
  induction ops with
  | nil => intro s; rfl
  | cons op ops ih =>
    intro s
    cases op with
    | push topic message =>
      have e : message_run produce s (.push topic message :: ops) =
          message_run produce (push_topic_message produce topic message s) ops := rfl
      rw [e, ih, push_topic_message_count]
      simp only [pushed_messages, List.countP_cons, List.countP_nil]
      omega
    | timer =>
      have e : message_run produce s (.timer :: ops) =
          message_run produce (on_timer produce s) ops := rfl
      rw [e, ih, on_timer_count]
      rfl

theorem message_run_dropped (produce : ℕ → produce_result) (h : ∀ k, produce k ≠ .failed) :
    ∀ (ops : List message_op) (s : message_state),
      (message_run produce s ops).rk.dropped = s.rk.dropped := by
  intro ops
  induction ops with
  | nil => intro s; rfl
  | cons op ops ih =>
    intro s
    cases op with
    | push topic message =>
      show (message_run produce (push_topic_message produce topic message s) ops).rk.dropped = _
      rw [ih, push_topic_message_dropped produce h]
    | timer =>
      show (message_run produce (on_timer produce s) ops).rk.dropped = _
      rw [ih, on_timer_dropped produce h]

/-- C29, counterexample: the producer answers the first call with an error other than
queue-full. One message pushed to the topic `deals` of the initial state is then neither
among the messages the producer has taken nor in a list: `push_message` has released it. -/
theorem c29_counterexample :
    pushed_messages [.push .deals "m"] = [(.deals, "m")] ∧
    (message_run (fun _ => .failed) message_init [.push .deals "m"]).rk.produced = [] ∧
    buffered_messages (message_run (fun _ => .failed) message_init [.push .deals "m"]) = [] ∧
    (message_run (fun k => if k = 0 then .queue_full else if k = 1 then .failed else .taken)
        message_init [.push .deals "a", .push .deals "b", .timer]) =
      { list_deals := [], list_orders := [], list_balances := [],
        rk := ⟨3, [(.deals, "b")], [(.deals, "a")]⟩ } := by
  decide

/-- C29, amended: for every sequence of pushes and timer runs, from every state of the
lists and for every sequence of answers of the producer, the messages taken by the
producer, the messages released after an answer other than taken and queue-full, and the
messages in the three lists are together exactly the messages there were before and the
messages pushed, each as often as it was pushed. A message is released only on such an
answer: when the producer answers every call with taken or queue-full, no message is
released, and every message pushed has been taken by the producer or is in the list of
its topic. -/
theorem c29_messages_accounted (produce : ℕ → produce_result) (s : message_state)
    (ops : List message_op) :
    ((message_run produce s ops).rk.produced ++ (message_run produce s ops).rk.dropped ++
        buffered_messages (message_run produce s ops)).Perm
      (s.rk.produced ++ s.rk.dropped ++ buffered_messages s ++ pushed_messages ops) ∧
    (∀ x ∈ pushed_messages ops,
      x ∈ (message_run produce s ops).rk.produced ∨
      x ∈ buffered_messages (message_run produce s ops) ∨
      x ∈ (message_run produce s ops).rk.dropped) ∧
    ((∀ k, produce k ≠ .failed) →
      (message_run produce s ops).rk.dropped = s.rk.dropped ∧
      (s.rk.dropped = [] → ∀ x ∈ pushed_messages ops,
        x ∈ (message_run produce s ops).rk.produced ∨
        x ∈ buffered_messages (message_run produce s ops))) := by
  have hperm : ((message_run produce s ops).rk.produced ++
        (message_run produce s ops).rk.dropped ++
        buffered_messages (message_run produce s ops)).Perm
      (s.rk.produced ++ s.rk.dropped ++ buffered_messages s ++ pushed_messages ops) := by
    rw [List.perm_iff_count]
    intro x
    have h := message_run_count produce x ops s
    simp only [List.count, List.countP_append]
    exact h
  have hmem : ∀ x ∈ pushed_messages ops,
      x ∈ (message_run produce s ops).rk.produced ∨
      x ∈ buffered_messages (message_run produce s ops) ∨
      x ∈ (message_run produce s ops).rk.dropped := by
    intro x hx
    have h1 : x ∈ (message_run produce s ops).rk.produced ++
        (message_run produce s ops).rk.dropped ++
        buffered_messages (message_run produce s ops) :=
      hperm.symm.subset (List.mem_append_right _ hx)
    rcases List.mem_append.mp h1 with h2 | h2
    · rcases List.mem_append.mp h2 with h3 | h3
      · exact Or.inl h3
      · exact Or.inr (Or.inr h3)
    · exact Or.inr (Or.inl h2)
  refine ⟨hperm, hmem, fun h => ⟨message_run_dropped produce h ops s, fun h0 x hx => ?_⟩⟩
  rcases hmem x hx with h1 | h1 | h1
  · exact Or.inl h1
  · exact Or.inr h1
  · rw [message_run_dropped produce h ops s, h0] at h1
    cases h1

/-- Witness for C29: the producer answers queue-full to the first call and takes every
later message; after two pushes and a timer run nothing has been released. -/
theorem c29_messages_accounted_witness :
    (message_run (fun k => if k = 0 then .queue_full else .taken) message_init
      [.push .deals "a", .push .deals "b", .timer]).rk.dropped = [] :=
  ((c29_messages_accounted (fun k => if k = 0 then .queue_full else .taken) message_init
    [.push .deals "a", .push .deals "b", .timer]).2.2
    (fun k => by by_cases h : k = 0 <;> simp [h])).1

/-! ## The books stay sorted and do not cross (C30) -/

theorem order_match_compare_key (a b : order_t) :
    order_match_compare a b =
      order_match_compare (order_of_key (order_key a)) (order_of_key (order_key b)) := rfl

theorem sorted_iff_keys (book : List order_t) :
    book.Pairwise (fun a b => order_match_compare a b < 0) ↔
      (book.map order_key).Pairwise
        (fun k l => order_match_compare (order_of_key k) (order_of_key l) < 0) := by
  rw [List.pairwise_map]
  rfl

/-- a book whose keys are among the keys of a sorted book, in the same order, is sorted -/
theorem sorted_of_keys_sublist {new old : List order_t}
    (h : (new.map order_key).Sublist (old.map order_key))
    (hs : old.Pairwise (fun a b => order_match_compare a b < 0)) :
    new.Pairwise (fun a b => order_match_compare a b < 0) :=
  (sorted_iff_keys new).mpr (((sorted_iff_keys old).mp hs).sublist h)

theorem mem_of_keys_sublist {new old : List order_t}
    (h : (new.map order_key).Sublist (old.map order_key)) {o : order_t} (ho : o ∈ new) :
    ∃ o2 ∈ old, order_key o2 = order_key o := by
  have h1 : order_key o ∈ old.map order_key := h.subset (List.mem_map_of_mem _ ho)
  obtain ⟨o2, h2, h3⟩ := List.mem_map.mp h1
  exact ⟨o2, h2, h3⟩

theorem nodup_of_keys_sublist {new old : List order_t}
    (h : (new.map order_key).Sublist (old.map order_key))
    (hn : (old.map (fun o => o.id)).Nodup) : (new.map (fun o => o.id)).Nodup := by
  have e : ∀ l : List order_t, l.map (fun o => o.id) = (l.map order_key).map Prod.fst := by
    intro l
    rw [List.map_map]
    rfl
  rw [e] at hn ⊢
  exact hn.sublist (h.map _)

/-- the book after one deal: the maker is gone or has less left, the keys are otherwise
those of the book before -/
theorem book_step_keys (pre rest : List order_t) (maker : order_t) (cnd : Prop)
    [Decidable cnd] (x y z w : ℚ) :
    ((pre ++ (if cnd then rest else fill_maker maker x y z w :: rest)).map order_key).Sublist
      ((pre ++ maker :: rest).map order_key) := by
  rw [List.map_append, List.map_append]
  apply List.Sublist.append (List.Sublist.refl _)
  split_ifs
  · rw [List.map_cons]
    exact List.sublist_cons_self _ _
  · exact List.Sublist.refl _

/-- in a sorted book of one type and side the first order has the best price -/
theorem sorted_head_best {x : order_t} {xs : List order_t}
    (hs : (x :: xs).Pairwise (fun a b => order_match_compare a b < 0))
    (ht : ∀ o ∈ x :: xs, o.type = MARKET_ORDER_TYPE_LIMIT) :
    ∀ o ∈ x :: xs,
      if x.side = MARKET_ORDER_SIDE_ASK then x.price ≤ o.price else o.price ≤ x.price := by
  intro o ho
  rcases List.mem_cons.mp ho with rfl | ho
  · split_ifs <;> exact le_rfl
  · have h1 : order_match_compare x o < 0 := (List.pairwise_cons.mp hs).1 o ho
    have hid : x.id ≠ o.id := fun he =>
      absurd (order_match_compare_eq_zero.mpr he) (ne_of_lt h1)
    have htt : x.type = o.type :=
      (ht x (List.mem_cons_self _ _)).trans (ht o (List.mem_cons_of_mem _ ho)).symm
    have h2 := (order_match_compare_neg_iff htt hid).mp h1
    split_ifs with hsd
    · rw [if_pos hsd] at h2
      rcases h2 with h | ⟨h, -⟩
      · exact h.le
      · exact h.le
    · rw [if_neg hsd] at h2
      rcases h2 with h | ⟨h, -⟩
      · exact h.le
      · exact h.ge

/-- the books do not cross at their heads exactly when no bid reaches the price of an ask -/
theorem uncrossed_iff_all {m : market_t} (hs : book_sides m)
    (ha : m.asks.Pairwise (fun a b => order_match_compare a b < 0))
    (hb : m.bids.Pairwise (fun a b => order_match_compare a b < 0)) :
    (∀ a ∈ m.asks.head?, ∀ b ∈ m.bids.head?, b.price < a.price) ↔
      ∀ a ∈ m.asks, ∀ b ∈ m.bids, b.price < a.price := by
  constructor
  · intro h a ha1 b hb1
    cases hA : m.asks with
    | nil => rw [hA] at ha1; cases ha1
    | cons x xs =>
      cases hB : m.bids with
      | nil => rw [hB] at hb1; cases hb1
      | cons y ys =>
        rw [hA] at ha ha1
        rw [hB] at hb hb1
        have hx : x ∈ m.asks := by rw [hA]; exact List.mem_cons_self _ _
        have hy : y ∈ m.bids := by rw [hB]; exact List.mem_cons_self _ _
        have h0 : y.price < x.price := h x (by rw [hA]; rfl) y (by rw [hB]; rfl)
        have h1 := sorted_head_best ha
          (fun o ho => (hs.1 o (by rw [hA]; exact ho)).1) a ha1
        rw [if_pos (hs.1 x hx).2] at h1
        have h2 := sorted_head_best hb
          (fun o ho => (hs.2 o (by rw [hB]; exact ho)).1) b hb1
        rw [if_neg (by rw [(hs.2 y hy).2]; decide)] at h2
        exact lt_of_le_of_lt h2 (lt_of_lt_of_le h0 h1)
  · intro h a ha1 b hb1
    exact h a (List.mem_of_mem_head? ha1) b (List.mem_of_mem_head? hb1)

/-- inserting an order with a new id into a sorted book of its type and side keeps the book
sorted -/
theorem skiplist_insert_sorted (value : order_t) :
    ∀ (book : List order_t), book.Pairwise (fun a b => order_match_compare a b < 0) →
      (∀ o ∈ book, o.type = value.type ∧ o.side = value.side ∧ o.id ≠ value.id) →
      (skiplist_insert order_match_compare value book).Pairwise
        (fun a b => order_match_compare a b < 0) := by
  intro book
  induction book with
  | nil =>
    intro _ _
    exact List.pairwise_singleton _ _
  | cons x xs ih =>
    intro hs hk
    have hx := hk x (List.mem_cons_self _ _)
    have hxs : ∀ o ∈ xs, o.type = value.type ∧ o.side = value.side ∧ o.id ≠ value.id :=
      fun o ho => hk o (List.mem_cons_of_mem _ ho)
    obtain ⟨hhead, htail⟩ := List.pairwise_cons.mp hs
    unfold skiplist_insert
    by_cases hc : order_match_compare x value < 0
    · rw [if_pos hc]
      refine List.pairwise_cons.mpr ⟨?_, ih htail hxs⟩
      intro o ho
      rcases List.mem_cons.mp ((skiplist_insert_perm order_match_compare value xs).subset ho)
        with rfl | ho
      · exact hc
      · exact hhead o ho
    · rw [if_neg hc]
      have h0 : order_match_compare x value ≠ 0 := fun h =>
        hx.2.2 (order_match_compare_eq_zero.mp h)
      have hpos : 0 < order_match_compare x value :=
        lt_of_le_of_ne (not_lt.mp hc) (Ne.symm h0)
      have hvx : order_match_compare value x < 0 :=
        (order_match_compare_pos_iff hx.1 hx.2.1 hx.2.2).mp hpos
      refine List.pairwise_cons.mpr ⟨?_, hs⟩
      intro o ho
      rcases List.mem_cons.mp ho with rfl | ho
      · exact hvx
      · have ho2 := hxs o ho
        exact order_match_compare_trans hx.1.symm (hx.1.trans ho2.1.symm) hx.2.1.symm
          (Ne.symm ho2.2.2) hvx (hhead o ho)

theorem nodup_ids_mid {pre rest : List order_t} {maker : order_t}
    (hn : ((pre ++ maker :: rest).map (fun o => o.id)).Nodup) :
    ∀ o ∈ pre ++ rest, o.id ≠ maker.id := by
  intro o ho he
  rw [List.map_append, List.map_cons] at hn
  have h1 := List.nodup_append.mp hn
  have h2 := List.nodup_cons.mp h1.2.1
  rcases List.mem_append.mp ho with h | h
  · exact h1.2.2 (List.mem_map_of_mem _ h) (by rw [he]; exact List.mem_cons_self _ _)
  · exact h2.1 (by rw [← he]; exact List.mem_map_of_mem _ h)

theorem side_of_keys_sublist {new old : List order_t}
    (h : (new.map order_key).Sublist (old.map order_key)) {p : ℕ → ℕ → Prop}
    (hs : ∀ o ∈ old, p o.type o.side) : ∀ o ∈ new, p o.type o.side := by
  intro o ho
  obtain ⟨o2, h2, h3⟩ := mem_of_keys_sublist h ho
  have e1 : o2.type = o.type := congrArg (fun k => k.2.1) h3
  have e2 : o2.side = o.side := congrArg (fun k => k.2.2.1) h3
  rw [← e1, ← e2]
  exact hs o2 h2

/-- one deal of an ask taker: the asks are untouched, the keys of the bids shrink -/
theorem ask_taker_deal_keys (real : Bool) (g : globals) (m : market_t) (taker : order_t)
    {maker : order_t} {pre rest : List order_t} (amount : ℚ)
    (hb : m.bids = pre ++ maker :: rest) (hn : (m.bids.map (fun o => o.id)).Nodup)
    (hs : ∀ o ∈ m.bids, o.side ≠ MARKET_ORDER_SIDE_ASK) :
    (ask_taker_deal real g m taker maker amount).2.1.asks = m.asks ∧
    (((ask_taker_deal real g m taker maker amount).2.1.bids.map order_key).Sublist
      (m.bids.map order_key)) ∧
    (∃ pre2, (ask_taker_deal real g m taker maker amount).2.1.bids = pre2 ++ rest) ∧
    ((ask_taker_deal real g m taker maker amount).2.1.bids.map (fun o => o.id)).Nodup ∧
    (∀ o ∈ (ask_taker_deal real g m taker maker amount).2.1.bids,
      o.side ≠ MARKET_ORDER_SIDE_ASK) := by
  have hid : ∀ o ∈ pre ++ rest, o.id ≠ maker.id := nodup_ids_mid (by rw [← hb]; exact hn)
  have hms : maker.side ≠ MARKET_ORDER_SIDE_ASK :=
    hs maker (by rw [hb]; exact List.mem_append_right _ (List.mem_cons_self _ _))
  obtain ⟨h1, h2⟩ := ask_taker_deal_books real g m taker amount hb hid hms
  have hk : ((ask_taker_deal real g m taker maker amount).2.1.bids.map order_key).Sublist
      (m.bids.map order_key) := by
    rw [h2, hb]
    exact book_step_keys _ _ _ _ _ _ _ _
  refine ⟨h1, hk, ?_, nodup_of_keys_sublist hk hn,
    side_of_keys_sublist hk (p := fun _ s => s ≠ MARKET_ORDER_SIDE_ASK) hs⟩
  rw [h2]
  split_ifs
  · exact ⟨pre, rfl⟩
  · exact ⟨pre ++ [_], by rw [List.append_assoc]; rfl⟩

/-- one deal of a bid taker: the bids are untouched, the keys of the asks shrink -/
theorem bid_taker_deal_keys (real by_deal : Bool) (g : globals) (m : market_t)
    (taker : order_t) {maker : order_t} {pre rest : List order_t} (amount : ℚ)
    (hb : m.asks = pre ++ maker :: rest) (hn : (m.asks.map (fun o => o.id)).Nodup)
    (hs : ∀ o ∈ m.asks, o.side = MARKET_ORDER_SIDE_ASK) :
    (bid_taker_deal real by_deal g m taker maker amount).2.1.bids = m.bids ∧
    (((bid_taker_deal real by_deal g m taker maker amount).2.1.asks.map order_key).Sublist
      (m.asks.map order_key)) ∧
    (∃ pre2, (bid_taker_deal real by_deal g m taker maker amount).2.1.asks = pre2 ++ rest) ∧
    ((bid_taker_deal real by_deal g m taker maker amount).2.1.asks.map
      (fun o => o.id)).Nodup ∧
    (∀ o ∈ (bid_taker_deal real by_deal g m taker maker amount).2.1.asks,
      o.side = MARKET_ORDER_SIDE_ASK) := by
  have hid : ∀ o ∈ pre ++ rest, o.id ≠ maker.id := nodup_ids_mid (by rw [← hb]; exact hn)
  have hms : maker.side = MARKET_ORDER_SIDE_ASK :=
    hs maker (by rw [hb]; exact List.mem_append_right _ (List.mem_cons_self _ _))
  obtain ⟨h1, h2⟩ := bid_taker_deal_books real by_deal g m taker amount hb hid hms
  have hk : ((bid_taker_deal real by_deal g m taker maker amount).2.1.asks.map
      order_key).Sublist (m.asks.map order_key) := by
    rw [h2, hb]
    exact book_step_keys _ _ _ _ _ _ _ _
  refine ⟨h1, hk, ?_, nodup_of_keys_sublist hk hn,
    side_of_keys_sublist hk (p := fun _ s => s = MARKET_ORDER_SIDE_ASK) hs⟩
  rw [h2]
  split_ifs
  · exact ⟨pre, rfl⟩
  · exact ⟨pre ++ [_], by rw [List.append_assoc]; rfl⟩

theorem execute_limit_ask_order_loop_keys (real : Bool) :
    ∀ (nodes pre : List order_t) (g : globals) (m : market_t) (taker : order_t),
    m.bids = pre ++ nodes → (m.bids.map (fun o => o.id)).Nodup →
    (∀ o ∈ m.bids, o.side ≠ MARKET_ORDER_SIDE_ASK) →
    (execute_limit_ask_order_loop real nodes g m taker).2.1.asks = m.asks ∧
    ((execute_limit_ask_order_loop real nodes g m taker).2.1.bids.map order_key).Sublist
      (m.bids.map order_key) := by
  intro nodes
  induction nodes with
  | nil =>
    intro pre g m taker _ _ _
    exact ⟨rfl, List.Sublist.refl _⟩
  | cons maker rest ih =>
    intro pre g m taker hb hn hs
    unfold execute_limit_ask_order_loop
    by_cases hz : taker.left = 0
    · rw [if_pos hz]
      exact ⟨rfl, List.Sublist.refl _⟩
    rw [if_neg hz]
    by_cases hp : taker.price > maker.price
    · rw [if_pos hp]
      exact ⟨rfl, List.Sublist.refl _⟩
    rw [if_neg hp]
    · obtain ⟨k1, k2, ⟨pre2, k3⟩, k4, k5⟩ := ask_taker_deal_keys real g m taker
        (if taker.left < maker.left then taker.left else maker.left) hb hn hs
      obtain ⟨j1, j2⟩ := ih pre2
        (ask_taker_deal real g m taker maker
          (if taker.left < maker.left then taker.left else maker.left)).1 _
        (ask_taker_deal real g m taker maker
          (if taker.left < maker.left then taker.left else maker.left)).2.2.1 k3 k4 k5
      exact ⟨j1.trans k1, j2.trans k2⟩

theorem execute_limit_bid_order_loop_keys (real : Bool) :
    ∀ (nodes pre : List order_t) (g : globals) (m : market_t) (taker : order_t),
    m.asks = pre ++ nodes → (m.asks.map (fun o => o.id)).Nodup →
    (∀ o ∈ m.asks, o.side = MARKET_ORDER_SIDE_ASK) →
    (execute_limit_bid_order_loop real nodes g m taker).2.1.bids = m.bids ∧
    ((execute_limit_bid_order_loop real nodes g m taker).2.1.asks.map order_key).Sublist
      (m.asks.map order_key) := by
  intro nodes
  induction nodes with
  | nil =>
    intro pre g m taker _ _ _
    exact ⟨rfl, List.Sublist.refl _⟩
  | cons maker rest ih =>
    intro pre g m taker hb hn hs
    unfold execute_limit_bid_order_loop
    by_cases hz : taker.left = 0
    · rw [if_pos hz]
      exact ⟨rfl, List.Sublist.refl _⟩
    rw [if_neg hz]
    by_cases hp : taker.price < maker.price
    · rw [if_pos hp]
      exact ⟨rfl, List.Sublist.refl _⟩
    rw [if_neg hp]
    · obtain ⟨k1, k2, ⟨pre2, k3⟩, k4, k5⟩ := bid_taker_deal_keys real false g m taker
        (if taker.left < maker.left then taker.left else maker.left) hb hn hs
      obtain ⟨j1, j2⟩ := ih pre2
        (bid_taker_deal real false g m taker maker
          (if taker.left < maker.left then taker.left else maker.left)).1 _
        (bid_taker_deal real false g m taker maker
          (if taker.left < maker.left then taker.left else maker.left)).2.2.1 k3 k4 k5
      exact ⟨j1.trans k1, j2.trans k2⟩

theorem execute_market_ask_order_loop_keys (real : Bool) :
    ∀ (nodes pre : List order_t) (g : globals) (m : market_t) (taker : order_t),
    m.bids = pre ++ nodes → (m.bids.map (fun o => o.id)).Nodup →
    (∀ o ∈ m.bids, o.side ≠ MARKET_ORDER_SIDE_ASK) →
    (execute_market_ask_order_loop real nodes g m taker).2.1.asks = m.asks ∧
    ((execute_market_ask_order_loop real nodes g m taker).2.1.bids.map order_key).Sublist
      (m.bids.map order_key) := by
  intro nodes
  induction nodes with
  | nil =>
    intro pre g m taker _ _ _
    exact ⟨rfl, List.Sublist.refl _⟩
  | cons maker rest ih =>
    intro pre g m taker hb hn hs
    unfold execute_market_ask_order_loop
    by_cases hz : taker.left = 0
    · rw [if_pos hz]
      exact ⟨rfl, List.Sublist.refl _⟩
    rw [if_neg hz]
    · obtain ⟨k1, k2, ⟨pre2, k3⟩, k4, k5⟩ := ask_taker_deal_keys real g m taker
        (if taker.left < maker.left then taker.left else maker.left) hb hn hs
      obtain ⟨j1, j2⟩ := ih pre2
        (ask_taker_deal real g m taker maker
          (if taker.left < maker.left then taker.left else maker.left)).1 _
        (ask_taker_deal real g m taker maker
          (if taker.left < maker.left then taker.left else maker.left)).2.2.1 k3 k4 k5
      exact ⟨j1.trans k1, j2.trans k2⟩

theorem execute_market_bid_order_loop_keys (real : Bool) :
    ∀ (nodes pre : List order_t) (g : globals) (m : market_t) (taker : order_t),
    m.asks = pre ++ nodes → (m.asks.map (fun o => o.id)).Nodup →
    (∀ o ∈ m.asks, o.side = MARKET_ORDER_SIDE_ASK) →
    ∀ r, execute_market_bid_order_loop real nodes g m taker = some r →
      r.2.1.bids = m.bids ∧ (r.2.1.asks.map order_key).Sublist (m.asks.map order_key) := by
  intro nodes
  induction nodes with
  | nil =>
    intro pre g m taker _ _ _ r hr
    cases hr
    exact ⟨rfl, List.Sublist.refl _⟩
  | cons maker rest ih =>
    intro pre g m taker hb hn hs r hr
    rw [execute_market_bid_order_loop] at hr
    by_cases hz : taker.left = 0
    · rw [if_pos hz] at hr
      cases hr
      exact ⟨rfl, List.Sublist.refl _⟩
    rw [if_neg hz] at hr
    simp only at hr
    cases hadj : market_bid_adjust maker.price taker.left m.stock_prec
        (market_bid_fuel maker.price taker.left m.stock_prec
          (mpd_rescale (taker.left / maker.price) m.stock_prec))
        (mpd_rescale (taker.left / maker.price) m.stock_prec) with
    | none => rw [hadj] at hr; cases hr
    | some a0 =>
      rw [hadj] at hr
      simp only at hr
      by_cases ha0 : (if a0 > maker.left then maker.left else a0) = 0
      · rw [if_pos ha0] at hr
        cases hr
        exact ⟨rfl, List.Sublist.refl _⟩
      rw [if_neg ha0] at hr
      obtain ⟨k1, k2, ⟨pre2, k3⟩, k4, k5⟩ := bid_taker_deal_keys real true g m taker
        (if a0 > maker.left then maker.left else a0) hb hn hs
      cases hrest : execute_market_bid_order_loop real rest
          (bid_taker_deal real true g m taker maker
            (if a0 > maker.left then maker.left else a0)).1
          (bid_taker_deal real true g m taker maker
            (if a0 > maker.left then maker.left else a0)).2.1
          (bid_taker_deal real true g m taker maker
            (if a0 > maker.left then maker.left else a0)).2.2.1 with
      | none => rw [hrest] at hr; cases hr
      | some r2 =>
        rw [hrest] at hr
        cases hr
        obtain ⟨j1, j2⟩ := ih pre2 _ _ _ k3 k4 k5 r2 hrest
        exact ⟨j1.trans k1, j2.trans k2⟩

/-- the books after `order_put`: as before, or the order is inserted into the book of its
side -/
theorem order_put_books (g : globals) (m : market_t) (order : order_t) :
    ((order_put g m order).2.2.1.asks = m.asks ∧ (order_put g m order).2.2.1.bids = m.bids) ∨
    (order.type = MARKET_ORDER_TYPE_LIMIT ∧ order.side = MARKET_ORDER_SIDE_ASK ∧
      (order_put g m order).2.2.1.asks =
        skiplist_insert order_match_compare { order with freeze := order.left } m.asks ∧
      (order_put g m order).2.2.1.bids = m.bids) ∨
    (order.type = MARKET_ORDER_TYPE_LIMIT ∧ order.side ≠ MARKET_ORDER_SIDE_ASK ∧
      (order_put g m order).2.2.1.bids =
        skiplist_insert order_match_compare
          { order with freeze := order.price * order.left } m.bids ∧
      (order_put g m order).2.2.1.asks = m.asks) := by
  unfold order_put
  by_cases ht : order.type ≠ MARKET_ORDER_TYPE_LIMIT
  · rw [if_pos ht]
    exact Or.inl ⟨rfl, rfl⟩
  rw [if_neg ht]
  have ht2 : order.type = MARKET_ORDER_TYPE_LIMIT := not_not.mp ht
  by_cases ho : m.orders order.id = true
  · rw [if_pos ho]
    exact Or.inl ⟨rfl, rfl⟩
  rw [if_neg ho]
  simp only
  by_cases hs : order.side = MARKET_ORDER_SIDE_ASK
  · rw [if_pos hs]
    refine Or.inr (Or.inl ⟨ht2, hs, ?_, ?_⟩)
    · split <;> split <;> rfl
    · split <;> split <;> rfl
  · rw [if_neg hs]
    refine Or.inr (Or.inr ⟨ht2, hs, ?_, ?_⟩)
    · split <;> split <;> rfl
    · split <;> split <;> rfl

/-- books whose keys are among the keys of well-ordered books, in the same order, are well
ordered -/
theorem books_shrink {m m2 : market_t}
    (ka : (m2.asks.map order_key).Sublist (m.asks.map order_key))
    (kb : (m2.bids.map order_key).Sublist (m.bids.map order_key))
    (hs : book_sides m) (ha : m.asks.Pairwise (fun a b => order_match_compare a b < 0))
    (hb : m.bids.Pairwise (fun a b => order_match_compare a b < 0)) (hx : books_apart m) :
    book_sides m2 ∧ m2.asks.Pairwise (fun a b => order_match_compare a b < 0) ∧
      m2.bids.Pairwise (fun a b => order_match_compare a b < 0) ∧ books_apart m2 := by
  refine ⟨⟨?_, ?_⟩, sorted_of_keys_sublist ka ha, sorted_of_keys_sublist kb hb, ?_⟩
  · exact side_of_keys_sublist ka
      (p := fun t s => t = MARKET_ORDER_TYPE_LIMIT ∧ s = MARKET_ORDER_SIDE_ASK) hs.1
  · exact side_of_keys_sublist kb
      (p := fun t s => t = MARKET_ORDER_TYPE_LIMIT ∧ s = MARKET_ORDER_SIDE_BID) hs.2
  · intro a ha1 b hb1
    obtain ⟨a2, h1, h2⟩ := mem_of_keys_sublist ka ha1
    obtain ⟨b2, h3, h4⟩ := mem_of_keys_sublist kb hb1
    have e1 : a2.price = a.price := congrArg (fun k => k.2.2.2) h2
    have e2 : b2.price = b.price := congrArg (fun k => k.2.2.2) h4
    rw [← e1, ← e2]
    exact hx a2 h1 b2 h3

theorem book_sides_bids {m : market_t} (hs : book_sides m) :
    ∀ o ∈ m.bids, o.side ≠ MARKET_ORDER_SIDE_ASK := by
  intro o ho
  rw [(hs.2 o ho).2]
  decide

/-- the books after `order_finish`: their keys are among the keys before -/
theorem order_finish_keys (real : Bool) (g : globals) (m : market_t) (order : order_t) :
    ((order_finish real g m order).2.2.asks.map order_key).Sublist (m.asks.map order_key) ∧
    ((order_finish real g m order).2.2.bids.map order_key).Sublist (m.bids.map order_key) := by
  obtain ⟨h1, h2⟩ := order_finish_books real g m order
  rw [h1, h2]
  unfold skiplist_delete
  split_ifs
  · exact ⟨(List.eraseP_sublist _).map _, List.Sublist.refl _⟩
  · exact ⟨List.Sublist.refl _, (List.eraseP_sublist _).map _⟩

theorem market_cancel_order_keys (real : Bool) (g : globals) (m : market_t) (order : order_t) :
    ((market_cancel_order real g m order).2.2.asks.map order_key).Sublist
      (m.asks.map order_key) ∧
    ((market_cancel_order real g m order).2.2.bids.map order_key).Sublist
      (m.bids.map order_key) :=
  order_finish_keys real _ m order

theorem market_put_market_order_keys (real : Bool) (g : globals) (m : market_t)
    (user_id side : ℕ) (amount taker_fee : ℚ) (hs : book_sides m)
    (ha : m.asks.Pairwise (fun a b => order_match_compare a b < 0))
    (hb : m.bids.Pairwise (fun a b => order_match_compare a b < 0)) :
    ∀ r, market_put_market_order real g m user_id side amount taker_fee = some r →
      (r.2.2.1.asks.map order_key).Sublist (m.asks.map order_key) ∧
      (r.2.2.1.bids.map order_key).Sublist (m.bids.map order_key) := by
  intro r hr
  unfold market_put_market_order at hr
  by_cases hc : put_market_check g m user_id side amount ≠ 0
  · rw [if_pos hc] at hr
    cases hr
    exact ⟨List.Sublist.refl _, List.Sublist.refl _⟩
  rw [if_neg hc] at hr
  simp only at hr
  by_cases hsd : side = MARKET_ORDER_SIDE_ASK
  · rw [if_pos hsd] at hr
    simp only [Option.some.injEq] at hr
    subst hr
    obtain ⟨k1, k2⟩ := execute_market_ask_order_loop_keys real m.bids []
      { g with order_id_start := (g.order_id_start + 1) % 2 ^ 64 } m
      (new_market_order ((g.order_id_start + 1) % 2 ^ 64) user_id side amount taker_fee)
      rfl (sorted_book_nodup hb) (book_sides_bids hs)
    exact ⟨by rw [show (execute_market_ask_order real
        { g with order_id_start := (g.order_id_start + 1) % 2 ^ 64 } m
        (new_market_order ((g.order_id_start + 1) % 2 ^ 64) user_id side amount
          taker_fee)).2.1.asks = m.asks from k1], k2⟩
  · rw [if_neg hsd] at hr
    cases hx : execute_market_bid_order real
        { g with order_id_start := (g.order_id_start + 1) % 2 ^ 64 } m
        (new_market_order ((g.order_id_start + 1) % 2 ^ 64) user_id side amount taker_fee) with
    | none => rw [hx] at hr; cases hr
    | some r2 =>
      rw [hx] at hr
      simp only [Option.some.injEq] at hr
      subst hr
      obtain ⟨k1, k2⟩ := execute_market_bid_order_loop_keys real m.asks []
        { g with order_id_start := (g.order_id_start + 1) % 2 ^ 64 } m
        (new_market_order ((g.order_id_start + 1) % 2 ^ 64) user_id side amount taker_fee)
        rfl (sorted_book_nodup ha) (fun o ho => (hs.1 o ho).2) r2 hx
      exact ⟨k2, by rw [show r2.2.1.bids = m.bids from k1]⟩

/-- the end of `market_put_limit_order` keeps the books well ordered when the order, if
anything is left of it, does not reach the other book -/
theorem put_limit_close_books (real : Bool) (g : globals) (m : market_t) (order : order_t)
    (hs : book_sides m) (ha : m.asks.Pairwise (fun a b => order_match_compare a b < 0))
    (hb : m.bids.Pairwise (fun a b => order_match_compare a b < 0)) (hx : books_apart m)
    (hside : order.side = MARKET_ORDER_SIDE_ASK ∨ order.side = MARKET_ORDER_SIDE_BID)
    (hfresh : ∀ o ∈ m.asks ++ m.bids, o.id ≠ order.id)
    (hcross : order.left ≠ 0 →
      if order.side = MARKET_ORDER_SIDE_ASK then ∀ b ∈ m.bids, b.price < order.price
      else ∀ a ∈ m.asks, order.price < a.price) :
    book_sides (put_limit_close real g m order).2.1 ∧
    (put_limit_close real g m order).2.1.asks.Pairwise
      (fun a b => order_match_compare a b < 0) ∧
    (put_limit_close real g m order).2.1.bids.Pairwise
      (fun a b => order_match_compare a b < 0) ∧
    books_apart (put_limit_close real g m order).2.1 := by
  unfold put_limit_close
  by_cases hl : order.left = 0
  · rw [if_pos hl]
    exact ⟨hs, ha, hb, hx⟩
  rw [if_neg hl]
  simp only
  have hc := hcross hl
  rcases order_put_books (emit real [event.order_message ORDER_EVENT_PUT order m.name] g) m
    order with ⟨e1, e2⟩ | ⟨ht, hsd, e1, e2⟩ | ⟨ht, hsd, e1, e2⟩
  · unfold book_sides books_apart
    rw [e1, e2]
    exact ⟨hs, ha, hb, hx⟩
  · rw [if_pos hsd] at hc
    have hmem : ∀ o ∈ skiplist_insert order_match_compare { order with freeze := order.left }
        m.asks, o = { order with freeze := order.left } ∨ o ∈ m.asks := fun o ho =>
      List.mem_cons.mp ((skiplist_insert_perm order_match_compare _ m.asks).subset ho)
    unfold book_sides books_apart
    rw [e1, e2]
    refine ⟨⟨?_, hs.2⟩, ?_, hb, ?_⟩
    · intro o ho
      rcases hmem o ho with rfl | h
      · exact ⟨ht, hsd⟩
      · exact hs.1 o h
    · apply skiplist_insert_sorted _ _ ha
      intro o ho
      exact ⟨(hs.1 o ho).1.trans ht.symm, (hs.1 o ho).2.trans hsd.symm,
        hfresh o (List.mem_append_left _ ho)⟩
    · intro a ha1 b hb1
      rcases hmem a ha1 with rfl | h
      · exact hc b hb1
      · exact hx a h b hb1
  · rw [if_neg hsd] at hc
    have hsd2 : order.side = MARKET_ORDER_SIDE_BID := by
      rcases hside with h | h
      · exact absurd h hsd
      · exact h
    have hmem : ∀ o ∈ skiplist_insert order_match_compare
        { order with freeze := order.price * order.left } m.bids,
        o = { order with freeze := order.price * order.left } ∨ o ∈ m.bids := fun o ho =>
      List.mem_cons.mp ((skiplist_insert_perm order_match_compare _ m.bids).subset ho)
    unfold book_sides books_apart
    rw [e1, e2]
    refine ⟨⟨hs.1, ?_⟩, ha, ?_, ?_⟩
    · intro o ho
      rcases hmem o ho with rfl | h
      · exact ⟨ht, hsd2⟩
      · exact hs.2 o h
    · apply skiplist_insert_sorted _ _ hb
      intro o ho
      exact ⟨(hs.2 o ho).1.trans ht.symm, (hs.2 o ho).2.trans hsd2.symm,
        hfresh o (List.mem_append_right _ ho)⟩
    · intro a ha1 b hb1
      rcases hmem b hb1 with rfl | h
      · exact hc a ha1
      · exact hx a ha1 b h

/-- the matching step of `market_put_limit_order` keeps the books well ordered, and what is
left of the order does not reach the other book -/
theorem put_limit_match_books (real : Bool) (g : globals) (m : market_t) (user_id : ℕ)
    {side : ℕ} (amount price taker_fee maker_fee : ℚ)
    (hs : book_sides m) (ha : m.asks.Pairwise (fun a b => order_match_compare a b < 0))
    (hb : m.bids.Pairwise (fun a b => order_match_compare a b < 0)) (hx : books_apart m)
    (hside : side = MARKET_ORDER_SIDE_ASK ∨ side = MARKET_ORDER_SIDE_BID)
    (hfresh : ∀ o ∈ m.asks ++ m.bids, o.id ≠ (g.order_id_start + 1) % 2 ^ 64) :
    (book_sides (put_limit_match real g m user_id side amount price taker_fee maker_fee).2.1 ∧
    (put_limit_match real g m user_id side amount price taker_fee maker_fee).2.1.asks.Pairwise
      (fun a b => order_match_compare a b < 0) ∧
    (put_limit_match real g m user_id side amount price taker_fee maker_fee).2.1.bids.Pairwise
      (fun a b => order_match_compare a b < 0) ∧
    books_apart (put_limit_match real g m user_id side amount price taker_fee maker_fee).2.1) ∧
    ((put_limit_match real g m user_id side amount price taker_fee maker_fee).2.2.1.side =
        MARKET_ORDER_SIDE_ASK ∨
      (put_limit_match real g m user_id side amount price taker_fee maker_fee).2.2.1.side =
        MARKET_ORDER_SIDE_BID) ∧
    (∀ o ∈ (put_limit_match real g m user_id side amount price taker_fee maker_fee).2.1.asks ++
        (put_limit_match real g m user_id side amount price taker_fee maker_fee).2.1.bids,
      o.id ≠ (put_limit_match real g m user_id side amount price taker_fee maker_fee).2.2.1.id) ∧
    ((put_limit_match real g m user_id side amount price taker_fee maker_fee).2.2.1.left ≠ 0 →
      if (put_limit_match real g m user_id side amount price taker_fee maker_fee).2.2.1.side =
          MARKET_ORDER_SIDE_ASK then
        ∀ b ∈ (put_limit_match real g m user_id side amount price taker_fee maker_fee).2.1.bids,
          b.price <
            (put_limit_match real g m user_id side amount price taker_fee maker_fee).2.2.1.price
      else
        ∀ a ∈ (put_limit_match real g m user_id side amount price taker_fee maker_fee).2.1.asks,
          (put_limit_match real g m user_id side amount price taker_fee maker_fee).2.2.1.price <
            a.price) := by
  have hnb := sorted_book_nodup hb
  have hna := sorted_book_nodup ha
  have hsb := book_sides_bids hs
  have hsa : ∀ o ∈ m.asks, o.side = MARKET_ORDER_SIDE_ASK := fun o ho => (hs.1 o ho).2
  by_cases hsd : side = MARKET_ORDER_SIDE_ASK
  · have e : put_limit_match real g m user_id side amount price taker_fee maker_fee =
        execute_limit_ask_order_loop real m.bids
          { g with order_id_start := (g.order_id_start + 1) % 2 ^ 64 } m
          (new_limit_order ((g.order_id_start + 1) % 2 ^ 64) user_id side amount price taker_fee
            maker_fee) := by
      unfold put_limit_match
      simp only
      rw [if_pos hsd]
      rfl
    rw [e]
    obtain ⟨k1, k2⟩ := execute_limit_ask_order_loop_keys real m.bids []
      { g with order_id_start := (g.order_id_start + 1) % 2 ^ 64 } m
      (new_limit_order ((g.order_id_start + 1) % 2 ^ 64) user_id side amount price taker_fee
        maker_fee) rfl hnb hsb
    obtain ⟨rest, -, -, w3, w4, -⟩ := execute_limit_ask_order_loop_walk real m.bids
      { g with order_id_start := (g.order_id_start + 1) % 2 ^ 64 } m
      (new_limit_order ((g.order_id_start + 1) % 2 ^ 64) user_id side amount price taker_fee
        maker_fee) rfl hnb hsb
    have hh := (execute_limit_ask_order_loop_deals real m.bids
      { g with order_id_start := (g.order_id_start + 1) % 2 ^ 64 } m
      (new_limit_order ((g.order_id_start + 1) % 2 ^ 64) user_id side amount price taker_fee
        maker_fee)).2.2
    have hbk := books_shrink (m := m) (by rw [k1]) k2 hs ha hb hx
    have hoside := hh.2.2.1
    have hoid := hh.1
    have hoprice := hh.2.2.2.2.1
    refine ⟨hbk, Or.inl (hoside.trans hsd), ?_, ?_⟩
    · intro o ho
      rw [hoid]
      rcases List.mem_append.mp ho with h | h
      · rw [k1] at h
        exact hfresh o (List.mem_append_left _ h)
      · obtain ⟨o2, h2, h3⟩ := mem_of_keys_sublist k2 h
        have e1 : o2.id = o.id := congrArg (fun k => k.1) h3
        rw [← e1]
        exact hfresh o2 (List.mem_append_right _ h2)
    · intro hl
      rw [if_pos (hoside.trans hsd), hoprice]
      intro b hb1
      have hbr : (execute_limit_ask_order_loop real m.bids
          { g with order_id_start := (g.order_id_start + 1) % 2 ^ 64 } m
          (new_limit_order ((g.order_id_start + 1) % 2 ^ 64) user_id side amount price
            taker_fee maker_fee)).2.1.bids = rest := by
        rcases w3 with h | ⟨h, -⟩
        · exact h
        · exact absurd h hl
      rw [hbr] at hb1
      rcases w4 with h | h | ⟨x, xs, h1, h2⟩
      · rw [h] at hb1
        cases hb1
      · exact absurd h hl
      · have hsort := hbk.2.2.1
        rw [hbr, h1] at hsort
        have hty : ∀ o ∈ x :: xs, o.type = MARKET_ORDER_TYPE_LIMIT := fun o ho =>
          (hbk.1.2 o (by rw [hbr, h1]; exact ho)).1
        have hxs : x.side ≠ MARKET_ORDER_SIDE_ASK := by
          rw [(hbk.1.2 x (by rw [hbr, h1]; exact List.mem_cons_self _ _)).2]
          decide
        have hbest := sorted_head_best hsort hty b (by rw [← h1]; exact hb1)
        rw [if_neg hxs] at hbest
        exact lt_of_le_of_lt hbest h2
  · have hsd2 : side = MARKET_ORDER_SIDE_BID := by
      rcases hside with h | h
      · exact absurd h hsd
      · exact h
    have e : put_limit_match real g m user_id side amount price taker_fee maker_fee =
        execute_limit_bid_order_loop real m.asks
          { g with order_id_start := (g.order_id_start + 1) % 2 ^ 64 } m
          (new_limit_order ((g.order_id_start + 1) % 2 ^ 64) user_id side amount price taker_fee
            maker_fee) := by
      unfold put_limit_match
      simp only
      rw [if_neg hsd]
      rfl
    rw [e]
    obtain ⟨k1, k2⟩ := execute_limit_bid_order_loop_keys real m.asks []
      { g with order_id_start := (g.order_id_start + 1) % 2 ^ 64 } m
      (new_limit_order ((g.order_id_start + 1) % 2 ^ 64) user_id side amount price taker_fee
        maker_fee) rfl hna hsa
    obtain ⟨rest, -, -, w3, w4, -⟩ := execute_limit_bid_order_loop_walk real m.asks
      { g with order_id_start := (g.order_id_start + 1) % 2 ^ 64 } m
      (new_limit_order ((g.order_id_start + 1) % 2 ^ 64) user_id side amount price taker_fee
        maker_fee) rfl hna hsa
    have hh := (execute_limit_bid_order_loop_deals real m.asks
      { g with order_id_start := (g.order_id_start + 1) % 2 ^ 64 } m
      (new_limit_order ((g.order_id_start + 1) % 2 ^ 64) user_id side amount price taker_fee
        maker_fee)).2.2
    have hbk := books_shrink (m := m) k2 (by rw [k1]) hs ha hb hx
    have hoside := hh.2.2.1
    have hoid := hh.1
    have hoprice := hh.2.2.2.2.1
    have hnotask : ¬ (execute_limit_bid_order_loop real m.asks
          { g with order_id_start := (g.order_id_start + 1) % 2 ^ 64 } m
          (new_limit_order ((g.order_id_start + 1) % 2 ^ 64) user_id side amount price
            taker_fee maker_fee)).2.2.1.side = MARKET_ORDER_SIDE_ASK := by
      rw [hoside]
      exact hsd
    refine ⟨hbk, Or.inr (hoside.trans hsd2), ?_, ?_⟩
    · intro o ho
      rw [hoid]
      rcases List.mem_append.mp ho with h | h
      · obtain ⟨o2, h2, h3⟩ := mem_of_keys_sublist k2 h
        have e1 : o2.id = o.id := congrArg (fun k => k.1) h3
        rw [← e1]
        exact hfresh o2 (List.mem_append_left _ h2)
      · rw [k1] at h
        exact hfresh o (List.mem_append_right _ h)
    · intro hl
      rw [if_neg hnotask, hoprice]
      intro a ha1
      have hbr : (execute_limit_bid_order_loop real m.asks
          { g with order_id_start := (g.order_id_start + 1) % 2 ^ 64 } m
          (new_limit_order ((g.order_id_start + 1) % 2 ^ 64) user_id side amount price
            taker_fee maker_fee)).2.1.asks = rest := by
        rcases w3 with h | ⟨h, -⟩
        · exact h
        · exact absurd h hl
      rw [hbr] at ha1
      rcases w4 with h | h | ⟨x, xs, h1, h2⟩
      · rw [h] at ha1
        cases ha1
      · exact absurd h hl
      · have hsort := hbk.2.1
        rw [hbr, h1] at hsort
        have hty : ∀ o ∈ x :: xs, o.type = MARKET_ORDER_TYPE_LIMIT := fun o ho =>
          (hbk.1.1 o (by rw [hbr, h1]; exact ho)).1
        have hxs : x.side = MARKET_ORDER_SIDE_ASK :=
          (hbk.1.1 x (by rw [hbr, h1]; exact List.mem_cons_self _ _)).2
        have hbest := sorted_head_best hsort hty a (by rw [← h1]; exact ha1)
        rw [if_pos hxs] at hbest
        exact lt_of_lt_of_le h2 hbest

/-- in a well-formed market the books hold limit orders of their side, and the next order
id is not in use while the counter does not wrap -/
theorem MatchInv.books_ready {A : dict_asset_t} {n : ℕ} {c : ℕ → String → ℚ} {g : globals}
    {m : market_t} (hI : MatchInv A n c g m) (hn : g.order_id_start = n)
    (hw : n + 1 < 2 ^ 64) :
    book_sides m ∧ ∀ o ∈ m.asks ++ m.bids, o.id ≠ (g.order_id_start + 1) % 2 ^ 64 := by
  refine ⟨⟨fun o ho => ?_, fun o ho => ?_⟩, fun o ho => ?_⟩
  · exact ⟨(hI.market_ok.asks_ok o ho).type_eq, (hI.market_ok.asks_ok o ho).side_eq⟩
  · exact ⟨(hI.market_ok.bids_ok o ho).type_eq, (hI.market_ok.bids_ok o ho).side_eq⟩
  · have := hI.market_ok.ids_le o ho
    rw [hn, Nat.mod_eq_of_lt hw]
    omega

/-- C30: let both books hold limit orders of their side. If the books are sorted by
`order_match_compare` and, when neither is empty, the best bid is priced strictly below the
best ask, then the same holds, and the books still hold limit orders of their side, after
every `market_put_limit_order` (for side ask or bid and an order id that is not in use),
whether it is rejected, fully matched or left resting; after every
`market_put_market_order`, which returns when the asks have positive prices and the amount
is not negative; and after every `market_cancel_order`. -/
theorem c30_books_stay_sorted_and_uncrossed (real : Bool) (g : globals) (m : market_t)
    (hs : book_sides m) (hbk : books_sorted_uncrossed m) :
    (∀ (user_id side : ℕ) (amount price taker_fee maker_fee : ℚ),
      (side = MARKET_ORDER_SIDE_ASK ∨ side = MARKET_ORDER_SIDE_BID) →
      (∀ o ∈ m.asks ++ m.bids, o.id ≠ (g.order_id_start + 1) % 2 ^ 64) →
      books_sorted_uncrossed
        (market_put_limit_order real g m user_id side amount price taker_fee maker_fee).2.2.1 ∧
      book_sides
        (market_put_limit_order real g m user_id side amount price taker_fee maker_fee).2.2.1) ∧
    (∀ (user_id side : ℕ) (amount taker_fee : ℚ),
      (∀ r, market_put_market_order real g m user_id side amount taker_fee = some r →
        books_sorted_uncrossed r.2.2.1 ∧ book_sides r.2.2.1) ∧
      ((∀ o ∈ m.asks, 0 < o.price) → 0 ≤ amount →
        (market_put_market_order real g m user_id side amount taker_fee).isSome = true)) ∧
    (∀ order : order_t,
      books_sorted_uncrossed (market_cancel_order real g m order).2.2 ∧
      book_sides (market_cancel_order real g m order).2.2) := by
  obtain ⟨ha, hb, hh⟩ := hbk
  have hx : books_apart m := (uncrossed_iff_all hs ha hb).mp hh
  have pack : ∀ m2 : market_t, book_sides m2 ∧
      m2.asks.Pairwise (fun a b => order_match_compare a b < 0) ∧
      m2.bids.Pairwise (fun a b => order_match_compare a b < 0) ∧ books_apart m2 →
      books_sorted_uncrossed m2 ∧ book_sides m2 := fun m2 h =>
    ⟨⟨h.2.1, h.2.2.1, (uncrossed_iff_all h.1 h.2.1 h.2.2.1).mpr h.2.2.2⟩, h.1⟩
  refine ⟨?_, ?_, ?_⟩
  · intro user_id side amount price taker_fee maker_fee hside hfresh
    apply pack
    unfold market_put_limit_order
    by_cases h1 : put_limit_short g m user_id side amount price = true
    · rw [if_pos h1]
      exact ⟨hs, ha, hb, hx⟩
    rw [if_neg h1]
    by_cases h2 : amount < m.min_amount
    · rw [if_pos h2]
      exact ⟨hs, ha, hb, hx⟩
    rw [if_neg h2]
    obtain ⟨k1, k2, k3, k4⟩ := put_limit_match_books real g m user_id amount price taker_fee
      maker_fee hs ha hb hx hside hfresh
    exact put_limit_close_books real _ _ _ k1.1 k1.2.1 k1.2.2.1 k1.2.2.2 k2 k3 k4
  · intro user_id side amount taker_fee
    constructor
    · intro r hr
      apply pack
      obtain ⟨k1, k2⟩ := market_put_market_order_keys real g m user_id side amount taker_fee
        hs ha hb r hr
      exact books_shrink k1 k2 hs ha hb hx
    · intro hp h0
      unfold market_put_market_order
      by_cases hc : put_market_check g m user_id side amount ≠ 0
      · rw [if_pos hc]
        rfl
      rw [if_neg hc]
      simp only
      by_cases hsd : side = MARKET_ORDER_SIDE_ASK
      · rw [if_pos hsd]
        rfl
      · rw [if_neg hsd]
        obtain ⟨r, hr, -⟩ := execute_market_bid_order_loop_deals real m.asks
          { g with order_id_start := (g.order_id_start + 1) % 2 ^ 64 } m
          (new_market_order ((g.order_id_start + 1) % 2 ^ 64) user_id side amount taker_fee)
          hp h0
        have hr2 : execute_market_bid_order real
            { g with order_id_start := (g.order_id_start + 1) % 2 ^ 64 } m
            (new_market_order ((g.order_id_start + 1) % 2 ^ 64) user_id side amount
              taker_fee) = some r := hr
        rw [hr2]
        rfl
  · intro order
    apply pack
    obtain ⟨k1, k2⟩ := market_cancel_order_keys real g m order
    exact books_shrink k1 k2 hs ha hb hx

/-- Witness for C30: on a book with the ask 5 @ 10 and the bid 3 @ 9, user 1 asks 1 @ 9.5;
the order rests in front of the ask at 10 and above the bid. -/
theorem c30_books_stay_sorted_and_uncrossed_witness :
    books_sorted_uncrossed
      (market_put_limit_order true
        (scenario_globals [(⟨1, BALANCE_TYPE_AVAILABLE, "STK"⟩, 5),
          (⟨1, BALANCE_TYPE_FREEZE, "STK"⟩, 5), (⟨2, BALANCE_TYPE_FREEZE, "MNY"⟩, 27)] 2 0)
        (scenario_market (1 / 10000)
          [{ new_limit_order 1 1 MARKET_ORDER_SIDE_ASK 5 10 0 0 with freeze := 5 }]
          [{ new_limit_order 2 2 MARKET_ORDER_SIDE_BID 3 9 0 0 with freeze := 27 }])
        1 MARKET_ORDER_SIDE_ASK 1 (19 / 2) 0 0).2.2.1 ∧
    (market_put_limit_order true
        (scenario_globals [(⟨1, BALANCE_TYPE_AVAILABLE, "STK"⟩, 5),
          (⟨1, BALANCE_TYPE_FREEZE, "STK"⟩, 5), (⟨2, BALANCE_TYPE_FREEZE, "MNY"⟩, 27)] 2 0)
        (scenario_market (1 / 10000)
          [{ new_limit_order 1 1 MARKET_ORDER_SIDE_ASK 5 10 0 0 with freeze := 5 }]
          [{ new_limit_order 2 2 MARKET_ORDER_SIDE_BID 3 9 0 0 with freeze := 27 }])
        1 MARKET_ORDER_SIDE_ASK 1 (19 / 2) 0 0).2.2.1.asks.map (fun o => (o.id, o.price)) =
      [(3, 19 / 2), (1, 10)] :=
  ⟨((c30_books_stay_sorted_and_uncrossed true
      (scenario_globals [(⟨1, BALANCE_TYPE_AVAILABLE, "STK"⟩, 5),
        (⟨1, BALANCE_TYPE_FREEZE, "STK"⟩, 5), (⟨2, BALANCE_TYPE_FREEZE, "MNY"⟩, 27)] 2 0)
      (scenario_market (1 / 10000)
        [{ new_limit_order 1 1 MARKET_ORDER_SIDE_ASK 5 10 0 0 with freeze := 5 }]
        [{ new_limit_order 2 2 MARKET_ORDER_SIDE_BID 3 9 0 0 with freeze := 27 }])
      (by decide!) (by decide!)).1 1 MARKET_ORDER_SIDE_ASK 1 (19 / 2) 0 0 (Or.inl rfl)
      (by decide!)).1, by decide!⟩

/-! ## The fee of each side of a deal (C3) -/

/-- apart from the available balance it credits, `ledger_receive` leaves every entry as it
is -/
theorem ledger_receive_frame (A : dict_asset_t) (d : dict_balance_t) (u : ℕ) (a : String)
    (v c : ℚ) {k : balance_key} (hk : k ≠ ⟨u, BALANCE_TYPE_AVAILABLE, a⟩) :
    ledger_receive A d u a v c k = d k := by
  unfold ledger_receive
  split_ifs
  · rw [ledger_sub_frame _ _ _ _ _ _ hk, ledger_add_frame _ _ _ _ _ _ hk]
  · exact ledger_add_frame _ _ _ _ _ _ hk

/-- the credit and the fee step in numbers: the available balance goes up by the amount
received, and a fee greater than zero that this balance covers is then taken off it -/
theorem ledger_receive_bal {A : dict_asset_t} (d : dict_balance_t) (u : ℕ) {a : String}
    {as : asset_type} (ha : A a = some as) {v : ℚ} (hv : 0 ≤ v) (c : ℚ) :
    bal (ledger_receive A d u a v c) u BALANCE_TYPE_AVAILABLE a =
      if 0 < c ∧ c ≤ mpd_rescale (bal d u BALANCE_TYPE_AVAILABLE a + v) as.prec_save then
        mpd_rescale (mpd_rescale (bal d u BALANCE_TYPE_AVAILABLE a + v) as.prec_save - c)
          as.prec_save
      else mpd_rescale (bal d u BALANCE_TYPE_AVAILABLE a + v) as.prec_save := by
  have hadd : bal (ledger_add A d u BALANCE_TYPE_AVAILABLE a v) u BALANCE_TYPE_AVAILABLE a =
      mpd_rescale (bal d u BALANCE_TYPE_AVAILABLE a + v) as.prec_save := by
    rw [ledger_add_bal u BALANCE_TYPE_AVAILABLE ha v, if_pos ⟨⟨rfl, rfl, rfl⟩, hv⟩]
  unfold ledger_receive
  by_cases hc : c > 0
  · rw [if_pos hc, ledger_sub_bal u BALANCE_TYPE_AVAILABLE ha c, hadd]
    by_cases hle : c ≤ mpd_rescale (bal d u BALANCE_TYPE_AVAILABLE a + v) as.prec_save
    · rw [if_pos ⟨⟨rfl, rfl, rfl⟩, hc.le, hle⟩, if_pos ⟨hc, hle⟩]
    · rw [if_neg (fun h => hle h.2.2), if_neg (fun h => hle h.2)]
  · rw [if_neg hc, hadd, if_neg (fun h => hc h.1)]

/-- a balance and a credit of at most `prec` digits with a fee between zero and the credit:
the two roundings of the credit and the fee step come to one rounding of balance plus
credit minus fee -/
theorem fee_step_on_grid {prec : ℕ} {x received fee : ℚ} (hx : on_grid x prec)
    (hr : on_grid received prec) (hx0 : 0 ≤ x) (hf0 : 0 ≤ fee) (hfr : fee ≤ received) :
    (if 0 < fee ∧ fee ≤ mpd_rescale (x + received) prec then
        mpd_rescale (mpd_rescale (x + received) prec - fee) prec
      else mpd_rescale (x + received) prec) = mpd_rescale (x + received - fee) prec := by
  have e : mpd_rescale (x + received) prec = x + received :=
    mpd_rescale_eq_self (on_grid_add hx hr)
  rw [e]
  by_cases h : 0 < fee
  · rw [if_pos ⟨h, by linarith⟩]
  · have h0 : fee = 0 := le_antisymm (not_lt.mp h) hf0
    rw [if_neg (fun hh => h hh.1), h0, sub_zero, e]

/-- the available balances of the asset each side receives, after the balance calls of
one deal: the taker's balance of `take` and the maker's balance of `give` -/
theorem settle_ledger_fees {A : dict_asset_t} (d : dict_balance_t) (tu mu : ℕ)
    {give take : String} {ag at_ : asset_type} (hag : A give = some ag)
    (hat : A take = some at_) (hne : give ≠ take) {gv tv : ℚ} (hgv : 0 ≤ gv) (htv : 0 ≤ tv)
    (tc mc : ℚ) (x y : ℚ) (hx : x = bal d tu BALANCE_TYPE_AVAILABLE take)
    (hy : y = if mu = tu ∧ gv ≤ bal d tu BALANCE_TYPE_AVAILABLE give then
        mpd_rescale (bal d tu BALANCE_TYPE_AVAILABLE give - gv) ag.prec_save
      else bal d mu BALANCE_TYPE_AVAILABLE give) :
    bal (settle_ledger A d tu mu give gv take tv tc mc) tu BALANCE_TYPE_AVAILABLE take =
      (if 0 < tc ∧ tc ≤ mpd_rescale (x + tv) at_.prec_save then
        mpd_rescale (mpd_rescale (x + tv) at_.prec_save - tc) at_.prec_save
      else mpd_rescale (x + tv) at_.prec_save) ∧
    bal (settle_ledger A d tu mu give gv take tv tc mc) mu BALANCE_TYPE_AVAILABLE give =
      (if 0 < mc ∧ mc ≤ mpd_rescale (y + gv) ag.prec_save then
        mpd_rescale (mpd_rescale (y + gv) ag.prec_save - mc) ag.prec_save
      else mpd_rescale (y + gv) ag.prec_save) := by
  unfold settle_ledger
  constructor
  · rw [bal_frame (ledger_receive_frame _ _ _ _ _ _ (k := ⟨tu, BALANCE_TYPE_AVAILABLE, take⟩)
        (by intro h; exact hne (congrArg balance_key.asset h).symm)),
      bal_frame (ledger_sub_frame _ _ _ _ _ _ (k := ⟨tu, BALANCE_TYPE_AVAILABLE, take⟩)
        (by intro h; exact type_available_ne_freeze (congrArg balance_key.type h))),
      ledger_receive_bal _ _ hat htv,
      bal_frame (ledger_sub_frame _ _ _ _ _ _ (k := ⟨tu, BALANCE_TYPE_AVAILABLE, take⟩)
        (by intro h; exact hne (congrArg balance_key.asset h).symm)), ← hx]
  · have hy2 : bal (ledger_sub A d tu BALANCE_TYPE_AVAILABLE give gv) mu
        BALANCE_TYPE_AVAILABLE give = y := by
      rw [ledger_sub_bal tu BALANCE_TYPE_AVAILABLE hag gv, hy]
      by_cases hu : mu = tu
      · subst hu
        by_cases hle : gv ≤ bal d mu BALANCE_TYPE_AVAILABLE give
        · rw [if_pos ⟨⟨rfl, rfl, rfl⟩, hgv, hle⟩, if_pos ⟨rfl, hle⟩]
        · rw [if_neg (fun h => hle h.2.2), if_neg (fun h => hle h.2)]
      · rw [if_neg (fun h => hu h.1.1), if_neg (fun h => hu h.1)]
    rw [ledger_receive_bal _ _ hag hgv,
      bal_frame (ledger_sub_frame _ _ _ _ _ _ (k := ⟨mu, BALANCE_TYPE_AVAILABLE, give⟩)
        (by intro h; exact type_available_ne_freeze (congrArg balance_key.type h))),
      bal_frame (ledger_receive_frame _ _ _ _ _ _ (k := ⟨mu, BALANCE_TYPE_AVAILABLE, give⟩)
        (by intro h; exact hne (congrArg balance_key.asset h))), hy2]

/-- both balances on a well-formed ledger, for amounts of at most `prec_save` digits and
fees between zero and the amount received: each side ends with its balance plus what it
received minus its fee, cut to the digits of the asset -/
theorem settle_ledger_fees_on_grid {A : dict_asset_t} {d : dict_balance_t} (h : LedgerOK A d)
    (tu mu : ℕ) {give take : String} {ag at_ : asset_type} (hag : A give = some ag)
    (hat : A take = some at_) (hne : give ≠ take) {gv tv tc mc : ℚ} (hgv : 0 ≤ gv)
    (htv : 0 ≤ tv) (hgg : on_grid gv ag.prec_save) (htg : on_grid tv at_.prec_save)
    (htc0 : 0 ≤ tc) (htc : tc ≤ tv) (hmc0 : 0 ≤ mc) (hmc : mc ≤ gv) (x y : ℚ)
    (hx : x = bal d tu BALANCE_TYPE_AVAILABLE take)
    (hy : y = if mu = tu ∧ gv ≤ bal d tu BALANCE_TYPE_AVAILABLE give then
        mpd_rescale (bal d tu BALANCE_TYPE_AVAILABLE give - gv) ag.prec_save
      else bal d mu BALANCE_TYPE_AVAILABLE give) :
    bal (settle_ledger A d tu mu give gv take tv tc mc) tu BALANCE_TYPE_AVAILABLE take =
      mpd_rescale (x + tv - tc) at_.prec_save ∧
    bal (settle_ledger A d tu mu give gv take tv tc mc) mu BALANCE_TYPE_AVAILABLE give =
      mpd_rescale (y + gv - mc) ag.prec_save := by
  obtain ⟨h1, h2⟩ := settle_ledger_fees d tu mu hag hat hne hgv htv tc mc x y hx hy
  have hxg : on_grid x at_.prec_save := by
    rw [hx]; exact bal_on_grid h tu BALANCE_TYPE_AVAILABLE hat
  have hx0 : 0 ≤ x := by
    rw [hx]; exact bal_nonneg h tu BALANCE_TYPE_AVAILABLE take
  have hyg : on_grid y ag.prec_save := by
    rw [hy]
    split_ifs
    · exact mpd_rescale_on_grid _ _
    · exact bal_on_grid h mu BALANCE_TYPE_AVAILABLE hag
  have hy0 : 0 ≤ y := by
    rw [hy]
    split_ifs with hc
    · exact mpd_rescale_nonneg _ (by linarith [hc.2])
    · exact bal_nonneg h mu BALANCE_TYPE_AVAILABLE give
  rw [h1, h2, fee_step_on_grid hxg htg hx0 htc0 htc, fee_step_on_grid hyg hgg hy0 hmc0 hmc]
  exact ⟨rfl, rfl⟩

/-- a write through the maker pointer reaches the book: every entry with the maker's id
holds the written order, and there is one when the maker is in the book -/
theorem book_update_written (book : List order_t) (maker written : order_t)
    (hid : written.id = maker.id) :
    (maker ∈ book → ∃ o ∈ book_update book written, o.id = maker.id) ∧
    ∀ o ∈ book_update book written, o.id = maker.id → o = written := by
  unfold book_update
  constructor
  · intro hmem
    exact ⟨written, List.mem_map.mpr ⟨maker, hmem, by rw [if_pos hid.symm]⟩, hid⟩
  · intro o ho hoid
    obtain ⟨o1, -, rfl⟩ := List.mem_map.mp ho
    by_cases h1 : o1.id = written.id
    · rw [if_pos h1]
    · rw [if_neg h1] at hoid
      exact absurd (hoid.trans hid.symm) h1

/-- the end of an iteration announces the maker as it stands after the writes of the
deal -/
theorem maker_done_message (g : globals) (m : market_t) (maker : order_t) :
    ∃ news, (maker_done true g m maker).1.log = g.log ++ news ∧
      event.order_message (if maker.left = 0 then ORDER_EVENT_FINISH else ORDER_EVENT_UPDATE)
        maker m.name ∈ news := by
  unfold maker_done
  by_cases h0 : maker.left = 0
  · rw [if_pos h0, if_pos h0]
    obtain ⟨t, ht⟩ := (order_finish_log_grows true
      (emit true [event.order_message ORDER_EVENT_FINISH maker m.name] g)
      (emit true [event.order_message ORDER_EVENT_FINISH maker m.name] g).log m maker).1
    refine ⟨[event.order_message ORDER_EVENT_FINISH maker m.name] ++ t, ?_, by simp⟩
    rw [← List.append_assoc]
    exact ht.symm
  · rw [if_neg h0, if_neg h0]
    exact ⟨[event.order_message ORDER_EVENT_UPDATE maker m.name], rfl, by simp⟩

/-- the same after events that were appended to a log `l` -/
theorem maker_done_message_after (l : List event) (g : globals) (m : market_t)
    (maker : order_t) (h : ∃ s, g.log = l ++ s) :
    ∃ news, (maker_done true g m maker).1.log = l ++ news ∧
      event.order_message (if maker.left = 0 then ORDER_EVENT_FINISH else ORDER_EVENT_UPDATE)
        maker m.name ∈ news := by
  obtain ⟨s, hs⟩ := h
  obtain ⟨t, ht, hmem⟩ := maker_done_message g m maker
  refine ⟨s ++ t, ?_, List.mem_append_right _ hmem⟩
  rw [← List.append_assoc, ← hs]
  exact ht

/-- the balance calls of a deal leave the events before them in place -/
theorem settle_log_after (evs : List event) (g : globals) (taker_id maker_id : ℕ)
    (give : String) (give_amount : ℚ) (take : String) (take_amount taker_charge
    maker_charge : ℚ) :
    ∃ s, (settle true (emit true evs g) taker_id maker_id give give_amount take take_amount
      taker_charge maker_charge).log = g.log ++ s := by
  obtain ⟨s, hs⟩ := (settle_log_grows true g (g.log ++ evs) taker_id maker_id give give_amount
    take take_amount taker_charge maker_charge).1
  refine ⟨evs ++ s, ?_⟩
  rw [← List.append_assoc]
  exact hs.symm

/-- the events of one deal of an ask taker include the message that carries the maker
after the writes of the deal -/
theorem ask_taker_deal_message (g : globals) (m : market_t) (taker maker : order_t)
    (amount : ℚ) :
    ∃ news, (ask_taker_deal true g m taker maker amount).1.log = g.log ++ news ∧
      event.order_message
        (if maker.left - amount = 0 then ORDER_EVENT_FINISH else ORDER_EVENT_UPDATE)
        (fill_maker maker (maker.price * amount) amount (maker.price * amount)
          (amount * maker.maker_fee)) m.name ∈ news :=
  maker_done_message_after g.log _ _ _
    (settle_log_after _ { g with deals_id_start := (g.deals_id_start + 1) % 2 ^ 64 } _ _ _ _ _ _
      _ _)

/-- the events of one deal of a bid taker include the message that carries the maker
after the writes of the deal -/
theorem bid_taker_deal_message (by_deal : Bool) (g : globals) (m : market_t)
    (taker maker : order_t) (amount : ℚ) :
    ∃ news, (bid_taker_deal true by_deal g m taker maker amount).1.log = g.log ++ news ∧
      event.order_message
        (if maker.left - amount = 0 then ORDER_EVENT_FINISH else ORDER_EVENT_UPDATE)
        (fill_maker maker amount amount (maker.price * amount)
          (maker.price * amount * maker.maker_fee)) m.name ∈ news :=
  maker_done_message_after g.log _ _ _
    (settle_log_after _ { g with deals_id_start := (g.deals_id_start + 1) % 2 ^ 64 } _ _ _ _ _ _
      _ _)

/-- a ledger given by a list of entries is well-formed when each entry is -/
theorem scenario_globals_ledger_ok (balances : List (balance_key × ℚ)) (a b : ℕ)
    (h : ∀ p ∈ balances, 0 ≤ p.2 ∧ on_grid p.2 8 ∧ (p.1.asset = "STK" ∨ p.1.asset = "MNY")) :
    LedgerOK (scenario_globals balances a b).dict_asset
      (scenario_globals balances a b).dict_balance := by
  intro k v hk
  have hk2 : (balances.find? (fun p => p.1 = k)).map (fun p => p.2) = some v := hk
  obtain ⟨p, hp, rfl⟩ := Option.map_eq_some'.mp hk2
  have hmem := List.mem_of_find?_eq_some hp
  have hpk : p.1 = k := by simpa using List.find?_some hp
  obtain ⟨h0, hg, ha⟩ := h p hmem
  refine ⟨h0, ⟨8, 8⟩, ?_, hg⟩
  show scenario_dict_asset k.asset = some ⟨8, 8⟩
  unfold scenario_dict_asset
  rw [← hpk, if_pos ha]

/-- C3: in each of the four matching routines every deal charges the ask side
`ask_fee = deal * rate` and the bid side `bid_fee = amount * rate`, where `deal = price *
amount` is the executed money, and the rate is `taker_fee` of the incoming order on the
taker side and `maker_fee` of the resting order on the maker side; the taker leaves the
routine with its `deal_fee` raised by the sum of its fees. (`execute_market_bid_order`
returns when the asks have positive prices and the taker has `left ≥ 0`.) For one iteration
of either kind, in a market of two different configured assets, with amounts that are not
negative and a maker whose frozen balance is used up when it is filled: the taker's
`deal_fee` goes up by its fee. With `x` the taker's available balance of the asset it
receives before the deal, that balance is afterwards `x` plus the amount received, stored at
the digits of the asset, less the fee when the fee is greater than zero (and covered by the
balance), stored again; the same holds for the maker with `y`, its available balance of
the asset it receives once the taker has paid (the taker's payment counts only when taker
and maker are one user). On a well-formed ledger, with amounts of at most `prec_save`
digits and rates between 0 and 1, the fee is always covered and each side ends with
`mpd_rescale (balance + received - fee)`: the ask side is charged in money, the bid side in
stock. A maker that is not filled completely stays in the book with its `deal_fee` raised
by its fee, and with `real` set the events of the deal contain the order message
(`ORDER_EVENT_FINISH` for a filled maker, `ORDER_EVENT_UPDATE` otherwise) of the maker with
its `deal_fee` raised by its fee. -/
theorem c3_fee_of_each_side (real : Bool) (g : globals) (m : market_t) (taker : order_t) :
    ((∀ d ∈ (execute_limit_ask_order real g m taker).2.2.2,
        d.deal = d.price * d.amount ∧ d.ask_fee = d.deal * taker.taker_fee ∧
          d.bid_fee = d.amount * d.maker.maker_fee) ∧
      (execute_limit_ask_order real g m taker).2.2.1.deal_fee = taker.deal_fee +
        ((execute_limit_ask_order real g m taker).2.2.2.map (fun d => d.ask_fee)).sum) ∧
    ((∀ d ∈ (execute_market_ask_order real g m taker).2.2.2,
        d.deal = d.price * d.amount ∧ d.ask_fee = d.deal * taker.taker_fee ∧
          d.bid_fee = d.amount * d.maker.maker_fee) ∧
      (execute_market_ask_order real g m taker).2.2.1.deal_fee = taker.deal_fee +
        ((execute_market_ask_order real g m taker).2.2.2.map (fun d => d.ask_fee)).sum) ∧
    ((∀ d ∈ (execute_limit_bid_order real g m taker).2.2.2,
        d.deal = d.price * d.amount ∧ d.ask_fee = d.deal * d.maker.maker_fee ∧
          d.bid_fee = d.amount * taker.taker_fee) ∧
      (execute_limit_bid_order real g m taker).2.2.1.deal_fee = taker.deal_fee +
        ((execute_limit_bid_order real g m taker).2.2.2.map (fun d => d.bid_fee)).sum) ∧
    ((∀ o ∈ m.asks, 0 < o.price) → 0 ≤ taker.left →
      ∃ r, execute_market_bid_order real g m taker = some r ∧
        (∀ d ∈ r.2.2.2,
          d.deal = d.price * d.amount ∧ d.ask_fee = d.deal * d.maker.maker_fee ∧
            d.bid_fee = d.amount * taker.taker_fee) ∧
        r.2.2.1.deal_fee = taker.deal_fee + (r.2.2.2.map (fun d => d.bid_fee)).sum) ∧
    (∀ (maker : order_t) (amount : ℚ) (as am : asset_type) (x y : ℚ),
      g.dict_asset m.stock = some as → g.dict_asset m.money = some am → m.stock ≠ m.money →
      0 ≤ amount → 0 ≤ maker.price * amount →
      (maker.left - amount = 0 → maker.freeze ≤ maker.price * amount) →
      x = bal g.dict_balance taker.user_id BALANCE_TYPE_AVAILABLE m.money →
      y = (if maker.user_id = taker.user_id ∧
            amount ≤ bal g.dict_balance taker.user_id BALANCE_TYPE_AVAILABLE m.stock then
          mpd_rescale
            (bal g.dict_balance taker.user_id BALANCE_TYPE_AVAILABLE m.stock - amount)
            as.prec_save
        else bal g.dict_balance maker.user_id BALANCE_TYPE_AVAILABLE m.stock) →
      (ask_taker_deal real g m taker maker amount).2.2.1.deal_fee =
        taker.deal_fee + maker.price * amount * taker.taker_fee ∧
      bal (ask_taker_deal real g m taker maker amount).1.dict_balance taker.user_id
          BALANCE_TYPE_AVAILABLE m.money =
        (if 0 < maker.price * amount * taker.taker_fee ∧
            maker.price * amount * taker.taker_fee ≤
              mpd_rescale (x + maker.price * amount) am.prec_save then
          mpd_rescale (mpd_rescale (x + maker.price * amount) am.prec_save -
            maker.price * amount * taker.taker_fee) am.prec_save
        else mpd_rescale (x + maker.price * amount) am.prec_save) ∧
      bal (ask_taker_deal real g m taker maker amount).1.dict_balance maker.user_id
          BALANCE_TYPE_AVAILABLE m.stock =
        (if 0 < amount * maker.maker_fee ∧
            amount * maker.maker_fee ≤
              mpd_rescale (y + amount) as.prec_save then
          mpd_rescale (mpd_rescale (y + amount) as.prec_save -
            amount * maker.maker_fee) as.prec_save
        else mpd_rescale (y + amount) as.prec_save) ∧
      (LedgerOK g.dict_asset g.dict_balance → on_grid amount as.prec_save →
        on_grid (maker.price * amount) am.prec_save →
        0 ≤ taker.taker_fee → taker.taker_fee ≤ 1 → 0 ≤ maker.maker_fee →
        maker.maker_fee ≤ 1 →
        bal (ask_taker_deal real g m taker maker amount).1.dict_balance taker.user_id
            BALANCE_TYPE_AVAILABLE m.money =
          mpd_rescale (x + maker.price * amount - maker.price * amount * taker.taker_fee)
            am.prec_save ∧
        bal (ask_taker_deal real g m taker maker amount).1.dict_balance maker.user_id
            BALANCE_TYPE_AVAILABLE m.stock =
          mpd_rescale (y + amount - amount * maker.maker_fee)
            as.prec_save) ∧
      (maker.left - amount ≠ 0 →
        (maker ∈ m.bids → ∃ o ∈ (ask_taker_deal real g m taker maker amount).2.1.bids,
          o.id = maker.id) ∧
        ∀ o ∈ (ask_taker_deal real g m taker maker amount).2.1.bids, o.id = maker.id →
          o.deal_fee = maker.deal_fee + amount * maker.maker_fee) ∧
      (real = true → ∃ o news, o.id = maker.id ∧
        o.deal_fee = maker.deal_fee + amount * maker.maker_fee ∧
        (ask_taker_deal real g m taker maker amount).1.log = g.log ++ news ∧
        event.order_message
          (if maker.left - amount = 0 then ORDER_EVENT_FINISH else ORDER_EVENT_UPDATE) o
          m.name ∈ news)) ∧
    (∀ (by_deal : Bool) (maker : order_t) (amount : ℚ) (as am : asset_type) (x y : ℚ),
      g.dict_asset m.stock = some as → g.dict_asset m.money = some am → m.stock ≠ m.money →
      0 ≤ amount → 0 ≤ maker.price * amount →
      (maker.left - amount = 0 → maker.freeze ≤ amount) →
      x = bal g.dict_balance taker.user_id BALANCE_TYPE_AVAILABLE m.stock →
      y = (if maker.user_id = taker.user_id ∧
            maker.price * amount ≤ bal g.dict_balance taker.user_id BALANCE_TYPE_AVAILABLE m.money then
          mpd_rescale
            (bal g.dict_balance taker.user_id BALANCE_TYPE_AVAILABLE m.money - maker.price * amount)
            am.prec_save
        else bal g.dict_balance maker.user_id BALANCE_TYPE_AVAILABLE m.money) →
      (bid_taker_deal real by_deal g m taker maker amount).2.2.1.deal_fee =
        taker.deal_fee + amount * taker.taker_fee ∧
      bal (bid_taker_deal real by_deal g m taker maker amount).1.dict_balance taker.user_id
          BALANCE_TYPE_AVAILABLE m.stock =
        (if 0 < amount * taker.taker_fee ∧
            amount * taker.taker_fee ≤
              mpd_rescale (x + amount) as.prec_save then
          mpd_rescale (mpd_rescale (x + amount) as.prec_save -
            amount * taker.taker_fee) as.prec_save
        else mpd_rescale (x + amount) as.prec_save) ∧
      bal (bid_taker_deal real by_deal g m taker maker amount).1.dict_balance maker.user_id
          BALANCE_TYPE_AVAILABLE m.money =
        (if 0 < maker.price * amount * maker.maker_fee ∧
            maker.price * amount * maker.maker_fee ≤
              mpd_rescale (y + maker.price * amount) am.prec_save then
          mpd_rescale (mpd_rescale (y + maker.price * amount) am.prec_save -
            maker.price * amount * maker.maker_fee) am.prec_save
        else mpd_rescale (y + maker.price * amount) am.prec_save) ∧
      (LedgerOK g.dict_asset g.dict_balance → on_grid amount as.prec_save →
        on_grid (maker.price * amount) am.prec_save →
        0 ≤ taker.taker_fee → taker.taker_fee ≤ 1 → 0 ≤ maker.maker_fee →
        maker.maker_fee ≤ 1 →
        bal (bid_taker_deal real by_deal g m taker maker amount).1.dict_balance taker.user_id
            BALANCE_TYPE_AVAILABLE m.stock =
          mpd_rescale (x + amount - amount * taker.taker_fee)
            as.prec_save ∧
        bal (bid_taker_deal real by_deal g m taker maker amount).1.dict_balance maker.user_id
            BALANCE_TYPE_AVAILABLE m.money =
          mpd_rescale (y + maker.price * amount - maker.price * amount * maker.maker_fee)
            am.prec_save) ∧
      (maker.left - amount ≠ 0 →
        (maker ∈ m.asks → ∃ o ∈ (bid_taker_deal real by_deal g m taker maker amount).2.1.asks,
          o.id = maker.id) ∧
        ∀ o ∈ (bid_taker_deal real by_deal g m taker maker amount).2.1.asks, o.id = maker.id →
          o.deal_fee = maker.deal_fee + maker.price * amount * maker.maker_fee) ∧
      (real = true → ∃ o news, o.id = maker.id ∧
        o.deal_fee = maker.deal_fee + maker.price * amount * maker.maker_fee ∧
        (bid_taker_deal real by_deal g m taker maker amount).1.log = g.log ++ news ∧
        event.order_message
          (if maker.left - amount = 0 then ORDER_EVENT_FINISH else ORDER_EVENT_UPDATE) o
          m.name ∈ news)) := by
  refine ⟨?_, ?_, ?_, ?_, ?_, ?_⟩
  · obtain ⟨h1, h2, -⟩ := execute_limit_ask_order_loop_deals real m.bids g m taker
    exact ⟨fun d hd => ⟨(h1 d hd).2.2.2.2.1, (h1 d hd).2.2.2.2.2.1, (h1 d hd).2.2.2.2.2.2.1⟩, h2⟩
  · obtain ⟨h1, h2, -⟩ := execute_market_ask_order_loop_deals real m.bids g m taker
    exact ⟨fun d hd => ⟨(h1 d hd).2.2.2.2.1, (h1 d hd).2.2.2.2.2.1, (h1 d hd).2.2.2.2.2.2⟩, h2⟩
  · obtain ⟨h1, h2, -⟩ := execute_limit_bid_order_loop_deals real m.asks g m taker
    exact ⟨fun d hd => ⟨(h1 d hd).2.2.2.2.1, (h1 d hd).2.2.2.2.2.1, (h1 d hd).2.2.2.2.2.2.1⟩, h2⟩
  · intro hp h0
    obtain ⟨r, hr, h1, h2, -⟩ := execute_market_bid_order_loop_deals real m.asks g m taker hp h0
    exact ⟨r, hr, fun d hd => ⟨(h1 d hd).2.2.2.2.1, (h1 d hd).2.2.2.2.2.2.1,
      (h1 d hd).2.2.2.2.2.2.2⟩, h2⟩
  · intro maker amount as am x y hs hm hne ha hd hfr hx hy
    have hl := ask_taker_deal_ledger real g m taker maker amount hfr
    obtain ⟨f1, f2⟩ := settle_ledger_fees g.dict_balance taker.user_id maker.user_id hs hm hne
      ha hd (maker.price * amount * taker.taker_fee) (amount * maker.maker_fee) x y hx hy
    refine ⟨rfl, ?_, ?_, ?_, fun h0 => ?_, fun hr => ?_⟩
    · rw [hl]; exact f1
    · rw [hl]; exact f2
    · intro hok hga hgd t0 t1 m0 m1
      rw [hl]
      exact settle_ledger_fees_on_grid hok taker.user_id maker.user_id hs hm hne ha hd hga hgd
        (mul_nonneg hd t0) (mul_le_of_le_one_right hd t1) (mul_nonneg ha m0)
        (mul_le_of_le_one_right ha m1) x y hx hy
    · have hb : (ask_taker_deal real g m taker maker amount).2.1.bids =
          book_update m.bids (fill_maker maker (maker.price * amount) amount
            (maker.price * amount) (amount * maker.maker_fee)) :=
        congrArg (fun x => x.bids) (maker_done_kept real _ _
          (fill_maker maker (maker.price * amount) amount (maker.price * amount)
            (amount * maker.maker_fee)) h0)
      rw [hb]
      obtain ⟨b1, b2⟩ := book_update_written m.bids maker
        (fill_maker maker (maker.price * amount) amount (maker.price * amount)
          (amount * maker.maker_fee)) rfl
      exact ⟨b1, fun o ho hid => by rw [b2 o ho hid]; rfl⟩
    · subst hr
      obtain ⟨news, hn, hmem⟩ := ask_taker_deal_message g m taker maker amount
      exact ⟨fill_maker maker (maker.price * amount) amount (maker.price * amount)
        (amount * maker.maker_fee), news, rfl, rfl, hn, hmem⟩
  · intro by_deal maker amount as am x y hs hm hne ha hd hfr hx hy
    have hl := bid_taker_deal_ledger real by_deal g m taker maker amount hfr
    obtain ⟨f1, f2⟩ := settle_ledger_fees g.dict_balance taker.user_id maker.user_id hm hs
      hne.symm hd ha (amount * taker.taker_fee) (maker.price * amount * maker.maker_fee) x y
      hx hy
    refine ⟨rfl, ?_, ?_, ?_, fun h0 => ?_, fun hr => ?_⟩
    · rw [hl]; exact f1
    · rw [hl]; exact f2
    · intro hok hga hgd t0 t1 m0 m1
      rw [hl]
      exact settle_ledger_fees_on_grid hok taker.user_id maker.user_id hm hs hne.symm hd ha hgd
        hga (mul_nonneg ha t0) (mul_le_of_le_one_right ha t1) (mul_nonneg hd m0)
        (mul_le_of_le_one_right hd m1) x y hx hy
    · have hb : (bid_taker_deal real by_deal g m taker maker amount).2.1.asks =
          book_update m.asks (fill_maker maker amount amount (maker.price * amount)
            (maker.price * amount * maker.maker_fee)) :=
        congrArg (fun x => x.asks) (maker_done_kept real _ _
          (fill_maker maker amount amount (maker.price * amount)
            (maker.price * amount * maker.maker_fee)) h0)
      rw [hb]
      obtain ⟨b1, b2⟩ := book_update_written m.asks maker
        (fill_maker maker amount amount (maker.price * amount)
          (maker.price * amount * maker.maker_fee)) rfl
      exact ⟨b1, fun o ho hid => by rw [b2 o ho hid]; rfl⟩
    · subst hr
      obtain ⟨news, hn, hmem⟩ := bid_taker_deal_message by_deal g m taker maker amount
      exact ⟨fill_maker maker amount amount (maker.price * amount)
        (maker.price * amount * maker.maker_fee), news, rfl, rfl, hn, hmem⟩


/-- Witness for C3: the deal of scenario 2, 3 @ 10 between the incoming bid of user 2 (taker
fee 0.002) and the resting ask of user 1 (maker fee 0.001). User 2 ends with 3 - 0.006 =
2.994 `STK` available and user 1 with 30 - 0.03 = 29.97 `MNY` available; the ask stays in
the book with `deal_fee` 0.03, and the message of the deal carries the same order. -/
theorem c3_fee_of_each_side_witness :
    (bid_taker_deal true false scenario_deal_globals scenario_deal_market scenario_incoming_bid
      scenario_resting_ask 3).2.2.1.deal_fee = 6 / 1000 ∧
    bal (bid_taker_deal true false scenario_deal_globals scenario_deal_market
      scenario_incoming_bid scenario_resting_ask 3).1.dict_balance 2 BALANCE_TYPE_AVAILABLE
        "STK" = 2994 / 1000 ∧
    bal (bid_taker_deal true false scenario_deal_globals scenario_deal_market
      scenario_incoming_bid scenario_resting_ask 3).1.dict_balance 1 BALANCE_TYPE_AVAILABLE
        "MNY" = 2997 / 100 ∧
    (∃ o ∈ (bid_taker_deal true false scenario_deal_globals scenario_deal_market
      scenario_incoming_bid scenario_resting_ask 3).2.1.asks, o.id = 1) ∧
    (∀ o ∈ (bid_taker_deal true false scenario_deal_globals scenario_deal_market
      scenario_incoming_bid scenario_resting_ask 3).2.1.asks, o.id = 1 →
        o.deal_fee = 3 / 100) ∧
    ∃ o news, o.id = 1 ∧ o.deal_fee = 3 / 100 ∧
      (bid_taker_deal true false scenario_deal_globals scenario_deal_market
        scenario_incoming_bid scenario_resting_ask 3).1.log =
          scenario_deal_globals.log ++ news ∧
      event.order_message ORDER_EVENT_UPDATE o "STKMNY" ∈ news := by
  have h := (c3_fee_of_each_side true scenario_deal_globals scenario_deal_market
    scenario_incoming_bid).2.2.2.2.2 false scenario_resting_ask 3 ⟨8, 8⟩ ⟨8, 8⟩ 0 0
    (by decide!) (by decide!) (by decide!) (by decide!) (by decide!) (by decide!) (by decide!)
    (by decide!)
  have hb := h.2.2.2.1
    (scenario_globals_ledger_ok _ 1 0 (by decide!)) (by decide!) (by decide!) (by decide!)
    (by decide!) (by decide!) (by decide!)
  have hk := h.2.2.2.2.1 (by decide!)
  obtain ⟨o, news, h1, h2, h3, h4⟩ := h.2.2.2.2.2 rfl
  have he : (if scenario_resting_ask.left - 3 = 0 then ORDER_EVENT_FINISH
      else ORDER_EVENT_UPDATE) = ORDER_EVENT_UPDATE := by decide!
  rw [he] at h4
  exact ⟨h.1.trans (by decide!), hb.1.trans (by decide!), hb.2.trans (by decide!),
    hk.1 (by decide!), fun o ho hid => (hk.2 o ho hid).trans (by decide!),
    o, news, h1, h2.trans (by decide!), h3, h4⟩

end ME
